import Mathlib

/-!
# thor1: number formatting core (`__pformat_*`, `__gdtoa`, bignum arena)

A shallow embedding of the numeric output path of `src/thor1.c`.

Conventions used throughout.

* The listing passes most arguments in registers and shows them as
  unassigned locals (`v1`, `c`, `v4`, ...).  Each definition names these
  inputs explicitly and says which local it stands for.
* Descriptor fields (`width`, `precision`, `expmin`) and decimal exponents are
  C `int`s; they are modelled as `Int` and compared as signed numbers.  The
  character counter and the quota are kept as 32-bit unsigned numbers with an
  explicit `% 2 ^ 32`.
* Characters are natural numbers; every caller passes a byte value, so the cast
  `(char)c` of the store is the identity.
* The words of a bignum are 32-bit patterns.  `___mult_D2A`, `___lshift_D2A`, `___diff_D2A`,
  `___quorem_D2A` and `___rshift_D2A` are given in two readings: with every word an
  unsigned number, under which the converter `___gdtoa` is embedded, and with the
  word types that the listing declares (`Listed.___mult_D2A` and so on), under which
  the statements about these routines are settled.
-/

namespace Thor1

set_option linter.unusedVariables false

/-! ## Output descriptor and `__pformat_putc` -/

/-- Flag bit: output is not limited by the quota (`0x2000`). -/
def PFORMAT_NOLIMIT : Nat := 0x2000
/-- Flag bit: the destination is a stream written with `fputc` (`0x1000`). -/
def PFORMAT_TO_FILE : Nat := 0x1000
/-- Flag bit `#` (`0x800`, tested in the listing as byte 5 bit 8). -/
def PFORMAT_HASHED : Nat := 0x800
/-- Flag bit `-` (`0x400`). -/
def PFORMAT_LJUSTIFY : Nat := 0x400
/-- Flag bit `0` (`0x200`). -/
def PFORMAT_ZEROFILL : Nat := 0x200
/-- Flag bit `+` (`0x100`). -/
def PFORMAT_POSITIVE : Nat := 0x100
/-- Flag bit: the value is to be shown with a minus sign (`0x80`). -/
def PFORMAT_NEGATIVE : Nat := 0x80
/-- Flag bit for the space flag (`0x40`). -/
def PFORMAT_ADDSPACE : Nat := 0x40
/-- Flag bit: lower-case conversion letter (`0x20`). -/
def PFORMAT_XCASE : Nat := 0x20

/-- The record at `v1` / `a1` of the `__pformat_*` functions: `flags` at +4,
`width` at +8, `precision` at +12, `rplen` at +16, `rpchr` at +20, `count` at
+24, `quota` at +28, `expmin` at +32.  The destination pointer at +0 is
modelled by what it points to: `buf` is the character buffer (index = offset
from the pointer) and `file` the characters handed to `fputc`, oldest first. -/
structure PFormat where
  buf : Nat → Nat
  file : List Nat
  flags : Nat
  width : Int
  precision : Int
  rplen : Int
  rpchr : Nat
  count : Nat
  quota : Nat
  expmin : Int

/-- Model of `___pformat_putc` (0x4029d0).  `c` is the character and `s` the descriptor,
both register arguments in the listing.  With the no-limit flag clear and
`quota <= count` only the counter moves; otherwise the character goes to
`fputc` when the to-file flag is set and to `buf[count]` when it is not. -/
def ___pformat_putc (c : Nat) (s : PFormat) : PFormat :=
  if s.flags &&& 0x2000 = 0 ∧ s.quota ≤ s.count then
    { s with count := (s.count + 1) % 2 ^ 32 }
  else if s.flags &&& 0x1000 ≠ 0 then
    { s with file := s.file ++ [c], count := (s.count + 1) % 2 ^ 32 }
  else
    { s with buf := Function.update s.buf s.count c, count := (s.count + 1) % 2 ^ 32 }

/-- A run of `___pformat_putc` calls, one per character of the list. -/
def putcs : List Nat → PFormat → PFormat
  | [], s => s
  | c :: cs, s => putcs cs (___pformat_putc c s)

/-- The loop `while (width-- > 0) putc(c)` as it appears (with its first
iteration peeled) at 0x402c36, 0x402ca6, 0x403287, 0x403454, 0x40343c and
0x403ac0: `width` characters are written when `width > 0`, and the field is left at
`-1`; otherwise the only effect is the decrement. -/
def padWidth (c : Nat) (s : PFormat) : PFormat :=
  if 0 < s.width then { putcs (List.replicate s.width.toNat c) s with width := -1 }
  else { s with width := s.width - 1 }

/-- The argument expression `*value ? *value++ : '0'` of the digit loops: the next
digit of the NUL-terminated string, or `'0'` once it is exhausted. -/
def nextDigit : List Nat → Nat × List Nat
  | [] => (48, [])
  | d :: ds => (d, ds)

/-- The loop `do putc(*value ? *value++ : '0') while (--len > 0)` (lab_generated_2,
0x402b72), run `n` times; returns the advanced string pointer too. -/
def putDigits : Nat → List Nat → PFormat → List Nat × PFormat
  | 0, v, s => (v, s)
  | n + 1, v, s => putDigits n (nextDigit v).2 (___pformat_putc (nextDigit v).1 s)

/-- What the C library reports about the radix character of the active locale:
`mbrtowc` applied to `localeconv()->decimal_point` (its return value and the wide
character it stores) and `wcrtomb` (the bytes it produces, `[]` when it returns a
value below 1).  Both are library calls outside the listing. -/
structure Locale where
  mbrtowc_len : Int
  mbrtowc_wc : Nat
  wcrtomb : Nat → List Nat

/-- The "C" locale: the radix character is the single byte `'.'`. -/
def cLocale : Locale := { mbrtowc_len := 1, mbrtowc_wc := 46, wcrtomb := fun w => [w % 256] }

/-- Model of `___pformat_emit_radix_point` (0x402a20).  When `rplen` is still `-3` the locale is
queried and `rplen`/`rpchr` are filled in; then the radix character is written
as the bytes `wcrtomb` yields, or as `'.'` when `rpchr` is 0 or the conversion
fails. -/
def ___pformat_emit_radix_point (loc : Locale) (s : PFormat) : PFormat :=
  let s1 : PFormat :=
    if s.rplen = -3 then
      { s with rpchr := if 1 ≤ loc.mbrtowc_len then loc.mbrtowc_wc % 65536 else s.rpchr,
               rplen := loc.mbrtowc_len }
    else s
  if s1.rpchr = 0 then ___pformat_putc 46 s1
  else
    match loc.wcrtomb s1.rpchr with
    | [] => ___pformat_putc 46 s1
    | b :: bs => putcs (b :: bs) s1

/-- Width bookkeeping of `___pformat_emit_float` from its entry to the point where the sign
is written (labels 0x402bd8, 0x402be0, 0x402c03, 0x402c0f, 0x402c1e, 0x402c2d).
`sign` is the listing's `v11`, `len` its `v4`.  Returns the value left in
`width` and whether the space-padding loop at 0x402c36 runs. -/
def emitFloatReserve (sign : Nat) (len : Int) (s : PFormat) : Int × Bool :=
  let afterInt : Option Int :=
    if len < 1 then
      if s.width < 1 then (if s.width < 0 then none else some s.width)
      else some (s.width - 1)
    else if s.width > len then
      (if s.width - len < 0 then none else some (s.width - len))
    else none
  match afterInt with
  | none => (-1, false)
  | some v3 =>
    if v3 > s.precision then
      let v10 := v3 - s.precision
      if v10 < 1 then (v10, false)
      else
        let radix : Bool := decide (¬ (s.precision < 1 ∧ s.flags &&& 0x800 = 0))
        let v9 := if radix then v10 - 1 else v10
        if radix ∧ v9 = 0 then (0, false)
        else
          let signed : Bool := decide (sign ≠ 0 ∨ s.flags &&& 448 ≠ 0)
          let v16 := if signed then v9 - 1 else v9
          if signed ∧ v16 = 0 then (0, false)
          else if s.flags &&& 1536 ≠ 0 then (v16, false)
          else (v16, true)
    else (-1, false)

/-- The sign character written at 0x402c61 / 0x402b3a: `'-'` for a negative value,
else `'+'` with the `+` flag, else a space with the space flag. -/
def emitSign (sign : Nat) (s : PFormat) : PFormat :=
  if sign ≠ 0 then ___pformat_putc 45 s
  else if s.flags &&& 256 ≠ 0 then ___pformat_putc 43 s
  else if s.flags &&& 64 ≠ 0 then ___pformat_putc 32 s
  else s

/-- The final loop of `___pformat_emit_float` (0x402bbe): `while (precision-- > 0)
putc(*value ? *value++ : '0')`. -/
def fracLoop (value : List Nat) (s : PFormat) : PFormat :=
  if 0 < s.precision then
    { (putDigits s.precision.toNat value s).2 with precision := -1 }
  else { s with precision := s.precision - 1 }

/-- Model of `___pformat_emit_float` (0x402b00).  `sign`, `value` and `len` are the register
arguments (`v11`, the digit string read by the digit loops, and `v4`): the sign of
the number, the digit string of the converter and the position of the radix
point in it. -/
def ___pformat_emit_float (loc : Locale) (sign : Nat) (value : List Nat) (len : Int)
    (s : PFormat) : PFormat :=
  let r := emitFloatReserve sign len s
  let s1 : PFormat := { s with width := r.1 }
  -- 0x402c36: spaces that right-justify the field
  let s2 := if r.2 then padWidth 32 s1 else s1
  -- 0x402b32 / 0x402b3a: the sign
  let s3 := emitSign sign s2
  -- 0x402b4e: zero fill
  let s4 := if 1 ≤ s3.width ∧ s3.flags &&& 1536 = 512 then padWidth 48 s3 else s3
  -- lab_generated_2 / 0x402cd1: digits before the radix point
  let d : List Nat × PFormat :=
    if 0 < len then putDigits len.toNat value s4 else (value, ___pformat_putc 48 s4)
  let v21 : Int := if 0 < len then 0 else len
  -- 0x402b8d / 0x402b98: the radix point
  let s5 := if 1 ≤ d.2.precision ∨ d.2.flags &&& 0x800 ≠ 0
            then ___pformat_emit_radix_point loc d.2 else d.2
  -- 0x402c84: zeros between the radix point and the first digit
  let s6 : PFormat :=
    if v21 < 0 then
      putcs (List.replicate (-v21).toNat 48) { s5 with precision := s5.precision + v21 }
    else s5
  -- 0x402bbe: remaining digits
  fracLoop d.1 s6

/-- The digit loop of `___pformat_int` (0x403346): `*p++ = '0' + value % 10; value /= 10`
while `value` is not 0.  The result lists the stored characters in storage
order (least significant digit first).  A 64-bit value has at most 20 digits,
which bounds the recursion. -/
def intDigitsRev : Nat → Nat → List Nat
  | 0, _ => []
  | fuel + 1, v => if v = 0 then [] else (48 + v % 10) :: intDigitsRev fuel (v / 10)

/-- Model of `___pformat_int` (0x4032e0) for a signed 64-bit argument `value` (the register pair
`v10:v9`).  The characters are first collected in a local buffer in reverse
order (`p` runs upward from `buf`), then written back to front. -/
def ___pformat_int (value : Int) (s : PFormat) : PFormat :=
  -- 0x403325: a value shown with a minus sign is negated, otherwise the flag is dropped
  let neg : Bool := decide (s.flags &&& 0x80 ≠ 0 ∧ value < 0)
  let mag : Nat := if neg then ((-value) % 2 ^ 64).toNat else (value % 2 ^ 64).toNat
  let s0 : PFormat :=
    if s.flags &&& 0x80 ≠ 0 ∧ ¬ value < 0 then { s with flags := s.flags &&& (2 ^ 32 - 129) }
    else s
  let b1 := intDigitsRev 20 mag
  -- 0x403375: zeros up to the precision
  let b2 := if 1 ≤ s0.precision ∧ 1 ≤ s0.precision - b1.length
            then b1 ++ List.replicate (s0.precision - b1.length).toNat 48 else b1
  -- 0x403500: a lone zero
  let b3 := if b2 = [] ∧ s0.precision ≠ 0 then [48] else b2
  -- 0x4033ac .. 0x403454: field width
  let r : List Nat × PFormat :=
    if s0.width < 1 then (b3, s0)
    else
      let v36 := s0.width - b3.length
      if v36 < 1 then (b3, { s0 with width := v36 })
      else
        let v35 := if s0.flags &&& 448 ≠ 0 then v36 - 1 else v36
        let s1 : PFormat := { s0 with width := v35 }
        if s0.precision < 0 ∧ s0.flags &&& 1536 = 512 then
          (if 0 < v35 then (b3 ++ List.replicate v35.toNat 48, { s1 with width := -1 })
           else (b3, { s1 with width := v35 - 1 }))
        else if s0.flags &&& 1024 = 0 then (b3, padWidth 32 s1)
        else (b3, s1)
  -- 0x40347a / 0x403485: the sign goes last into the buffer
  let b4 :=
    if r.2.flags &&& 0x80 ≠ 0 then r.1 ++ [45]
    else if r.2.flags &&& 256 ≠ 0 then r.1 ++ [43]
    else if r.2.flags &&& 64 ≠ 0 then r.1 ++ [32]
    else r.1
  -- 0x4033ff: write the buffer back to front, then pad on the right
  padWidth 32 (putcs b4.reverse r.2)

/-- Count of decimal digits computed at the head of `___pformat_emit_efloat` (0x40397e):
starting from 1, one more for every division by 10 that still leaves a value of
10 or more (`v2 >= 11`, then `v3 >= 10`, both signed). -/
def expDigits : Nat → Int → Int
  | 0, _ => 1
  | fuel + 1, v3 => if 10 ≤ v3 then 1 + expDigits fuel (v3 / 10) else 1

/-- Model of `___pformat_emit_efloat` (0x403950).  `sign`, `value` and `e` are register arguments
(`e` is the listing's `v2`, the decimal point position reported by the
converter). -/
def ___pformat_emit_efloat (loc : Locale) (sign : Nat) (value : List Nat) (e : Int)
    (s : PFormat) : PFormat :=
  let v5 := expDigits 10 (e - 1)
  let v8 := if v5 < s.expmin then s.expmin else v5
  let v11 := v8 + 2
  let s1 : PFormat := { s with width := if s.width > v11 then s.width - v11 else -1 }
  let s2 := ___pformat_emit_float loc sign value 1 s1
  let s3 : PFormat := { s2 with precision := s2.expmin, flags := s2.flags ||| 448 }
  let s4 := ___pformat_putc (69 ||| (s3.flags &&& 0x20)) s3
  let s5 : PFormat := { s4 with width := v8 + 1 + s4.width }
  ___pformat_int (e - 1) s5

/-- Model of `___pformat_putchars` (0x4030a0) for the character list `cs` and the count `n`
(register arguments; `v3` is the count). -/
def ___pformat_putchars (cs : List Nat) (n : Int) (s : PFormat) : PFormat :=
  let v4 : Int := if (decide (s.precision > -1) == decide (n > s.precision)) then s.precision else n
  let s1 : PFormat :=
    if s.width > v4 then
      let s0 : PFormat := { s with width := s.width - v4 }
      if 1 ≤ s0.width ∧ s0.flags &&& 0x400 = 0 then padWidth 32 s0 else s0
    else { s with width := -1 }
  padWidth 32 (putcs ((List.range v4.toNat).map (fun i => cs.getD i 0)) s1)

/-- Model of `___pformat_emit_inf_or_nan` (0x403140).  `sign` (`v7`) and the converter's string
`value` (`v13`) are register arguments.  The precision is switched off, an
optional sign character is followed by the first three characters of `value`
forced to the case selected by flag `0x20`. -/
def ___pformat_emit_inf_or_nan (sign : Nat) (value : List Nat) (s : PFormat) : PFormat :=
  let s1 : PFormat := { s with precision := -1 }
  let sg : List Nat :=
    if sign ≠ 0 then [45]
    else if s1.flags &&& 256 ≠ 0 then [43]
    else if s1.flags &&& 64 ≠ 0 then [32]
    else []
  let body : List Nat :=
    (List.range 3).map (fun i => ((value.getD i 0) &&& 223) ||| (s1.flags &&& 32))
  ___pformat_putchars (sg ++ body) (sg.length + 3) s1

/-! ## Bignums (`Bigint`) -/

/-- A bignum block: `k` is the size class at +4, `maxwds` the capacity at +8, `sign` the
flag at +12, `wds` the word count at +16 and `x` the 32-bit words from +20 on,
least significant first.  A word that was never written reads as 0. -/
structure Bigint where
  k : Nat
  maxwds : Nat
  sign : Nat
  wds : Nat
  x : List Nat
deriving DecidableEq, Repr

/-- Word `i` of a word array. -/
def getW (x : List Nat) (i : Nat) : Nat := x.getD i 0

/-- The words `x[0] .. x[n-1]` of a block. -/
def wordsOf (x : List Nat) (n : Nat) : List Nat := (List.range n).map (getW x)

/-- Value of a word list, `sum of word[i] * 2^(32*i)`. -/
def valW : List Nat → Nat
  | [] => 0
  | w :: ws => w + 2 ^ 32 * valW ws

/-- Value of a bignum: its first `wds` words. -/
def Bigint.value (b : Bigint) : Nat := valW (wordsOf b.x b.wds)

/-- Index of the highest set bit by repeated halving; the first argument bounds the
number of steps. -/
def log2Aux : Nat → Nat → Nat
  | 0, _ => 0
  | fuel + 1, n => if n < 2 then 0 else 1 + log2Aux fuel (n / 2)

/-- Index of the highest set bit of `n` (0 for `n = 0`). -/
def log2n (n : Nat) : Nat := log2Aux n n

/-- Number of leading zero bits of a 32-bit word (`hi0bits`; the listing uses
`llvm_ctlz_i32`). -/
def hi0bits (w : Nat) : Nat := if w = 0 then 32 else 31 - log2n w

/-- Number of trailing zero bits of a non-zero word (`llvm_cttz_i32`), by counting. -/
def cttz : Nat → Nat → Nat
  | 0, _ => 0
  | fuel + 1, w => if w % 2 = 1 then 0 else 1 + cttz fuel (w / 2)

/-- Model of `___Balloc_D2A` (0x406400) as far as the returned block is concerned: class `k`,
capacity `1 << k`, sign and word count cleared. -/
def ___Balloc_D2A (k : Nat) : Bigint :=
  { k := k, maxwds := 2 ^ (k % 32) % 2 ^ 32, sign := 0, wds := 0, x := [] }

/-- Model of `___i2b_D2A` (0x406880): a one-word bignum in a class-1 block. -/
def ___i2b_D2A (i : Nat) : Bigint :=
  { ___Balloc_D2A 1 with wds := 1, x := [i % 2 ^ 32] }

/-- The comparison loop of `___cmp_D2A` (0x406239): words `n-1` down to 0. -/
def cmpWords : Nat → List Nat → List Nat → Int
  | 0, _, _ => 0
  | n + 1, xa, xb =>
    if getW xa n = getW xb n then cmpWords n xa xb
    else if getW xa n < getW xb n then -1 else 1

/-- Model of `___cmp_D2A` (0x406210): the difference of the word counts when they differ,
otherwise -1, 0 or 1 from the most significant differing word. -/
def ___cmp_D2A (a b : Bigint) : Int :=
  if (a.wds : Int) - b.wds ≠ 0 then (a.wds : Int) - b.wds
  else if a.wds = 0 then 0
  else cmpWords a.wds a.x b.x

/-- The loop of `___multadd_D2A` (0x4068e0): `y = x[i] * m + carry`, low word stored, high
word carried. -/
def mulAddWords (m : Nat) : List Nat → Nat → List Nat × Nat
  | [], c => ([], c)
  | w :: ws, c =>
    let y := (w * m + c) % 2 ^ 64
    let r := mulAddWords m ws (y / 2 ^ 32)
    ((y % 2 ^ 32) :: r.1, r.2)

/-- Model of `___multadd_D2A` (0x4068a0) for `0 <= m, a`: `b * m + a`.  The loop body runs at least
once; a non-zero final carry is appended, in a block of the next class when the
current one is full. -/
def ___multadd_D2A (b : Bigint) (m a : Nat) : Bigint :=
  let r := mulAddWords m (wordsOf b.x (max b.wds 1)) a
  if r.2 = 0 then { b with x := r.1 }
  else
    let b1 : Bigint :=
      if b.wds ≥ b.maxwds then { ___Balloc_D2A (b.k + 1) with sign := b.sign, wds := b.wds }
      else b
    { b1 with wds := b.wds + 1, x := (wordsOf r.1 b.wds) ++ [r.2] }

/-- One row of `___mult_D2A` (0x4067ba): `z = *x++ * y + *xc + carry` over the words of the
longer operand, the final carry stored in the next word of the result. -/
def mulRow (y : Nat) : List Nat → List Nat → Nat → List Nat
  | [], acc, carry => carry :: acc.tail
  | w :: ws, acc, carry =>
    let z := (w * y + acc.headD 0 + carry) % 2 ^ 64
    (z % 2 ^ 32) :: mulRow y ws acc.tail (z / 2 ^ 32)

/-- The outer loop of `___mult_D2A` (0x406820): one row per non-zero word of the shorter
operand, each starting one word further up in the result. -/
def mulRows (xa : List Nat) : List Nat → List Nat → List Nat
  | [], acc => acc
  | y :: ys, acc =>
    let acc1 := if y ≠ 0 then mulRow y xa acc 0 else acc
    match acc1 with
    | [] => []
    | h :: t => h :: mulRows xa ys t

/-- The trimming loop at the end of `___mult_D2A` (0x406847): drop zero words from the top. -/
def trimTop : Nat → List Nat → Nat
  | 0, _ => 0
  | n + 1, x => if getW x n = 0 then trimTop n x else n + 1

/-- Model of `___mult_D2A` (0x406710): schoolbook product.  The result block has the class
of the longer operand, one more when `wa + wb` exceeds its capacity.  Every word is
multiplied as an unsigned 32-bit number; this is the reading under which the
converter is embedded.  The listing declares the word of the longer operand
`int32_t` (lines 7677, 7689, 7712, 7724): that typing is followed by
`Listed.___mult_D2A` below. -/
def ___mult_D2A (a b : Bigint) : Bigint :=
  let a1 := if a.wds < b.wds then b else a
  let b1 := if a.wds < b.wds then a else b
  let wc := a1.wds + b1.wds
  let c := ___Balloc_D2A (a1.k + (if wc > a1.maxwds then 1 else 0))
  let xc := mulRows (wordsOf a1.x a1.wds) (wordsOf b1.x b1.wds) (List.replicate wc 0)
  { c with wds := trimTop wc xc, x := xc }

/-- The shifting loop of `___lshift_D2A` (0x4066a7) for a bit count `k` in 1..31: each word
is shifted left and receives the bits shifted out of the word below; the last
carry is stored as an extra word. -/
def shlWords (k : Nat) : List Nat → Nat → List Nat
  | [], z => [z]
  | w :: ws, z => ((w <<< k ||| z) % 2 ^ 32) :: shlWords k ws (w >>> (32 - k))

/-- Model of `___lshift_D2A` (0x406610): `b << k`.  The block class is raised until
`wds + k/32 + 1` words fit. -/
def lshiftClass : Nat → Nat → Nat → Nat → Nat
  | 0, _, k1, _ => k1
  | fuel + 1, n1, k1, i => if n1 > i then lshiftClass fuel n1 (k1 + 1) (2 * i) else k1

/-- See `lshiftClass`; this is the function itself.  The bits carried into the next word
are those of an unsigned word (`shlWords`), the reading under which the converter is
embedded.  The listing shifts a word declared `int32_t` to the right (lines 7618, 7625): that
typing is followed by `Listed.___lshift_D2A` below. -/
def ___lshift_D2A (b : Bigint) (k : Nat) : Bigint :=
  let n := k / 32
  let n1 := n + b.wds + 1
  let b1 := ___Balloc_D2A (lshiftClass 32 n1 b.k b.maxwds)
  let src := wordsOf b.x (max b.wds 1)
  if k % 32 = 0 then
    { b1 with wds := n1 - 1, x := List.replicate n 0 ++ src }
  else
    let sh := shlWords (k % 32) src 0
    { b1 with wds := if sh.getLastD 0 ≠ 0 then n1 else n1 - 1, x := List.replicate n 0 ++ sh }

/-- The subtraction loops of `___diff_D2A` (0x406512, 0x406561): word-wise `a - b - borrow`. -/
def subWords : List Nat → List Nat → Nat → List Nat
  | [], _, _ => []
  | wa :: as, bs, borrow =>
    let wb := bs.headD 0
    if wa ≥ wb + borrow then (wa - wb - borrow) :: subWords as bs.tail 0
    else (wa + 2 ^ 32 - wb - borrow) :: subWords as bs.tail 1

/-- Model of `___diff_D2A` (0x4064a0): `|a - b|` with the sign flag set when `a < b`; equal
operands give a one-word zero in a class-0 block.  The borrow is 0 or 1 and the
trimming of zero words stops at word 0; this is the reading under which the
converter is embedded.  The listing computes the borrow as an `int32_t` with `% 2`
(lines 7494, 7505) and its trimming loop has no test for the start of the words
(line 7543): that text is followed by `Listed.___diff_D2A` below. -/
def ___diff_D2A (a b : Bigint) : Bigint :=
  let i := ___cmp_D2A a b
  if i = 0 then { ___Balloc_D2A 0 with wds := 1, x := [0] }
  else
    let a1 := if i < 0 then b else a
    let b1 := if i < 0 then a else b
    let c := ___Balloc_D2A a1.k
    let xc := subWords (wordsOf a1.x (max a1.wds 1)) (wordsOf b1.x (max b1.wds 1)) 0
    { c with sign := if i < 0 then 1 else 0, wds := trimTop a1.wds xc, x := xc }

/-- The chain of cached powers walked by `___pow5mult_D2A` (0x4069c4): on every step the next
power is the square of the current one (built by `___mult_D2A` on first use and kept
for later calls). -/
def pow5loop : Nat → Bigint → Bigint → Nat → Bigint
  | 0, b, _, _ => b
  | fuel + 1, b, p5, k =>
    let b1 := if k % 2 = 1 then ___mult_D2A b p5 else b
    if k / 2 = 0 then b1 else pow5loop fuel b1 (___mult_D2A p5 p5) (k / 2)

/-- Model of `___pow5mult_D2A` (0x406990): `b * 5^k`.  The table at `g13` holds 5, 25, 125 for
`k mod 4`; the chain starts at 625. -/
def ___pow5mult_D2A (b : Bigint) (k : Nat) : Bigint :=
  let b1 := if k % 4 ≠ 0 then ___multadd_D2A b ([5, 25, 125].getD (k % 4 - 1) 0) 0 else b
  if k / 4 = 0 then b1 else pow5loop 32 b1 (___i2b_D2A 625) (k / 4)

/-- The first loop of `___quorem_D2A` (0x406090): subtract `q * S` from `b` word by word. -/
def quoremSub (q : Nat) : List Nat → List Nat → Nat → Nat → List Nat
  | [], _, _, _ => []
  | bw :: bs, ss, carry, borrow =>
    let ys := (ss.headD 0 * q + carry) % 2 ^ 64
    let lo := ys % 2 ^ 32
    if bw ≥ lo + borrow then (bw - lo - borrow) :: quoremSub q bs ss.tail (ys / 2 ^ 32) 0
    else (bw + 2 ^ 32 - lo - borrow) :: quoremSub q bs ss.tail (ys / 2 ^ 32) 1

/-- The trimming loop of `___quorem_D2A` (0x40611c, 0x406035): starting from the index `n`
of the top word, which is 0, step down while the word below is 0 and its index is
above 0. -/
def quoremTrim : Nat → List Nat → Nat
  | 0, _ => 0
  | n + 1, x => if n > 0 ∧ getW x n = 0 then quoremTrim n x else n + 1

/-- Model of `___quorem_D2A` (0x405f20): returns the quotient digit and the numerator after the
subtractions.  The estimate `q` is the top word of `b` (at the index `v4` of the top word
of `S`) divided by the top word of `S` plus one (a 32-bit sum; the listing divides
without a test, a zero divisor is read as quotient 0).  When `q` is not 0, `q * S` is
subtracted from the low `S.wds` words and, if the top word became 0, the word count
is lowered; `v12` is that count, or the index `v4` when nothing was lowered.  When
the rest is not below `S`, `S` is subtracted once more and the count is lowered
again, starting at `v12`.  The words of `S` are multiplied as unsigned numbers and the
borrow is 0 or 1; this is the reading under which the converter is embedded.  The
listing declares the words of `S` `int32_t` and computes the borrow with `% 2`
(lines 7101, 7111, 7114, 7124): that typing is followed by `Listed.___quorem_D2A` below. -/
def ___quorem_D2A (b S : Bigint) : Nat × Bigint :=
  if S.wds > b.wds then (0, b)
  else
    let v4 := S.wds - 1
    let v10 := getW b.x v4
    let v11 := (getW S.x v4 + 1) % 2 ^ 32
    let q := v10 / v11
    let r1 : Bigint × Nat :=
      if v11 ≤ v10 then
        let x1 := quoremSub q (wordsOf b.x S.wds) (wordsOf S.x S.wds) 0 0 ++ b.x.drop S.wds
        if getW x1 v4 = 0 then
          ({ b with x := x1, wds := quoremTrim v4 x1 }, quoremTrim v4 x1)
        else ({ b with x := x1 }, v4)
      else (b, v4)
    if ___cmp_D2A r1.1 S < 0 then (q, r1.1)
    else
      let x2 := subWords (wordsOf r1.1.x S.wds) (wordsOf S.x S.wds) 0 ++ r1.1.x.drop S.wds
      if getW x2 r1.2 ≠ 0 then (q + 1, { r1.1 with x := x2 })
      else (q + 1, { r1.1 with x := x2, wds := quoremTrim r1.2 x2 })

/-- The shifting loop of `___rshift_D2A` (0x406d30) for a bit count `k` in 1..31; `y` holds the
bits of the previous word still to be stored.  The last `y` is stored too. -/
def shrWords (k : Nat) : List Nat → Nat → List Nat
  | [], y => [y]
  | w :: ws, y => ((y ||| (w <<< (32 - k))) % 2 ^ 32) :: shrWords k ws (w >>> k)

/-- Model of `___rshift_D2A` (0x406cd0): `b >> k` in place; a result without words gets
`x[0] = 0`.  The words are shifted as unsigned numbers; this is the reading under which
the converter is embedded.  The listing shifts words declared `int32_t` (lines 8043, 8053, 8062):
that typing is followed by `Listed.___rshift_D2A` below. -/
def ___rshift_D2A (b : Bigint) (k : Nat) : Bigint :=
  let n := k / 32
  if n < b.wds then
    let src := (wordsOf b.x b.wds).drop n
    if k % 32 = 0 then
      { b with wds := src.length, x := src ++ b.x.drop src.length }
    else
      let out := shrWords (k % 32) src.tail (src.headD 0 >>> (k % 32))
      { b with wds := if out.getLastD 0 ≠ 0 then out.length else out.length - 1,
               x := out ++ b.x.drop out.length }
  else { b with wds := 0, x := 0 :: b.x.tail }

/-- The scan of `___trailz_D2A` (0x406dc0) over the words from the bottom. -/
def trailzWords : List Nat → Nat
  | [] => 0
  | w :: ws => if w ≠ 0 then cttz 32 w else 32 + trailzWords ws

/-- Model of `___trailz_D2A` (0x406da0): number of zero bits below the lowest set bit (32 per
word when every word is 0). -/
def ___trailz_D2A (b : Bigint) : Nat := trailzWords (wordsOf b.x b.wds)

/-- The class search of the inlined `bitstob` (0x404d34): double `i` from 32 until it
reaches `nbits`. -/
def bitstobClass : Nat → Nat → Nat → Nat → Nat
  | 0, _, _, k => k
  | fuel + 1, nbits, i, k => if nbits > i then bitstobClass fuel nbits (2 * i) (k + 1) else k

/-- Model of the inlined `bitstob` at the head of `___gdtoa` (0x404d1f .. 0x404e94): the
`(nbits - 1) / 32 + 1` input words are copied into a fresh block whose class is the
least `k` with `32 << k >= nbits`; zero words are trimmed from the top.  The second
component is the bit length `bbits` (0 for a zero mantissa). -/
def bitstob (bits : List Nat) (nbits : Nat) : Bigint × Nat :=
  let k := bitstobClass 32 nbits 32 0
  let n := (nbits - 1) / 32 + 1
  let x := wordsOf bits n
  let w := trimTop n x
  ({ ___Balloc_D2A k with wds := w, x := x },
   if w = 0 then 0 else (w - 1) * 32 + 32 - hi0bits (getW x (w - 1)))

/-! ## Floating-point steps of `___gdtoa`

The converter does a few steps in x87 arithmetic.  The listing keeps the shape of
these steps (labels, integer stores, the constants) but not all of their
operands, which live on the x87 stack.  They are modelled on exact rationals:
an operation rounds its exact result to 64 significant bits (`x87`), a store
into a `double` variable rounds to 53 bits (`dbl`), both to nearest with ties to
even; exponent range is not modelled. -/

/-- Largest `e` with `2^e <= n/d`, for positive `n` and `d`. -/
def ilog2 (n d : Nat) : Int :=
  let e0 : Int := (log2n n : Int) - log2n d
  if e0 ≥ 0 then (if d * 2 ^ e0.toNat ≤ n then e0 else e0 - 1)
  else (if d ≤ n * 2 ^ (-e0).toNat then e0 else e0 - 1)

/-- Round the positive rational `n / d` to `p` significant bits, to nearest, ties to even. -/
def roundMag (p n d : Nat) : ℚ :=
  let sh : Int := (p : Int) - 1 - ilog2 n d
  let n1 := if sh ≥ 0 then n * 2 ^ sh.toNat else n
  let d1 := if sh ≥ 0 then d else d * 2 ^ (-sh).toNat
  let m := if 2 * (n1 % d1) > d1 ∨ (2 * (n1 % d1) = d1 ∧ (n1 / d1) % 2 = 1)
    then n1 / d1 + 1 else n1 / d1
  if sh ≥ 0 then (m : ℚ) / 2 ^ sh.toNat else (m : ℚ) * 2 ^ (-sh).toNat

/-- Round a rational to `p` significant bits, to nearest, ties to even. -/
def roundTo (p : Nat) (q : ℚ) : ℚ :=
  if q.num = 0 then 0
  else if q.num < 0 then -roundMag p q.num.natAbs q.den
  else roundMag p q.num.natAbs q.den

/-- Result of an x87 operation (64-bit significand). -/
def x87 (q : ℚ) : ℚ := roundTo 64 q

/-- Value stored into a `double` (53-bit significand). -/
def dbl (q : ℚ) : ℚ := roundTo 53 q

/-- Conversion to an integer with the rounding control set to "chop" (the listing sets
`0xc00` in the control word before every such store). -/
def truncQ (q : ℚ) : Int := if q.num < 0 then -((-q.num) / q.den) else q.num / q.den

/-- Model of `___b2d_D2A` (0x406a90): the top 53 bits of `a`, taken from its top three
words without rounding, as a double in [1, 2). -/
def ___b2d_D2A (a : Bigint) : ℚ :=
  let y := getW a.x (a.wds - 1)
  let z := if a.wds > 1 then getW a.x (a.wds - 2) else 0
  let w := if a.wds > 2 then getW a.x (a.wds - 3) else 0
  let k := hi0bits y
  let d0 : Nat :=
    if k < 11 then y >>> (11 - k)
    else if k = 11 then y
    else ((y <<< (k - 11)) ||| (z >>> (32 - (k - 11)))) % 2 ^ 32
  let d1 : Nat :=
    if k < 11 then ((y <<< (21 + k)) ||| (z >>> (11 - k))) % 2 ^ 32
    else if k = 11 then z
    else ((z <<< (k - 11)) ||| (w >>> (32 - (k - 11)))) % 2 ^ 32
  1 + (((d0 % 2 ^ 20) * 2 ^ 32 + d1 : Nat) : ℚ) / 2 ^ 52

/-- The constant `0.289529654602168` as stored. -/
def c_log10_slope : ℚ := 5215702578316129 / 2 ^ 54
/-- The constant `0.1760912590558` as stored. -/
def c_log10_base : ℚ := 6344356229335219 / 2 ^ 55
/-- The constant `0.301029995663981` as stored. -/
def c_log10_2 : ℚ := 5422874305198587 / 2 ^ 54
/-- The constant `7e-17` as stored. -/
def c_7em17 : ℚ := 1419768672255617 / 2 ^ 104

/-- The estimate of the decimal exponent (0x4046e5 .. 0x404727): `ds = i * log10(2) +
(d2 - 1.5) * 0.2895... + 0.1760...`, corrected by `7e-17` per unit of `|i| - 1077`,
then `k = floor(ds)`. -/
def kEstimate (d2 : ℚ) (i : Int) : Int :=
  let v59 := x87 (x87 (x87 (c_log10_2 * i) + x87 (c_log10_slope * x87 (d2 - 3 / 2))) + c_log10_base)
  let v58 := |i| - 1077
  let v60 := if v58 ≥ 1 then x87 (x87 (c_7em17 * v58) + v59) else v59
  let k := truncQ v60
  if v60 < 0 ∧ v60 ≠ k then k - 1 else k

/-- The table `tens[]` of exact powers of ten (`g12`). -/
def tens (k : Nat) : ℚ := 10 ^ k

/-- Descriptor of the binary format (`&g5` in the caller) as `___gdtoa` reads it: `nbits` at
+0, `emin` at +4, `rounding` at +12. -/
structure FPI where
  nbits : Nat
  emin : Int
  emax : Int
  rounding : Int
  sudden_underflow : Int

/-- What `___gdtoa` hands back: the digit string, the value stored through `decpt` and the
updated `*kindp`. -/
structure DtoaResult where
  digits : List Nat
  decpt : Int
  kind : Nat
deriving DecidableEq, Repr

/-- The scan `while (*--s == '9')` shared by both round-up sites, on the digits read
from the last one backwards; `none` means that the scan reached `s0`. -/
def scanNines : List Nat → Option (List Nat)
  | [] => none
  | d :: ds => if d = 57 then scanNines ds else some ((d + 1) :: ds)

/-- The round-up at label `bump_up` (0x40550c, 0x40552d) of the floating-point paths:
trailing nines are dropped and the digit before them is incremented; when every
digit is a nine, `k` is incremented, the first character is set to `'0'` and then
incremented to `'1'`, and the string ends after it. -/
def bumpUp (digits : List Nat) (k : Int) : List Nat × Int :=
  match scanNines digits.reverse with
  | none => ([48 + 1], k + 1)
  | some r => (r.reverse, k)

/-- The round-up at label `roundoff` (0x40534e) of the bignum path: as `bumpUp`, except
that the first character is written as `'1'` directly. -/
def roundOff (digits : List Nat) (k : Int) : List Nat × Int :=
  match scanNines digits.reverse with
  | none => ([49], k + 1)
  | some r => (r.reverse, k)

/-- The loop `while (*--s == '0');` followed by `++s` (0x4058af): trailing zeros are
dropped. -/
def chopZeros (digits : List Nat) : List Nat :=
  (digits.reverse.dropWhile (fun c => c == 48)).reverse

/-- Whether the remainder `b` is non-zero, as tested by `b->wds > 1 || b->x[0]`. -/
def bNonzero (b : Bigint) : Bool := decide (b.wds > 1 ∨ getW b.x 0 ≠ 0)

/-- Outcome of one of the floating-point paths: the digits, the decimal exponent `k`
and the inexact flag, or `none` for label `fast_failed`. -/
abbrev FastResult := Option (List Nat × Int × Nat)

/-- The digit loop of the quick path without left-to-right stopping (0x405640 ..
0x4056ba): `ilim` digits are produced from `d` (with `ds = 1`), then the rest is
compared with one half, leaving a margin `eps`. -/
def quickFixed : Nat → Int → Int → ℚ → ℚ → Int → List Nat → FastResult
  | 0, _, _, _, _, _, _ => none
  | fuel + 1, ilim, k, d, eps, i, digs =>
    let L := truncQ (x87 (d / 1))
    let d1 := if L ≠ 0 then dbl (x87 (d - x87 (L * 1))) else d
    let digs1 := digs ++ [(48 + L).toNat]
    if i = ilim then
      let ds : ℚ := 1 / 2
      if d1 > x87 (ds + eps) then
        let r := bumpUp digs1 k
        some (r.1, r.2, 32)
      else if d1 < x87 (ds - eps) then
        some (chopZeros digs1, k, if d1 ≠ 0 then 16 else 0)
      else none
    else quickFixed fuel ilim k (dbl (x87 (d1 * 10))) eps (i + 1) digs1

/-- The digit loop of the quick path with left-to-right stopping (0x40541b ..
0x4054be). -/
def quickLeftright : Nat → Int → Int → ℚ → ℚ → Int → List Nat → FastResult
  | 0, _, _, _, _, _, _ => none
  | fuel + 1, ilim, k, d, eps, i, digs =>
    let L := truncQ (x87 (d / 1))
    let d1 := dbl (x87 (d - x87 (L * 1)))
    let digs1 := digs ++ [(48 + L).toNat]
    if d1 < eps then some (digs1, k, if d1 ≠ 0 then 16 else 0)
    else if x87 (1 - d1) < eps then
      let r := bumpUp digs1 k
      some (r.1, r.2, 32)
    else if i + 1 ≥ ilim then none
    else quickLeftright fuel ilim k (dbl (x87 (d1 * 10))) (dbl (x87 (eps * 10))) (i + 1) digs1

/-- The quick path (0x404876 .. 0x4049bf), entered only with `k = 0`, round-to-nearest
and `0 <= ilim <= 14`, so that `ds = 1` and `d` needs no scaling.  `eps = (2 * d + 7)
* 2^-52` bounds the error.  `ilim = 0` decides between no digit and the single
digit `'1'`. -/
def quickPath (leftright : Bool) (ilim ndigits : Int) (d : ℚ) : FastResult :=
  let eps0 := dbl (x87 (x87 (2 * d) + 7)) / 2 ^ 52
  if ilim = 0 then
    let d1 := dbl (x87 (d - 5))
    if d1 > eps0 then some ([49], 1, 32)
    else if d1 < -eps0 then some ([], -1 - ndigits, 16)
    else none
  else if leftright then
    quickLeftright (ilim.toNat + 1) ilim 0 d
      (dbl (x87 (x87 (x87 (1 * (1 / 2)) / tens (ilim.toNat - 1)) - eps0))) 0 []
  else
    quickFixed (ilim.toNat + 1) ilim 0 d (dbl (x87 (eps0 * tens (ilim.toNat - 1)))) 1 []

/-- The digit loop of the small-integer path (0x404f4e .. 0x4054e7): digits are
`d / ds` with `ds = 10^k`; the loop stops when the remainder is 0, or after `ilim`
digits with the last one rounded (ties to even, or by direction `rdir`).  On the
round-down branch the string is returned as it stands. -/
def smallIntLoop : Nat → Int → Int → Int → ℚ → ℚ → Int → List Nat → List Nat × Int × Nat
  | 0, _, _, k, _, _, _, digs => (digs, k, 0)
  | fuel + 1, ilim, rdir, k, ds, d, i, digs =>
    let L := truncQ (x87 (d / ds))
    let d1 := dbl (x87 (d - x87 (L * ds)))
    let digs1 := digs ++ [(48 + L).toNat]
    if d1 = 0 then (digs1, k, 0)
    else if i = ilim then
      if rdir ≠ 0 then
        if rdir = 1 then
          let r := bumpUp digs1 k
          (r.1, r.2, 32)
        else (digs1, k, 16)
      else
        let d2 := dbl (x87 (d1 + d1))
        if d2 > ds ∨ (d2 = ds ∧ L % 2 = 1) then
          let r := bumpUp digs1 k
          (r.1, r.2, 32)
        else (digs1, k, 16)
    else smallIntLoop fuel ilim rdir k ds (dbl (x87 (d1 * 10))) (i + 1) digs1

/-- The small-integer path (0x4049cf .. 0x404f4e), taken when `be >= 0` and `k <= 14`. -/
def smallIntPath (ilim ndigits rdir k : Int) (d : ℚ) : List Nat × Int × Nat :=
  let ds := tens k.toNat
  if ndigits < 0 ∧ ilim ≤ 0 then
    if ilim < 0 ∨ d ≤ x87 (5 * ds) then ([], -1 - ndigits, 16)
    else ([49], k + 1, 32)
  else smallIntLoop (k.toNat + 2) ilim rdir k ds d 1 []

/-- Digit loop of the bignum path without left-to-right stopping (0x4052cf ..
0x405321): `ilim` digits by `___quorem_D2A` / `___multadd_D2A`.  Returns the digits, the last digit
and the remainder. -/
def fixedLoop : Nat → Int → Bigint → Bigint → Int → List Nat → List Nat × Nat × Bigint
  | 0, _, b, _, _, digs => (digs, 48, b)
  | fuel + 1, ilim, b, S, i, digs =>
    let q := ___quorem_D2A b S
    let dig := q.1 + 48
    if i ≥ ilim then (digs ++ [dig], dig, q.2)
    else fixedLoop fuel ilim (___multadd_D2A q.2 10 0) S (i + 1) (digs ++ [dig])

/-- How a digit loop of the bignum path ends: `done` with the final string, decimal
exponent and inexact flag (label `ret`), or `round` when the last digit still has to
be rounded (label 0x405329). -/
inductive LoopEnd where
  | done (digits : List Nat) (k : Int) (inex : Nat)
  | round (digits : List Nat) (dig : Nat) (b : Bigint)
deriving DecidableEq, Repr

/-- The inner loop at 0x405822 for directed rounding: further digits while `S > mhi`. -/
def roundUpLoop : Nat → Bigint → Bigint → Bigint → Nat → List Nat → Nat × List Nat
  | 0, _, _, _, dig, digs => (dig, digs)
  | fuel + 1, b, S, mhi, dig, digs =>
    if ___cmp_D2A S mhi > 0 then
      let mhi1 := ___multadd_D2A mhi 10 0
      let q := ___quorem_D2A (___multadd_D2A b 10 0) S
      roundUpLoop fuel q.2 S mhi1 (q.1 + 48) (digs ++ [dig])
    else (dig, digs)

/-- Digit loop of the bignum path with left-to-right stopping (0x404b9a .. 0x4050a7):
after each digit the remainder `b` is compared with the low margin `mlo` and with
`S - mhi`. -/
def leftrightLoop : Nat → Int → Int → Int → Nat → Int → Bigint → Bigint → Bigint → Bigint →
    Int → List Nat → LoopEnd
  | 0, _, _, _, _, k, _, _, _, _, _, digs => LoopEnd.done digs k 0
  | fuel + 1, mode, rdir, ilim, bits0, k, b0, S, mlo, mhi, i, digs =>
    let q := ___quorem_D2A b0 S
    let b := q.2
    let dig := q.1 + 48
    let j := ___cmp_D2A b mlo
    let delta := ___diff_D2A S mhi
    let j1 : Int := if delta.sign ≠ 0 then 1 else ___cmp_D2A b delta
    if j1 = 0 ∧ mode = 0 ∧ bits0 % 2 = 0 ∧ rdir = 0 then
      -- 0x405a3e
      if dig = 57 then
        let r := roundOff (digs ++ [57]) k
        LoopEnd.done r.1 r.2 32
      else if j ≤ 0 then LoopEnd.done (digs ++ [dig]) k (if bNonzero b then 16 else 0)
      else LoopEnd.done (digs ++ [dig + 1]) k 32
    else if j < 0 ∨ (j = 0 ∧ mode = 0 ∧ bits0 % 2 = 0) then
      -- 0x4057bb
      if rdir ≠ 0 ∧ bNonzero b then
        if rdir = 2 then LoopEnd.done (digs ++ [dig]) k 16
        else
          let r := roundUpLoop 64 b S mhi dig digs
          if r.1 = 57 then
            let r2 := roundOff (r.2 ++ [57]) k
            LoopEnd.done r2.1 r2.2 32
          else LoopEnd.done (r.2 ++ [r.1 + 1]) k 32
      else
        -- 0x4059ad
        if j1 > 0 then
          let b1 := ___lshift_D2A b 1
          let j2 := ___cmp_D2A b1 S
          if j2 > 0 ∨ (j2 = 0 ∧ dig % 2 = 1) then
            if dig = 57 then
              let r := roundOff (digs ++ [57]) k
              LoopEnd.done r.1 r.2 32
            else LoopEnd.done (digs ++ [dig + 1]) k (if bNonzero b1 then 16 else 32)
          else LoopEnd.done (digs ++ [dig]) k (if bNonzero b1 then 16 else 32)
        else LoopEnd.done (digs ++ [dig]) k (if bNonzero b then 16 else 0)
    else if j1 > 0 ∧ rdir ≠ 2 then
      -- 0x404c5c
      if dig = 57 then
        let r := roundOff (digs ++ [57]) k
        LoopEnd.done r.1 r.2 32
      else LoopEnd.done (digs ++ [dig + 1]) k 32
    else if i = ilim then LoopEnd.round (digs ++ [dig]) dig b
    else
      let b2 := ___multadd_D2A b 10 0
      let mhi1 := ___multadd_D2A mhi 10 0
      let mlo1 := if mlo = mhi then mhi1 else ___multadd_D2A mlo 10 0
      leftrightLoop fuel mode rdir ilim bits0 k b2 S mlo1 mhi1 (i + 1) (digs ++ [dig])

/-- Rounding of the last digit (0x405329 .. 0x4058af): by direction when `rdir` is set,
otherwise by comparing twice the remainder with `S`; a tie rounds up exactly when
the last digit is odd. -/
def roundLast (rdir : Int) (digits : List Nat) (dig : Nat) (b S : Bigint) (k : Int) :
    List Nat × Int × Nat :=
  if rdir ≠ 0 then
    if rdir = 2 ∨ ¬ bNonzero b then (chopZeros digits, k, if bNonzero b then 16 else 0)
    else
      let r := roundOff digits k
      (r.1, r.2, 32)
  else
    let b1 := ___lshift_D2A b 1
    let j := ___cmp_D2A b1 S
    if j > 0 ∨ (j = 0 ∧ dig % 2 = 1) then
      let r := roundOff digits k
      (r.1, r.2, 32)
    else (chopZeros digits, k, if bNonzero b1 then 16 else 0)

/-- The bignum path of `___gdtoa` from label 0x4049da to the return: scaling of the
numerator `b` and the denominator `S` by powers of 2 and 5, the check of the
exponent estimate, digit generation and the rounding of the last digit.  Returns
the digits, the final `k` and the inexact flag. -/
def bignumPath (fpi : FPI) (be0 be : Int) (bits0 : Nat) (b : Bigint) (bbits : Int)
    (mode ndigits rdir : Int) (leftright k_check : Bool) (k ilim ilim1 : Int)
    (b2 s2 b5 s5 : Int) : List Nat × Int × Nat :=
  -- 0x405212: margins for left-to-right generation
  let i1 : Int :=
    if mode < 2 then
      (if be - ((fpi.nbits : Int) - bbits) < fpi.emin then be - fpi.emin + 1
       else (fpi.nbits : Int) - bbits + 1)
    else (if ilim < 0 then 0 else ilim)
  let j := ilim - 1
  let m5 : Int := if leftright ∧ mode ≥ 2 then (if b5 ≥ j then b5 - j else 0) else b5
  let s5a : Int := if leftright ∧ mode ≥ 2 ∧ b5 < j then s5 + (j - b5) else s5
  let b5a : Int := if leftright ∧ mode ≥ 2 ∧ b5 < j then j else b5
  let m2 : Int := if leftright ∧ mode ≥ 2 ∧ ilim < 0 then b2 - ilim else b2
  let b2a : Int := if leftright then b2 + i1 else b2
  let s2a : Int := if leftright then s2 + i1 else s2
  let mhi0 : Bigint := ___i2b_D2A 1
  -- 0x4049f8: common factors of two
  let c2 : Int := if m2 > 0 ∧ s2a > 0 then min m2 s2a else 0
  let b2b := b2a - c2
  let m2b := m2 - c2
  let s2b := s2a - c2
  -- 0x404a29: powers of five on the numerator side
  let mhi1 : Bigint := if b5a > 0 ∧ leftright ∧ m5 > 0 then ___pow5mult_D2A mhi0 m5.toNat else mhi0
  let bA : Bigint :=
    if b5a > 0 then
      if leftright then
        let bm := if m5 > 0 then ___mult_D2A mhi1 b else b
        if b5a - m5 ≠ 0 then ___pow5mult_D2A bm (b5a - m5).toNat else bm
      else ___pow5mult_D2A b b5a.toNat
    else b
  -- 0x404a7f: the denominator
  let S0 : Bigint := if s5a > 0 then ___pow5mult_D2A (___i2b_D2A 1) s5a.toNat else ___i2b_D2A 1
  -- 0x404ffb: a normalized power of two has a narrower low margin
  let spec_case : Bool := decide (mode < 2 ∧ bbits = 1 ∧ be0 > fpi.emin + 1)
  let b2c := if spec_case then b2b + 1 else b2b
  let s2c := if spec_case then s2b + 1 else s2b
  -- 0x404ac7: shift so that the divisor has four leading zero bits
  let v194 : Int := if s5a ≠ 0 then 32 - hi0bits (getW S0.x (S0.wds - 1)) else 1
  let v200 : Int := (s2c + v194) % 32
  let i2 : Int := if v200 = 0 then 0 else 32 - v200
  let i3 : Int := if i2 > 4 then i2 - 4 else if i2 < 4 then i2 + 28 else 0
  let b2d := b2c + i3
  let m2d := m2b + i3
  let s2d := s2c + i3
  let bB := if b2d > 0 then ___lshift_D2A bA b2d.toNat else bA
  let S1 := if s2d > 0 then ___lshift_D2A S0 s2d.toNat else S0
  -- 0x40537c: the estimate of k was one too large
  let botched : Bool := k_check ∧ ___cmp_D2A bB S1 < 0
  let k1 := if botched then k - 1 else k
  let bC := if botched then ___multadd_D2A bB 10 0 else bB
  let mhi2 := if botched ∧ leftright then ___multadd_D2A mhi1 10 0 else mhi1
  let ilimA := if botched then ilim1 else ilim
  -- 0x405558: no digit at all, or the single digit 1
  if ilimA ≤ 0 ∧ mode > 2 then
    if ilimA < 0 ∨ ___cmp_D2A bC (___multadd_D2A S1 5 0) ≤ 0 then ([], -1 - ndigits, 16)
    else ([49], k1 + 1, 32)
  else if leftright then
    let mhi3 := if m2d > 0 then ___lshift_D2A mhi2 m2d.toNat else mhi2
    let mlo := mhi3
    let mhi4 := if spec_case then ___lshift_D2A mhi3 1 else mhi3
    match leftrightLoop (fpi.nbits + ilimA.toNat + 8) mode rdir ilimA bits0 k1 bC S1 mlo mhi4 1 [] with
    | LoopEnd.done digits k2 inex => (digits, k2, inex)
    | LoopEnd.round digits dig bR => roundLast rdir digits dig bR S1 k1
  else
    let r := fixedLoop (ilimA.toNat + 1) ilimA bC S1 1 []
    roundLast rdir r.1 r.2.1 r.2.2 S1 k1

/-- Model of `___gdtoa` (0x404630).  `fpi` describes the format, `be` and `bits` give the value
`bits * 2^be`, `kind` is the class (`*kindp`: 0 zero, 1 normal, 2 denormal, 3
infinite, 4 NaN; bit 8 negative), `mode` and `ndigits` select the conversion.
The result is `none` when the function returns a null pointer (class 5..7). -/
def ___gdtoa (fpi : FPI) (be : Int) (bits : List Nat) (kind : Nat) (mode ndigits : Int) :
    Option DtoaResult :=
  let kind0 := kind &&& (2 ^ 32 - 49)
  match kind % 8 with
  | 0 => some { digits := [48], decpt := 1, kind := kind0 }
  | 3 => some { digits := [73, 110, 102, 105, 110, 105, 116, 121], decpt := -32768, kind := kind0 }
  | 4 => some { digits := [78, 97, 78], decpt := -32768, kind := kind0 }
  | 1 | 2 =>
    -- 0x404d1f: mantissa as a bignum, trailing zero bits moved into the exponent
    let bb := bitstob bits fpi.nbits
    let tz := ___trailz_D2A bb.1
    let b := if tz ≠ 0 then ___rshift_D2A bb.1 tz else bb.1
    let be1 : Int := if tz ≠ 0 then be + tz else be
    let bbits : Int := if tz ≠ 0 then (bb.2 : Int) - tz else bb.2
    if b.wds = 0 then some { digits := [48], decpt := 1, kind := kind0 }
    else
      -- 0x404665: estimate of the decimal exponent
      let d2 := ___b2d_D2A b
      let i := be1 + bbits - 1
      let k0 := kEstimate d2 i
      let d : ℚ := d2 * (2 : ℚ) ^ i
      let small : Bool := decide (0 ≤ k0 ∧ k0 < 23)
      let k : Int := if small ∧ d < tens k0.toNat then k0 - 1 else k0
      let k_check : Bool := !small
      -- 0x40476a
      let j := bbits - i - 1
      let b2 : Int := if j < 0 then -j else 0
      let s2 : Int := if j < 0 then 0 else j
      let b5 : Int := if k < 0 then -k else 0
      let s5 : Int := if k < 0 then 0 else k
      let b2a := if k < 0 then b2 - k else b2
      let s2a := if k < 0 then s2 else s2 + k
      -- 0x4047a3: the mode
      let mode1 : Int := if mode < 0 ∨ mode > 9 then 0 else mode
      let try_quick : Bool := decide (¬ mode1 > 5)
      let mode2 : Int := if mode1 > 5 then mode1 - 4 else mode1
      let leftright : Bool := decide (mode2 ≠ 2 ∧ mode2 ≠ 3)
      let ndigits1 : Int :=
        if mode2 < 2 then 0
        else if (mode2 = 2 ∨ mode2 = 4) ∧ ndigits ≤ 0 then 1
        else ndigits
      let ilim : Int :=
        if mode2 < 2 then -1
        else if mode2 = 2 ∨ mode2 = 4 then ndigits1
        else ndigits1 + k + 1
      let ilim1 : Int :=
        if mode2 < 2 then -1
        else if mode2 = 2 ∨ mode2 = 4 then ndigits1
        else ndigits1 + k
      -- 0x40482b: rounding direction
      let rdir0 := fpi.rounding - 1
      let rdir1 := if rdir0 ≠ 0 ∧ rdir0 < 0 then 2 else rdir0
      let rdir := if rdir0 ≠ 0 ∧ kind &&& 8 ≠ 0 then 3 - rdir1 else rdir1
      let fin (r : List Nat × Int × Nat) : Option DtoaResult :=
        some { digits := r.1, decpt := r.2.1 + 1, kind := kind0 ||| r.2.2 }
      let slow : Option DtoaResult :=
        if be1 ≥ 0 ∧ k < 15 then fin (smallIntPath ilim ndigits1 rdir k d)
        else fin (bignumPath fpi be be1 (getW bits 0) b bbits mode2 ndigits1 rdir leftright
                    k_check k ilim ilim1 b2a s2a b5 s5)
      if 0 ≤ ilim ∧ ilim ≤ 14 ∧ try_quick ∧ rdir = 0 ∧ k = 0 then
        match quickPath leftright ilim ndigits1 d with
        | some r => fin r
        | none => slow
      else slow
  | _ => none

/-! ## Classification and the `%f`, `%e`, `%g` handlers -/

/-- The 80-bit argument of the handlers: `se` is the sign-and-exponent word (16 bits),
`m` the 64-bit mantissa. -/
structure LDouble where
  se : Nat
  m : Nat
deriving DecidableEq, Repr

/-- Condition bits that the x87 instruction `fxam` reports in the status word: `C0` =
0x100, `C2` = 0x400, `C3` = 0x4000.  NaN gives `C0`, infinity `C0|C2`, zero `C3`,
a denormal `C3|C2`, a normal number `C2`, an unsupported encoding nothing.  This is
the processor's definition, not code of the listing. -/
def fxam (x : LDouble) : Nat :=
  let e := x.se % 0x8000
  if e = 0 then (if x.m = 0 then 0x4000 else 0x4400)
  else if x.m < 2 ^ 63 then 0
  else if e = 0x7fff then (if x.m = 2 ^ 63 then 0x500 else 0x100)
  else 0x400

/-- The format descriptor `g5` handed to `___gdtoa` by `___pformat_cvt`.  The listing shows its
first word, 64; the rounding field is 1 (round to nearest), the exponent bounds
are those of the 80-bit format. -/
def fpi_ldouble : FPI :=
  { nbits := 64, emin := -16445, emax := 16320, rounding := 1, sudden_underflow := 0 }

/-- Result of `___pformat_cvt`: the string of `___gdtoa`, the decimal point position and the
sign word (0 or 0x8000). -/
structure Cvt where
  digits : List Nat
  decpt : Int
  sign : Nat
deriving DecidableEq, Repr

/-- Model of `___pformat_cvt` (0x4028e0).  `mode` is the register argument passed on to
`___gdtoa` (`v7`), `nd` the digit count.  The class and the binary exponent come
from `fxam`; the sign is bit 15 of the exponent word, except for a NaN, which is
reported unsigned. -/
def ___pformat_cvt (mode : Int) (x : LDouble) (nd : Int) : Option Cvt :=
  let v2 := fxam x
  let bits : List Nat := [x.m % 2 ^ 32, x.m / 2 ^ 32]
  if v2 &&& 256 = 0 then
    let ke : Nat × Int :=
      if v2 &&& 1024 ≠ 0 then
        (if v2 &&& 0x4000 = 0 then (1, (x.se % 0x8000 : Int) - 0x403e) else (2, -0x403d))
      else (0, 0)
    (___gdtoa fpi_ldouble ke.2 bits ke.1 mode nd).map
      (fun r => { digits := r.digits, decpt := r.decpt, sign := x.se &&& 0x8000 })
  else if v2 &&& 1024 = 0 then
    (___gdtoa fpi_ldouble 0 bits 4 mode nd).map
      (fun r => { digits := r.digits, decpt := r.decpt, sign := 0 })
  else
    (___gdtoa fpi_ldouble 0 bits 3 mode nd).map
      (fun r => { digits := r.digits, decpt := r.decpt, sign := x.se &&& 0x8000 })

/-- Model of `___pformat_float` (0x403200), the `%f` handler.  A negative precision becomes 6;
the converter is asked for `precision` digits after the decimal point (mode 3).
`none` stands for a null string from the converter, which the code would
dereference. -/
def ___pformat_float (loc : Locale) (x : LDouble) (s : PFormat) : Option PFormat :=
  let s0 : PFormat := if s.precision < 0 then { s with precision := 6 } else s
  (___pformat_cvt 3 x s0.precision).map (fun r =>
    if r.decpt = -0x8000 then ___pformat_emit_inf_or_nan r.sign r.digits s0
    else padWidth 32 (___pformat_emit_float loc r.sign r.digits r.decpt s0))

/-- Model of `___pformat_efloat` (0x403ba0), the `%e` handler: `precision + 1` significant
digits (mode 2). -/
def ___pformat_efloat (loc : Locale) (x : LDouble) (s : PFormat) : Option PFormat :=
  let s0 : PFormat := if s.precision < 0 then { s with precision := 6 } else s
  (___pformat_cvt 2 x (s0.precision + 1)).map (fun r =>
    if r.decpt = -0x8000 then ___pformat_emit_inf_or_nan r.sign r.digits s0
    else ___pformat_emit_efloat loc r.sign r.digits r.decpt s0)

/-- Model of `___pformat_gfloat` (0x403a10), the `%g` handler.  A negative precision becomes 6,
a zero precision 1; `precision` significant digits are requested (mode 2).  The
fixed layout is used when `-4 < decpt <= precision`. -/
def ___pformat_gfloat (loc : Locale) (x : LDouble) (s : PFormat) : Option PFormat :=
  let s0 : PFormat :=
    if s.precision < 0 then { s with precision := 6 }
    else if s.precision = 0 then { s with precision := 1 }
    else s
  (___pformat_cvt 2 x s0.precision).map (fun r =>
    if r.decpt = -0x8000 then ___pformat_emit_inf_or_nan r.sign r.digits s0
    else if r.decpt ≥ -3 ∧ s0.precision ≥ r.decpt then
      let s1 : PFormat :=
        if s0.flags &&& 0x800 = 0 then
          let v9 : Int := (r.digits.length : Int) - r.decpt
          { s0 with precision := v9,
                    width := if v9 < 0 ∧ s0.width ≥ 1 then s0.width + v9 else s0.width }
        else { s0 with precision := s0.precision - r.decpt }
      padWidth 32 (___pformat_emit_float loc r.sign r.digits r.decpt s1)
    else
      let len : Int := if s0.flags &&& 0x800 = 0 then r.digits.length else s0.precision
      ___pformat_emit_efloat loc r.sign r.digits r.decpt { s0 with precision := len - 1 })

/-- A descriptor as `___mingw_pformat` sets it up for one conversion writing to a stream
without limit: flags `0x3000` plus the conversion's own flags.  `expmin` is the
minimum number of exponent digits (2 unless the environment asks for 3). -/
def fileStream (flags : Nat) (width precision : Int) : PFormat :=
  { buf := fun _ => 0, file := [], flags := 0x3000 ||| flags, width := width,
    precision := precision, rplen := -3, rpchr := 0, count := 0, quota := 0, expmin := 2 }

/-- Extended-precision encoding of a double given by sign, biased 11-bit exponent and
52-bit fraction (the `fld` that widens the argument, 0x403e36); normal doubles and
zeros only. -/
def ofDouble (sign e f : Nat) : LDouble :=
  if e = 0 ∧ f = 0 then { se := sign * 0x8000, m := 0 }
  else { se := sign * 0x8000 + (e + 15360), m := 2 ^ 63 + f * 2 ^ 11 }

/-- A descriptor as `___mingw_pformat` sets it up for one conversion on behalf of `_vsnprintf`:
no sink flag, the buffer holds `quota` characters. -/
def bufferStream (quota flags : Nat) (width precision : Int) : PFormat :=
  { buf := fun _ => 0, file := [], flags := flags, width := width,
    precision := precision, rplen := -3, rpchr := 0, count := 0, quota := quota, expmin := 2 }

/-! ## Auxiliary notions used in the statements below -/

/-- The descriptor with its four bookkeeping fields replaced. -/
def upd (s : PFormat) (w p rl : Int) (rc : Nat) : PFormat :=
  { s with width := w, precision := p, rplen := rl, rpchr := rc }

/-- The next `n` characters taken by the digit loops from the string `v`: its digits,
then `'0'` once it is exhausted. -/
def digitsPad (v : List Nat) (n : Nat) : List Nat := v.take n ++ List.replicate (n - v.length) 48

/-- The sign character chosen at 0x402b32 / 0x402b3a, as a string. -/
def signChars (sign fl : Nat) : List Nat :=
  if sign ≠ 0 then [45] else if fl &&& 256 ≠ 0 then [43] else if fl &&& 64 ≠ 0 then [32] else []

/-- Value of `rpchr` after the first radix point has been written. -/
def radixChr (loc : Locale) (rplen : Int) (rpchr : Nat) : Nat :=
  if rplen = -3 then (if 1 ≤ loc.mbrtowc_len then loc.mbrtowc_wc % 65536 else rpchr) else rpchr

/-- Value of `rplen` after the first radix point has been written. -/
def radixLen (loc : Locale) (rplen : Int) : Int := if rplen = -3 then loc.mbrtowc_len else rplen

/-- The bytes written for the radix point. -/
def radixChars (loc : Locale) (rplen : Int) (rpchr : Nat) : List Nat :=
  if radixChr loc rplen rpchr = 0 then [46]
  else
    match loc.wcrtomb (radixChr loc rplen rpchr) with
    | [] => [46]
    | b :: bs => b :: bs

/-- Two descriptors that agree on everything the handlers read, and may differ in the
sink: buffer, stream, quota and the two sink flags `0x2000`, `0x1000`. -/
def SameControl (s t : PFormat) : Prop :=
  s.flags ||| 0x3000 = t.flags ||| 0x3000 ∧ s.width = t.width ∧ s.precision = t.precision ∧
  s.rplen = t.rplen ∧ s.rpchr = t.rpchr ∧ s.count = t.count ∧ s.expmin = t.expmin

/-- Width left by `___pformat_emit_float` after the space padding. -/
def efW2 (sign : Nat) (len : Int) (s : PFormat) : Int :=
  if (emitFloatReserve sign len s).2 then
    (if 0 < (emitFloatReserve sign len s).1 then -1 else (emitFloatReserve sign len s).1 - 1)
  else (emitFloatReserve sign len s).1

/-- Precision with which `___pformat_emit_float` enters its last loop. -/
def efP6 (len : Int) (s : PFormat) : Int := if len < 0 then s.precision + len else s.precision

/-- The characters written by `___pformat_emit_float`, in order: padding spaces, sign, padding
zeros, integer part, radix point, zeros after it, remaining digits. -/
def emitFloatChars (loc : Locale) (sign : Nat) (value : List Nat) (len : Int) (s : PFormat) :
    List Nat :=
  (if (emitFloatReserve sign len s).2
    then List.replicate (emitFloatReserve sign len s).1.toNat 32 else []) ++
  signChars sign s.flags ++
  (if 1 ≤ efW2 sign len s ∧ s.flags &&& 1536 = 512
    then List.replicate (efW2 sign len s).toNat 48 else []) ++
  (if 0 < len then digitsPad value len.toNat else [48]) ++
  (if 1 ≤ s.precision ∨ s.flags &&& 0x800 ≠ 0 then radixChars loc s.rplen s.rpchr else []) ++
  (if len < 0 then List.replicate (-len).toNat 48 else []) ++
  digitsPad (if 0 < len then value.drop len.toNat else value) (efP6 len s).toNat

/-- The descriptor as `___pformat_emit_float` leaves it, apart from the output. -/
def emitFloatCtl (loc : Locale) (sign : Nat) (len : Int) (s t : PFormat) : PFormat :=
  upd t (if 1 ≤ efW2 sign len s ∧ s.flags &&& 1536 = 512 then -1 else efW2 sign len s)
    (if 0 < efP6 len s then -1 else efP6 len s - 1)
    (if 1 ≤ s.precision ∨ s.flags &&& 0x800 ≠ 0 then radixLen loc s.rplen else s.rplen)
    (if 1 ≤ s.precision ∨ s.flags &&& 0x800 ≠ 0 then radixChr loc s.rplen s.rpchr else s.rpchr)

/-- The descriptor with its flags replaced. -/
def setFlags (s : PFormat) (fl : Nat) : PFormat := { s with flags := fl }

/-- Flags as `___pformat_int` leaves them: the minus-sign request is dropped for a value that is
not negative. -/
def intFlags (value : Int) (fl : Nat) : Nat :=
  if fl &&& 0x80 ≠ 0 ∧ ¬ value < 0 then fl &&& (2 ^ 32 - 129) else fl

/-- The digits that `___pformat_int` has in its buffer before it looks at the width, in
storage order. -/
def intBuf (value : Int) (fl : Nat) (p : Int) : List Nat :=
  let mag : Nat := if decide (fl &&& 0x80 ≠ 0 ∧ value < 0) then ((-value) % 2 ^ 64).toNat
                   else (value % 2 ^ 64).toNat
  let b1 := intDigitsRev 20 mag
  let b2 := if 1 ≤ p ∧ 1 ≤ p - b1.length
            then b1 ++ List.replicate (p - b1.length).toNat 48 else b1
  if b2 = [] ∧ p ≠ 0 then [48] else b2

/-- Width handling of `___pformat_int`: the zeros appended to the buffer, the width left for the
final padding loop, and the spaces written on the left. -/
def intStage (value : Int) (s : PFormat) : List Nat × Int × List Nat :=
  let fl := intFlags value s.flags
  let b3 := intBuf value s.flags s.precision
  if s.width < 1 then ([], s.width, [])
  else
    let v36 := s.width - b3.length
    if v36 < 1 then ([], v36, [])
    else
      let v35 := if fl &&& 448 ≠ 0 then v36 - 1 else v36
      if s.precision < 0 ∧ fl &&& 1536 = 512 then
        (if 0 < v35 then (List.replicate v35.toNat 48, -1, []) else ([], v35 - 1, []))
      else if fl &&& 1024 = 0 then
        ([], if 0 < v35 then -1 else v35 - 1, List.replicate v35.toNat 32)
      else ([], v35, [])

/-- The sign character that `___pformat_int` appends to its buffer. -/
def intSign (fl : Nat) : List Nat :=
  if fl &&& 0x80 ≠ 0 then [45] else if fl &&& 256 ≠ 0 then [43]
  else if fl &&& 64 ≠ 0 then [32] else []

/-- The characters written by `___pformat_int`. -/
def intChars (value : Int) (s : PFormat) : List Nat :=
  (intStage value s).2.2 ++
  (intBuf value s.flags s.precision ++ (intStage value s).1 ++
    intSign (intFlags value s.flags)).reverse ++
  List.replicate (intStage value s).2.1.toNat 32

/-- The width field as `___pformat_int` leaves it. -/
def intWidth (value : Int) (s : PFormat) : Int :=
  if 0 < (intStage value s).2.1 then -1 else (intStage value s).2.1 - 1

/-- The number of characters `___pformat_putchars` takes from its argument (`v4`). -/
def putcharsLen (n : Int) (s : PFormat) : Int :=
  if (decide (s.precision > -1) == decide (n > s.precision)) then s.precision else n

/-- Width with which `___pformat_putchars` reaches its final padding loop. -/
def putcharsW (n : Int) (s : PFormat) : Int :=
  if s.width > putcharsLen n s then
    (if 1 ≤ s.width - putcharsLen n s ∧ s.flags &&& 0x400 = 0 then
      (if 0 < s.width - putcharsLen n s then -1 else s.width - putcharsLen n s - 1)
     else s.width - putcharsLen n s)
  else -1

/-- The characters written by `___pformat_putchars`: spaces on the left, the text, spaces on the
right. -/
def putcharsChars (cs : List Nat) (n : Int) (s : PFormat) : List Nat :=
  (if s.width > putcharsLen n s ∧ 1 ≤ s.width - putcharsLen n s ∧ s.flags &&& 0x400 = 0
    then List.replicate (s.width - putcharsLen n s).toNat 32 else []) ++
  (List.range (putcharsLen n s).toNat).map (fun i => cs.getD i 0) ++
  List.replicate (putcharsW n s).toNat 32

/-- The text that `___pformat_emit_inf_or_nan` hands to `___pformat_putchars`: an optional sign and
three letters. -/
def infNanText (sign : Nat) (value : List Nat) (fl : Nat) : List Nat :=
  signChars sign fl ++ (List.range 3).map (fun i => ((value.getD i 0) &&& 223) ||| (fl &&& 32))

/-- Width of the exponent digits in `___pformat_emit_efloat` (`v8`). -/
def expWidth (e : Int) (s : PFormat) : Int :=
  if expDigits 10 (e - 1) < s.expmin then s.expmin else expDigits 10 (e - 1)

/-- The descriptor with which `___pformat_emit_efloat` calls `___pformat_emit_float`. -/
def efloatS1 (e : Int) (s : PFormat) : PFormat :=
  upd s (if s.width > expWidth e s + 2 then s.width - (expWidth e s + 2) else -1)
    s.precision s.rplen s.rpchr

/-- The descriptor with which `___pformat_emit_efloat` calls `___pformat_int`, apart from the
output written so far. -/
def efloatS5 (loc : Locale) (sign : Nat) (e : Int) (s : PFormat) : PFormat :=
  setFlags
    (upd s (expWidth e s + 1 + (emitFloatCtl loc sign 1 (efloatS1 e s) s).width) s.expmin
      (emitFloatCtl loc sign 1 (efloatS1 e s) s).rplen
      (emitFloatCtl loc sign 1 (efloatS1 e s) s).rpchr)
    (s.flags ||| 448)

/-- The characters written by `___pformat_emit_efloat`: the mantissa, the exponent letter, the
exponent. -/
def emitEfloatChars (loc : Locale) (sign : Nat) (value : List Nat) (e : Int) (s : PFormat) :
    List Nat :=
  emitFloatChars loc sign value 1 (efloatS1 e s) ++ [69 ||| ((s.flags ||| 448) &&& 0x20)] ++
  intChars (e - 1) (efloatS5 loc sign e s)

/-- A bignum in the form the routines keep it: at least one word, every word below 2^32,
and no zero word at the top unless it is the only word. -/
def Bigint.Normal (b : Bigint) : Prop :=
  1 ≤ b.wds ∧ (∀ w ∈ b.x, w < 2 ^ 32) ∧ (1 < b.wds → getW b.x (b.wds - 1) ≠ 0)

/-! ## The format parser of `___mingw_pformat`: the `*` case -/

/-- What the pointer `width_spec` (frame offset +16, `v29` in the listing) refers to: the width
field (+36), the precision field (+40, after a `.`), or nothing (null, once a value has
been read). -/
inductive WidthSpec where
  | width
  | precision
  | null
deriving DecidableEq, Repr

/-- The part of the frame of `___mingw_pformat` that the `*` case reads and writes: the parser
state `v34` (0 at the start of a conversion, 2 after `.`, 4 for a conversion that is given
up), `width_spec`, and the flags (+32), width (+36) and precision (+40) of the conversion. -/
structure ParseState where
  state : Nat
  width_spec : WidthSpec
  flags : Nat
  width : Int
  precision : Int
deriving DecidableEq, Repr

/-- A value stored into a 32-bit `int`: reduction to the range `-2^31 .. 2^31 - 1`. -/
def wrap32 (z : Int) : Int := (z + 2 ^ 31) % 2 ^ 32 - 2 ^ 31

/-- Model of case 42 (`'*'`, 0x404358) of the switch in `___mingw_pformat`; `arg` is the `int`
fetched from the argument list (`*v2`).  With `width_spec` null the conversion is given up
(0x40427f).  In state 0 or 2 (the listing's `(v34 || 2) == 2`, a bitwise or) the value is
stored through `width_spec`; a negative one resets the precision to -1 in state 2
(0x404622), and in state 0 negates the width and sets the flag `0x400` (0x40460e).  In any
other state the conversion is given up (0x4043fc).  `width_spec` is cleared. -/
def pformatStar (arg : Int) (p : ParseState) : ParseState :=
  match p.width_spec with
  | WidthSpec.null => { p with state := 4 }
  | t =>
    if p.state ||| 2 = 2 then
      let p1 : ParseState :=
        match t with
        | WidthSpec.width => { p with width := arg }
        | WidthSpec.precision => { p with precision := arg }
        | WidthSpec.null => p
      let p2 : ParseState :=
        if arg < 0 then
          (if p.state ≠ 0 then { p1 with precision := -1 }
           else { p1 with width := wrap32 (-p1.width), flags := p1.flags ||| 1024 })
        else p1
      { p2 with width_spec := WidthSpec.null }
    else { p with width_spec := WidthSpec.null, state := 4 }

/-- Model of case 46 (`'.'`, 0x40447c): before a precision has been started the precision is
set to 0, `width_spec` is pointed at it and the state becomes 2; otherwise the conversion is
given up. -/
def pformatDot (p : ParseState) : ParseState :=
  if p.state < 2 then { p with precision := 0, width_spec := WidthSpec.precision, state := 2 }
  else { p with state := 4 }

/-- The frame at the start of a conversion (0x403d14): width and precision -1, the flags of the
call, `width_spec` pointing at the width, state 0. -/
def parseStart (flags : Nat) : ParseState :=
  { state := 0, width_spec := WidthSpec.width, flags := flags, width := -1, precision := -1 }

/-! ## Infinities and NaNs in the output -/

/-- The output for an infinity or a NaN as the spec describes it: the token `inf` or `nan` (upper
case unless the flag `0x20` of a lower-case conversion letter is set), preceded by the sign
character (`-` for a negative infinity, else `+` or a space per the flags `0x100`, `0x40`),
padded with spaces to the width, on the right with the flag `0x400` and on the left
without. -/
def infNanOut (nan : Bool) (sign fl : Nat) (width : Int) : List Nat :=
  let sg : List Nat :=
    if sign ≠ 0 then [45] else if fl &&& 256 ≠ 0 then [43] else if fl &&& 64 ≠ 0 then [32] else []
  let tok : List Nat :=
    if nan then (if fl &&& 32 = 0 then [78, 65, 78] else [110, 97, 110])
    else (if fl &&& 32 = 0 then [73, 78, 70] else [105, 110, 102])
  let pad : Nat := (width - (sg.length + 3)).toNat
  (if fl &&& 0x400 = 0 then List.replicate pad 32 else []) ++ sg ++ tok ++
    (if fl &&& 0x400 ≠ 0 then List.replicate pad 32 else [])

/-! ## The fixed form and its padding -/

/-- The characters of the number itself in the fixed form: the integer part (the first `len`
digits of the converter's string, zero filled, or a single `0`), the radix point (with a
precision of 1 or more, or with `#`), and the `precision` characters after it. -/
def floatBody (loc : Locale) (value : List Nat) (len : Int) (s : PFormat) : List Nat :=
  (if 0 < len then digitsPad value len.toNat else [48]) ++
  (if 1 ≤ s.precision ∨ s.flags &&& 0x800 ≠ 0 then radixChars loc s.rplen s.rpchr else []) ++
  (List.replicate (-len).toNat 48 ++
    digitsPad (value.drop len.toNat) (s.precision + min len 0).toNat)

/-- The natural width of a number in the fixed form: integer part, one place for the radix
point if there is one, the precision, and the sign character if there is one. -/
def floatNatural (sign : Nat) (len : Int) (s : PFormat) : Int :=
  (if 0 < len then len else 1) + (if 1 ≤ s.precision ∨ s.flags &&& 0x800 ≠ 0 then 1 else 0) +
    s.precision + (signChars sign s.flags).length

/-! ## Normal form of bignums -/

/-- A bignum whose words are 32-bit and whose top word is not 0 when it has more than one
word.  Zero has two such forms: no words, with `x[0] = 0` (as `___quorem_D2A` and `___rshift_D2A`
leave it), and the single word 0. -/
def Bigint.Norm (b : Bigint) : Prop :=
  (∀ w ∈ b.x, w < 2 ^ 32) ∧ (b.wds = 0 → getW b.x 0 = 0) ∧
    (1 < b.wds → getW b.x (b.wds - 1) ≠ 0)

/-- A bignum in normal form that is not zero: at least one word, the top word not 0. -/
def Bigint.Pos (b : Bigint) : Prop :=
  (∀ w ∈ b.x, w < 2 ^ 32) ∧ 1 ≤ b.wds ∧ getW b.x (b.wds - 1) ≠ 0

/-! ## Stages of `___quorem_D2A`, for the proofs -/

/-- First stage of `___quorem_D2A` (0x405f4e .. 0x40604b): `q * S` is subtracted from the low
`S.wds` words of `b` when the estimate `q` is not 0.  The second component is the index
`v12` the second stage starts from. -/
def quoremFirst (b S : Bigint) : Bigint × Nat :=
  let v4 := S.wds - 1
  let v10 := getW b.x v4
  let v11 := (getW S.x v4 + 1) % 2 ^ 32
  let q := v10 / v11
  if v11 ≤ v10 then
    let x1 := quoremSub q (wordsOf b.x S.wds) (wordsOf S.x S.wds) 0 0 ++ b.x.drop S.wds
    if getW x1 v4 = 0 then
      ({ b with x := x1, wds := quoremTrim v4 x1 }, quoremTrim v4 x1)
    else ({ b with x := x1 }, v4)
  else (b, v4)

/-- Second stage of `___quorem_D2A` (0x40604b .. 0x406130): when the rest is not below `S`, `S`
is subtracted once more and the quotient is raised by one. -/
def quoremSecond (r1 : Bigint × Nat) (S : Bigint) (q : Nat) : Nat × Bigint :=
  if ___cmp_D2A r1.1 S < 0 then (q, r1.1)
  else
    let x2 := subWords (wordsOf r1.1.x S.wds) (wordsOf S.x S.wds) 0 ++ r1.1.x.drop S.wds
    if getW x2 r1.2 ≠ 0 then (q + 1, { r1.1 with x := x2 })
    else (q + 1, { r1.1 with x := x2, wds := quoremTrim r1.2 x2 })

/-! ## The exponent estimate, for the proofs -/

/-- The exact expression which `kEstimate` evaluates in x87 arithmetic. -/
def estExact (d2 : ℚ) (i : Int) : ℚ :=
  c_log10_2 * i + c_log10_slope * (d2 - 3 / 2) + c_log10_base +
    c_7em17 * ((max (|i| - 1077) 0 : Int) : ℚ)

/-- The inequalities checked for the binade `[2^n, 2^(n+1))`: `E1 / 2^104` is the exact
estimate at the lower end, `A` and `B` are the floors of the least and the largest
estimate in the binade (with a margin of `2^-36` for the rounding of the x87 steps).
The binade does not reach below `10^(B-1)`; it does not reach `10^(A+1)`, or it
does not reach `10^(A+2)` and the estimate at `10^(A+1)` is at least `A + 1`. -/
def estChkPos (n E1 A B : Nat) : Bool :=
  Nat.ble (A * 2 ^ 104 + 2 ^ 68) E1 &&
  Nat.blt (E1 + 5215702578316129 * 2 ^ 50 + 2 ^ 68) ((B + 1) * 2 ^ 104) &&
  Nat.ble (10 ^ B) (10 * 2 ^ n) &&
  (Nat.ble (2 ^ (n + 1)) (10 ^ (A + 1)) ||
    (Nat.ble ((4 * (A + 1) * 2 ^ 104 + 4 * 2 ^ 68 + 5215702578316129 * 2 ^ 52 +
          5215702578316129) * 2 ^ n)
        (4 * E1 * 2 ^ n + 5215702578316129 * 2 ^ 52 * 10 ^ (A + 1)) &&
      Nat.ble (2 ^ (n + 1)) (10 ^ (A + 2))))

/-- The check of the exponent estimate for the binade `[2^n, 2^(n+1))`. -/
def estOkPos (n : Nat) : Bool :=
  let E1 : Nat := 5422874305198587 * 2 ^ 50 * n +
    (6344356229335219 - 5215702578316129) * 2 ^ 49 + 1419768672255617 * (n - 1077)
  estChkPos n E1 ((E1 - 2 ^ 68) / 2 ^ 104) ((E1 + 5215702578316129 * 2 ^ 50 + 2 ^ 68) / 2 ^ 104)

/-- The inequalities checked for the binade `[2^-n, 2^(1-n))`, `n >= 1`: here the exact
estimate at the lower end is `(Q1 - M1) / 2^104`, and `-a`, `-b` take the place of `A`
and `B`. -/
def estChkNeg (n Q1 M1 a b : Nat) : Bool :=
  Nat.ble 1 n && Nat.ble 1 a &&
  Nat.ble (M1 + 2 ^ 68) (a * 2 ^ 104 + Q1) &&
  Nat.blt (Q1 + 5215702578316129 * 2 ^ 50 + 2 ^ 68 + b * 2 ^ 104) (M1 + 2 ^ 104) &&
  Nat.ble (2 ^ n) (10 ^ (b + 1)) &&
  (Nat.ble (10 ^ (a - 1)) (2 ^ (n - 1)) ||
    (Nat.ble ((4 * (M1 + 2 ^ 68) + 4 * 2 ^ 104 + 5215702578316129 * 2 ^ 52 +
          5215702578316129) * 10 ^ (a - 1))
        ((4 * Q1 + 4 * a * 2 ^ 104) * 10 ^ (a - 1) + 5215702578316129 * 2 ^ 52 * 2 ^ n) &&
      Nat.ble (10 ^ (a - 2)) (2 ^ (n - 1) * 10 ^ (2 - a))))

/-- The check of the exponent estimate for the binade `[2^-n, 2^(1-n))`. -/
def estOkNeg (n : Nat) : Bool :=
  let Q1 : Nat := (6344356229335219 - 5215702578316129) * 2 ^ 49 + 1419768672255617 * (n - 1077)
  let M1 : Nat := 5422874305198587 * 2 ^ 50 * n
  estChkNeg n Q1 M1 ((M1 + 2 ^ 68 - Q1 + 2 ^ 104 - 1) / 2 ^ 104)
    ((M1 - (Q1 + 5215702578316129 * 2 ^ 50 + 2 ^ 68) + 2 ^ 104 - 1) / 2 ^ 104)

/-- The check `estOkPos` for `n` binades from `j` on. -/
def estOkPosFrom : Nat → Nat → Bool
  | 0, _ => true
  | n + 1, j => estOkPos j && estOkPosFrom n (j + 1)

/-- The check `estOkNeg` for `n` binades from `j` on. -/
def estOkNegFrom : Nat → Nat → Bool
  | 0, _ => true
  | n + 1, j => estOkNeg j && estOkNegFrom n (j + 1)

/-! ## Representable numbers, for the proofs -/

/-- A rational which fits a significand of `p` bits: `|q| = m * 2^e` with `m < 2^p`. -/
def Rep (p : Nat) (q : ℚ) : Prop := ∃ (m : Nat) (e : Int), |q| = (m : ℚ) * 2 ^ e ∧ m < 2 ^ p

/-! ## Well-formed digit strings, for the proofs -/

/-- A digit string as the converter should return it: only the characters `'0'`..`'9'`,
the first one not `'0'`. -/
def GoodDigits (l : List Nat) : Prop := (∀ c ∈ l, 48 ≤ c ∧ c ≤ 57) ∧ l.head? ≠ some 48

/-! ## Normalized bignums, the allocator arena and the cache of powers of five -/

/-- A normalized bignum: 32-bit words, and the most significant of the `wds` words is not 0;
so the value zero has word count 0. -/
def Bigint.Canon (b : Bigint) : Prop :=
  (∀ w ∈ b.x, w < 2 ^ 32) ∧ (1 ≤ b.wds → getW b.x (b.wds - 1) ≠ 0)

/-- The arena of the allocator: the sixteen free lists at `g30` (each a chain of blocks
linked through the word at +0, the head first) and the distance in bytes of the pool
pointer `g6` from the start `g31` of the static pool. -/
structure Arena where
  freelist : List (List Bigint)
  pmem : Nat
deriving DecidableEq, Repr

/-- Model of `___Balloc_D2A` (0x406400) on the arena.  A block at the head of free list `k` is
taken off the list and only its sign and word count are cleared.  Otherwise a block
of `1 << k` words (an x86 shift: the count is taken modulo 32) is carved from the
static pool when `(4 * maxwds + 27) / 8` more doubles fit below 289, else it comes from
`malloc`, whose memory holds the words `junk`.  Pool memory has not been written before. -/
def ___Balloc_D2A_st (A : Arena) (k : Nat) (junk : List Nat) : Bigint × Arena :=
  match A.freelist.getD k [] with
  | rv :: rest => ({ rv with sign := 0, wds := 0 }, { A with freelist := A.freelist.set k rest })
  | [] =>
    let v2 := 2 ^ (k % 32) % 2 ^ 32
    let v4 := (4 * v2 + 27) % 2 ^ 32
    let size := v4 - v4 % 8
    if A.pmem / 8 + v4 / 8 < 289 then
      ({ k := k, maxwds := v2, sign := 0, wds := 0, x := [] }, { A with pmem := A.pmem + size })
    else ({ k := k, maxwds := v2, sign := 0, wds := 0, x := junk }, A)

/-- The loop of `___pow5mult_D2A` (0x4069c4) on the cache: `p5` is the current power, `rest` the
chain behind it (`p5->next` and so on).  A missing next power is built as `p5 * p5` and
linked in.  Returns the product and the chain behind `p5` as it is afterwards. -/
def pow5loop_st : Nat → Bigint → Bigint → List Bigint → Nat → Bigint × List Bigint
  | 0, b, _, rest, _ => (b, rest)
  | fuel + 1, b, p5, rest, k =>
    let b1 := if k % 2 = 1 then ___mult_D2A b p5 else b
    if k / 2 = 0 then (b1, rest)
    else
      match rest with
      | p51 :: rest1 =>
        let r := pow5loop_st fuel b1 p51 rest1 (k / 2)
        (r.1, p51 :: r.2)
      | [] =>
        let p51 := ___mult_D2A p5 p5
        let r := pow5loop_st fuel b1 p51 [] (k / 2)
        (r.1, p51 :: r.2)

/-- Model of `___pow5mult_D2A` (0x406990) with the cache `g32` of powers `5^4, 5^8, 5^16, ...` as
state: the empty list is the null pointer, the chain is extended on demand and
never shortened.  Returns the product and the cache afterwards. -/
def ___pow5mult_D2A_st (cache : List Bigint) (b : Bigint) (k : Nat) : Bigint × List Bigint :=
  let b1 := if k % 4 ≠ 0 then ___multadd_D2A b ([5, 25, 125].getD (k % 4 - 1) 0) 0 else b
  if k / 4 = 0 then (b1, cache)
  else
    match cache with
    | p5 :: rest =>
      let r := pow5loop_st 32 b1 p5 rest (k / 4)
      (r.1, p5 :: r.2)
    | [] =>
      let p5 := ___i2b_D2A 625
      let r := pow5loop_st 32 b1 p5 [] (k / 4)
      (r.1, p5 :: r.2)

/-- The `i`-th block of the cache as the program builds it: `___i2b_D2A 625`, then squares. -/
def p5chain : Nat → Bigint
  | 0 => ___i2b_D2A 625
  | i + 1 => ___mult_D2A (p5chain i) (p5chain i)

/-- The cache after `c` powers have been built (`c = 0`: nothing built yet). -/
def p5cache (c : Nat) : List Bigint := (List.range c).map p5chain

/-! ## Capacity of blocks, result buffers of the converter and `_vsnprintf` -/

/-- A block whose word count does not exceed its capacity, the capacity being `2^class`. -/
def Bigint.Fits (b : Bigint) : Prop := b.wds ≤ b.maxwds ∧ b.maxwds = 2 ^ b.k

/-- The divisor of the quotient estimate of `___quorem_D2A` (0x405f6c, `v11`): the most
significant word of `S` plus one, a 32-bit sum. -/
def quoremDivisor (S : Bigint) : Nat := (getW S.x (S.wds - 1) + 1) % 2 ^ 32

/-- The output side of `___mingw_pformat` (0x403c60): the descriptor is set up with the sink flags
`flags`, the destination `dest` and the quota `max`, and every character that the
conversions produce, `out` in all, goes through `___pformat_putc`.  How the format is
interpreted is not part of this model.  The function returns the counter of the
descriptor (`v19 + 52`). -/
def ___mingw_pformat (flags : Nat) (dest : Nat → Nat) (max : Nat) (out : List Nat) : PFormat :=
  putcs out { buf := dest, file := [], flags := flags, width := -1, precision := -1,
              rplen := -3, rpchr := 0, count := 0, quota := max, expmin := 2 }

/-- Model of `_vsnprintf` (0x402880): `a1` is the buffer, `a2` its size and `out` the characters
of the formatted text.  With size 0 the formatter runs with quota 0; otherwise it runs
with quota `a2 - 1` and a NUL is stored at the index `a2 - 1` when the returned count is
above it (an unsigned comparison) and at the index equal to the count when not.
Returns the buffer and the count. -/
def _vsnprintf (a1 : Nat → Nat) (a2 : Nat) (out : List Nat) : (Nat → Nat) × Nat :=
  if a2 = 0 then
    ((___mingw_pformat 0 a1 0 out).buf, (___mingw_pformat 0 a1 0 out).count)
  else
    let v2 := (a2 - 1) % 2 ^ 32
    let s := ___mingw_pformat 0 a1 v2 out
    if s.count > v2 then (Function.update s.buf v2 0, s.count)
    else (Function.update s.buf s.count 0, s.count)

/-! ## The bignum routines with the word types of the listing

The listing declares the words that `___mult_D2A`, `___quorem_D2A`, `___lshift_D2A` and
`___rshift_D2A` load as `int32_t`, and the borrow of `___diff_D2A` and `___quorem_D2A` as an
`int32_t` that is computed with `% 2`.  The definitions `___mult_D2A`, `___lshift_D2A`,
`___diff_D2A`, `___quorem_D2A` and `___rshift_D2A` above read every word as an unsigned number
and the borrow as 0 or 1; that is the reading under which the converter is embedded.
The definitions of this section follow the declared types instead: a loaded word is
sign-extended before it is multiplied or shifted right, and the borrow is the
`int32_t` the listing computes, which can be -1.  The two readings agree as long as
no word with bit 31 set is multiplied or shifted right and no borrow meets equal
words.  `___cmp_D2A`, `___i2b_D2A`, `___multadd_D2A` and `___trailz_D2A` load their words as
`uint32_t` or only test them against 0, so they are the same in both readings. -/

/-- A 32-bit word read as `int32_t`. -/
def sext32 (w : Nat) : Int := if w < 2 ^ 31 then (w : Int) else (w : Int) - 2 ^ 32

/-- The 32-bit pattern of an integer (a store into a 32-bit location). -/
def pat32 (i : Int) : Nat := (i % 2 ^ 32).toNat

/-- The 64-bit pattern of an integer (a store into a `uint64_t`). -/
def pat64 (i : Int) : Nat := (i % 2 ^ 64).toNat

/-- The shift `w >> k` of a word loaded as `int32_t`: the sign bit fills the vacated bits. -/
def sar32 (w k : Nat) : Nat := pat32 (sext32 w >>> k)

/-- The borrow `((int32_t)(a < b) - (int32_t)(d < borrow)) % 2` of the subtraction loops
(listing lines 7494 and 7505 of `___diff_D2A`, 7111, 7124, 7169 and 7181 of
`___quorem_D2A`): `a` is the minuend word, `b` the subtrahend, `d` their
32-bit difference; `d` is compared with the borrow as an unsigned number and the
remainder is that of C, which keeps the sign. -/
def borrow32 (a b d : Nat) (borrow : Int) : Int :=
  Int.tmod ((if a < b then 1 else 0) - (if d < pat32 borrow then 1 else 0)) 2

/-- One row of `___mult_D2A` (0x4067ba .. 0x40681e) as typed in the listing: the word `w` of the
longer operand is loaded as `int32_t`, the word `y` of the shorter one as `uint32_t`;
`v19` is their 64-bit product, `v21` the word of the result so far, `v24` the carry. -/
def Listed.mulRow (y : Nat) : List Nat → List Nat → Nat → List Nat
  | [], acc, v24 => v24 :: acc.tail
  | w :: ws, acc, v24 =>
    let v19 : Nat := pat64 (sext32 w * (y : Int))
    let v21 := acc.headD 0
    let v22 : Nat := (v21 + v19 % 2 ^ 32) % 2 ^ 32
    let v23 : Nat := (v22 + v24) % 2 ^ 32
    let c : Nat := ((if v22 < v21 then 1 else 0) + v19 / 2 ^ 32 + (if v23 < v22 then 1 else 0)) % 2 ^ 32
    v23 :: Listed.mulRow y ws acc.tail c

/-- The outer loop of `___mult_D2A` (0x406820) over the words of the shorter operand. -/
def Listed.mulRows (xa : List Nat) : List Nat → List Nat → List Nat
  | [], acc => acc
  | y :: ys, acc =>
    let acc1 := if y ≠ 0 then Listed.mulRow y xa acc 0 else acc
    match acc1 with
    | [] => []
    | h :: t => h :: Listed.mulRows xa ys t

/-- The routine `___mult_D2A` (0x406710) as typed in the listing.  The operand with more words
(the first one when the counts are equal) is the one whose words are loaded as
`int32_t`.  The list `x` of the result holds the words that the routine stores; when
both operands have no word it stores none, and word 0 of the block keeps what it
held. -/
def Listed.___mult_D2A (a b : Bigint) : Bigint :=
  let a1 := if a.wds < b.wds then b else a
  let b1 := if a.wds < b.wds then a else b
  let wc := a1.wds + b1.wds
  let c := ___Balloc_D2A (a1.k + (if wc > a1.maxwds then 1 else 0))
  let xc := Listed.mulRows (wordsOf a1.x a1.wds) (wordsOf b1.x b1.wds) (List.replicate wc 0)
  { c with wds := trimTop wc xc, x := xc }

/-- The shifting loop of `___lshift_D2A` (0x4066a7) as typed in the listing: the bits carried
into the next word are `*x >> (32 - k)` of a word loaded as `int32_t`. -/
def Listed.shlWords (k : Nat) : List Nat → Nat → List Nat
  | [], z => [z]
  | w :: ws, z => ((w <<< k ||| z) % 2 ^ 32) :: Listed.shlWords k ws (sar32 w (32 - k))

/-- The routine `___lshift_D2A` (0x406610) as typed in the listing. -/
def Listed.___lshift_D2A (b : Bigint) (k : Nat) : Bigint :=
  let n := k / 32
  let n1 := n + b.wds + 1
  let b1 := ___Balloc_D2A (lshiftClass 32 n1 b.k b.maxwds)
  let src := wordsOf b.x (max b.wds 1)
  if k % 32 = 0 then
    { b1 with wds := n1 - 1, x := List.replicate n 0 ++ src }
  else
    let sh := Listed.shlWords (k % 32) src 0
    { b1 with wds := if sh.getLastD 0 ≠ 0 then n1 else n1 - 1, x := List.replicate n 0 ++ sh }

/-- The first loop of `___diff_D2A` (0x406512), over the words of the smaller operand: the
word stored is `a - b - borrow` in 32 bits, the new borrow is `borrow32`.  The second
component is the borrow after the last word. -/
def Listed.diffLow : List Nat → List Nat → Int → List Nat × Int
  | [], _, v10 => ([], v10)
  | v11 :: as, bs, v10 =>
    let v12 := bs.headD 0
    let v13 : Nat := (v11 + 2 ^ 32 - v12) % 2 ^ 32
    let r := Listed.diffLow as bs.tail (borrow32 v11 v12 v13 v10)
    (pat32 ((v13 : Int) - v10) :: r.1, r.2)

/-- The second loop of `___diff_D2A` (0x406561), over the remaining words of the larger operand:
the word stored is `a - borrow` in 32 bits, the new borrow is `a < borrow` with the
borrow read as an unsigned number. -/
def Listed.diffHigh : List Nat → Int → List Nat
  | [], _ => []
  | v21 :: as, v18 =>
    pat32 ((v21 : Int) - v18) :: Listed.diffHigh as (if v21 < pat32 v18 then 1 else 0)

/-- The trimming loop of `___diff_D2A` (0x4065a0), entered when the top word stored is 0: it
steps down to the first word that is not 0 and has no test for the start of the
words.  `diffTrim sign xc j` is the word count it ends with when the words from index
`j` up are 0.  Below word 0 lie the word count of the block (0 since `___Balloc_D2A`), its
sign flag and its capacity (not 0), so the loop ends there with the count -1 or -2,
given here as the 32-bit pattern that is stored. -/
def Listed.diffTrim (sign : Nat) (xc : List Nat) : Nat → Nat
  | 0 => if sign ≠ 0 then 2 ^ 32 - 1 else 2 ^ 32 - 2
  | j + 1 => if getW xc j ≠ 0 then j + 1 else Listed.diffTrim sign xc j

/-- The routine `___diff_D2A` (0x4064a0) as typed in the listing: the operands are ordered by
`___cmp_D2A`, the first loop runs over the words of the smaller one (at least once), the
second over the remaining words of the larger one, and the word count is that of
the larger operand when the last word stored is not 0, else what the trimming loop
ends with. -/
def Listed.___diff_D2A (a b : Bigint) : Bigint :=
  let i := ___cmp_D2A a b
  if i = 0 then { ___Balloc_D2A 0 with wds := 1, x := [0] }
  else
    let a1 := if i < 0 then b else a
    let b1 := if i < 0 then a else b
    let c := ___Balloc_D2A a1.k
    let sign := if i < 0 then 1 else 0
    let n1 := max b1.wds 1
    let lo := Listed.diffLow (wordsOf a1.x n1) (wordsOf b1.x n1) 0
    let xc := lo.1 ++ Listed.diffHigh ((wordsOf a1.x a1.wds).drop n1) lo.2
    { c with sign := sign,
             wds := if xc.getLastD 0 ≠ 0 then a1.wds
                    else Listed.diffTrim sign xc (a1.wds - 1),
             x := xc }

/-- The first loop of `___quorem_D2A` (0x406090) as typed in the listing: the word of `S` is
loaded as `int32_t` and multiplied by the estimate `q`, `v22` is the carry of the
products and `v15` the borrow of the subtraction. -/
def Listed.quoremSub (q : Nat) : List Nat → List Nat → Nat → Int → List Nat
  | [], _, _, _ => []
  | v20 :: bs, ss, v22, v15 =>
    let v16 : Nat := pat64 (sext32 (ss.headD 0) * (q : Int))
    let v17 : Nat := v16 % 2 ^ 32
    let v18 : Nat := (v22 + v17) % 2 ^ 32
    let v21 : Nat := (v20 + 2 ^ 32 - v18) % 2 ^ 32
    pat32 ((v21 : Int) - v15) ::
      Listed.quoremSub q bs ss.tail (((if v18 < v17 then 1 else 0) + v16 / 2 ^ 32) % 2 ^ 32)
        (borrow32 v20 v18 v21 v15)

/-- The second loop of `___quorem_D2A` (0x405fc4) as typed in the listing: `S` is subtracted once
more; `v37` is the carry of `S[i] + v37` and `v31` the borrow. -/
def Listed.quoremSub2 : List Nat → List Nat → Nat → Int → List Nat
  | [], _, _, _ => []
  | v35 :: bs, ss, v37, v31 =>
    let v32 := ss.headD 0
    let v33 : Nat := (v32 + v37) % 2 ^ 32
    let v36 : Nat := (v35 + 2 ^ 32 - v33) % 2 ^ 32
    pat32 ((v36 : Int) - v31) ::
      Listed.quoremSub2 bs ss.tail (if v33 < v32 then 1 else 0) (borrow32 v35 v33 v36 v31)

/-- The routine `___quorem_D2A` (0x405f20) as typed in the listing, for a divisor with at least
one word and a top word below `2^32 - 1`; the stages are those of `___quorem_D2A` above.
(With the top word `2^32 - 1` the divisor `v11` of the estimate is 0 and the code
traps; with no word the code takes the word count for the top word.) -/
def Listed.___quorem_D2A (b S : Bigint) : Nat × Bigint :=
  if S.wds > b.wds then (0, b)
  else
    let v4 := S.wds - 1
    let v10 := getW b.x v4
    let v11 := (getW S.x v4 + 1) % 2 ^ 32
    let q := v10 / v11
    let r1 : Bigint × Nat :=
      if v11 ≤ v10 then
        let x1 := Listed.quoremSub q (wordsOf b.x S.wds) (wordsOf S.x S.wds) 0 0 ++ b.x.drop S.wds
        if getW x1 v4 = 0 then
          ({ b with x := x1, wds := quoremTrim v4 x1 }, quoremTrim v4 x1)
        else ({ b with x := x1 }, v4)
      else (b, v4)
    if ___cmp_D2A r1.1 S < 0 then (q, r1.1)
    else
      let x2 := Listed.quoremSub2 (wordsOf r1.1.x S.wds) (wordsOf S.x S.wds) 0 0 ++
        r1.1.x.drop S.wds
      if getW x2 r1.2 ≠ 0 then (q + 1, { r1.1 with x := x2 })
      else (q + 1, { r1.1 with x := x2, wds := quoremTrim r1.2 x2 })

/-- The shifting loop of `___rshift_D2A` (0x406d30) as typed in the listing: `y` is `*x >> k` of
a word loaded as `int32_t`. -/
def Listed.shrWords (k : Nat) : List Nat → Nat → List Nat
  | [], y => [y]
  | w :: ws, y => ((w <<< (32 - k) ||| y) % 2 ^ 32) :: Listed.shrWords k ws (sar32 w k)

/-- The routine `___rshift_D2A` (0x406cd0) as typed in the listing. -/
def Listed.___rshift_D2A (b : Bigint) (k : Nat) : Bigint :=
  let n := k / 32
  if n < b.wds then
    let src := (wordsOf b.x b.wds).drop n
    if k % 32 = 0 then
      { b with wds := src.length, x := src ++ b.x.drop src.length }
    else
      let out := Listed.shrWords (k % 32) src.tail (sar32 (src.headD 0) (k % 32))
      { b with wds := if out.getLastD 0 ≠ 0 then out.length else out.length - 1,
               x := out ++ b.x.drop out.length }
  else { b with wds := 0, x := 0 :: b.x.tail }

/-- The chain of `___pow5mult_D2A` (0x4069c4) with the products made by `___mult_D2A` as typed in
the listing. -/
def Listed.pow5loop : Nat → Bigint → Bigint → Nat → Bigint
  | 0, b, _, _ => b
  | fuel + 1, b, p5, k =>
    let b1 := if k % 2 = 1 then Listed.___mult_D2A b p5 else b
    if k / 2 = 0 then b1 else Listed.pow5loop fuel b1 (Listed.___mult_D2A p5 p5) (k / 2)

/-- The routine `___pow5mult_D2A` (0x406990) with the products made by `___mult_D2A` as typed in
the listing. -/
def Listed.___pow5mult_D2A (b : Bigint) (k : Nat) : Bigint :=
  let b1 := if k % 4 ≠ 0 then ___multadd_D2A b ([5, 25, 125].getD (k % 4 - 1) 0) 0 else b
  if k / 4 = 0 then b1 else Listed.pow5loop 32 b1 (___i2b_D2A 625) (k / 4)

/-- The rounding of the last digit (0x405329 .. 0x4058af) with `___lshift_D2A` as typed in the
listing. -/
def Listed.roundLast (rdir : Int) (digits : List Nat) (dig : Nat) (b S : Bigint) (k : Int) :
    List Nat × Int × Nat :=
  if rdir ≠ 0 then
    if rdir = 2 ∨ ¬ bNonzero b then (chopZeros digits, k, if bNonzero b then 16 else 0)
    else
      let r := roundOff digits k
      (r.1, r.2, 32)
  else
    let b1 := Listed.___lshift_D2A b 1
    let j := ___cmp_D2A b1 S
    if j > 0 ∨ (j = 0 ∧ dig % 2 = 1) then
      let r := roundOff digits k
      (r.1, r.2, 32)
    else (chopZeros digits, k, if bNonzero b1 then 16 else 0)

/-- The form that the bignum routines keep: every stored word is a 32-bit number, and the
most significant counted word is not 0 when more than one word is counted.  Zero has
this form with no counted word or as the single word 0. -/
def Bigint.Trimmed (b : Bigint) : Prop :=
  (∀ w ∈ b.x, w < 2 ^ 32) ∧ (1 < b.wds → getW b.x (b.wds - 1) ≠ 0)

/-! ## Basic facts about `___pformat_putc` -/

theorem putc_count (c : Nat) (s : PFormat) :
    (___pformat_putc c s).count = (s.count + 1) % 2 ^ 32 := by
  unfold ___pformat_putc; split_ifs <;> rfl

theorem putc_flags (c : Nat) (s : PFormat) : (___pformat_putc c s).flags = s.flags := by
  unfold ___pformat_putc; split_ifs <;> rfl

theorem putc_width (c : Nat) (s : PFormat) : (___pformat_putc c s).width = s.width := by
  unfold ___pformat_putc; split_ifs <;> rfl

theorem putc_precision (c : Nat) (s : PFormat) :
    (___pformat_putc c s).precision = s.precision := by
  unfold ___pformat_putc; split_ifs <;> rfl

theorem putc_rplen (c : Nat) (s : PFormat) : (___pformat_putc c s).rplen = s.rplen := by
  unfold ___pformat_putc; split_ifs <;> rfl

theorem putc_rpchr (c : Nat) (s : PFormat) : (___pformat_putc c s).rpchr = s.rpchr := by
  unfold ___pformat_putc; split_ifs <;> rfl

theorem putc_quota (c : Nat) (s : PFormat) : (___pformat_putc c s).quota = s.quota := by
  unfold ___pformat_putc; split_ifs <;> rfl

theorem putc_expmin (c : Nat) (s : PFormat) : (___pformat_putc c s).expmin = s.expmin := by
  unfold ___pformat_putc; split_ifs <;> rfl

attribute [simp] putc_flags putc_width putc_precision putc_rplen putc_rpchr putc_quota
  putc_expmin

theorem putcs_flags (cs : List Nat) (s : PFormat) : (putcs cs s).flags = s.flags := by
  induction cs generalizing s with
  | nil => rfl
  | cons c cs ih => simp [putcs, ih]

theorem putcs_width (cs : List Nat) (s : PFormat) : (putcs cs s).width = s.width := by
  induction cs generalizing s with
  | nil => rfl
  | cons c cs ih => simp [putcs, ih]

theorem putcs_precision (cs : List Nat) (s : PFormat) :
    (putcs cs s).precision = s.precision := by
  induction cs generalizing s with
  | nil => rfl
  | cons c cs ih => simp [putcs, ih]

theorem putcs_rplen (cs : List Nat) (s : PFormat) : (putcs cs s).rplen = s.rplen := by
  induction cs generalizing s with
  | nil => rfl
  | cons c cs ih => simp [putcs, ih]

theorem putcs_rpchr (cs : List Nat) (s : PFormat) : (putcs cs s).rpchr = s.rpchr := by
  induction cs generalizing s with
  | nil => rfl
  | cons c cs ih => simp [putcs, ih]

theorem putcs_quota (cs : List Nat) (s : PFormat) : (putcs cs s).quota = s.quota := by
  induction cs generalizing s with
  | nil => rfl
  | cons c cs ih => simp [putcs, ih]

theorem putcs_expmin (cs : List Nat) (s : PFormat) : (putcs cs s).expmin = s.expmin := by
  induction cs generalizing s with
  | nil => rfl
  | cons c cs ih => simp [putcs, ih]

attribute [simp] putcs_flags putcs_width putcs_precision putcs_rplen putcs_rpchr putcs_quota
  putcs_expmin

theorem putcs_count (cs : List Nat) (s : PFormat) (hc : s.count < 2 ^ 32) :
    (putcs cs s).count = (s.count + cs.length) % 2 ^ 32 := by
  induction cs generalizing s with
  | nil => simp [putcs]; omega
  | cons c cs ih =>
    rw [putcs, ih _ (by rw [putc_count]; omega), putc_count, List.length_cons]
    omega

theorem putcs_append (a b : List Nat) (s : PFormat) :
    putcs (a ++ b) s = putcs b (putcs a s) := by
  induction a generalizing s with
  | nil => rfl
  | cons c cs ih => simp [putcs, ih]

/-! ## Bookkeeping updates commute with output -/

theorem PFormat.ext9 {s t : PFormat} (h1 : s.buf = t.buf) (h2 : s.file = t.file)
    (h3 : s.flags = t.flags) (h4 : s.width = t.width) (h5 : s.precision = t.precision)
    (h6 : s.rplen = t.rplen) (h7 : s.rpchr = t.rpchr) (h8 : s.count = t.count)
    (h9 : s.quota = t.quota) (h10 : s.expmin = t.expmin) : s = t := by
  cases s; cases t; simp_all

@[simp] theorem upd_width (s : PFormat) (w p rl : Int) (rc : Nat) : (upd s w p rl rc).width = w := rfl
@[simp] theorem upd_precision (s : PFormat) (w p rl : Int) (rc : Nat) :
    (upd s w p rl rc).precision = p := rfl
@[simp] theorem upd_rplen (s : PFormat) (w p rl : Int) (rc : Nat) : (upd s w p rl rc).rplen = rl := rfl
@[simp] theorem upd_rpchr (s : PFormat) (w p rl : Int) (rc : Nat) : (upd s w p rl rc).rpchr = rc := rfl
@[simp] theorem upd_flags (s : PFormat) (w p rl : Int) (rc : Nat) :
    (upd s w p rl rc).flags = s.flags := rfl
@[simp] theorem upd_count (s : PFormat) (w p rl : Int) (rc : Nat) :
    (upd s w p rl rc).count = s.count := rfl
@[simp] theorem upd_quota (s : PFormat) (w p rl : Int) (rc : Nat) :
    (upd s w p rl rc).quota = s.quota := rfl
@[simp] theorem upd_expmin (s : PFormat) (w p rl : Int) (rc : Nat) :
    (upd s w p rl rc).expmin = s.expmin := rfl
@[simp] theorem upd_file (s : PFormat) (w p rl : Int) (rc : Nat) :
    (upd s w p rl rc).file = s.file := rfl
@[simp] theorem upd_buf (s : PFormat) (w p rl : Int) (rc : Nat) :
    (upd s w p rl rc).buf = s.buf := rfl

@[simp] theorem upd_upd (s : PFormat) (w p rl w2 p2 rl2 : Int) (rc rc2 : Nat) :
    upd (upd s w p rl rc) w2 p2 rl2 rc2 = upd s w2 p2 rl2 rc2 := rfl

theorem upd_self (s : PFormat) : upd s s.width s.precision s.rplen s.rpchr = s := rfl

theorem putc_upd (c : Nat) (s : PFormat) (w p rl : Int) (rc : Nat) :
    ___pformat_putc c (upd s w p rl rc) = upd (___pformat_putc c s) w p rl rc := by
  unfold ___pformat_putc upd
  split_ifs <;> rfl

@[simp] theorem putcs_upd (cs : List Nat) (s : PFormat) (w p rl : Int) (rc : Nat) :
    putcs cs (upd s w p rl rc) = upd (putcs cs s) w p rl rc := by
  induction cs generalizing s with
  | nil => rfl
  | cons c cs ih => simp [putcs, putc_upd, ih]

@[simp] theorem putcs_putcs (a b : List Nat) (s : PFormat) :
    putcs b (putcs a s) = putcs (a ++ b) s := (putcs_append a b s).symm

theorem set_width_eq_upd (s : PFormat) (w : Int) :
    ({ s with width := w } : PFormat) = upd s w s.precision s.rplen s.rpchr := rfl

theorem set_precision_eq_upd (s : PFormat) (p : Int) :
    ({ s with precision := p } : PFormat) = upd s s.width p s.rplen s.rpchr := rfl

theorem putc_eq_putcs (c : Nat) (s : PFormat) : ___pformat_putc c s = putcs [c] s := rfl

theorem mk_eq_upd (s : PFormat) (w p rl : Int) (rc : Nat) :
    PFormat.mk s.buf s.file s.flags w p rl rc s.count s.quota s.expmin = upd s w p rl rc := rfl

theorem padWidth_eq (c : Nat) (s : PFormat) :
    padWidth c s = upd (putcs (List.replicate s.width.toNat c) s)
      (if 0 < s.width then -1 else s.width - 1) s.precision s.rplen s.rpchr := by
  unfold padWidth
  split_ifs with h
  · simp [upd]
  · have : s.width.toNat = 0 := by omega
    simp [this, putcs, upd]

theorem putDigits_eq (n : Nat) (v : List Nat) (s : PFormat) :
    putDigits n v s = (v.drop n, putcs (digitsPad v n) s) := by
  induction n generalizing v s with
  | zero => simp [putDigits, digitsPad, putcs]
  | succ n ih =>
    cases v with
    | nil =>
      simp only [putDigits, nextDigit, ih]
      simp [digitsPad, List.replicate_succ, putcs]
    | cons d ds =>
      simp only [putDigits, nextDigit, ih]
      simp [digitsPad, putcs]

theorem emit_radix_point_eq (loc : Locale) (s : PFormat) :
    ___pformat_emit_radix_point loc s =
      upd (putcs (radixChars loc s.rplen s.rpchr) s) s.width s.precision
        (radixLen loc s.rplen) (radixChr loc s.rplen s.rpchr) := by
  have key : ∀ (cs : List Nat) (rl : Int) (rc : Nat),
      putcs cs ({ s with rpchr := rc, rplen := rl } : PFormat) =
        upd (putcs cs s) s.width s.precision rl rc := by
    intro cs rl rc
    rw [show ({ s with rpchr := rc, rplen := rl } : PFormat) = upd s s.width s.precision rl rc
      from rfl, putcs_upd]
  unfold ___pformat_emit_radix_point radixChars radixLen radixChr
  by_cases h : s.rplen = -3
  · simp only [h, if_true, putc_eq_putcs]
    split_ifs with h1 h2 h3
    · exact key _ _ _
    · split <;> exact key _ _ _
    · exact key _ _ _
    · split <;> exact key _ _ _
  · have key2 : ∀ cs : List Nat, putcs cs s =
        upd (putcs cs s) s.width s.precision s.rplen s.rpchr := by
      intro cs
      rw [← putcs_upd, upd_self]
    simp only [h, if_false, putc_eq_putcs]
    split_ifs with h2
    · exact key2 _
    · split <;> exact key2 _

theorem emitSign_eq (sign : Nat) (s : PFormat) :
    emitSign sign s = putcs (signChars sign s.flags) s := by
  unfold emitSign signChars
  split_ifs <;> rfl

theorem fracLoop_eq (v : List Nat) (s : PFormat) :
    fracLoop v s = upd (putcs (digitsPad v s.precision.toNat) s) s.width
      (if 0 < s.precision then -1 else s.precision - 1) s.rplen s.rpchr := by
  unfold fracLoop
  split_ifs with h
  · simp [putDigits_eq, upd]
  · have : s.precision.toNat = 0 := by omega
    simp [this, digitsPad, putcs, upd]

theorem upd_putcs_self (cs : List Nat) (s : PFormat) :
    upd (putcs cs s) s.width s.precision s.rplen s.rpchr = putcs cs s := by
  rw [← putcs_upd, upd_self]

theorem emit_float_eq (loc : Locale) (sign : Nat) (value : List Nat) (len : Int) (s : PFormat) :
    ___pformat_emit_float loc sign value len s =
      emitFloatCtl loc sign len s (putcs (emitFloatChars loc sign value len s) s) := by
  unfold ___pformat_emit_float
  lift_lets
  extract_lets r s1 s2 s3 s4 d v21 s5 s6
  have hr : emitFloatReserve sign len s = r := rfl
  have e1 : s1 = upd s r.1 s.precision s.rplen s.rpchr := rfl
  have e2 : s2 = upd (putcs (if r.2 then List.replicate r.1.toNat 32 else []) s)
      (efW2 sign len s) s.precision s.rplen s.rpchr := by
    show (if r.2 = true then padWidth 32 s1 else s1) = _
    simp only [efW2, hr]
    by_cases h : r.2 = true
    · simp only [h, if_true, padWidth_eq, e1, upd_width, upd_precision, upd_rplen, upd_rpchr,
        putcs_upd, upd_upd]
    · simp only [h, if_false, e1, putcs, Bool.false_eq_true]
  have e3 : s3 = upd (putcs ((if r.2 then List.replicate r.1.toNat 32 else []) ++
      signChars sign s.flags) s) (efW2 sign len s) s.precision s.rplen s.rpchr := by
    show emitSign sign s2 = _
    rw [emitSign_eq, e2]
    simp only [upd_flags, putcs_flags, putcs_upd, putcs_putcs]
  have e4 : s4 = upd (putcs ((if r.2 then List.replicate r.1.toNat 32 else []) ++
      signChars sign s.flags ++
      (if 1 ≤ efW2 sign len s ∧ s.flags &&& 1536 = 512
        then List.replicate (efW2 sign len s).toNat 48 else [])) s)
      (if 1 ≤ efW2 sign len s ∧ s.flags &&& 1536 = 512 then -1 else efW2 sign len s)
      s.precision s.rplen s.rpchr := by
    show (if 1 ≤ s3.width ∧ s3.flags &&& 1536 = 512 then padWidth 48 s3 else s3) = _
    rw [e3]
    simp only [upd_width, upd_flags, putcs_flags]
    by_cases h : 1 ≤ efW2 sign len s ∧ s.flags &&& 1536 = 512
    · have h' : 0 < efW2 sign len s := by omega
      simp only [h, and_self, if_true, padWidth_eq, upd_width, upd_precision, upd_rplen,
        upd_rpchr, putcs_upd, upd_upd, putcs_putcs, h']
    · simp only [h, if_false, List.append_nil]
  have ed : d = (if 0 < len then value.drop len.toNat else value,
      upd (putcs ((if r.2 then List.replicate r.1.toNat 32 else []) ++
      signChars sign s.flags ++
      (if 1 ≤ efW2 sign len s ∧ s.flags &&& 1536 = 512
        then List.replicate (efW2 sign len s).toNat 48 else []) ++
      (if 0 < len then digitsPad value len.toNat else [48])) s)
      (if 1 ≤ efW2 sign len s ∧ s.flags &&& 1536 = 512 then -1 else efW2 sign len s)
      s.precision s.rplen s.rpchr) := by
    show (if 0 < len then putDigits len.toNat value s4 else (value, ___pformat_putc 48 s4)) = _
    rw [e4]
    by_cases h : 0 < len
    · simp only [h, if_true, putDigits_eq, putcs_upd, putcs_putcs]
    · simp only [h, if_false, putc_eq_putcs, putcs_upd, putcs_putcs]
  have e5 : s5 = upd (putcs ((if r.2 then List.replicate r.1.toNat 32 else []) ++
      signChars sign s.flags ++
      (if 1 ≤ efW2 sign len s ∧ s.flags &&& 1536 = 512
        then List.replicate (efW2 sign len s).toNat 48 else []) ++
      (if 0 < len then digitsPad value len.toNat else [48]) ++
      (if 1 ≤ s.precision ∨ s.flags &&& 0x800 ≠ 0 then radixChars loc s.rplen s.rpchr else [])) s)
      (if 1 ≤ efW2 sign len s ∧ s.flags &&& 1536 = 512 then -1 else efW2 sign len s)
      s.precision
      (if 1 ≤ s.precision ∨ s.flags &&& 0x800 ≠ 0 then radixLen loc s.rplen else s.rplen)
      (if 1 ≤ s.precision ∨ s.flags &&& 0x800 ≠ 0 then radixChr loc s.rplen s.rpchr
        else s.rpchr) := by
    show (if 1 ≤ d.2.precision ∨ d.2.flags &&& 2048 ≠ 0
      then ___pformat_emit_radix_point loc d.2 else d.2) = _
    rw [ed]
    simp only [upd_precision, upd_flags, putcs_flags]
    by_cases h : 1 ≤ s.precision ∨ s.flags &&& 2048 ≠ 0
    · simp only [h, if_true, emit_radix_point_eq, upd_width, upd_precision, upd_rplen,
        upd_rpchr, putcs_upd, upd_upd, putcs_putcs]
    · simp only [h, if_false, List.append_nil]
  have e6 : s6 = upd (putcs ((if r.2 then List.replicate r.1.toNat 32 else []) ++
      signChars sign s.flags ++
      (if 1 ≤ efW2 sign len s ∧ s.flags &&& 1536 = 512
        then List.replicate (efW2 sign len s).toNat 48 else []) ++
      (if 0 < len then digitsPad value len.toNat else [48]) ++
      (if 1 ≤ s.precision ∨ s.flags &&& 0x800 ≠ 0 then radixChars loc s.rplen s.rpchr else []) ++
      (if len < 0 then List.replicate (-len).toNat 48 else [])) s)
      (if 1 ≤ efW2 sign len s ∧ s.flags &&& 1536 = 512 then -1 else efW2 sign len s)
      (efP6 len s)
      (if 1 ≤ s.precision ∨ s.flags &&& 0x800 ≠ 0 then radixLen loc s.rplen else s.rplen)
      (if 1 ≤ s.precision ∨ s.flags &&& 0x800 ≠ 0 then radixChr loc s.rplen s.rpchr
        else s.rpchr) := by
    have hv : v21 = if 0 < len then 0 else len := rfl
    show (if v21 < 0 then putcs (List.replicate (-v21).toNat 48)
      ({ s5 with precision := s5.precision + v21 } : PFormat) else s5) = _
    rw [show ({ s5 with precision := s5.precision + v21 } : PFormat) =
      upd s5 s5.width (s5.precision + v21) s5.rplen s5.rpchr from rfl, e5]
    unfold efP6
    by_cases h : len < 0
    · have h2 : ¬ 0 < len := by omega
      simp only [hv, h, h2, if_true, if_false, upd_width, upd_precision, upd_rplen, upd_rpchr,
        putcs_upd, upd_upd, putcs_putcs]
    · have h3 : ¬ (if 0 < len then (0 : Int) else len) < 0 := by split_ifs <;> omega
      simp only [hv, h, h3, if_false, List.append_nil]
  show fracLoop d.1 s6 = _
  rw [fracLoop_eq, e6, ed]
  simp only [upd_width, upd_precision, upd_rplen, upd_rpchr, putcs_upd, upd_upd, putcs_putcs]
  unfold emitFloatCtl emitFloatChars
  simp only [hr, upd_upd, putcs_upd]

/-! ## Flag words -/

theorem land_pow_of_lor (f m n : Nat) (h : m.testBit n = false) :
    (f ||| m) &&& 2 ^ n = f &&& 2 ^ n := by
  apply Nat.eq_of_testBit_eq
  intro i
  simp only [Nat.testBit_and, Nat.testBit_or, Nat.testBit_two_pow]
  by_cases hi : n = i
  · subst hi; simp [h]
  · simp [hi]

theorem land_pow_of_land (f m n : Nat) (h : m.testBit n = true) :
    (f &&& m) &&& 2 ^ n = f &&& 2 ^ n := by
  apply Nat.eq_of_testBit_eq
  intro i
  simp only [Nat.testBit_and, Nat.testBit_two_pow]
  by_cases hi : n = i
  · subst hi; simp [h]
  · simp [hi]

theorem land_mask_congr (f g k m : Nat) (h : f ||| k = g ||| k) (hm : m &&& k = 0) :
    f &&& m = g &&& m := by
  apply Nat.eq_of_testBit_eq
  intro i
  have h1 := congrArg (fun x => x.testBit i) h
  have h2 := congrArg (fun x => x.testBit i) hm
  simp only [Nat.testBit_or, Nat.testBit_and, Nat.zero_testBit] at h1 h2
  simp only [Nat.testBit_and]
  cases hf : f.testBit i <;> cases hg : g.testBit i <;> cases hk : k.testBit i <;>
    cases hmm : m.testBit i <;> simp_all

/-- The two sink flags of a flag word. -/
theorem sink_or448 (f : Nat) :
    (f ||| 448) &&& 0x2000 = f &&& 0x2000 ∧ (f ||| 448) &&& 0x1000 = f &&& 0x1000 :=
  ⟨by simpa using land_pow_of_lor f 448 13 (by decide),
   by simpa using land_pow_of_lor f 448 12 (by decide)⟩

theorem sink_clear80 (f : Nat) :
    (f &&& (2 ^ 32 - 129)) &&& 0x2000 = f &&& 0x2000 ∧
    (f &&& (2 ^ 32 - 129)) &&& 0x1000 = f &&& 0x1000 :=
  ⟨by simpa using land_pow_of_land f (2 ^ 32 - 129) 13 (by decide),
   by simpa using land_pow_of_land f (2 ^ 32 - 129) 12 (by decide)⟩

theorem sink_intFlags (value : Int) (f : Nat) :
    intFlags value f &&& 0x2000 = f &&& 0x2000 ∧ intFlags value f &&& 0x1000 = f &&& 0x1000 := by
  unfold intFlags
  split_ifs
  · exact sink_clear80 f
  · exact ⟨rfl, rfl⟩

@[simp] theorem setFlags_flags (s : PFormat) (fl : Nat) : (setFlags s fl).flags = fl := rfl
@[simp] theorem setFlags_width (s : PFormat) (fl : Nat) : (setFlags s fl).width = s.width := rfl
@[simp] theorem setFlags_precision (s : PFormat) (fl : Nat) :
    (setFlags s fl).precision = s.precision := rfl
@[simp] theorem setFlags_rplen (s : PFormat) (fl : Nat) : (setFlags s fl).rplen = s.rplen := rfl
@[simp] theorem setFlags_rpchr (s : PFormat) (fl : Nat) : (setFlags s fl).rpchr = s.rpchr := rfl
@[simp] theorem setFlags_expmin (s : PFormat) (fl : Nat) : (setFlags s fl).expmin = s.expmin := rfl
@[simp] theorem setFlags_count (s : PFormat) (fl : Nat) : (setFlags s fl).count = s.count := rfl
@[simp] theorem setFlags_quota (s : PFormat) (fl : Nat) : (setFlags s fl).quota = s.quota := rfl
@[simp] theorem setFlags_file (s : PFormat) (fl : Nat) : (setFlags s fl).file = s.file := rfl
@[simp] theorem setFlags_buf (s : PFormat) (fl : Nat) : (setFlags s fl).buf = s.buf := rfl
@[simp] theorem setFlags_setFlags (s : PFormat) (a b : Nat) :
    setFlags (setFlags s a) b = setFlags s b := rfl
@[simp] theorem upd_setFlags (s : PFormat) (fl : Nat) (w p rl : Int) (rc : Nat) :
    upd (setFlags s fl) w p rl rc = setFlags (upd s w p rl rc) fl := rfl

theorem putc_setFlags (c : Nat) (s : PFormat) (fl : Nat)
    (h : fl &&& 0x2000 = s.flags &&& 0x2000 ∧ fl &&& 0x1000 = s.flags &&& 0x1000) :
    ___pformat_putc c (setFlags s fl) = setFlags (___pformat_putc c s) fl := by
  unfold ___pformat_putc setFlags
  simp only [h.1, h.2]
  split_ifs <;> rfl

theorem putcs_setFlags (cs : List Nat) (s : PFormat) (fl : Nat)
    (h : fl &&& 0x2000 = s.flags &&& 0x2000 ∧ fl &&& 0x1000 = s.flags &&& 0x1000) :
    putcs cs (setFlags s fl) = setFlags (putcs cs s) fl := by
  induction cs generalizing s with
  | nil => rfl
  | cons c cs ih =>
    simp only [putcs]
    rw [putc_setFlags c s fl h, ih _ (by simpa using h)]
theorem mk_eq_setFlags_upd (s : PFormat) (fl : Nat) (w p rl : Int) (rc : Nat) :
    PFormat.mk s.buf s.file fl w p rl rc s.count s.quota s.expmin =
      setFlags (upd s w p rl rc) fl := rfl

theorem setFlags_self (s : PFormat) : setFlags s s.flags = s := rfl

theorem pformat_int_eq (value : Int) (s : PFormat) :
    ___pformat_int value s =
      setFlags (upd (putcs (intChars value s) s) (intWidth value s) s.precision s.rplen s.rpchr)
        (intFlags value s.flags) := by
  unfold ___pformat_int
  lift_lets
  extract_lets neg mag s0 b1 b2 b3 v36 v35 s1 r b4
  have hs0 : s0 = setFlags s (intFlags value s.flags) := by
    simp only [s0, intFlags, setFlags]; split_ifs <;> rfl
  have hb3 : b3 = intBuf value s.flags s.precision := by
    simp only [b3, b2, b1, mag, neg, hs0, intBuf, setFlags_precision]
  have hsink := sink_intFlags value s.flags
  have hv36 : v36 = s.width - b3.length := by simp only [v36, hs0, setFlags_width]
  have hv35 : v35 = if intFlags value s.flags &&& 448 ≠ 0 then v36 - 1 else v36 := by
    simp only [v35, hs0, setFlags_flags]
  have hs1 : s1 = setFlags (upd s v35 s.precision s.rplen s.rpchr) (intFlags value s.flags) := by
    simp only [s1, hs0]; rfl
  have hr : r = (b3 ++ (intStage value s).1,
      setFlags (upd (putcs (intStage value s).2.2 s) (intStage value s).2.1 s.precision
        s.rplen s.rpchr) (intFlags value s.flags)) := by
    simp only [r, intStage, ← hb3, ← hv36, ← hv35]
    simp only [hs1, hs0, setFlags_width, setFlags_precision, setFlags_flags, 
      set_width_eq_upd, padWidth_eq, upd_width, upd_precision, upd_rplen, upd_rpchr,
      setFlags_rplen, setFlags_rpchr, upd_upd, putcs_upd, upd_setFlags, mk_eq_setFlags_upd]
    clear_value neg mag s0 b1 b2 b3 v36 v35 s1 r b4
    split_ifs <;>
      simp [putcs, putcs_setFlags, hsink, upd_self, setFlags_self]
  have hb4 : b4 = r.1 ++ intSign (intFlags value s.flags) := by
    simp only [b4, intSign, hr, setFlags_flags]
    split_ifs <;> simp
  rw [hb4, hr, padWidth_eq]
  simp only [intChars, intWidth, ← hb3]
  clear_value neg mag s0 b1 b2 b3 v36 v35 s1 r b4
  simp [putcs_setFlags, hsink]

theorem putchars_eq (cs : List Nat) (n : Int) (s : PFormat) :
    ___pformat_putchars cs n s =
      upd (putcs (putcharsChars cs n s) s)
        (if 0 < putcharsW n s then -1 else putcharsW n s - 1) s.precision s.rplen s.rpchr := by
  unfold ___pformat_putchars
  lift_lets
  extract_lets v4 s0 s1
  have hv4 : v4 = putcharsLen n s := rfl
  have hs1 : s1 = upd (putcs (if s.width > v4 ∧ 1 ≤ s.width - v4 ∧ s.flags &&& 0x400 = 0
      then List.replicate (s.width - v4).toNat 32 else []) s) (putcharsW n s) s.precision
      s.rplen s.rpchr := by
    simp only [s1, s0, putcharsW, ← hv4, set_width_eq_upd, padWidth_eq, upd_width, upd_flags,
      upd_precision, upd_rplen, upd_rpchr, putcs_upd, upd_upd]
    clear_value v4 s0 s1
    split_ifs <;> first | rfl | (exfalso; omega)
  rw [hs1, padWidth_eq]
  simp only [putcharsChars, ← hv4]
  clear_value v4 s0 s1
  simp

theorem emit_inf_or_nan_eq (sign : Nat) (value : List Nat) (s : PFormat) :
    ___pformat_emit_inf_or_nan sign value s =
      ___pformat_putchars (infNanText sign value s.flags)
        ((signChars sign s.flags).length + 3) (upd s s.width (-1) s.rplen s.rpchr) := by
  unfold ___pformat_emit_inf_or_nan infNanText signChars
  rfl

theorem emitFloatCtl_putcs (loc : Locale) (sign : Nat) (len : Int) (s t : PFormat) :
    emitFloatCtl loc sign len s t =
      upd t (emitFloatCtl loc sign len s s).width (emitFloatCtl loc sign len s s).precision
        (emitFloatCtl loc sign len s s).rplen (emitFloatCtl loc sign len s s).rpchr := by
  simp only [emitFloatCtl, upd_width, upd_precision, upd_rplen, upd_rpchr]

theorem intChars_congr (v : Int) (s t : PFormat) (h1 : s.flags = t.flags)
    (h2 : s.width = t.width) (h3 : s.precision = t.precision) :
    intChars v s = intChars v t ∧ intWidth v s = intWidth v t := by
  simp only [intChars, intWidth, intStage, h1, h2, h3, and_self]

theorem emit_efloat_eq (loc : Locale) (sign : Nat) (value : List Nat) (e : Int) (s : PFormat) :
    ___pformat_emit_efloat loc sign value e s =
      setFlags (upd (putcs (emitEfloatChars loc sign value e s) s)
        (intWidth (e - 1) (efloatS5 loc sign e s)) s.expmin
        (efloatS5 loc sign e s).rplen (efloatS5 loc sign e s).rpchr)
        (intFlags (e - 1) (s.flags ||| 448)) := by
  unfold ___pformat_emit_efloat
  lift_lets
  extract_lets v5 v8 v11 s1 s2 s3 s4 s5
  have hv8 : v8 = expWidth e s := rfl
  have hs1 : s1 = efloatS1 e s := rfl
  have hs2 : s2 = upd (putcs (emitFloatChars loc sign value 1 (efloatS1 e s)) s)
      (emitFloatCtl loc sign 1 (efloatS1 e s) s).width
      (emitFloatCtl loc sign 1 (efloatS1 e s) s).precision
      (emitFloatCtl loc sign 1 (efloatS1 e s) s).rplen
      (emitFloatCtl loc sign 1 (efloatS1 e s) s).rpchr := by
    simp only [s2, hs1, emit_float_eq]
    rw [emitFloatCtl_putcs]
    simp only [emitFloatCtl, efloatS1, putcs_upd, upd_upd, upd_width, upd_precision, upd_rplen,
      upd_rpchr, upd_flags]
  have hs3 : s3 = setFlags (upd (putcs (emitFloatChars loc sign value 1 (efloatS1 e s)) s)
      (emitFloatCtl loc sign 1 (efloatS1 e s) s).width s.expmin
      (emitFloatCtl loc sign 1 (efloatS1 e s) s).rplen
      (emitFloatCtl loc sign 1 (efloatS1 e s) s).rpchr) (s.flags ||| 448) := by
    simp only [s3]
    rw [mk_eq_setFlags_upd]
    simp only [hs2, upd_upd, upd_flags, upd_width, upd_rplen, upd_rpchr,
      upd_expmin, putcs_flags, putcs_expmin]
  have hs5 : s5 = setFlags (upd (putcs (emitFloatChars loc sign value 1 (efloatS1 e s) ++
        [69 ||| ((s.flags ||| 448) &&& 0x20)]) s)
      (expWidth e s + 1 + (emitFloatCtl loc sign 1 (efloatS1 e s) s).width) s.expmin
      (emitFloatCtl loc sign 1 (efloatS1 e s) s).rplen
      (emitFloatCtl loc sign 1 (efloatS1 e s) s).rpchr) (s.flags ||| 448) := by
    simp only [s5]
    rw [mk_eq_setFlags_upd]
    simp only [s4, hs3, hv8, putc_eq_putcs, setFlags_flags]
    rw [putcs_setFlags _ _ _ (by simpa using sink_or448 s.flags)]
    simp only [putcs_upd, putcs_putcs, mk_eq_setFlags_upd, setFlags_width, setFlags_flags,
      setFlags_precision, setFlags_rplen, setFlags_rpchr, upd_width, upd_precision, upd_rplen,
      upd_rpchr, upd_setFlags, upd_upd, setFlags_setFlags, hs2, upd_flags, putcs_flags]
  rw [hs5, pformat_int_eq]
  clear_value v5 v8 v11 s1 s2 s3 s4 s5
  have hc := intChars_congr (e - 1)
    (setFlags (upd (putcs (emitFloatChars loc sign value 1 (efloatS1 e s) ++
        [69 ||| ((s.flags ||| 448) &&& 0x20)]) s)
      (expWidth e s + 1 + (emitFloatCtl loc sign 1 (efloatS1 e s) s).width) s.expmin
      (emitFloatCtl loc sign 1 (efloatS1 e s) s).rplen
      (emitFloatCtl loc sign 1 (efloatS1 e s) s).rpchr) (s.flags ||| 448))
    (efloatS5 loc sign e s) rfl rfl rfl
  rw [hc.1, hc.2]
  simp only [setFlags_flags, setFlags_precision, setFlags_rplen, setFlags_rpchr, upd_precision,
    upd_rplen, upd_rpchr, putcs_upd, upd_upd, efloatS5, emitEfloatChars, upd_setFlags,
    setFlags_setFlags]
  rw [putcs_setFlags _ _ _ (by simpa using sink_or448 s.flags)]
  simp only [putcs_upd, putcs_putcs, upd_setFlags, upd_upd, setFlags_setFlags, List.append_assoc]

/-! ## Independence of the sink -/

theorem lor_mask_congr_or (f g k m : Nat) (h : f ||| k = g ||| k) :
    (f ||| m) ||| k = (g ||| m) ||| k := by
  rw [Nat.lor_assoc, Nat.lor_comm m k, ← Nat.lor_assoc, h, Nat.lor_assoc, Nat.lor_comm k m,
    ← Nat.lor_assoc]

theorem lor_mask_congr_and (f g k m : Nat) (h : f ||| k = g ||| k) :
    (f &&& m) ||| k = (g &&& m) ||| k := by
  apply Nat.eq_of_testBit_eq
  intro i
  have h1 := congrArg (fun x => x.testBit i) h
  simp only [Nat.testBit_or] at h1
  simp only [Nat.testBit_or, Nat.testBit_and]
  cases hf : f.testBit i <;> cases hg : g.testBit i <;> cases hk : k.testBit i <;>
    cases hmm : m.testBit i <;> simp_all

theorem SameControl.fields {s t : PFormat} (h : SameControl s t) :
    s.width = t.width ∧ s.precision = t.precision ∧ s.rplen = t.rplen ∧ s.rpchr = t.rpchr ∧
    s.count = t.count ∧ s.expmin = t.expmin ∧
    (∀ m, m &&& 0x3000 = 0 → s.flags &&& m = t.flags &&& m) :=
  ⟨h.2.1, h.2.2.1, h.2.2.2.1, h.2.2.2.2.1, h.2.2.2.2.2.1, h.2.2.2.2.2.2,
    fun m hm => land_mask_congr _ _ _ m h.1 hm⟩

theorem SameControl.refl (s : PFormat) : SameControl s s :=
  ⟨rfl, rfl, rfl, rfl, rfl, rfl, rfl⟩

theorem SameControl.putc {s t : PFormat} (h : SameControl s t) (c : Nat) :
    SameControl (___pformat_putc c s) (___pformat_putc c t) := by
  obtain ⟨h1, h2, h3, h4, h5, h6, h7⟩ := h
  refine ⟨?_, ?_, ?_, ?_, ?_, ?_, ?_⟩ <;> simp [putc_count, *]

theorem SameControl.putcs {s t : PFormat} (h : SameControl s t) (cs : List Nat) :
    SameControl (putcs cs s) (putcs cs t) := by
  induction cs generalizing s t with
  | nil => exact h
  | cons c cs ih => exact ih (h.putc c)

theorem SameControl.build {s t : PFormat} (h : SameControl s t) (cs : List Nat) (w p rl : Int)
    (rc f g : Nat) (hfg : f ||| 0x3000 = g ||| 0x3000) :
    SameControl (setFlags (upd (Thor1.putcs cs s) w p rl rc) f)
      (setFlags (upd (Thor1.putcs cs t) w p rl rc) g) := by
  obtain ⟨h1, h2, h3, h4, h5, h6, h7⟩ := h.putcs cs
  exact ⟨hfg, rfl, rfl, rfl, rfl, h6, h7⟩

theorem SameControl.build0 {s t : PFormat} (h : SameControl s t) (cs : List Nat) (w p rl : Int)
    (rc : Nat) :
    SameControl (upd (Thor1.putcs cs s) w p rl rc) (upd (Thor1.putcs cs t) w p rl rc) := by
  obtain ⟨h1, h2, h3, h4, h5, h6, h7⟩ := h.putcs cs
  exact ⟨h1, rfl, rfl, rfl, rfl, h6, h7⟩

theorem SameControl.emitFloatChars {s t : PFormat} (h : SameControl s t) (loc : Locale) (sign : Nat)
    (value : List Nat) (len : Int) :
    Thor1.emitFloatChars loc sign value len s = Thor1.emitFloatChars loc sign value len t ∧
    (emitFloatCtl loc sign len s s).width = (emitFloatCtl loc sign len t t).width ∧
    (emitFloatCtl loc sign len s s).precision = (emitFloatCtl loc sign len t t).precision ∧
    (emitFloatCtl loc sign len s s).rplen = (emitFloatCtl loc sign len t t).rplen ∧
    (emitFloatCtl loc sign len s s).rpchr = (emitFloatCtl loc sign len t t).rpchr := by
  obtain ⟨hw, hp, hrl, hrc, hc, he, hm⟩ := h.fields
  simp only [Thor1.emitFloatChars, emitFloatCtl, efW2, efP6, emitFloatReserve, signChars,
    upd_width, upd_precision, upd_rplen, upd_rpchr, hw, hp, hrl, hrc,
    hm 256 (by decide), hm 64 (by decide), hm 448 (by decide), hm 1536 (by decide),
    hm 0x800 (by decide), and_self]

theorem SameControl.emit_float {s t : PFormat} (h : SameControl s t) (loc : Locale) (sign : Nat)
    (value : List Nat) (len : Int) :
    SameControl (___pformat_emit_float loc sign value len s)
      (___pformat_emit_float loc sign value len t) := by
  obtain ⟨e1, e2, e3, e4, e5⟩ := h.emitFloatChars loc sign value len
  rw [emit_float_eq, emit_float_eq, emitFloatCtl_putcs, emitFloatCtl_putcs loc sign len t, e1, e2,
    e3, e4, e5]
  exact h.build0 _ _ _ _ _

theorem SameControl.padWidth {s t : PFormat} (h : SameControl s t) (c : Nat) :
    SameControl (Thor1.padWidth c s) (Thor1.padWidth c t) := by
  rw [padWidth_eq, padWidth_eq, h.2.1, h.2.2.1, h.2.2.2.1, h.2.2.2.2.1]
  exact h.build0 _ _ _ _ _

theorem SameControl.intFlags {s t : PFormat} (h : SameControl s t) (v : Int) :
    Thor1.intFlags v s.flags ||| 0x3000 = Thor1.intFlags v t.flags ||| 0x3000 := by
  obtain ⟨hw, hp, hrl, hrc, hc, he, hm⟩ := h.fields
  simp only [Thor1.intFlags, hm 0x80 (by decide)]
  split_ifs
  · exact lor_mask_congr_and _ _ _ _ h.1
  · exact h.1

theorem SameControl.intChars {s t : PFormat} (h : SameControl s t) (v : Int) :
    Thor1.intChars v s = Thor1.intChars v t ∧ intWidth v s = intWidth v t := by
  obtain ⟨hw, hp, hrl, hrc, hc, he, hm⟩ := h.fields
  have hm2 : ∀ m, m &&& 0x3000 = 0 →
      Thor1.intFlags v s.flags &&& m = Thor1.intFlags v t.flags &&& m :=
    fun m hm0 => land_mask_congr _ _ _ m (h.intFlags v) hm0
  simp only [Thor1.intChars, intWidth, intStage, intBuf, intSign, hw, hp, hm 0x80 (by decide),
    hm2 0x80 (by decide), hm2 448 (by decide), hm2 1536 (by decide), hm2 1024 (by decide),
    hm2 256 (by decide), hm2 64 (by decide), and_self]

theorem SameControl.pformat_int {s t : PFormat} (h : SameControl s t) (v : Int) :
    SameControl (___pformat_int v s) (___pformat_int v t) := by
  rw [pformat_int_eq, pformat_int_eq, (h.intChars v).1, (h.intChars v).2, h.2.2.1, h.2.2.2.1,
    h.2.2.2.2.1]
  exact h.build _ _ _ _ _ _ _ (h.intFlags v)

theorem SameControl.upd {s t : PFormat} (h : SameControl s t) (w p rl : Int) (rc : Nat) :
    SameControl (Thor1.upd s w p rl rc) (Thor1.upd t w p rl rc) :=
  ⟨h.1, rfl, rfl, rfl, rfl, h.2.2.2.2.2.1, h.2.2.2.2.2.2⟩

theorem SameControl.putchars {s t : PFormat} (h : SameControl s t) (cs : List Nat) (n : Int) :
    SameControl (___pformat_putchars cs n s) (___pformat_putchars cs n t) := by
  obtain ⟨hw, hp, hrl, hrc, hc, he, hm⟩ := h.fields
  have e1 : putcharsChars cs n s = putcharsChars cs n t ∧ putcharsW n s = putcharsW n t := by
    simp only [putcharsChars, putcharsW, putcharsLen, hw, hp, hm 0x400 (by decide), and_self]
  rw [putchars_eq, putchars_eq, e1.1, e1.2, hp, hrl, hrc]
  exact h.build0 _ _ _ _ _

theorem SameControl.emit_inf_or_nan {s t : PFormat} (h : SameControl s t) (sign : Nat)
    (value : List Nat) :
    SameControl (___pformat_emit_inf_or_nan sign value s)
      (___pformat_emit_inf_or_nan sign value t) := by
  obtain ⟨hw, hp, hrl, hrc, hc, he, hm⟩ := h.fields
  have e1 : infNanText sign value s.flags = infNanText sign value t.flags ∧
      signChars sign s.flags = signChars sign t.flags := by
    simp only [infNanText, signChars, hm 256 (by decide), hm 64 (by decide), hm 32 (by decide),
      and_self]
  rw [emit_inf_or_nan_eq, emit_inf_or_nan_eq, e1.1, e1.2, hw, hrl, hrc]
  exact (h.upd _ _ _ _).putchars _ _

theorem SameControl.efloatS1 {s t : PFormat} (h : SameControl s t) (e : Int) :
    SameControl (Thor1.efloatS1 e s) (Thor1.efloatS1 e t) := by
  obtain ⟨hw, hp, hrl, hrc, hc, he, hm⟩ := h.fields
  simp only [Thor1.efloatS1, expWidth, hw, hp, hrl, hrc, he]
  exact h.upd _ _ _ _

theorem emitFloatCtl_fields (loc : Locale) (sign : Nat) (len : Int) (s t : PFormat) :
    (emitFloatCtl loc sign len s t).width = (emitFloatCtl loc sign len s s).width ∧
    (emitFloatCtl loc sign len s t).rplen = (emitFloatCtl loc sign len s s).rplen ∧
    (emitFloatCtl loc sign len s t).rpchr = (emitFloatCtl loc sign len s s).rpchr := by
  simp only [emitFloatCtl, upd_width, upd_rplen, upd_rpchr, and_self]

theorem SameControl.efloatS5 {s t : PFormat} (h : SameControl s t) (loc : Locale) (sign : Nat)
    (e : Int) :
    SameControl (Thor1.efloatS5 loc sign e s) (Thor1.efloatS5 loc sign e t) := by
  obtain ⟨hw, hp, hrl, hrc, hc, he, hm⟩ := h.fields
  obtain ⟨e1, e2, e3, e4, e5⟩ := (h.efloatS1 e).emitFloatChars loc sign [] 1
  have f1 := emitFloatCtl_fields loc sign 1 (Thor1.efloatS1 e s) s
  have f2 := emitFloatCtl_fields loc sign 1 (Thor1.efloatS1 e t) t
  have hx : expWidth e s = expWidth e t := by simp only [expWidth, he]
  refine ⟨lor_mask_congr_or _ _ _ _ h.1, ?_, he, ?_, ?_, hc, he⟩
  · simp only [Thor1.efloatS5, setFlags_width, upd_width, f1.1, f2.1, e2, hx]
  · simp only [Thor1.efloatS5, setFlags_rplen, upd_rplen, f1.2.1, f2.2.1, e4]
  · simp only [Thor1.efloatS5, setFlags_rpchr, upd_rpchr, f1.2.2, f2.2.2, e5]

theorem SameControl.emit_efloat {s t : PFormat} (h : SameControl s t) (loc : Locale) (sign : Nat)
    (value : List Nat) (e : Int) :
    SameControl (___pformat_emit_efloat loc sign value e s)
      (___pformat_emit_efloat loc sign value e t) := by
  obtain ⟨hw, hp, hrl, hrc, hc, he, hm⟩ := h.fields
  have h5 := h.efloatS5 loc sign e
  have hch : emitEfloatChars loc sign value e s = emitEfloatChars loc sign value e t := by
    simp only [emitEfloatChars, ((h.efloatS1 e).emitFloatChars loc sign value 1).1,
      (h5.intChars (e - 1)).1, land_mask_congr _ _ _ 0x20 (lor_mask_congr_or _ _ _ 448 h.1)
        (by decide)]
  rw [emit_efloat_eq, emit_efloat_eq, hch, (h5.intChars (e - 1)).2, he, h5.2.2.2.1,
    h5.2.2.2.2.1]
  refine h.build _ _ _ _ _ _ _ ?_
  have h448 : SameControl (setFlags s (s.flags ||| 448)) (setFlags t (t.flags ||| 448)) :=
    ⟨lor_mask_congr_or _ _ _ _ h.1, hw, hp, hrl, hrc, hc, he⟩
  exact h448.intFlags (e - 1)

theorem optRel_map {α : Type} (o : Option α) (f g : α → PFormat)
    (h : ∀ a, SameControl (f a) (g a)) : Option.Rel SameControl (o.map f) (o.map g) := by
  cases o with
  | none => exact Option.Rel.none
  | some a => exact Option.Rel.some (h a)

theorem SameControl.setPrecision {s t : PFormat} (h : SameControl s t) (p : Int) :
    SameControl ({ s with precision := p } : PFormat) ({ t with precision := p } : PFormat) :=
  ⟨h.1, h.2.1, rfl, h.2.2.2.1, h.2.2.2.2.1, h.2.2.2.2.2.1, h.2.2.2.2.2.2⟩

theorem SameControl.setPW {s t : PFormat} (h : SameControl s t) (p w : Int) :
    SameControl ({ s with precision := p, width := w } : PFormat)
      ({ t with precision := p, width := w } : PFormat) :=
  ⟨h.1, rfl, rfl, h.2.2.2.1, h.2.2.2.2.1, h.2.2.2.2.2.1, h.2.2.2.2.2.2⟩

theorem SameControl.float {s t : PFormat} (h : SameControl s t) (loc : Locale) (x : LDouble) :
    Option.Rel SameControl (___pformat_float loc x s) (___pformat_float loc x t) := by
  obtain ⟨hw, hp, hrl, hrc, hc, he, hm⟩ := h.fields
  unfold ___pformat_float
  lift_lets
  intro s0 t0
  have h0 : SameControl s0 t0 := by
    simp only [s0, t0, hp]
    split_ifs
    · exact h.setPrecision 6
    · exact h
  rw [h0.2.2.1]
  apply optRel_map
  intro r
  split_ifs
  · exact h0.emit_inf_or_nan _ _
  · exact (h0.emit_float _ _ _ _).padWidth _

theorem SameControl.efloat {s t : PFormat} (h : SameControl s t) (loc : Locale) (x : LDouble) :
    Option.Rel SameControl (___pformat_efloat loc x s) (___pformat_efloat loc x t) := by
  obtain ⟨hw, hp, hrl, hrc, hc, he, hm⟩ := h.fields
  unfold ___pformat_efloat
  lift_lets
  intro s0 t0
  have h0 : SameControl s0 t0 := by
    simp only [s0, t0, hp]
    split_ifs
    · exact h.setPrecision 6
    · exact h
  rw [h0.2.2.1]
  apply optRel_map
  intro r
  split_ifs
  · exact h0.emit_inf_or_nan _ _
  · exact h0.emit_efloat _ _ _ _

theorem SameControl.gfloat {s t : PFormat} (h : SameControl s t) (loc : Locale) (x : LDouble) :
    Option.Rel SameControl (___pformat_gfloat loc x s) (___pformat_gfloat loc x t) := by
  obtain ⟨hw, hp, hrl, hrc, hc, he, hm⟩ := h.fields
  unfold ___pformat_gfloat
  lift_lets
  intro s0 t0
  have h0 : SameControl s0 t0 := by
    simp only [s0, t0, hp]
    split_ifs
    · exact h.setPrecision 6
    · exact h.setPrecision 1
    · exact h
  obtain ⟨hw0, hp0, hrl0, hrc0, hc0, he0, hm0⟩ := h0.fields
  rw [hp0]
  apply optRel_map
  intro r
  simp only [hm0 0x800 (by decide), hp0, hw0]
  have hf0 := h0.1
  split_ifs
  · exact h0.emit_inf_or_nan _ _
  all_goals first
    | apply SameControl.padWidth
      apply SameControl.emit_float
      refine ⟨?_, ?_, ?_, ?_, ?_, ?_, ?_⟩ <;>
        first | exact hf0 | exact hrl0 | exact hrc0 | exact hc0 | exact he0 | rfl
    | apply SameControl.emit_efloat
      refine ⟨?_, ?_, ?_, ?_, ?_, ?_, ?_⟩ <;>
        first | exact hf0 | exact hrl0 | exact hrc0 | exact hc0 | exact he0 | rfl

/-! ## Layout of the fixed form -/

theorem digitsPad_length (v : List Nat) (n : Nat) : (digitsPad v n).length = n := by
  simp only [digitsPad, List.length_append, List.length_take, List.length_replicate]
  omega

theorem ite_replicate (c : Prop) [Decidable c] (n x : Nat) :
    (if c then List.replicate n x else []) = List.replicate (if c then n else 0) x := by
  split_ifs <;> rfl

theorem emitFloatReserve_neg (sign : Nat) (len : Int) (s : PFormat) (hw : s.width < 0) :
    emitFloatReserve sign len s = (-1, false) := by
  unfold emitFloatReserve
  by_cases h1 : len < 1
  · simp only [h1, if_true, show s.width < 1 by omega, hw]
  · simp only [h1, if_false, show ¬ s.width > len by omega]

/-- The characters of the number itself in the fixed form: integer part, radix point,
fraction. -/
theorem padWidth_emit_float_layout (loc : Locale) (sign : Nat) (value : List Nat) (len : Int)
    (s : PFormat) :
    ∃ (a b c : Nat) (w p rl : Int) (rc : Nat),
      padWidth 32 (___pformat_emit_float loc sign value len s) =
        upd (putcs (List.replicate a 32 ++ signChars sign s.flags ++ List.replicate b 48 ++
          (if 0 < len then digitsPad value len.toNat else [48]) ++
          (if 1 ≤ s.precision ∨ s.flags &&& 0x800 ≠ 0 then radixChars loc s.rplen s.rpchr
            else []) ++
          (List.replicate (-len).toNat 48 ++
            digitsPad (value.drop len.toNat) (s.precision + min len 0).toNat) ++
          List.replicate c 32) s) w p rl rc ∧
      (s.width < 0 → a = 0 ∧ b = 0 ∧ c = 0) := by
  have h1 : (if len < 0 then (-len).toNat else 0) = (-len).toNat := by
    split_ifs <;> omega
  have h2 : digitsPad (if 0 < len then value.drop len.toNat else value) (efP6 len s).toNat =
      digitsPad (value.drop len.toNat) (s.precision + min len 0).toNat := by
    unfold efP6
    rcases lt_trichotomy len 0 with h | h | h
    · have h1 : len.toNat = 0 := by omega
      simp [h, show ¬ 0 < len by omega, h1, min_eq_left (le_of_lt h)]
    · subst h; simp
    · simp [h, show ¬ len < 0 by omega, min_eq_right (le_of_lt h)]
  rw [emit_float_eq, padWidth_eq]
  simp only [emitFloatCtl, upd_width, upd_precision, upd_rplen, upd_rpchr, putcs_upd, upd_upd,
    putcs_putcs, emitFloatChars, ite_replicate, List.append_assoc, h1, h2]
  refine ⟨_, _, _, _, _, _, _, rfl, fun hw => ?_⟩
  have hr := emitFloatReserve_neg sign len s hw
  have hw2 : efW2 sign len s = -1 := by simp [efW2, hr]
  simp [hr, hw2]

theorem putcs_file (cs : List Nat) (s : PFormat) (h1 : s.flags &&& 0x2000 ≠ 0)
    (h2 : s.flags &&& 0x1000 ≠ 0) : (putcs cs s).file = s.file ++ cs := by
  induction cs generalizing s with
  | nil => simp [putcs]
  | cons c cs ih =>
    rw [putcs, ih _ (by simpa using h1) (by simpa using h2)]
    unfold ___pformat_putc
    rw [if_neg (fun h => h1 h.1), if_pos h2]
    simp

theorem float_some (loc : Locale) (x : LDouble) (s : PFormat) (r : Cvt) (hp : 0 ≤ s.precision)
    (hc : ___pformat_cvt 3 x s.precision = some r) (hfin : r.decpt ≠ -0x8000) :
    ___pformat_float loc x s =
      some (padWidth 32 (___pformat_emit_float loc r.sign r.digits r.decpt s)) := by
  unfold ___pformat_float
  simp only [show ¬ s.precision < 0 by omega, if_false, hc, Option.map_some', hfin]

/-! ## The exponent field -/

theorem land_pow_cases (f n : Nat) : f &&& 2 ^ n = 0 ∨ f &&& 2 ^ n = 2 ^ n := by
  cases h : f.testBit n
  · left
    apply Nat.eq_of_testBit_eq
    intro i
    simp only [Nat.testBit_and, Nat.testBit_two_pow, Nat.zero_testBit]
    by_cases hi : n = i
    · subst hi; simp [h]
    · simp [hi]
  · right
    apply Nat.eq_of_testBit_eq
    intro i
    simp only [Nat.testBit_and, Nat.testBit_two_pow]
    by_cases hi : n = i
    · subst hi; simp [h]
    · simp [hi]

/-- The width left after the integer digits, when the field is wider than they are. -/
theorem reserve_afterInt (len w : Int) (h : (if 0 < len then len else 1) < w) :
    (if len < 1 then
      if w < 1 then (if w < 0 then none else some w)
      else some (w - 1)
    else if w > len then
      (if w - len < 0 then none else some (w - len))
    else none) = some (w - (if 0 < len then len else 1)) := by
  split_ifs at h ⊢ <;> first | rfl | (exfalso; omega) | (congr 1; omega)

/-- The width left after the integer digits is never more than the field less the digits. -/
theorem reserve_afterInt_le (len w v3 : Int)
    (h : (if len < 1 then
      if w < 1 then (if w < 0 then none else some w)
      else some (w - 1)
    else if w > len then
      (if w - len < 0 then none else some (w - len))
    else none) = some v3) :
    v3 ≤ w - (if 0 < len then len else 1) ∨ (v3 = 0 ∧ w = 0) := by
  split_ifs at h ⊢ <;> simp at h <;> omega

theorem cvt_zero (mode nd : Int) (se : Nat) (h : se % 0x8000 = 0) :
    ___pformat_cvt mode ⟨se, 0⟩ nd = some ⟨[48], 1, se &&& 0x8000⟩ := by
  have hf : fxam ⟨se, 0⟩ = 0x4000 := by simp [fxam, h]
  have e1 : (0x4000 : Nat) &&& 256 = 0 := by decide
  have e2 : (0x4000 : Nat) &&& 1024 = 0 := by decide
  unfold ___pformat_cvt
  simp only [hf, e1, e2, if_true, ne_eq, not_true_eq_false, if_false]
  simp [___gdtoa]

/-! ## Bignum values -/

theorem valW_append (a b : List Nat) : valW (a ++ b) = valW a + 2 ^ (32 * a.length) * valW b := by
  induction a with
  | nil => simp [valW]
  | cons w ws ih =>
    show valW (w :: (ws ++ b)) = valW (w :: ws) + 2 ^ (32 * (ws.length + 1)) * valW b
    rw [valW, valW, ih, show 32 * (ws.length + 1) = 32 + 32 * ws.length by ring, pow_add]
    ring

theorem wordsOf_length (x : List Nat) (n : Nat) : (wordsOf x n).length = n := by
  simp [wordsOf]

theorem wordsOf_succ (x : List Nat) (n : Nat) : wordsOf x (n + 1) = wordsOf x n ++ [getW x n] := by
  simp [wordsOf, List.range_succ]

theorem valW_wordsOf_succ (x : List Nat) (n : Nat) :
    valW (wordsOf x (n + 1)) = valW (wordsOf x n) + 2 ^ (32 * n) * getW x n := by
  rw [wordsOf_succ, valW_append, wordsOf_length]
  simp [valW]

theorem getW_lt (x : List Nat) (h : ∀ w ∈ x, w < 2 ^ 32) (i : Nat) : getW x i < 2 ^ 32 := by
  unfold getW
  by_cases hi : i < x.length
  · rw [List.getD_eq_getElem _ _ hi]
    exact h _ (List.getElem_mem hi)
  · rw [List.getD_eq_default _ _ (by omega)]
    norm_num

theorem valW_lt (l : List Nat) (h : ∀ w ∈ l, w < 2 ^ 32) : valW l < 2 ^ (32 * l.length) := by
  induction l with
  | nil => simp [valW]
  | cons w ws ih =>
    have h1 := h w (List.mem_cons_self w ws)
    have h2 := ih (fun x hx => h x (List.mem_cons_of_mem w hx))
    simp only [valW, List.length_cons]
    rw [show 32 * (ws.length + 1) = 32 + 32 * ws.length by ring, pow_add]
    nlinarith

theorem valW_wordsOf_lt (x : List Nat) (h : ∀ w ∈ x, w < 2 ^ 32) (n : Nat) :
    valW (wordsOf x n) < 2 ^ (32 * n) := by
  have := valW_lt (wordsOf x n) (by
    intro w hw
    simp only [wordsOf, List.mem_map, List.mem_range] at hw
    obtain ⟨i, _, rfl⟩ := hw
    exact getW_lt x h i)
  rwa [wordsOf_length] at this

theorem cmpWords_spec (n : Nat) (xa xb : List Nat) (ha : ∀ w ∈ xa, w < 2 ^ 32)
    (hb : ∀ w ∈ xb, w < 2 ^ 32) :
    (cmpWords n xa xb = -1 ∧ valW (wordsOf xa n) < valW (wordsOf xb n)) ∨
    (cmpWords n xa xb = 0 ∧ valW (wordsOf xa n) = valW (wordsOf xb n)) ∨
    (cmpWords n xa xb = 1 ∧ valW (wordsOf xa n) > valW (wordsOf xb n)) := by
  induction n with
  | zero => right; left; exact ⟨rfl, rfl⟩
  | succ n ih =>
    have la := valW_wordsOf_lt xa ha n
    have lb := valW_wordsOf_lt xb hb n
    rw [valW_wordsOf_succ, valW_wordsOf_succ]
    unfold cmpWords
    by_cases he : getW xa n = getW xb n
    · rw [if_pos he, he]
      rcases ih with h | h | h
      · left; exact ⟨h.1, by omega⟩
      · right; left; exact ⟨h.1, by omega⟩
      · right; right; exact ⟨h.1, by omega⟩
    · rw [if_neg he]
      by_cases hl : getW xa n < getW xb n
      · rw [if_pos hl]
        left
        refine ⟨rfl, ?_⟩
        have : 2 ^ (32 * n) * (getW xa n + 1) ≤ 2 ^ (32 * n) * getW xb n :=
          Nat.mul_le_mul_left _ hl
        rw [Nat.mul_add, Nat.mul_one] at this
        omega
      · rw [if_neg hl]
        right; right
        refine ⟨rfl, ?_⟩
        have hg : getW xb n < getW xa n := by omega
        have : 2 ^ (32 * n) * (getW xb n + 1) ≤ 2 ^ (32 * n) * getW xa n :=
          Nat.mul_le_mul_left _ hg
        rw [Nat.mul_add, Nat.mul_one] at this
        omega

theorem Normal_value_ge (b : Bigint) (h : b.Normal) (h1 : 1 < b.wds) :
    2 ^ (32 * (b.wds - 1)) ≤ b.value := by
  obtain ⟨n, hn⟩ : ∃ n, b.wds = n + 1 := ⟨b.wds - 1, by omega⟩
  have ht := h.2.2 h1
  unfold Bigint.value
  rw [hn, valW_wordsOf_succ] at *
  simp only [Nat.add_sub_cancel] at ht ⊢
  have : 2 ^ (32 * n) * 1 ≤ 2 ^ (32 * n) * getW b.x n := Nat.mul_le_mul_left _ (by omega)
  omega

/-- For operands whose value is at least `2^(32*(wds-1))` when they have several words, the sign of
`___cmp_D2A` is the order of the values. -/
theorem cmp_spec (a b : Bigint) (ha : ∀ w ∈ a.x, w < 2 ^ 32) (hb : ∀ w ∈ b.x, w < 2 ^ 32)
    (ha1 : 1 ≤ a.wds) (hb1 : 1 ≤ b.wds)
    (hat : 1 < a.wds → 2 ^ (32 * (a.wds - 1)) ≤ a.value)
    (hbt : 1 < b.wds → 2 ^ (32 * (b.wds - 1)) ≤ b.value) :
    (___cmp_D2A a b < 0 ∧ a.value < b.value) ∨
    (___cmp_D2A a b = 0 ∧ a.value = b.value) ∨
    (___cmp_D2A a b > 0 ∧ a.value > b.value) := by
  have la := valW_wordsOf_lt a.x ha a.wds
  have lb := valW_wordsOf_lt b.x hb b.wds
  unfold ___cmp_D2A
  by_cases hw : (a.wds : Int) - b.wds ≠ 0
  · rw [if_pos hw]
    rcases Nat.lt_or_gt_of_ne (show a.wds ≠ b.wds by omega) with h | h
    · left
      refine ⟨by omega, ?_⟩
      have h2 := hbt (by omega)
      have : 2 ^ (32 * a.wds) ≤ 2 ^ (32 * (b.wds - 1)) :=
        Nat.pow_le_pow_right (by norm_num) (by omega)
      unfold Bigint.value at *
      omega
    · right; right
      refine ⟨by omega, ?_⟩
      have h2 := hat (by omega)
      have : 2 ^ (32 * b.wds) ≤ 2 ^ (32 * (a.wds - 1)) :=
        Nat.pow_le_pow_right (by norm_num) (by omega)
      unfold Bigint.value at *
      omega
  · rw [if_neg hw, if_neg (by omega)]
    have he : a.wds = b.wds := by omega
    unfold Bigint.value
    rw [← he]
    rcases cmpWords_spec a.wds a.x b.x ha hb with h | h | h
    · left; exact ⟨by omega, h.2⟩
    · right; left; exact ⟨h.1, h.2⟩
    · right; right; exact ⟨by omega, h.2⟩

theorem shl_word (k w z : Nat) (hk : k ≤ 32) (hz : z < 2 ^ k) :
    (w <<< k ||| z) % 2 ^ 32 + 2 ^ 32 * (w >>> (32 - k)) = 2 ^ k * w + z := by
  have hor : w <<< k ||| z = 2 ^ k * w + z := by
    rw [Nat.shiftLeft_eq, Nat.mul_comm, ← Nat.mul_add_lt_is_or hz]
  have hp : (2 : Nat) ^ 32 = 2 ^ k * 2 ^ (32 - k) := by
    rw [← pow_add]; congr 1; omega
  rw [hor, Nat.shiftRight_eq_div_pow]
  have hm : 0 < 2 ^ (32 - k) := by positivity
  have hw := Nat.div_add_mod w (2 ^ (32 - k))
  have hlt : 2 ^ k * (w % 2 ^ (32 - k)) + z < 2 ^ 32 := by
    have h1 : w % 2 ^ (32 - k) + 1 ≤ 2 ^ (32 - k) := Nat.mod_lt _ hm
    have h2 := Nat.mul_le_mul_left (2 ^ k) h1
    rw [← hp, Nat.mul_add, Nat.mul_one] at h2
    omega
  have he : 2 ^ k * w + z =
      (2 ^ k * (w % 2 ^ (32 - k)) + z) + 2 ^ 32 * (w / 2 ^ (32 - k)) := by
    conv_lhs => rw [← hw]
    rw [hp]
    ring
  rw [he, Nat.add_mul_mod_self_left, Nat.mod_eq_of_lt hlt]

theorem shr_word_lt (k w : Nat) (hk : k ≤ 32) (hw : w < 2 ^ 32) : w >>> (32 - k) < 2 ^ k := by
  rw [Nat.shiftRight_eq_div_pow, Nat.div_lt_iff_lt_mul (by positivity), ← pow_add]
  rwa [show k + (32 - k) = 32 by omega]

theorem valW_shlWords (k : Nat) (hk : k ≤ 32) (ws : List Nat) (z : Nat)
    (hws : ∀ w ∈ ws, w < 2 ^ 32) (hz : z < 2 ^ k) :
    valW (shlWords k ws z) = 2 ^ k * valW ws + z := by
  induction ws generalizing z with
  | nil => simp [shlWords, valW]
  | cons w ws ih =>
    have hw := hws w (List.mem_cons_self w ws)
    rw [shlWords, valW, valW,
      ih _ (fun x hx => hws x (List.mem_cons_of_mem w hx)) (shr_word_lt k w hk hw)]
    have := shl_word k w z hk hz
    rw [Nat.mul_add, Nat.mul_add]
    have e : 2 ^ 32 * (2 ^ k * valW ws) = 2 ^ k * (2 ^ 32 * valW ws) := by ring
    omega

theorem shlWords_length (k : Nat) (ws : List Nat) (z : Nat) :
    (shlWords k ws z).length = ws.length + 1 := by
  induction ws generalizing z with
  | nil => rfl
  | cons w ws ih => simp [shlWords, ih]

theorem shlWords_lt (k : Nat) (hk : k ≤ 32) (ws : List Nat) (z : Nat)
    (hws : ∀ w ∈ ws, w < 2 ^ 32) (hz : z < 2 ^ k) :
    ∀ w ∈ shlWords k ws z, w < 2 ^ 32 := by
  induction ws generalizing z with
  | nil =>
    intro w hw
    simp only [shlWords, List.mem_singleton] at hw
    subst hw
    exact lt_of_lt_of_le hz (Nat.pow_le_pow_right (by norm_num) hk)
  | cons w ws ih =>
    intro v hv
    simp only [shlWords, List.mem_cons] at hv
    rcases hv with hv | hv
    · subst hv; exact Nat.mod_lt _ (by norm_num)
    · exact ih _ (fun x hx => hws x (List.mem_cons_of_mem w hx))
        (shr_word_lt k w hk (hws w (List.mem_cons_self w ws))) v hv

theorem wordsOf_self (l : List Nat) : wordsOf l l.length = l := by
  apply List.ext_getElem
  · exact wordsOf_length l l.length
  · intro i h1 h2
    simp [wordsOf, getW, List.getElem?_eq_getElem h2]

theorem getW_last (l : List Nat) : getW l (l.length - 1) = l.getLastD 0 := by
  simp [getW, List.getD_eq_getElem?_getD, List.getLast?_eq_getElem?]

/-- Doubling by `___lshift_D2A`: the value doubles and the result is again in the form that
`___cmp_D2A` expects. -/
theorem lshift_one_spec (b : Bigint) (hb : b.Normal) :
    (___lshift_D2A b 1).value = 2 * b.value ∧
    1 ≤ (___lshift_D2A b 1).wds ∧
    (∀ w ∈ (___lshift_D2A b 1).x, w < 2 ^ 32) ∧
    (1 < (___lshift_D2A b 1).wds →
      2 ^ (32 * ((___lshift_D2A b 1).wds - 1)) ≤ (___lshift_D2A b 1).value) := by
  obtain ⟨h1, h2, h3⟩ := hb
  have hsrc : ∀ w ∈ wordsOf b.x b.wds, w < 2 ^ 32 := by
    intro w hw
    simp only [wordsOf, List.mem_map, List.mem_range] at hw
    obtain ⟨i, _, rfl⟩ := hw
    exact getW_lt b.x h2 i
  have hlen : (shlWords 1 (wordsOf b.x b.wds) 0).length = b.wds + 1 := by
    rw [shlWords_length, wordsOf_length]
  have hval := valW_shlWords 1 (by norm_num) (wordsOf b.x b.wds) 0 hsrc (by norm_num)
  have hlt := shlWords_lt 1 (by norm_num) (wordsOf b.x b.wds) 0 hsrc (by norm_num)
  have hx : (___lshift_D2A b 1).x = shlWords 1 (wordsOf b.x b.wds) 0 := by
    simp [___lshift_D2A, max_eq_left h1]
  have hw : (___lshift_D2A b 1).wds =
      if (shlWords 1 (wordsOf b.x b.wds) 0).getLastD 0 ≠ 0 then b.wds + 1 else b.wds := by
    simp [___lshift_D2A, max_eq_left h1]
  have hfull : valW (wordsOf (shlWords 1 (wordsOf b.x b.wds) 0) (b.wds + 1)) =
      2 * b.value := by
    rw [← hlen, wordsOf_self, hval]
    simp [Bigint.value]
  have hlast : getW (shlWords 1 (wordsOf b.x b.wds) 0) b.wds =
      (shlWords 1 (wordsOf b.x b.wds) 0).getLastD 0 := by
    rw [← getW_last, hlen, Nat.add_sub_cancel]
  rw [valW_wordsOf_succ, hlast] at hfull
  have hv : (___lshift_D2A b 1).value = 2 * b.value := by
    unfold Bigint.value
    rw [hx, hw]
    split_ifs with h0
    · rw [valW_wordsOf_succ, hlast]; exact hfull
    · rw [not_not] at h0
      rw [h0] at hfull
      simpa using hfull
  refine ⟨hv, ?_, by rw [hx]; exact hlt, ?_⟩
  · rw [hw]; split_ifs <;> omega
  · intro hgt
    rw [hv]
    rw [hw] at hgt ⊢
    split_ifs at hgt ⊢ with h0
    · simp only [Nat.add_sub_cancel]
      have : 2 ^ (32 * b.wds) * 1 ≤
          2 ^ (32 * b.wds) * (shlWords 1 (wordsOf b.x b.wds) 0).getLastD 0 :=
        Nat.mul_le_mul_left _ (by omega)
      omega
    · have := Normal_value_ge b ⟨h1, h2, h3⟩ hgt
      omega

/-! ## The rounding model -/

theorem log2Aux_spec (fuel n : Nat) (h1 : 1 ≤ n) (h2 : n < 2 ^ fuel) :
    2 ^ log2Aux fuel n ≤ n ∧ n < 2 ^ (log2Aux fuel n + 1) := by
  induction fuel generalizing n with
  | zero => simp at h2; omega
  | succ f ih =>
    unfold log2Aux
    by_cases hn : n < 2
    · rw [if_pos hn]
      simp
      omega
    · rw [if_neg hn]
      have h3 : n / 2 < 2 ^ f := by
        rw [pow_succ] at h2
        omega
      obtain ⟨a, b⟩ := ih (n / 2) (by omega) h3
      rw [show 1 + log2Aux f (n / 2) = log2Aux f (n / 2) + 1 by ring]
      rw [pow_succ] at b ⊢
      rw [pow_succ]
      constructor <;> omega

theorem log2n_spec (n : Nat) (h1 : 1 ≤ n) : 2 ^ log2n n ≤ n ∧ n < 2 ^ (log2n n + 1) :=
  log2Aux_spec n n h1 (Nat.lt_two_pow n)

/-- The exponent found by `ilog2` is not above the true one. -/
theorem ilog2_le (n d : Nat) (hn : 1 ≤ n) (hd : 1 ≤ d) :
    ((2 : ℚ) ^ (ilog2 n d)) * d ≤ n := by
  obtain ⟨a1, a2⟩ := log2n_spec n hn
  obtain ⟨b1, b2⟩ := log2n_spec d hd
  have a1q : ((2 : ℚ) ^ (log2n n)) ≤ n := by exact_mod_cast a1
  have b2q : (d : ℚ) < (2 : ℚ) ^ (log2n d + 1) := by exact_mod_cast b2
  have hd0 : (0 : ℚ) < d := by exact_mod_cast hd
  -- the estimate one below `log2n n - log2n d` is always safe
  have hsafe : ((2 : ℚ) ^ ((log2n n : Int) - log2n d - 1)) * d ≤ n := by
    have e1 : ((2 : ℚ) ^ ((log2n n : Int) - log2n d - 1)) * (2 : ℚ) ^ (log2n d + 1) =
        (2 : ℚ) ^ (log2n n) := by
      rw [← zpow_natCast (2 : ℚ) (log2n d + 1), ← zpow_add₀ (by norm_num : (2 : ℚ) ≠ 0),
        ← zpow_natCast (2 : ℚ) (log2n n)]
      congr 1
      push_cast
      ring
    have hpos : (0 : ℚ) < (2 : ℚ) ^ ((log2n n : Int) - log2n d - 1) := by positivity
    calc ((2 : ℚ) ^ ((log2n n : Int) - log2n d - 1)) * d
        ≤ ((2 : ℚ) ^ ((log2n n : Int) - log2n d - 1)) * (2 : ℚ) ^ (log2n d + 1) :=
          mul_le_mul_of_nonneg_left (le_of_lt b2q) (le_of_lt hpos)
      _ = (2 : ℚ) ^ (log2n n) := e1
      _ ≤ n := a1q
  unfold ilog2
  simp only
  split_ifs with h1 h2 h3
  · have : ((2 : ℚ) ^ ((log2n n : Int) - log2n d)) =
        ((2 ^ ((log2n n : Int) - log2n d).toNat : Nat) : ℚ) := by
      rw [Nat.cast_pow, ← zpow_natCast]
      congr 1
      omega
    rw [this, mul_comm]
    exact_mod_cast h2
  · exact hsafe
  · have e : ((2 : ℚ) ^ ((log2n n : Int) - log2n d)) *
        ((2 ^ (-((log2n n : Int) - log2n d)).toNat : Nat) : ℚ) = 1 := by
      rw [Nat.cast_pow, ← zpow_natCast, Nat.cast_ofNat, ← zpow_add₀ (by norm_num : (2 : ℚ) ≠ 0)]
      have : (log2n n : Int) - log2n d + ((-((log2n n : Int) - log2n d)).toNat : Int) = 0 := by
        omega
      rw [this, zpow_zero]
    have h3q : (d : ℚ) ≤ n * ((2 ^ (-((log2n n : Int) - log2n d)).toNat : Nat) : ℚ) := by
      exact_mod_cast h3
    have hpos : (0 : ℚ) < (2 : ℚ) ^ ((log2n n : Int) - log2n d) := by positivity
    calc ((2 : ℚ) ^ ((log2n n : Int) - log2n d)) * d
        ≤ ((2 : ℚ) ^ ((log2n n : Int) - log2n d)) *
            (n * ((2 ^ (-((log2n n : Int) - log2n d)).toNat : Nat) : ℚ)) :=
          mul_le_mul_of_nonneg_left h3q (le_of_lt hpos)
      _ = n * (((2 : ℚ) ^ ((log2n n : Int) - log2n d)) *
            ((2 ^ (-((log2n n : Int) - log2n d)).toNat : Nat) : ℚ)) := by ring
      _ = n := by rw [e, mul_one]
  · exact hsafe

theorem nearest_err (n1 d1 : Nat) (hd : 0 < d1) :
    |(((if 2 * (n1 % d1) > d1 ∨ (2 * (n1 % d1) = d1 ∧ (n1 / d1) % 2 = 1)
        then n1 / d1 + 1 else n1 / d1 : Nat) : ℚ)) - (n1 : ℚ) / d1| ≤ 1 / 2 := by
  have hd0 : (0 : ℚ) < d1 := by exact_mod_cast hd
  have hdm := Nat.div_add_mod n1 d1
  have hq : (n1 : ℚ) = d1 * (n1 / d1 : Nat) + (n1 % d1 : Nat) := by exact_mod_cast hdm.symm
  have hr : n1 % d1 < d1 := Nat.mod_lt _ hd
  have hrq : ((n1 % d1 : Nat) : ℚ) < d1 := by exact_mod_cast hr
  have hr0 : (0 : ℚ) ≤ ((n1 % d1 : Nat) : ℚ) := by positivity
  have key : (n1 : ℚ) / d1 = (n1 / d1 : Nat) + ((n1 % d1 : Nat) : ℚ) / d1 := by
    rw [hq]; field_simp; ring
  rw [key, abs_le]
  split_ifs with h
  · have h2 : d1 ≤ 2 * (n1 % d1) := by omega
    have h2q : (d1 : ℚ) ≤ 2 * ((n1 % d1 : Nat) : ℚ) := by exact_mod_cast h2
    have e1 : ((n1 % d1 : Nat) : ℚ) / d1 ≤ 1 := by rw [div_le_one hd0]; exact le_of_lt hrq
    have e2 : 1 / 2 ≤ ((n1 % d1 : Nat) : ℚ) / d1 := by
      rw [le_div_iff₀ hd0]; linarith
    push_cast
    constructor <;> linarith
  · have h2 : 2 * (n1 % d1) ≤ d1 := by
      by_contra hc
      exact h (Or.inl (by omega))
    have h2q : 2 * ((n1 % d1 : Nat) : ℚ) ≤ d1 := by exact_mod_cast h2
    have e1 : 0 ≤ ((n1 % d1 : Nat) : ℚ) / d1 := by positivity
    have e2 : ((n1 % d1 : Nat) : ℚ) / d1 ≤ 1 / 2 := by
      rw [div_le_iff₀ hd0]; linarith
    constructor <;> linarith

theorem roundCore_err (p n d : Nat) (hn : 1 ≤ n) (hd : 1 ≤ d) (sh : Int)
    (hsh : sh = (p : Int) - 1 - ilog2 n d) (n1 d1 m : Nat) (v : ℚ)
    (hn1 : n1 = if sh ≥ 0 then n * 2 ^ sh.toNat else n)
    (hd1 : d1 = if sh ≥ 0 then d else d * 2 ^ (-sh).toNat)
    (hm : m = if 2 * (n1 % d1) > d1 ∨ (2 * (n1 % d1) = d1 ∧ (n1 / d1) % 2 = 1)
      then n1 / d1 + 1 else n1 / d1)
    (hv : v = if sh ≥ 0 then (m : ℚ) / 2 ^ sh.toNat else (m : ℚ) * 2 ^ (-sh).toNat) :
    |v - (n : ℚ) / d| ≤ ((n : ℚ) / d) / 2 ^ p := by
  have hd0 : (0 : ℚ) < d := by exact_mod_cast hd
  have hn0 : (0 : ℚ) < n := by exact_mod_cast hn
  have h2 : (2 : ℚ) ≠ 0 := by norm_num
  have hil := ilog2_le n d hn hd
  have hd1pos : 0 < d1 := by
    rw [hd1]; split_ifs
    · omega
    · positivity
  have herr := nearest_err n1 d1 hd1pos
  rw [← hm] at herr
  -- everything in terms of the unit `u = 2^(-sh)`
  have hu : (0 : ℚ) < (2 : ℚ) ^ (-sh) := by positivity
  have hvu : v = m * (2 : ℚ) ^ (-sh) := by
    rw [hv]
    split_ifs with h
    · rw [zpow_neg, ← zpow_natCast, Int.toNat_of_nonneg h, div_eq_mul_inv]
    · rw [← zpow_natCast, Int.toNat_of_nonneg (by omega)]
  have hy : (n1 : ℚ) / d1 = (n : ℚ) / d * (2 : ℚ) ^ sh := by
    rw [hn1, hd1]
    split_ifs with h
    · rw [Nat.cast_mul, Nat.cast_pow, Nat.cast_ofNat, ← zpow_natCast, Int.toNat_of_nonneg h]
      ring
    · rw [Nat.cast_mul, Nat.cast_pow, Nat.cast_ofNat, ← zpow_natCast,
        Int.toNat_of_nonneg (by omega), zpow_neg]
      field_simp
  have hq : (n : ℚ) / d = (n1 : ℚ) / d1 * (2 : ℚ) ^ (-sh) := by
    rw [hy, mul_assoc, ← zpow_add₀ h2, add_neg_cancel, zpow_zero, mul_one]
  have e1 : v - (n : ℚ) / d = ((m : ℚ) - (n1 : ℚ) / d1) * (2 : ℚ) ^ (-sh) := by
    rw [hvu, hq]; ring
  rw [e1, abs_mul, abs_of_pos hu]
  have hbound : (2 : ℚ) ^ (-sh) / 2 ≤ (n : ℚ) / d / 2 ^ p := by
    have e2 : (2 : ℚ) ^ (-sh) / 2 = (2 : ℚ) ^ (ilog2 n d) / 2 ^ p := by
      rw [hsh, ← zpow_natCast (2 : ℚ) p, ← zpow_sub₀ h2,
        show ((2 : ℚ) ^ (-((p : Int) - 1 - ilog2 n d))) / 2 =
          (2 : ℚ) ^ (-((p : Int) - 1 - ilog2 n d)) / (2 : ℚ) ^ (1 : Int) by rw [zpow_one],
        ← zpow_sub₀ h2]
      congr 1
      ring
    rw [e2]
    apply div_le_div_of_nonneg_right _ (by positivity)
    rw [le_div_iff₀ hd0]
    exact hil
  calc |(m : ℚ) - (n1 : ℚ) / d1| * (2 : ℚ) ^ (-sh)
      ≤ 1 / 2 * (2 : ℚ) ^ (-sh) := mul_le_mul_of_nonneg_right herr (le_of_lt hu)
    _ = (2 : ℚ) ^ (-sh) / 2 := by ring
    _ ≤ (n : ℚ) / d / 2 ^ p := hbound

theorem roundMag_err (p n d : Nat) (hn : 1 ≤ n) (hd : 1 ≤ d) :
    |roundMag p n d - (n : ℚ) / d| ≤ ((n : ℚ) / d) / 2 ^ p :=
  roundCore_err p n d hn hd _ rfl _ _ _ _ rfl rfl rfl rfl

/-- Rounding to `p` significant bits changes a number by at most `2^-p` of its size. -/
theorem roundTo_err (p : Nat) (q : ℚ) : |roundTo p q - q| ≤ |q| / 2 ^ p := by
  by_cases hq : q.num = 0
  · have : q = 0 := Rat.zero_of_num_zero hq
    subst this
    simp [roundTo]
  · have hn : 1 ≤ q.num.natAbs := by
      have := Int.natAbs_pos.mpr hq
      omega
    have hd : 1 ≤ q.den := q.den_pos
    have habs : |q| = (q.num.natAbs : ℚ) / q.den := by
      conv_lhs => rw [← Rat.num_div_den q]
      rw [abs_div, Nat.cast_natAbs, Int.cast_abs]
      simp
    have hcore := roundMag_err p q.num.natAbs q.den hn hd
    unfold roundTo
    rw [if_neg hq]
    generalize roundMag p q.num.natAbs q.den = A at hcore ⊢
    rw [habs]
    generalize (q.num.natAbs : ℚ) / q.den = B at hcore habs ⊢
    by_cases hneg : q.num < 0
    · rw [if_pos hneg]
      have hqv : q = -B := by
        have : q < 0 := Rat.num_neg.mp hneg
        rw [← habs, abs_of_neg this, neg_neg]
      rw [hqv, ← abs_neg]
      have e : -(-A - -B) = A - B := by ring
      rw [e]
      exact hcore
    · rw [if_neg hneg]
      have hqv : q = B := by
        have : 0 ≤ q := Rat.num_nonneg.mp (by omega)
        rw [← habs, abs_of_nonneg this]
      rw [hqv]
      exact hcore

theorem x87_ge (y L : ℚ) (hL : L ≤ 0) (h : L ≤ y) : L * (1001 / 1000) ≤ x87 y := by
  have he := roundTo_err 64 y
  rw [abs_le] at he
  have h1 := he.1
  unfold x87
  by_cases hy : 0 ≤ y
  · rw [abs_of_nonneg hy] at h1
    have : y / 2 ^ 64 ≤ y := div_le_self hy (by norm_num)
    nlinarith
  · have hy' : y < 0 := lt_of_not_le hy
    rw [abs_of_neg hy'] at h1
    have e : -(-y / 2 ^ 64) = y / 2 ^ 64 := by ring
    rw [e] at h1
    have h3 : y / 2 ^ 64 ≥ y / 1000 := by
      rw [ge_iff_le, div_le_div_iff₀ (by norm_num) (by norm_num)]
      nlinarith
    nlinarith

theorem x87_nonneg (y : ℚ) (h : 0 ≤ y) : 0 ≤ x87 y := by
  have := x87_ge y 0 (le_refl 0) h
  simpa using this

theorem truncQ_ge (q : ℚ) (hq : q.num < 0) : q ≤ (truncQ q : ℚ) := by
  unfold truncQ
  rw [if_pos hq]
  have hd : (0 : ℚ) < q.den := by exact_mod_cast q.den_pos
  have h1 : (((-q.num) / (q.den : Int) : Int) : ℚ) ≤ ((-q.num : Int) : ℚ) / q.den := by
    have := Int.floor_le (((-q.num : Int) : ℚ) / (q.den : ℚ))
    rwa [Rat.floor_intCast_div_natCast] at this
  have h2 : q = (q.num : ℚ) / q.den := (Rat.num_div_den q).symm
  push_cast at h1 ⊢
  rw [neg_div] at h1
  linarith

theorem truncQ_floor (q : ℚ) (hq : 0 ≤ q.num) (K : Int) (hK : (K : ℚ) ≤ q) : K ≤ truncQ q := by
  unfold truncQ
  rw [if_neg (by omega)]
  have h2 : q = (q.num : ℚ) / q.den := (Rat.num_div_den q).symm
  rw [← Rat.floor_intCast_div_natCast, ← h2]
  exact Int.le_floor.mpr hK

theorem x87_chain (c2 sl ba c7v m a d A t B C v59 : ℚ) (hc2 : 0 ≤ c2) (hsl : 0 ≤ sl)
    (hba : 0 ≤ ba) (hm : m ≤ 0) (ha : c2 * m ≤ a) (hd : -(1 / 2) ≤ d)
    (hA : A = x87 a) (ht : t = x87 d) (hB : B = x87 (sl * t)) (hC : C = x87 (A + B))
    (h59 : v59 = x87 (C + ba)) (hc7 : 0 ≤ c7v) :
    (c2 * m + sl * (-(1 / 2) * (1001 / 1000))) * (1001 / 1000) ^ 3 ≤ v59 ∧
    (c2 * m + sl * (-(1 / 2) * (1001 / 1000))) * (1001 / 1000) ^ 4 ≤ x87 (x87 c7v + v59) := by
  have hLa : c2 * m ≤ 0 := mul_nonpos_of_nonneg_of_nonpos hc2 hm
  have h1 : c2 * m * (1001 / 1000) ≤ A := hA ▸ x87_ge a (c2 * m) hLa ha
  have h2 : -(1 / 2) * (1001 / 1000) ≤ t := ht ▸ x87_ge d (-(1 / 2)) (by norm_num) hd
  have hLb : sl * (-(1 / 2) * (1001 / 1000)) ≤ 0 :=
    mul_nonpos_of_nonneg_of_nonpos hsl (by norm_num)
  have h3 : sl * (-(1 / 2) * (1001 / 1000)) * (1001 / 1000) ≤ B :=
    hB ▸ x87_ge (sl * t) _ hLb (mul_le_mul_of_nonneg_left h2 hsl)
  have hLc : (c2 * m + sl * (-(1 / 2) * (1001 / 1000))) * (1001 / 1000) ≤ 0 :=
    mul_nonpos_of_nonpos_of_nonneg (by linarith) (by norm_num)
  have h4 : (c2 * m + sl * (-(1 / 2) * (1001 / 1000))) * (1001 / 1000) * (1001 / 1000) ≤ C :=
    hC ▸ x87_ge (A + B) _ hLc (by linarith)
  have hLd : (c2 * m + sl * (-(1 / 2) * (1001 / 1000))) * (1001 / 1000) * (1001 / 1000) ≤ 0 :=
    mul_nonpos_of_nonpos_of_nonneg hLc (by norm_num)
  have h5 : (c2 * m + sl * (-(1 / 2) * (1001 / 1000))) * (1001 / 1000) * (1001 / 1000) *
      (1001 / 1000) ≤ v59 :=
    h59 ▸ x87_ge (C + ba) _ hLd (by linarith)
  have hLe : (c2 * m + sl * (-(1 / 2) * (1001 / 1000))) * (1001 / 1000) * (1001 / 1000) *
      (1001 / 1000) ≤ 0 := mul_nonpos_of_nonpos_of_nonneg hLd (by norm_num)
  have h7 : 0 ≤ x87 c7v := x87_nonneg _ hc7
  have h6 := x87_ge (x87 c7v + v59) _ hLe (by linarith)
  constructor
  · calc (c2 * m + sl * (-(1 / 2) * (1001 / 1000))) * (1001 / 1000) ^ 3
        = (c2 * m + sl * (-(1 / 2) * (1001 / 1000))) * (1001 / 1000) * (1001 / 1000) *
            (1001 / 1000) := by ring
      _ ≤ v59 := h5
  · calc (c2 * m + sl * (-(1 / 2) * (1001 / 1000))) * (1001 / 1000) ^ 4
        = (c2 * m + sl * (-(1 / 2) * (1001 / 1000))) * (1001 / 1000) * (1001 / 1000) *
            (1001 / 1000) * (1001 / 1000) := by ring
      _ ≤ x87 (x87 c7v + v59) := h6

theorem floorLike_ge (v60 : ℚ) (K : Int) (hv : (K : ℚ) ≤ v60) :
    K ≤ (if v60 < 0 ∧ v60 ≠ (truncQ v60 : ℚ) then truncQ v60 - 1 else truncQ v60) := by
  by_cases hn : v60.num < 0
  · have hneg : v60 < 0 := Rat.num_neg.mp hn
    have hge := truncQ_ge v60 hn
    split_ifs with hc
    · have h3 : (K : ℚ) < truncQ v60 := lt_of_le_of_lt hv (lt_of_le_of_ne hge hc.2)
      have : K < truncQ v60 := by exact_mod_cast h3
      omega
    · have : (K : ℚ) ≤ truncQ v60 := le_trans hv hge
      exact_mod_cast this
  · have hnn : 0 ≤ v60 := Rat.num_nonneg.mp (by omega)
    rw [if_neg (fun h => absurd h.1 (not_lt.mpr hnn))]
    exact truncQ_floor v60 (by omega) K hv

/-- A lower bound on the estimate of the decimal exponent. -/
theorem kEstimate_ge (d2 : ℚ) (i : Int) (K : Int) (h1 : 1 ≤ d2)
    (hK : (K : ℚ) ≤ (min 0 i : Int) / 3 - 1 / 2) : K ≤ kEstimate d2 i := by
  have hc2 : (0 : ℚ) ≤ c_log10_2 := by unfold c_log10_2; positivity
  have hsl : (0 : ℚ) ≤ c_log10_slope := by unfold c_log10_slope; positivity
  have hba : (0 : ℚ) ≤ c_log10_base := by unfold c_log10_base; positivity
  have hc7 : (0 : ℚ) ≤ c_7em17 := by unfold c_7em17; positivity
  have hc2v : c_log10_2 * (1001 / 1000) ^ 4 ≤ 1 / 3 := by unfold c_log10_2; norm_num
  have hslv : c_log10_slope * (1 / 2) * (1001 / 1000) ^ 5 ≤ 1 / 2 := by
    unfold c_log10_slope; norm_num
  have hmin0 : ((min 0 i : Int) : ℚ) ≤ 0 := by exact_mod_cast min_le_left 0 i
  have hmini : ((min 0 i : Int) : ℚ) ≤ i := by exact_mod_cast min_le_right 0 i
  have hv58 : (0 : ℚ) ≤ c_7em17 * ((max (|i| - 1077) 0 : Int) : ℚ) :=
    mul_nonneg hc7 (by exact_mod_cast le_max_right _ _)
  obtain ⟨b1, b2⟩ := x87_chain c_log10_2 c_log10_slope c_log10_base
    (c_7em17 * ((max (|i| - 1077) 0 : Int) : ℚ)) (min 0 i : Int) (c_log10_2 * i) (d2 - 3 / 2)
    _ _ _ _ _ hc2 hsl hba hmin0 (mul_le_mul_of_nonneg_left hmini hc2) (by linarith)
    rfl rfl rfl rfl rfl hv58
  unfold kEstimate
  simp only
  generalize c_log10_2 = c2 at *
  generalize c_log10_slope = sl at *
  have e1 : (c2 * ((min 0 i : Int) : ℚ) + sl * (-(1 / 2) * (1001 / 1000))) * (1001 / 1000) ^ 4 =
      (c2 * (1001 / 1000) ^ 4) * ((min 0 i : Int) : ℚ) - sl * (1 / 2) * (1001 / 1000) ^ 5 := by
    ring
  have e2 : (1 / 3 : ℚ) * ((min 0 i : Int) : ℚ) ≤ (c2 * (1001 / 1000) ^ 4) * ((min 0 i : Int) : ℚ) :=
    mul_le_mul_of_nonpos_right hc2v hmin0
  have hL4 : (K : ℚ) ≤
      (c2 * ((min 0 i : Int) : ℚ) + sl * (-(1 / 2) * (1001 / 1000))) * (1001 / 1000) ^ 4 := by
    rw [e1]; linarith
  have hL3 : (c2 * ((min 0 i : Int) : ℚ) + sl * (-(1 / 2) * (1001 / 1000))) * (1001 / 1000) ^ 4 ≤
      (c2 * ((min 0 i : Int) : ℚ) + sl * (-(1 / 2) * (1001 / 1000))) * (1001 / 1000) ^ 3 := by
    have hneg : (c2 * ((min 0 i : Int) : ℚ) + sl * (-(1 / 2) * (1001 / 1000))) ≤ 0 := by
      have := mul_nonpos_of_nonneg_of_nonpos hc2 hmin0
      have := mul_nonpos_of_nonneg_of_nonpos hsl (show -(1 / 2 : ℚ) * (1001 / 1000) ≤ 0 by norm_num)
      linarith
    exact mul_le_mul_of_nonpos_left (by norm_num) hneg
  by_cases hcase : |i| - 1077 ≥ 1
  · rw [if_pos hcase]
    have hmax : max (|i| - 1077) 0 = |i| - 1077 := max_eq_left (by omega)
    rw [hmax] at b2
    exact floorLike_ge _ K (le_trans hL4 b2)
  · rw [if_neg hcase]
    exact floorLike_ge _ K (le_trans hL4 (le_trans hL3 b1))

/-! ## The decimal exponent reported by the converter -/

theorem cttz_le_fuel (f t : Nat) : cttz f t ≤ f := by
  induction f generalizing t with
  | zero => simp [cttz]
  | succ f ih =>
    unfold cttz
    split_ifs
    · omega
    · have := ih (t / 2); omega

theorem two_pow_cttz_le (f t : Nat) (ht : t ≠ 0) : 2 ^ cttz f t ≤ t := by
  induction f generalizing t with
  | zero => simp [cttz]; omega
  | succ f ih =>
    unfold cttz
    split_ifs with h
    · simp; omega
    · have h2 : t / 2 ≠ 0 := by omega
      have := ih (t / 2) h2
      rw [show 1 + cttz f (t / 2) = cttz f (t / 2) + 1 by ring, pow_succ]
      omega

theorem cttz_le_log2n (f t : Nat) (ht : t ≠ 0) : cttz f t ≤ log2n t := by
  have h1 := two_pow_cttz_le f t ht
  have h2 := (log2n_spec t (by omega)).2
  have h3 : 2 ^ cttz f t < 2 ^ (log2n t + 1) := lt_of_le_of_lt h1 h2
  have := (Nat.pow_lt_pow_iff_right (by norm_num : 1 < 2)).mp h3
  omega

theorem trailzWords_snoc (l : List Nat) (t : Nat) (ht : t ≠ 0) :
    trailzWords (l ++ [t]) ≤ 32 * l.length + cttz 32 t := by
  induction l with
  | nil => simp [trailzWords, ht]
  | cons w ws ih =>
    show trailzWords (w :: (ws ++ [t])) ≤ 32 * (ws.length + 1) + cttz 32 t
    rw [trailzWords]
    split_ifs
    · have := cttz_le_fuel 32 w; omega
    · omega

theorem trimTop_top (n : Nat) (x : List Nat) (h : trimTop n x ≠ 0) :
    getW x (trimTop n x - 1) ≠ 0 := by
  induction n with
  | zero => simp [trimTop] at h
  | succ n ih =>
    unfold trimTop at h ⊢
    by_cases h0 : getW x n = 0
    · rw [if_pos h0] at h ⊢
      exact ih h
    · rw [if_neg h0]
      simpa using h0

theorem trimTop_le (n : Nat) (x : List Nat) : trimTop n x ≤ n := by
  induction n with
  | zero => simp [trimTop]
  | succ n ih =>
    unfold trimTop
    split_ifs <;> omega

/-- The mantissa has at least as many bits as trailing zeros. -/
theorem trailz_le_bits (bits : List Nat) (nbits : Nat) :
    ___trailz_D2A (bitstob bits nbits).1 ≤ (bitstob bits nbits).2 := by
  unfold ___trailz_D2A bitstob
  simp only
  generalize wordsOf bits ((nbits - 1) / 32 + 1) = x
  generalize hw : trimTop ((nbits - 1) / 32 + 1) x = w
  by_cases h0 : w = 0
  · subst h0; simp [wordsOf, trailzWords]
  · rw [if_neg h0]
    obtain ⟨m, rfl⟩ : ∃ m, w = m + 1 := ⟨w - 1, by omega⟩
    have htop : getW x m ≠ 0 := by
      have := trimTop_top ((nbits - 1) / 32 + 1) x (by rw [hw]; exact h0)
      rwa [hw] at this
    rw [wordsOf_succ]
    have h1 := trailzWords_snoc (wordsOf x m) (getW x m) htop
    rw [wordsOf_length] at h1
    have h2 := cttz_le_log2n 32 (getW x m) htop
    have h3 := cttz_le_fuel 32 (getW x m)
    simp only [Nat.add_sub_cancel, hi0bits, if_neg htop]
    omega

theorem bumpUp_k (digits : List Nat) (k : Int) : k ≤ (bumpUp digits k).2 := by
  unfold bumpUp
  split <;> simp

theorem roundOff_k (digits : List Nat) (k : Int) : k ≤ (roundOff digits k).2 := by
  unfold roundOff
  split <;> simp

theorem roundLast_k (rdir : Int) (digits : List Nat) (dig : Nat) (b S : Bigint) (k : Int) :
    k ≤ (roundLast rdir digits dig b S k).2.1 := by
  have := roundOff_k digits k
  unfold roundLast
  simp only
  split_ifs <;> first | exact le_refl k | exact this

theorem quickFixed_k (fuel : Nat) (ilim k : Int) (d eps : ℚ) (i : Int) (digs : List Nat)
    (r : List Nat × Int × Nat) (h : quickFixed fuel ilim k d eps i digs = some r) :
    k ≤ r.2.1 := by
  induction fuel generalizing d i digs with
  | zero => simp [quickFixed] at h
  | succ f ih =>
    unfold quickFixed at h
    simp only at h
    split_ifs at h
    all_goals first
      | exact ih _ _ _ h
      | (simp only [Option.some.injEq] at h
         subst h
         first | exact bumpUp_k _ k | exact le_refl k)

theorem smallIntLoop_k (fuel : Nat) (ilim rdir k : Int) (ds d : ℚ) (i : Int)
    (digs : List Nat) : k ≤ (smallIntLoop fuel ilim rdir k ds d i digs).2.1 := by
  induction fuel generalizing d i digs with
  | zero => simp [smallIntLoop]
  | succ f ih =>
    unfold smallIntLoop
    simp only
    split_ifs <;> first | exact le_refl k | exact bumpUp_k _ k | exact ih _ _ _

theorem bignumPath_k (fpi : FPI) (be0 be : Int) (bits0 : Nat) (b : Bigint) (bbits : Int)
    (mode nd rdir : Int) (k_check : Bool) (k ilim ilim1 : Int) (b2 s2 b5 s5 : Int)
    (hm : mode = 2 ∨ (mode = 3 ∧ ilim = nd + k + 1 ∧ ilim1 = nd + k)) :
    k - 1 ≤ (bignumPath fpi be0 be bits0 b bbits mode nd rdir false k_check k ilim ilim1
      b2 s2 b5 s5).2.1 ∧
    (mode = 3 → -nd - 1 ≤ (bignumPath fpi be0 be bits0 b bbits mode nd rdir false k_check k
      ilim ilim1 b2 s2 b5 s5).2.1) := by
  unfold bignumPath
  lift_lets
  intro i1 j m5 s5a b5a m2 b2a s2a mhi0 c2 b2b m2b s2b mhi1 bm bA S0 spec_case b2c s2c v194
    v200 i2 i3 b2d m2d s2d bB S1 botched k1 bC mhi2 ilimA
  intro mhi3 mlo mhi4 r
  have hk1 : k - 1 ≤ k1 ∧ k1 ≤ k := by
    simp only [k1]; split_ifs <;> omega
  have hil : mode = 3 → ilimA = nd + k1 + 1 := by
    intro h3
    rcases hm with h | ⟨_, h1, h2⟩
    · omega
    · simp only [ilimA, k1]; split_ifs <;> omega
  have hr := roundLast_k rdir r.1 r.2.1 r.2.2 S1 k1
  simp only [Bool.false_eq_true, if_false]
  split_ifs with h1 h2
  · have := hil (by omega)
    constructor
    · show k - 1 ≤ -1 - nd
      omega
    · intro _
      show -nd - 1 ≤ -1 - nd
      omega
  · have := hil (by omega)
    constructor
    · show k - 1 ≤ k1 + 1
      omega
    · intro _
      show -nd - 1 ≤ k1 + 1
      omega
  · constructor
    · omega
    · intro h3
      have := hil h3
      omega

theorem b2d_ge_one (a : Bigint) : 1 ≤ ___b2d_D2A a := by
  unfold ___b2d_D2A
  simp only
  exact le_add_of_nonneg_right (div_nonneg (Nat.cast_nonneg _) (by positivity))

theorem quickPath_k (ilim nd : Int) (d : ℚ) (r : List Nat × Int × Nat) (hi : 1 ≤ ilim)
    (h : quickPath false ilim nd d = some r) : 0 ≤ r.2.1 := by
  unfold quickPath at h
  simp only [show ilim ≠ 0 by omega, if_false, Bool.false_eq_true] at h
  exact quickFixed_k _ _ _ _ _ _ _ r h

theorem smallIntPath_k (ilim nd rdir k : Int) (d : ℚ) (hnd : 0 ≤ nd) :
    k ≤ (smallIntPath ilim nd rdir k d).2.1 := by
  unfold smallIntPath
  simp only [show ¬ nd < 0 by omega, false_and, if_false]
  exact smallIntLoop_k _ _ _ _ _ _ _ _

theorem gdtoa_finite (fpi : FPI) (be : Int) (bits : List Nat) (kind : Nat) (mode nd : Int)
    (hk : kind % 8 = 0 ∨ kind % 8 = 1 ∨ kind % 8 = 2) (hmode : mode = 2 ∨ mode = 3)
    (hnd : 0 ≤ nd) :
    ∃ r, ___gdtoa fpi be bits kind mode nd = some r ∧
      (∀ K : Int, K ≤ 0 → (K : ℚ) ≤ ((min 0 (be - 1) : Int) : ℚ) / 3 - 1 / 2 →
        K - 1 ≤ r.decpt) ∧
      (mode = 3 → -nd ≤ r.decpt) := by
  have hzero : ∀ kk : Nat, ∃ r : DtoaResult,
      some ({ digits := [48], decpt := 1, kind := kk } : DtoaResult) = some r ∧
      (∀ K : Int, K ≤ 0 → (K : ℚ) ≤ ((min 0 (be - 1) : Int) : ℚ) / 3 - 1 / 2 →
        K - 1 ≤ r.decpt) ∧ (mode = 3 → -nd ≤ r.decpt) :=
    fun kk => ⟨_, rfl, fun K hK _ => by show K - 1 ≤ 1; omega, fun _ => by show -nd ≤ 1; omega⟩
  unfold ___gdtoa
  lift_lets
  intro kind0 bb tz b be1 bbits d2 i k0 d small k k_check j b2 s2 b5 s5 b2a s2a mode1 try_quick
    mode2 leftright ndigits1 ilim ilim1 rdir0 rdir1 rdir fin slow
  have hm2 : mode2 = mode := by
    simp only [mode2, mode1]
    rcases hmode with h | h <;> subst h <;> decide
  have hlr : leftright = false := by
    simp only [leftright, hm2]
    rcases hmode with h | h <;> subst h <;> decide
  have hnd1 : 0 ≤ ndigits1 ∧ (mode = 3 → ndigits1 = nd) ∧ (mode = 2 → 1 ≤ ndigits1) := by
    simp only [ndigits1, hm2]
    rcases hmode with h | h <;> subst h <;> simp <;> omega
  have hilim : (mode = 2 → ilim = ndigits1) ∧
      (mode = 3 → ilim = ndigits1 + k + 1 ∧ ilim1 = ndigits1 + k) := by
    simp only [ilim, ilim1, hm2]
    rcases hmode with h | h <;> subst h <;> simp
  have htz := trailz_le_bits bits fpi.nbits
  have hbb : be1 + bbits = be + bb.2 ∧ 0 ≤ bbits := by
    simp only [be1, bbits]
    split_ifs
    · constructor
      · ring
      · have : (tz : Int) ≤ bb.2 := by exact_mod_cast htz
        omega
    · exact ⟨rfl, by positivity⟩
  have hd2 : 1 ≤ d2 := b2d_ge_one b
  have hi : be - 1 ≤ i ∧ (0 ≤ be1 → -1 ≤ i) := by
    simp only [i]
    constructor <;> [skip; intro _] <;> omega
  have hk0 : ∀ K : Int, (K : ℚ) ≤ ((min 0 (be - 1) : Int) : ℚ) / 3 - 1 / 2 → K ≤ k0 := by
    intro K hK
    apply kEstimate_ge d2 i K hd2
    have : ((min 0 (be - 1) : Int) : ℚ) ≤ ((min 0 i : Int) : ℚ) := by
      exact_mod_cast min_le_min (le_refl 0) hi.1
    linarith
  have hk0' : 0 ≤ be1 → -1 ≤ k0 := by
    intro h0
    apply kEstimate_ge d2 i (-1) hd2
    have : ((-1 : Int) : ℚ) ≤ ((min 0 i : Int) : ℚ) := by
      exact_mod_cast le_min (by norm_num) (hi.2 h0)
    push_cast at this ⊢
    linarith
  have hkk : k0 - 1 ≤ k ∧ (-1 ≤ k0 → -1 ≤ k) := by
    simp only [k, small]
    split_ifs with h
    · simp only [decide_eq_true_eq] at h
      constructor <;> [skip; intro _] <;> omega
    · constructor <;> [skip; intro h] <;> omega
  have hfin : ∀ r0 : List Nat × Int × Nat,
      (∀ K : Int, K ≤ 0 → (K : ℚ) ≤ ((min 0 (be - 1) : Int) : ℚ) / 3 - 1 / 2 → K - 2 ≤ r0.2.1) →
      (mode = 3 → -nd - 1 ≤ r0.2.1) →
      ∃ r, fin r0 = some r ∧
        (∀ K : Int, K ≤ 0 → (K : ℚ) ≤ ((min 0 (be - 1) : Int) : ℚ) / 3 - 1 / 2 →
          K - 1 ≤ r.decpt) ∧ (mode = 3 → -nd ≤ r.decpt) := by
    intro r0 h1 h2
    refine ⟨_, rfl, fun K hK hb => ?_, fun h3 => ?_⟩
    · show K - 1 ≤ r0.2.1 + 1
      have := h1 K hK hb
      omega
    · show -nd ≤ r0.2.1 + 1
      have := h2 h3
      omega
  have hslow : ∃ r, slow = some r ∧
      (∀ K : Int, K ≤ 0 → (K : ℚ) ≤ ((min 0 (be - 1) : Int) : ℚ) / 3 - 1 / 2 →
        K - 1 ≤ r.decpt) ∧ (mode = 3 → -nd ≤ r.decpt) := by
    simp only [slow]
    split_ifs with hs
    · have h1 := smallIntPath_k ilim ndigits1 rdir k d hnd1.1
      have h2 := hkk.2 (hk0' hs.1)
      apply hfin
      · intro K hK hb
        have := hk0 K hb
        omega
      · intro _
        omega
    · rw [hlr]
      have h1 := bignumPath_k fpi be be1 (getW bits 0) b bbits mode2 ndigits1 rdir k_check k
        ilim ilim1 b2a s2a b5 s5 (by
          rw [hm2]
          rcases hmode with h | h
          · exact Or.inl h
          · exact Or.inr ⟨h, (hilim.2 h).1, (hilim.2 h).2⟩)
      apply hfin
      · intro K hK hb
        have := hk0 K hb
        omega
      · intro h3
        have := h1.2 (by rw [hm2]; exact h3)
        have := hnd1.2.1 h3
        omega
  have hpath : ∃ r, (if b.wds = 0 then some { digits := [48], decpt := 1, kind := kind0 }
      else if 0 ≤ ilim ∧ ilim ≤ 14 ∧ try_quick = true ∧ rdir = 0 ∧ k = 0 then
        match quickPath leftright ilim ndigits1 d with
        | some r => fin r
        | none => slow
      else slow) = some r ∧
      (∀ K : Int, K ≤ 0 → (K : ℚ) ≤ ((min 0 (be - 1) : Int) : ℚ) / 3 - 1 / 2 →
        K - 1 ≤ r.decpt) ∧ (mode = 3 → -nd ≤ r.decpt) := by
    split_ifs with h0 hq
    · exact hzero _
    · have hil1 : 1 ≤ ilim := by
        rcases hmode with h | h
        · have := hilim.1 h; have := hnd1.2.2 h; omega
        · have := (hilim.2 h).1; have := hnd1.2.1 h; omega
      rw [hlr]
      cases hqp : quickPath false ilim ndigits1 d with
      | none => exact hslow
      | some r0 =>
        have := quickPath_k ilim ndigits1 d r0 hil1 hqp
        apply hfin
        · intro K hK _; omega
        · intro _; omega
    · exact hslow
  rcases hk with hk | hk | hk
  · rw [hk]; exact hzero _
  · rw [hk]; exact hpath
  · rw [hk]; exact hpath

/-- For a finite argument `___pformat_cvt` returns a string, the decimal point position is far
above the marker `-32768` of infinities and NaNs, and in mode 3 it is at least `-nd`. -/
theorem cvt_finite (mode : Int) (hmode : mode = 2 ∨ mode = 3) (x : LDouble) (nd : Int)
    (hnd : 0 ≤ nd) (hx : fxam x &&& 256 = 0) :
    ∃ r, ___pformat_cvt mode x nd = some r ∧ -5484 ≤ r.decpt ∧ (mode = 3 → -nd ≤ r.decpt) := by
  unfold ___pformat_cvt
  simp only [hx, if_true]
  have key : ∀ (kind : Nat) (be : Int), (kind % 8 = 0 ∨ kind % 8 = 1 ∨ kind % 8 = 2) →
      -16446 ≤ be →
      ∃ r, Option.map (fun r : DtoaResult =>
          ({ digits := r.digits, decpt := r.decpt, sign := x.se &&& 0x8000 } : Cvt))
        (___gdtoa fpi_ldouble be [x.m % 2 ^ 32, x.m / 2 ^ 32] kind mode nd) = some r ∧
        -5484 ≤ r.decpt ∧ (mode = 3 → -nd ≤ r.decpt) := by
    intro kind be hk hbe
    obtain ⟨r, h1, h2, h3⟩ := gdtoa_finite fpi_ldouble be [x.m % 2 ^ 32, x.m / 2 ^ 32] kind
      mode nd hk hmode hnd
    refine ⟨_, by rw [h1]; rfl, ?_, h3⟩
    have hmin : (-16447 : Int) ≤ min 0 (be - 1) := le_min (by norm_num) (by omega)
    have hb : ((-5483 : Int) : ℚ) ≤ ((min 0 (be - 1) : Int) : ℚ) / 3 - 1 / 2 := by
      have : (-16447 : ℚ) ≤ ((min 0 (be - 1) : Int) : ℚ) := by exact_mod_cast hmin
      generalize ((min 0 (be - 1) : Int) : ℚ) = m at this ⊢
      norm_num
      linarith
    have := h2 (-5483) (by norm_num) hb
    show -5484 ≤ r.decpt
    omega
  split_ifs with h1 h2
  · exact key 1 _ (by decide) (by omega)
  · exact key 2 _ (by decide) (by norm_num)
  · exact key 0 _ (by decide) (by norm_num)

/-! ## An upper bound on the decimal exponent -/

theorem shr_le (w k : Nat) : w >>> k ≤ w := by
  rw [Nat.shiftRight_eq_div_pow]
  exact Nat.div_le_self _ _

theorem shrWords_lt (k : Nat) (ws : List Nat) (y : Nat) (hws : ∀ w ∈ ws, w < 2 ^ 32)
    (hy : y < 2 ^ 32) : ∀ w ∈ shrWords k ws y, w < 2 ^ 32 := by
  induction ws generalizing y with
  | nil =>
    intro w hw
    simp only [shrWords, List.mem_singleton] at hw
    subst hw; exact hy
  | cons v vs ih =>
    intro w hw
    simp only [shrWords, List.mem_cons] at hw
    rcases hw with hw | hw
    · subst hw; exact Nat.mod_lt _ (by norm_num)
    · exact ih _ (fun x hx => hws x (List.mem_cons_of_mem v hx))
        (lt_of_le_of_lt (shr_le _ _) (hws v (List.mem_cons_self v vs))) w hw

theorem wordsOf_lt (x : List Nat) (h : ∀ w ∈ x, w < 2 ^ 32) (n : Nat) :
    ∀ w ∈ wordsOf x n, w < 2 ^ 32 := by
  intro w hw
  simp only [wordsOf, List.mem_map, List.mem_range] at hw
  obtain ⟨i, _, rfl⟩ := hw
  exact getW_lt x h i

theorem Bigint.Pos.norm {b : Bigint} (h : b.Pos) : b.Norm :=
  ⟨h.1, fun h0 => absurd h.2.1 (by omega), fun _ => h.2.2⟩

theorem value_lt (b : Bigint) (h : ∀ w ∈ b.x, w < 2 ^ 32) : b.value < 2 ^ (32 * b.wds) :=
  valW_wordsOf_lt b.x h b.wds

theorem value_ge_of_top (b : Bigint) (h1 : 1 ≤ b.wds) (ht : getW b.x (b.wds - 1) ≠ 0) :
    2 ^ (32 * (b.wds - 1)) ≤ b.value := by
  obtain ⟨n, hn⟩ : ∃ n, b.wds = n + 1 := ⟨b.wds - 1, by omega⟩
  unfold Bigint.value
  rw [hn] at ht ⊢
  rw [valW_wordsOf_succ]
  simp only [Nat.add_sub_cancel] at ht ⊢
  have : 2 ^ (32 * n) * 1 ≤ 2 ^ (32 * n) * getW b.x n := Nat.mul_le_mul_left _ (by omega)
  omega

theorem value_zero_of_wds (b : Bigint) (h : b.wds = 0) : b.value = 0 := by
  unfold Bigint.value
  rw [h]
  rfl

theorem Bigint.Pos.value_pos {b : Bigint} (h : b.Pos) : 0 < b.value :=
  lt_of_lt_of_le (by positivity) (value_ge_of_top b h.2.1 h.2.2)

theorem Bigint.Pos.value_ge {b : Bigint} (h : b.Pos) : 2 ^ (32 * (b.wds - 1)) ≤ b.value :=
  value_ge_of_top b h.2.1 h.2.2

theorem Bigint.Norm.value_ge_top {b : Bigint} (h : b.Norm) (h1 : 1 < b.wds) :
    2 ^ (32 * (b.wds - 1)) ≤ b.value :=
  value_ge_of_top b (by omega) (h.2.2 h1)

/-- A number in normal form below `2^(32 n)` has at most `n` words. -/
theorem Bigint.Norm.wds_le {b : Bigint} (h : b.Norm) (n : Nat) (hn : 1 ≤ n)
    (hv : b.value < 2 ^ (32 * n)) : b.wds ≤ n := by
  by_contra hc
  have h1 : 1 < b.wds := by omega
  have h2 := h.value_ge_top h1
  have h3 : 2 ^ (32 * n) ≤ 2 ^ (32 * (b.wds - 1)) :=
    Nat.pow_le_pow_right (by norm_num) (by omega)
  omega

/-- A number in normal form with a positive value is `Pos`. -/
theorem Bigint.Norm.pos_of_value {b : Bigint} (h : b.Norm) (hv : 0 < b.value) : b.Pos := by
  refine ⟨h.1, ?_, ?_⟩
  · by_contra hc
    have := value_zero_of_wds b (by omega)
    omega
  · by_cases h1 : 1 < b.wds
    · exact h.2.2 h1
    · have hw : b.wds = 1 := by
        by_contra hc
        have := value_zero_of_wds b (by omega)
        omega
      intro h0
      unfold Bigint.value at hv
      rw [hw] at hv h0
      simp [wordsOf, valW, List.range_succ] at hv
      simp at h0
      omega

/-- Sign of `___cmp_D2A` against a non-zero number. -/
theorem cmp_Norm_Pos (a b : Bigint) (ha : a.Norm) (hb : b.Pos) :
    (___cmp_D2A a b < 0 ∧ a.value < b.value) ∨
    (___cmp_D2A a b = 0 ∧ a.value = b.value) ∨
    (___cmp_D2A a b > 0 ∧ a.value > b.value) := by
  by_cases h0 : a.wds = 0
  · left
    refine ⟨?_, ?_⟩
    · unfold ___cmp_D2A
      have := hb.2.1
      rw [if_pos (by rw [h0]; push_cast; omega)]
      rw [h0]
      push_cast
      omega
    · rw [value_zero_of_wds a h0]
      exact hb.value_pos
  · exact cmp_spec a b ha.1 hb.1 (by omega) hb.2.1 (fun h => ha.value_ge_top h) (fun _ => hb.value_ge)

/-- Sign of `___cmp_D2A` for two numbers in normal form, the second with at least one word: only
the word-free zero compared with the one-word zero is reported as smaller. -/
theorem cmp_Norm_Norm (a b : Bigint) (ha : a.Norm) (hb : b.Norm) (hb1 : 1 ≤ b.wds) :
    (___cmp_D2A a b < 0 ∧ a.value ≤ b.value) ∨
    (___cmp_D2A a b = 0 ∧ a.value = b.value) ∨
    (___cmp_D2A a b > 0 ∧ a.value > b.value) := by
  by_cases h0 : a.wds = 0
  · left
    refine ⟨?_, ?_⟩
    · unfold ___cmp_D2A
      rw [if_pos (by rw [h0]; push_cast; omega)]
      rw [h0]
      push_cast
      omega
    · rw [value_zero_of_wds a h0]
      exact Nat.zero_le _
  · rcases cmp_spec a b ha.1 hb.1 (by omega) hb1 (fun h => ha.value_ge_top h)
      (fun h => hb.value_ge_top h) with h | h | h
    · exact Or.inl ⟨h.1, le_of_lt h.2⟩
    · exact Or.inr (Or.inl h)
    · exact Or.inr (Or.inr h)

theorem i2b_Pos (i : Nat) (h1 : 1 ≤ i) (h2 : i < 2 ^ 32) : (___i2b_D2A i).Pos := by
  refine ⟨?_, ?_, ?_⟩
  · intro w hw
    simp only [___i2b_D2A, List.mem_singleton] at hw
    subst hw
    exact Nat.mod_lt _ (by norm_num)
  · simp [___i2b_D2A]
  · simp only [___i2b_D2A, getW]
    simp
    have h3 : i < 4294967296 := h2
    omega

theorem i2b_value (i : Nat) (h2 : i < 2 ^ 32) : (___i2b_D2A i).value = i := by
  have h3 : i < 4294967296 := h2
  simp [___i2b_D2A, Bigint.value, wordsOf, valW, List.range_succ, getW]
  omega



/-! ## Word lists -/

theorem getW_nil (i : Nat) : getW [] i = 0 := by simp [getW]

theorem getW_cons_zero (w : Nat) (ws : List Nat) : getW (w :: ws) 0 = w := by simp [getW]

theorem getW_cons_succ (w : Nat) (ws : List Nat) (i : Nat) :
    getW (w :: ws) (i + 1) = getW ws i := by simp [getW]

theorem getW_of_le (x : List Nat) (i : Nat) (h : x.length ≤ i) : getW x i = 0 := by
  unfold getW
  exact List.getD_eq_default _ _ h

theorem wordsOf_stable (x : List Nat) (n m : Nat) (hnm : n ≤ m)
    (hz : ∀ i, n ≤ i → i < m → getW x i = 0) : valW (wordsOf x m) = valW (wordsOf x n) := by
  induction m with
  | zero =>
    have : n = 0 := by omega
    rw [this]
  | succ m ih =>
    by_cases h : n = m + 1
    · rw [h]
    · rw [valW_wordsOf_succ, hz m (by omega) (by omega), Nat.mul_zero, Nat.add_zero]
      exact ih (by omega) (fun i h1 h2 => hz i h1 (by omega))

/-- Words beyond the count that are 0 do not change the value. -/
theorem valW_wordsOf_of_zeros (x : List Nat) (n : Nat) (hz : ∀ i, n ≤ i → getW x i = 0) :
    valW (wordsOf x n) = valW x := by
  by_cases h : n ≤ x.length
  · rw [← wordsOf_stable x n x.length h (fun i h1 _ => hz i h1), wordsOf_self]
  · rw [wordsOf_stable x x.length n (by omega) (fun i h1 _ => getW_of_le x i h1), wordsOf_self]

theorem valW_wordsOf_full (x : List Nat) (n : Nat) (h : x.length ≤ n) :
    valW (wordsOf x n) = valW x :=
  valW_wordsOf_of_zeros x n (fun i hi => getW_of_le x i (by omega))

theorem valW_replicate_zero (n : Nat) : valW (List.replicate n 0) = 0 := by
  induction n with
  | zero => rfl
  | succ n ih => simp [List.replicate_succ, valW, ih]

theorem valW_zeros_append (n : Nat) (l : List Nat) :
    valW (List.replicate n 0 ++ l) = 2 ^ (32 * n) * valW l := by
  rw [valW_append, valW_replicate_zero, List.length_replicate, Nat.zero_add]

theorem mem_zeros_append_lt (n : Nat) (l : List Nat) (h : ∀ w ∈ l, w < 2 ^ 32) :
    ∀ w ∈ List.replicate n 0 ++ l, w < 2 ^ 32 := by
  intro w hw
  rw [List.mem_append] at hw
  rcases hw with hw | hw
  · rw [List.mem_replicate] at hw
    rw [hw.2]
    norm_num
  · exact h w hw

/-- A top word that is 0 keeps the value below the top position. -/
theorem top_ne_zero_of_value_ge (x : List Nat) (n : Nat) (hx : ∀ w ∈ x, w < 2 ^ 32)
    (hv : 2 ^ (32 * n) ≤ valW (wordsOf x (n + 1))) : getW x n ≠ 0 := by
  intro h0
  rw [valW_wordsOf_succ, h0, Nat.mul_zero, Nat.add_zero] at hv
  have := valW_wordsOf_lt x hx n
  omega

theorem Pos_of_value_ge (r : Bigint) (hw : ∀ w ∈ r.x, w < 2 ^ 32) (h1 : 1 ≤ r.wds)
    (hv : 2 ^ (32 * (r.wds - 1)) ≤ r.value) : r.Pos := by
  refine ⟨hw, h1, ?_⟩
  obtain ⟨n, hn⟩ : ∃ n, r.wds = n + 1 := ⟨r.wds - 1, by omega⟩
  unfold Bigint.value at hv
  rw [hn] at hv ⊢
  exact top_ne_zero_of_value_ge r.x n hw hv

/-- A description of a result by its word list: enough for value and form. -/
theorem Norm_of_value_ge (r : Bigint) (hw : ∀ w ∈ r.x, w < 2 ^ 32)
    (h0 : r.wds = 0 → getW r.x 0 = 0)
    (hv : 1 < r.wds → 2 ^ (32 * (r.wds - 1)) ≤ r.value) : r.Norm := by
  refine ⟨hw, h0, fun h1 => ?_⟩
  exact (Pos_of_value_ge r hw (by omega) (hv h1)).2.2

/-! ## `___multadd_D2A` -/

theorem mulAddWords_spec (m : Nat) (hm : m < 2 ^ 32) (ws : List Nat)
    (hws : ∀ w ∈ ws, w < 2 ^ 32) (c : Nat) (hc : c < 2 ^ 32) :
    valW (mulAddWords m ws c).1 + 2 ^ (32 * ws.length) * (mulAddWords m ws c).2 =
      valW ws * m + c ∧
    (mulAddWords m ws c).1.length = ws.length ∧
    (∀ w ∈ (mulAddWords m ws c).1, w < 2 ^ 32) ∧ (mulAddWords m ws c).2 < 2 ^ 32 := by
  induction ws generalizing c with
  | nil => exact ⟨by simp [mulAddWords, valW], rfl, by simp [mulAddWords], hc⟩
  | cons w ws ih =>
    have hw := hws w (List.mem_cons_self w ws)
    have hy : w * m + c < 2 ^ 64 := by
      have : w * m ≤ (2 ^ 32 - 1) * (2 ^ 32 - 1) := Nat.mul_le_mul (by omega) (by omega)
      norm_num at this ⊢
      omega
    have hc1 : (w * m + c) / 2 ^ 32 < 2 ^ 32 := by
      rw [Nat.div_lt_iff_lt_mul (by norm_num)]
      norm_num at hy ⊢
      omega
    obtain ⟨i1, i2, i3, i4⟩ := ih (fun x hx => hws x (List.mem_cons_of_mem w hx))
      ((w * m + c) / 2 ^ 32) hc1
    simp only [mulAddWords, Nat.mod_eq_of_lt hy, valW, List.length_cons]
    refine ⟨?_, by rw [i2], ?_, i4⟩
    · have hdm := Nat.div_add_mod (w * m + c) (2 ^ 32)
      rw [show 32 * (ws.length + 1) = 32 + 32 * ws.length by ring, pow_add, Nat.mul_assoc]
      have : (w * m + c) % 2 ^ 32 +
          2 ^ 32 * (valW (mulAddWords m ws ((w * m + c) / 2 ^ 32)).1 +
            2 ^ (32 * ws.length) * (mulAddWords m ws ((w * m + c) / 2 ^ 32)).2) =
          (w + 2 ^ 32 * valW ws) * m + c := by
        rw [i1]
        ring_nf
        ring_nf at hdm
        omega
      rw [← this]
      ring
    · intro x hx
      rw [List.mem_cons] at hx
      rcases hx with hx | hx
      · rw [hx]
        exact Nat.mod_lt _ (by norm_num)
      · exact i3 x hx

/-- The effect of `___multadd_D2A b m 0`: the value is multiplied by `m`, the form is kept. -/
theorem multadd_spec (b : Bigint) (hb : b.Norm) (m : Nat) (hm1 : 1 ≤ m) (hm : m < 2 ^ 32) :
    (___multadd_D2A b m 0).value = b.value * m ∧ (___multadd_D2A b m 0).Norm ∧
    (b.Pos → (___multadd_D2A b m 0).Pos) := by
  obtain ⟨hw, h0, ht⟩ := hb
  have hsrc := wordsOf_lt b.x hw (max b.wds 1)
  obtain ⟨i1, i2, i3, i4⟩ := mulAddWords_spec m hm (wordsOf b.x (max b.wds 1)) hsrc 0
    (by norm_num)
  rw [wordsOf_length] at i1 i2
  by_cases hz : b.wds = 0
  · -- the word-free zero
    have hsrc0 : wordsOf b.x (max b.wds 1) = [0] := by
      rw [hz]
      simp [wordsOf, List.range_succ, h0 hz]
    have hr : mulAddWords m (wordsOf b.x (max b.wds 1)) 0 = ([0], 0) := by
      rw [hsrc0]
      simp [mulAddWords]
    have hres : ___multadd_D2A b m 0 = { b with x := [0] } := by
      unfold ___multadd_D2A
      simp only [hr, if_true]
    rw [hres]
    refine ⟨?_, ?_, ?_⟩
    · rw [value_zero_of_wds b hz, value_zero_of_wds _ (show ({ b with x := [0] } : Bigint).wds = 0 from hz)]
      simp
    · refine ⟨?_, fun _ => rfl, fun h => ?_⟩
      · intro w hw'
        simp only [List.mem_singleton] at hw'
        rw [hw']
        norm_num
      · exfalso
        have : b.wds = 0 := hz
        simp only at h
        omega
    · intro hp
      exfalso
      have := hp.2.1
      omega
  · have hmax : max b.wds 1 = b.wds := max_eq_left (by omega)
    rw [hmax] at i1 i2 i3 i4 hsrc
    have hbv : valW (wordsOf b.x b.wds) = b.value := rfl
    rw [hbv, Nat.add_zero] at i1
    have hge : 1 < b.wds → 2 ^ (32 * (b.wds - 1)) ≤ b.value := fun h =>
      value_ge_of_top b (by omega) (ht h)
    by_cases hc : (mulAddWords m (wordsOf b.x b.wds) 0).2 = 0
    · have hres : ___multadd_D2A b m 0 =
          { b with x := (mulAddWords m (wordsOf b.x b.wds) 0).1 } := by
        unfold ___multadd_D2A
        simp only [hmax, hc, if_true]
      rw [hc, Nat.mul_zero, Nat.add_zero] at i1
      have hv : (___multadd_D2A b m 0).value = b.value * m := by
        rw [hres]
        unfold Bigint.value
        simp only
        rw [valW_wordsOf_full _ _ (by rw [i2]), i1]
        rfl
      have hmul : b.value ≤ b.value * m := Nat.le_mul_of_pos_right _ (by omega)
      refine ⟨hv, ?_, ?_⟩
      · apply Norm_of_value_ge
        · rw [hres]; exact i3
        · rw [hres]; intro h; exact absurd h hz
        · intro h
          rw [hv]
          rw [hres] at h ⊢
          exact le_trans (hge h) hmul
      · intro hp
        apply Pos_of_value_ge
        · rw [hres]; exact i3
        · rw [hres]; exact hp.2.1
        · rw [hv]
          rw [hres]
          exact le_trans hp.value_ge hmul
    · have hres : (___multadd_D2A b m 0).x = (mulAddWords m (wordsOf b.x b.wds) 0).1 ++
            [(mulAddWords m (wordsOf b.x b.wds) 0).2] ∧
          (___multadd_D2A b m 0).wds = b.wds + 1 := by
        have e := wordsOf_self (mulAddWords m (wordsOf b.x b.wds) 0).1
        rw [i2] at e
        unfold ___multadd_D2A
        simp only [hmax, hc, if_false, e]
        constructor <;> trivial
      have hv : (___multadd_D2A b m 0).value = b.value * m := by
        unfold Bigint.value
        rw [hres.1, hres.2, valW_wordsOf_full _ _ (by simp [i2]), valW_append, i2]
        simp only [valW, Nat.mul_zero, Nat.add_zero]
        exact i1
      have hwds : ∀ w ∈ (___multadd_D2A b m 0).x, w < 2 ^ 32 := by
        rw [hres.1]
        intro w hw'
        rw [List.mem_append, List.mem_singleton] at hw'
        rcases hw' with h | h
        · exact i3 w h
        · rw [h]; exact i4
      have hpos : (___multadd_D2A b m 0).Pos := by
        apply Pos_of_value_ge _ hwds (by rw [hres.2]; omega)
        rw [hv, hres.2, Nat.add_sub_cancel, ← i1]
        have : 2 ^ (32 * b.wds) * 1 ≤
            2 ^ (32 * b.wds) * (mulAddWords m (wordsOf b.x b.wds) 0).2 :=
          Nat.mul_le_mul_left _ (by omega)
        omega
      exact ⟨hv, hpos.norm, fun _ => hpos⟩



/-! ## `___lshift_D2A` -/

theorem getW_zeros_append (n : Nat) (l : List Nat) (i : Nat) :
    getW (List.replicate n 0 ++ l) (n + i) = getW l i := by
  unfold getW
  rw [List.getD_eq_getElem?_getD, List.getD_eq_getElem?_getD,
    List.getElem?_append_right (by simp)]
  simp

theorem valW_split_last (l : List Nat) (h : l ≠ []) :
    valW l = valW (wordsOf l (l.length - 1)) + 2 ^ (32 * (l.length - 1)) * l.getLastD 0 := by
  have hl : 1 ≤ l.length := List.length_pos.mpr h
  have h1 := valW_wordsOf_succ l (l.length - 1)
  rw [show l.length - 1 + 1 = l.length by omega, wordsOf_self, getW_last] at h1
  exact h1

/-- The effect of `___lshift_D2A` on a non-zero number. -/
theorem lshift_Pos (b : Bigint) (hb : b.Pos) (k : Nat) :
    (___lshift_D2A b k).value = b.value * 2 ^ k ∧ (___lshift_D2A b k).Pos := by
  obtain ⟨hw, h1, ht⟩ := hb
  have hmax : max b.wds 1 = b.wds := max_eq_left h1
  have hsrc := wordsOf_lt b.x hw b.wds
  have hge := value_ge_of_top b h1 ht
  have hk := Nat.div_add_mod k 32
  by_cases hs : k % 32 = 0
  · have hx : (___lshift_D2A b k).x = List.replicate (k / 32) 0 ++ wordsOf b.x b.wds := by
      simp [___lshift_D2A, hs, hmax]
    have hwd : (___lshift_D2A b k).wds = k / 32 + b.wds := by
      simp [___lshift_D2A, hs]
    have hv : (___lshift_D2A b k).value = b.value * 2 ^ k := by
      show valW (wordsOf (___lshift_D2A b k).x (___lshift_D2A b k).wds) = b.value * 2 ^ k
      rw [hx, hwd, valW_wordsOf_full _ _ (by simp [wordsOf_length]), valW_zeros_append,
        show 32 * (k / 32) = k by omega, Nat.mul_comm]
      rfl
    refine ⟨hv, ?_⟩
    apply Pos_of_value_ge
    · rw [hx]; exact mem_zeros_append_lt _ _ hsrc
    · rw [hwd]; omega
    · rw [hv, hwd]
      have e : 32 * (k / 32 + b.wds - 1) = 32 * (b.wds - 1) + k := by omega
      rw [e, pow_add]
      exact Nat.mul_le_mul_right _ hge
  · have hs32 : k % 32 ≤ 32 := le_of_lt (Nat.mod_lt _ (by norm_num))
    have hlen : (shlWords (k % 32) (wordsOf b.x b.wds) 0).length = b.wds + 1 := by
      rw [shlWords_length, wordsOf_length]
    have hval := valW_shlWords (k % 32) hs32 (wordsOf b.x b.wds) 0 hsrc (by positivity)
    have hlt := shlWords_lt (k % 32) hs32 (wordsOf b.x b.wds) 0 hsrc (by positivity)
    have hne : shlWords (k % 32) (wordsOf b.x b.wds) 0 ≠ [] := by
      intro h
      rw [h] at hlen
      simp at hlen
    have hx : (___lshift_D2A b k).x =
        List.replicate (k / 32) 0 ++ shlWords (k % 32) (wordsOf b.x b.wds) 0 := by
      simp [___lshift_D2A, hs, hmax]
    have hwd : (___lshift_D2A b k).wds =
        if (shlWords (k % 32) (wordsOf b.x b.wds) 0).getLastD 0 ≠ 0 then k / 32 + b.wds + 1
        else k / 32 + b.wds := by
      simp [___lshift_D2A, hs, hmax]
    have hfull : valW (List.replicate (k / 32) 0 ++ shlWords (k % 32) (wordsOf b.x b.wds) 0) =
        b.value * 2 ^ k := by
      rw [valW_zeros_append, hval, Nat.add_zero]
      have : (2 : Nat) ^ k = 2 ^ (32 * (k / 32)) * 2 ^ (k % 32) := by
        rw [← pow_add, hk]
      rw [this]
      show 2 ^ (32 * (k / 32)) * (2 ^ (k % 32) * b.value) = _
      ring
    have hsplit := valW_split_last _ hne
    rw [hlen, Nat.add_sub_cancel] at hsplit
    have hlast : getW (List.replicate (k / 32) 0 ++ shlWords (k % 32) (wordsOf b.x b.wds) 0)
        (k / 32 + b.wds) = (shlWords (k % 32) (wordsOf b.x b.wds) 0).getLastD 0 := by
      rw [getW_zeros_append, ← getW_last, hlen, Nat.add_sub_cancel]
    have hxlen : (List.replicate (k / 32) 0 ++
        shlWords (k % 32) (wordsOf b.x b.wds) 0).length = k / 32 + b.wds + 1 := by
      rw [List.length_append, List.length_replicate, hlen]
      omega
    have hv : (___lshift_D2A b k).value = b.value * 2 ^ k := by
      show valW (wordsOf (___lshift_D2A b k).x (___lshift_D2A b k).wds) = b.value * 2 ^ k
      rw [hx, hwd]
      split_ifs with h0
      · rw [valW_wordsOf_full _ _ (by rw [hxlen]), hfull]
      · rw [not_not] at h0
        rw [valW_wordsOf_of_zeros, hfull]
        intro i hi
        by_cases hi2 : i = k / 32 + b.wds
        · rw [hi2, hlast, h0]
        · exact getW_of_le _ _ (by rw [hxlen]; omega)
    refine ⟨hv, ?_⟩
    apply Pos_of_value_ge
    · rw [hx]; exact mem_zeros_append_lt _ _ hlt
    · rw [hwd]; split_ifs <;> omega
    · rw [hv, hwd]
      split_ifs with h0
      · rw [← hfull, valW_zeros_append, hsplit, Nat.add_sub_cancel]
        have e : 32 * (k / 32 + b.wds) = 32 * (k / 32) + 32 * b.wds := by ring
        rw [e, pow_add]
        apply Nat.mul_le_mul_left
        have : 2 ^ (32 * b.wds) * 1 ≤
            2 ^ (32 * b.wds) * (shlWords (k % 32) (wordsOf b.x b.wds) 0).getLastD 0 :=
          Nat.mul_le_mul_left _ (by omega)
        omega
      · have e : 32 * (k / 32 + b.wds - 1) ≤ 32 * (b.wds - 1) + k := by omega
        calc 2 ^ (32 * (k / 32 + b.wds - 1)) ≤ 2 ^ (32 * (b.wds - 1) + k) :=
              Nat.pow_le_pow_right (by norm_num) e
          _ = 2 ^ (32 * (b.wds - 1)) * 2 ^ k := pow_add _ _ _
          _ ≤ b.value * 2 ^ k := Nat.mul_le_mul_right _ hge

/-- Doubling keeps the normal form, also that of zero. -/
theorem lshift_one_Norm (b : Bigint) (hb : b.Norm) :
    (___lshift_D2A b 1).value = 2 * b.value ∧ (___lshift_D2A b 1).Norm := by
  by_cases hz : b.wds = 0
  · have h0 := hb.2.1 hz
    have hsrc0 : wordsOf b.x (max b.wds 1) = [0] := by
      rw [hz]
      simp [wordsOf, List.range_succ, h0]
    have hx : (___lshift_D2A b 1).x = [0, 0] := by
      simp [___lshift_D2A, hsrc0, shlWords]
    have hwd : (___lshift_D2A b 1).wds = 0 := by
      simp [___lshift_D2A, hsrc0, shlWords, hz, h0]
    refine ⟨?_, ?_, ?_, ?_⟩
    · rw [value_zero_of_wds b hz, value_zero_of_wds _ hwd]
    · rw [hx]
      intro w hw'
      simp at hw'
      rw [hw']
      norm_num
    · intro _
      rw [hx]
      rfl
    · intro h
      rw [hwd] at h
      omega
  · obtain ⟨h1, h2, h3, h4⟩ := lshift_one_spec b ⟨by omega, hb.1, hb.2.2⟩
    exact ⟨h1, Norm_of_value_ge _ h3 (fun h => by omega) h4⟩



/-! ## `___mult_D2A` and `___pow5mult_D2A` -/

theorem getW_tail (l : List Nat) (i : Nat) : getW l.tail i = getW l (i + 1) := by
  cases l with
  | nil => simp [getW]
  | cons a t => simp [getW]

theorem mulRow_spec (y : Nat) (hy : y < 2 ^ 32) (xa : List Nat) :
    ∀ (acc : List Nat) (carry : Nat), (∀ w ∈ xa, w < 2 ^ 32) → (∀ w ∈ acc, w < 2 ^ 32) →
      carry < 2 ^ 32 → xa.length < acc.length → getW acc xa.length = 0 →
      valW (mulRow y xa acc carry) = valW xa * y + valW acc + carry ∧
      (mulRow y xa acc carry).length = acc.length ∧
      (∀ w ∈ mulRow y xa acc carry, w < 2 ^ 32) ∧
      (∀ i, xa.length < i → getW (mulRow y xa acc carry) i = getW acc i) := by
  induction xa with
  | nil =>
    intro acc carry _ hacc hc hl h0
    cases acc with
    | nil => simp at hl
    | cons a t =>
      simp only [List.length_nil, getW_cons_zero] at h0
      subst h0
      refine ⟨by simp [mulRow, valW]; ring, by simp [mulRow], ?_, ?_⟩
      · intro w hw
        simp only [mulRow, List.tail_cons, List.mem_cons] at hw
        rcases hw with h | h
        · rw [h]; exact hc
        · exact hacc w (List.mem_cons_of_mem _ h)
      · intro i hi
        obtain ⟨j, rfl⟩ : ∃ j, i = j + 1 := ⟨i - 1, by simp at hi; omega⟩
        simp [mulRow, getW_cons_succ]
  | cons w ws ih =>
    intro acc carry hxa hacc hc hl h0
    cases acc with
    | nil => simp at hl
    | cons a t =>
      have hw := hxa w (List.mem_cons_self _ _)
      have ha := hacc a (List.mem_cons_self _ _)
      have hz : w * y + a + carry < 2 ^ 64 := by
        have : w * y ≤ (2 ^ 32 - 1) * (2 ^ 32 - 1) :=
          Nat.mul_le_mul (by omega) (by omega)
        norm_num at this ⊢
        omega
      have hzc : (w * y + a + carry) / 2 ^ 32 < 2 ^ 32 := by
        rw [Nat.div_lt_iff_lt_mul (by norm_num)]
        norm_num at hz ⊢
        omega
      simp only [List.length_cons, getW_cons_succ] at h0 hl
      obtain ⟨i1, i2, i3, i4⟩ := ih t ((w * y + a + carry) / 2 ^ 32)
        (fun v hv => hxa v (List.mem_cons_of_mem _ hv))
        (fun v hv => hacc v (List.mem_cons_of_mem _ hv)) hzc (by omega) h0
      have e : mulRow y (w :: ws) (a :: t) carry =
          ((w * y + a + carry) % 2 ^ 32) :: mulRow y ws t ((w * y + a + carry) / 2 ^ 32) := by
        show ((w * y + a + carry) % 2 ^ 64 % 2 ^ 32) ::
          mulRow y ws t ((w * y + a + carry) % 2 ^ 64 / 2 ^ 32) = _
        rw [Nat.mod_eq_of_lt hz]
      rw [e]
      refine ⟨?_, by rw [List.length_cons, List.length_cons, i2], ?_, ?_⟩
      · simp only [valW, i1]
        have := Nat.div_add_mod (w * y + a + carry) (2 ^ 32)
        ring_nf
        ring_nf at this
        omega
      · intro v hv
        simp only [List.mem_cons] at hv
        rcases hv with h | h
        · rw [h]; exact Nat.mod_lt _ (by norm_num)
        · exact i3 v h
      · intro i hi
        obtain ⟨j, rfl⟩ : ∃ j, i = j + 1 := ⟨i - 1, by simp at hi; omega⟩
        rw [getW_cons_succ, getW_cons_succ]
        exact i4 j (by simp at hi; omega)

theorem mulRows_spec (xa : List Nat) (hxa : ∀ w ∈ xa, w < 2 ^ 32) (ys : List Nat) :
    ∀ (acc : List Nat), (∀ w ∈ ys, w < 2 ^ 32) → (∀ w ∈ acc, w < 2 ^ 32) →
      xa.length + ys.length ≤ acc.length → (∀ i, xa.length ≤ i → getW acc i = 0) →
      valW (mulRows xa ys acc) = valW acc + valW xa * valW ys ∧
      (mulRows xa ys acc).length = acc.length ∧
      (∀ w ∈ mulRows xa ys acc, w < 2 ^ 32) := by
  induction ys with
  | nil =>
    intro acc _ hacc _ _
    exact ⟨by simp [mulRows, valW], rfl, hacc⟩
  | cons y ys ih =>
    intro acc hys hacc hl hz
    have hy := hys y (List.mem_cons_self _ _)
    simp only [List.length_cons] at hl
    -- the row
    have hrow : ∃ acc1, (if y ≠ 0 then mulRow y xa acc 0 else acc) = acc1 ∧
        valW acc1 = valW xa * y + valW acc ∧ acc1.length = acc.length ∧
        (∀ w ∈ acc1, w < 2 ^ 32) ∧ (∀ i, xa.length < i → getW acc1 i = 0) := by
      by_cases h0 : y = 0
      · refine ⟨acc, by simp [h0], by simp [h0], rfl, hacc, fun i hi => hz i (le_of_lt hi)⟩
      · obtain ⟨i1, i2, i3, i4⟩ := mulRow_spec y hy xa acc 0 hxa hacc (by norm_num) (by omega)
          (hz _ (le_refl _))
        refine ⟨_, by simp [h0], by rw [i1]; ring, i2, i3, fun i hi => ?_⟩
        rw [i4 i hi]
        exact hz i (le_of_lt hi)
    obtain ⟨acc1, e1, v1, l1, w1, z1⟩ := hrow
    have e : ∀ h t, acc1 = h :: t → mulRows xa (y :: ys) acc = h :: mulRows xa ys t := by
      intro h t ht
      rw [mulRows]
      simp only [e1, ht]
    cases acc1 with
    | nil => simp at l1; omega
    | cons h t =>
      rw [e h t rfl]
      simp only [List.length_cons] at l1
      obtain ⟨j1, j2, j3⟩ := ih t (fun v hv => hys v (List.mem_cons_of_mem _ hv))
        (fun v hv => w1 v (List.mem_cons_of_mem _ hv)) (by omega)
        (fun i hi => by
          have := z1 (i + 1) (by omega)
          rwa [getW_cons_succ] at this)
      refine ⟨?_, by simp [j2, l1], ?_⟩
      · simp only [valW] at v1 ⊢
        rw [j1]
        have : h + 2 ^ 32 * valW t = valW xa * y + valW acc := v1
        ring_nf
        ring_nf at this
        omega
      · intro v hv
        simp only [List.mem_cons] at hv
        rcases hv with h' | h'
        · rw [h']; exact w1 h (List.mem_cons_self _ _)
        · exact j3 v h'

/-- Trimming zero words from the top keeps the value. -/
theorem trimTop_value (n : Nat) (x : List Nat) :
    valW (wordsOf x (trimTop n x)) = valW (wordsOf x n) := by
  induction n with
  | zero => simp [trimTop]
  | succ n ih =>
    unfold trimTop
    by_cases h0 : getW x n = 0
    · rw [if_pos h0, ih, valW_wordsOf_succ, h0]
      simp
    · rw [if_neg h0]

/-- All words are 0 when trimming leaves none. -/
theorem trimTop_zero_words (n : Nat) (x : List Nat) (h : trimTop n x = 0) :
    ∀ i, i < n → getW x i = 0 := by
  induction n with
  | zero => intro i hi; omega
  | succ n ih =>
    unfold trimTop at h
    by_cases h0 : getW x n = 0
    · rw [if_pos h0] at h
      intro i hi
      by_cases hin : i = n
      · rw [hin]; exact h0
      · exact ih h i (by omega)
    · rw [if_neg h0] at h
      omega

theorem getW_replicate_zero (n i : Nat) : getW (List.replicate n 0) i = 0 := by
  unfold getW
  rw [List.getD_eq_getElem?_getD]
  by_cases h : i < n
  · simp [List.getElem?_replicate, h]
  · simp [List.getElem?_replicate, h]

/-- The product: exact value, and always in normal form. -/
theorem mult_spec (a b : Bigint) (ha : ∀ w ∈ a.x, w < 2 ^ 32) (hb : ∀ w ∈ b.x, w < 2 ^ 32) :
    (___mult_D2A a b).value = a.value * b.value ∧ (___mult_D2A a b).Norm := by
  -- the operands in the order the routine uses them
  have key : ∀ (a1 b1 : Bigint), (∀ w ∈ a1.x, w < 2 ^ 32) → (∀ w ∈ b1.x, w < 2 ^ 32) →
      ∀ (c : Bigint),
      let xc := mulRows (wordsOf a1.x a1.wds) (wordsOf b1.x b1.wds)
        (List.replicate (a1.wds + b1.wds) 0)
      let r : Bigint := { c with wds := trimTop (a1.wds + b1.wds) xc, x := xc }
      r.value = a1.value * b1.value ∧ r.Norm := by
    intro a1 b1 ha1 hb1 c xc r
    obtain ⟨s1, s2, s3⟩ := mulRows_spec (wordsOf a1.x a1.wds) (wordsOf_lt a1.x ha1 _)
      (wordsOf b1.x b1.wds) (List.replicate (a1.wds + b1.wds) 0) (wordsOf_lt b1.x hb1 _)
      (by intro w hw; rw [List.mem_replicate] at hw; rw [hw.2]; norm_num)
      (by simp [wordsOf_length])
      (fun i _ => getW_replicate_zero _ i)
    rw [valW_replicate_zero, Nat.zero_add] at s1
    rw [List.length_replicate] at s2
    have hv : r.value = a1.value * b1.value := by
      show valW (wordsOf xc (trimTop (a1.wds + b1.wds) xc)) = _
      rw [trimTop_value, valW_wordsOf_full _ _ (le_of_eq s2)]
      exact s1
    refine ⟨hv, s3, ?_, ?_⟩
    · intro h0
      show getW xc 0 = 0
      by_cases hwc : a1.wds + b1.wds = 0
      · exact getW_of_le _ _ (by rw [s2, hwc])
      · exact trimTop_zero_words _ _ h0 0 (by omega)
    · intro h1
      exact trimTop_top _ _ (by
        show trimTop (a1.wds + b1.wds) xc ≠ 0
        have : 1 < trimTop (a1.wds + b1.wds) xc := h1
        omega)
  unfold ___mult_D2A
  by_cases hlt : a.wds < b.wds
  · simp only [hlt, if_true]
    have := key b a hb ha (___Balloc_D2A (b.k + (if b.wds + a.wds > b.maxwds then 1 else 0)))
    rw [Nat.mul_comm a.value]
    exact this
  · simp only [hlt, if_false]
    exact key a b ha hb (___Balloc_D2A (a.k + (if a.wds + b.wds > a.maxwds then 1 else 0)))

/-- The product of two non-zero numbers is a non-zero number in normal form. -/
theorem mult_Pos (a b : Bigint) (ha : a.Pos) (hb : b.Pos) : (___mult_D2A a b).Pos := by
  obtain ⟨h1, h2⟩ := mult_spec a b ha.1 hb.1
  apply h2.pos_of_value
  rw [h1]
  exact Nat.mul_pos ha.value_pos hb.value_pos

theorem pow5loop_spec (fuel : Nat) :
    ∀ (b p5 : Bigint) (k : Nat), k < 2 ^ fuel → b.Norm → p5.Pos →
      (pow5loop fuel b p5 k).value = b.value * p5.value ^ k ∧ (pow5loop fuel b p5 k).Norm ∧
      (b.Pos → (pow5loop fuel b p5 k).Pos) := by
  induction fuel with
  | zero =>
    intro b p5 k hk hb _
    have : k = 0 := by simpa using hk
    subst this
    exact ⟨by simp [pow5loop], hb, fun h => h⟩
  | succ fuel ih =>
    intro b p5 k hk hb hp
    have hb1 : ∃ b1, (if k % 2 = 1 then ___mult_D2A b p5 else b) = b1 ∧
        b1.value = b.value * p5.value ^ (k % 2) ∧ b1.Norm ∧ (b.Pos → b1.Pos) := by
      by_cases h1 : k % 2 = 1
      · obtain ⟨m1, m2⟩ := mult_spec b p5 hb.1 hp.1
        exact ⟨_, by simp [h1], by rw [m1, h1, pow_one], m2, fun h => mult_Pos b p5 h hp⟩
      · have h0 : k % 2 = 0 := by omega
        exact ⟨b, by simp [h1], by rw [h0, pow_zero, Nat.mul_one], hb, fun h => h⟩
    obtain ⟨b1, e1, v1, n1, p1⟩ := hb1
    have e : pow5loop (fuel + 1) b p5 k =
        if k / 2 = 0 then b1 else pow5loop fuel b1 (___mult_D2A p5 p5) (k / 2) := by
      rw [pow5loop]
      simp only [e1]
    rw [e]
    have hk2 := Nat.div_add_mod k 2
    by_cases hz : k / 2 = 0
    · rw [if_pos hz]
      refine ⟨?_, n1, p1⟩
      rw [v1]
      congr 2
      omega
    · rw [if_neg hz]
      obtain ⟨m1, _⟩ := mult_spec p5 p5 hp.1 hp.1
      obtain ⟨j1, j2, j3⟩ := ih b1 (___mult_D2A p5 p5) (k / 2)
        (by rw [pow_succ] at hk; omega) n1 (mult_Pos p5 p5 hp hp)
      refine ⟨?_, j2, fun h => j3 (p1 h)⟩
      rw [j1, v1, m1, ← pow_two, ← pow_mul, Nat.mul_assoc, ← pow_add]
      congr 2
      omega

/-- The effect of `___pow5mult_D2A`: the value is multiplied by `5^k`, the form is kept. -/
theorem pow5mult_spec (b : Bigint) (hb : b.Norm) (k : Nat) (hk : k < 2 ^ 34) :
    (___pow5mult_D2A b k).value = b.value * 5 ^ k ∧ (___pow5mult_D2A b k).Norm ∧
    (b.Pos → (___pow5mult_D2A b k).Pos) := by
  have hb1 : ∃ b1, (if k % 4 ≠ 0 then ___multadd_D2A b ([5, 25, 125].getD (k % 4 - 1) 0) 0
        else b) = b1 ∧
      b1.value = b.value * 5 ^ (k % 4) ∧ b1.Norm ∧ (b.Pos → b1.Pos) := by
    have h4 : k % 4 < 4 := Nat.mod_lt _ (by norm_num)
    by_cases h0 : k % 4 = 0
    · exact ⟨b, by simp [h0], by rw [h0, pow_zero, Nat.mul_one], hb, fun h => h⟩
    · have hm : [5, 25, 125].getD (k % 4 - 1) 0 = 5 ^ (k % 4) := by
        have : k % 4 = 1 ∨ k % 4 = 2 ∨ k % 4 = 3 := by omega
        rcases this with h | h | h <;> rw [h] <;> rfl
      rw [hm]
      have h5 : 5 ^ (k % 4) < 2 ^ 32 := by
        have : k % 4 = 1 ∨ k % 4 = 2 ∨ k % 4 = 3 := by omega
        rcases this with h | h | h <;> rw [h] <;> norm_num
      obtain ⟨m1, m2, m3⟩ := multadd_spec b hb (5 ^ (k % 4)) (Nat.one_le_pow _ _ (by norm_num)) h5
      exact ⟨_, by simp [h0], m1, m2, m3⟩
  obtain ⟨b1, e1, v1, n1, p1⟩ := hb1
  have e : ___pow5mult_D2A b k =
      if k / 4 = 0 then b1 else pow5loop 32 b1 (___i2b_D2A 625) (k / 4) := by
    unfold ___pow5mult_D2A
    simp only [e1]
  rw [e]
  have hk4 := Nat.div_add_mod k 4
  by_cases hz : k / 4 = 0
  · rw [if_pos hz]
    refine ⟨?_, n1, p1⟩
    rw [v1]
    congr 2
    omega
  · rw [if_neg hz]
    obtain ⟨j1, j2, j3⟩ := pow5loop_spec 32 b1 (___i2b_D2A 625) (k / 4)
      (by norm_num at hk ⊢; omega) n1 (i2b_Pos 625 (by norm_num) (by norm_num))
    refine ⟨?_, j2, fun h => j3 (p1 h)⟩
    rw [j1, v1, i2b_value 625 (by norm_num), show (625 : Nat) = 5 ^ 4 by norm_num, ← pow_mul,
      Nat.mul_assoc, ← pow_add]
    congr 2
    omega



/-! ## `___quorem_D2A` -/

theorem getW_append_left (l r : List Nat) (i : Nat) (h : i < l.length) :
    getW (l ++ r) i = getW l i := by
  unfold getW
  rw [List.getD_eq_getElem?_getD, List.getD_eq_getElem?_getD, List.getElem?_append_left h]

theorem wordsOf_congr (x y : List Nat) (n : Nat) (h : ∀ i, i < n → getW x i = getW y i) :
    wordsOf x n = wordsOf y n := by
  unfold wordsOf
  apply List.map_congr_left
  intro i hi
  exact h i (List.mem_range.mp hi)

theorem wordsOf_append_left (l r : List Nat) (n : Nat) (h : n ≤ l.length) :
    wordsOf (l ++ r) n = wordsOf l n :=
  wordsOf_congr _ _ _ (fun i hi => getW_append_left l r i (by omega))

theorem mem_append_drop_lt (l x : List Nat) (n : Nat) (hl : ∀ w ∈ l, w < 2 ^ 32)
    (hx : ∀ w ∈ x, w < 2 ^ 32) : ∀ w ∈ l ++ x.drop n, w < 2 ^ 32 := by
  intro w hw
  rcases List.mem_append.mp hw with h | h
  · exact hl w h
  · exact hx w (List.mem_of_mem_drop h)

/-- The multiply-and-subtract loop: `b - q * S` word by word, up to the outgoing carry
and borrow. -/
theorem quoremSub_spec (q : Nat) (hq : q < 2 ^ 32) (bs : List Nat) :
    ∀ (ss : List Nat) (carry borrow : Nat), (∀ w ∈ bs, w < 2 ^ 32) → (∀ w ∈ ss, w < 2 ^ 32) →
      carry < 2 ^ 32 → borrow ≤ 1 → ss.length = bs.length →
      (∃ K, valW (quoremSub q bs ss carry borrow) + q * valW ss + carry + borrow =
          valW bs + 2 ^ (32 * bs.length) * K) ∧
      (quoremSub q bs ss carry borrow).length = bs.length ∧
      (∀ w ∈ quoremSub q bs ss carry borrow, w < 2 ^ 32) := by
  induction bs with
  | nil =>
    intro ss carry borrow _ _ _ _ hl
    have : ss = [] := List.length_eq_zero.mp hl
    subst this
    exact ⟨⟨carry + borrow, by simp [quoremSub, valW]⟩, rfl, by simp [quoremSub]⟩
  | cons bw bs ih =>
    intro ss carry borrow hbs hss hc hbo hl
    cases ss with
    | nil => simp at hl
    | cons s ss =>
      have hbw := hbs bw (List.mem_cons_self _ _)
      have hs := hss s (List.mem_cons_self _ _)
      have hy : s * q + carry < 2 ^ 64 := by
        have : s * q ≤ (2 ^ 32 - 1) * (2 ^ 32 - 1) := Nat.mul_le_mul (by omega) (by omega)
        norm_num at this ⊢
        omega
      have hyc : (s * q + carry) / 2 ^ 32 < 2 ^ 32 := by
        rw [Nat.div_lt_iff_lt_mul (by norm_num)]
        norm_num at hy ⊢
        omega
      have hlo : (s * q + carry) % 2 ^ 32 < 2 ^ 32 := Nat.mod_lt _ (by norm_num)
      have hdm := Nat.div_add_mod (s * q + carry) (2 ^ 32)
      simp only [List.length_cons, Nat.add_right_cancel_iff] at hl
      have e : quoremSub q (bw :: bs) (s :: ss) carry borrow =
          if bw ≥ (s * q + carry) % 2 ^ 32 + borrow then
            (bw - (s * q + carry) % 2 ^ 32 - borrow) ::
              quoremSub q bs ss ((s * q + carry) / 2 ^ 32) 0
          else (bw + 2 ^ 32 - (s * q + carry) % 2 ^ 32 - borrow) ::
              quoremSub q bs ss ((s * q + carry) / 2 ^ 32) 1 := by
        rw [quoremSub]
        simp only [List.headD_cons, List.tail_cons, Nat.mod_eq_of_lt hy]
      rw [e]
      by_cases hge : bw ≥ (s * q + carry) % 2 ^ 32 + borrow
      · rw [if_pos hge]
        obtain ⟨⟨K, hK⟩, i2, i3⟩ := ih ss ((s * q + carry) / 2 ^ 32) 0
          (fun v hv => hbs v (List.mem_cons_of_mem _ hv))
          (fun v hv => hss v (List.mem_cons_of_mem _ hv)) hyc (by norm_num) hl
        refine ⟨⟨K, ?_⟩, by rw [List.length_cons, List.length_cons, i2], ?_⟩
        · simp only [valW, List.length_cons]
          have e2 : (2 : Nat) ^ (32 * (bs.length + 1)) = 2 ^ 32 * 2 ^ (32 * bs.length) := by
            rw [Nat.mul_add, pow_add]; ring
          rw [e2, Nat.mul_assoc]
          generalize valW (quoremSub q bs ss ((s * q + carry) / 2 ^ 32) 0) = R at hK ⊢
          generalize (2 : Nat) ^ (32 * bs.length) * K = Z at hK ⊢
          generalize hlo' : (s * q + carry) % 2 ^ 32 = lo at *
          generalize hca' : (s * q + carry) / 2 ^ 32 = ca at *
          have e3 : q * (s + 2 ^ 32 * valW ss) = s * q + 2 ^ 32 * (q * valW ss) := by ring
          rw [e3]
          generalize q * valW ss = QS at *
          generalize s * q = sq at *
          omega
        · intro v hv
          simp only [List.mem_cons] at hv
          rcases hv with h | h
          · rw [h]; omega
          · exact i3 v h
      · rw [if_neg hge]
        obtain ⟨⟨K, hK⟩, i2, i3⟩ := ih ss ((s * q + carry) / 2 ^ 32) 1
          (fun v hv => hbs v (List.mem_cons_of_mem _ hv))
          (fun v hv => hss v (List.mem_cons_of_mem _ hv)) hyc (by norm_num) hl
        refine ⟨⟨K, ?_⟩, by rw [List.length_cons, List.length_cons, i2], ?_⟩
        · simp only [valW, List.length_cons]
          have e2 : (2 : Nat) ^ (32 * (bs.length + 1)) = 2 ^ 32 * 2 ^ (32 * bs.length) := by
            rw [Nat.mul_add, pow_add]; ring
          rw [e2, Nat.mul_assoc]
          generalize valW (quoremSub q bs ss ((s * q + carry) / 2 ^ 32) 1) = R at hK ⊢
          generalize (2 : Nat) ^ (32 * bs.length) * K = Z at hK ⊢
          generalize hlo' : (s * q + carry) % 2 ^ 32 = lo at *
          generalize hca' : (s * q + carry) / 2 ^ 32 = ca at *
          have e3 : q * (s + 2 ^ 32 * valW ss) = s * q + 2 ^ 32 * (q * valW ss) := by ring
          rw [e3]
          generalize q * valW ss = QS at *
          generalize s * q = sq at *
          omega
        · intro v hv
          simp only [List.mem_cons] at hv
          rcases hv with h | h
          · rw [h]; omega
          · exact i3 v h

/-- The subtraction loop: `a - b` word by word, up to the outgoing borrow. -/
theorem subWords_spec (as : List Nat) :
    ∀ (bs : List Nat) (borrow : Nat), (∀ w ∈ as, w < 2 ^ 32) → (∀ w ∈ bs, w < 2 ^ 32) →
      borrow ≤ 1 → bs.length ≤ as.length →
      (∃ K, valW (subWords as bs borrow) + valW bs + borrow =
          valW as + 2 ^ (32 * as.length) * K) ∧
      (subWords as bs borrow).length = as.length ∧
      (∀ w ∈ subWords as bs borrow, w < 2 ^ 32) := by
  induction as with
  | nil =>
    intro bs borrow _ _ _ hl
    have : bs = [] := List.length_eq_zero.mp (by simpa using hl)
    subst this
    exact ⟨⟨borrow, by simp [subWords, valW]⟩, rfl, by simp [subWords]⟩
  | cons wa as ih =>
    intro bs borrow has hbs hbo hl
    have hwa := has wa (List.mem_cons_self _ _)
    have hwb : bs.headD 0 < 2 ^ 32 := by
      cases bs with
      | nil => simp
      | cons b t => exact hbs b (List.mem_cons_self _ _)
    have hvb : valW bs = bs.headD 0 + 2 ^ 32 * valW bs.tail := by
      cases bs with
      | nil => simp [valW]
      | cons b t => simp [valW]
    have htl : bs.tail.length ≤ as.length := by
      cases bs with
      | nil => simp
      | cons b t => simpa using hl
    have hbt : ∀ w ∈ bs.tail, w < 2 ^ 32 := fun w hw => hbs w (List.mem_of_mem_tail hw)
    have e : subWords (wa :: as) bs borrow =
        if wa ≥ bs.headD 0 + borrow then (wa - bs.headD 0 - borrow) :: subWords as bs.tail 0
        else (wa + 2 ^ 32 - bs.headD 0 - borrow) :: subWords as bs.tail 1 := by
      rw [subWords]
    rw [e, hvb]
    have e2 : (2 : Nat) ^ (32 * ((wa :: as).length)) = 2 ^ 32 * 2 ^ (32 * as.length) := by
      rw [List.length_cons, Nat.mul_add, pow_add]; ring
    rw [e2]
    by_cases hge : wa ≥ bs.headD 0 + borrow
    · rw [if_pos hge]
      obtain ⟨⟨K, hK⟩, i2, i3⟩ := ih bs.tail 0
        (fun v hv => has v (List.mem_cons_of_mem _ hv)) hbt (by norm_num) htl
      refine ⟨⟨K, ?_⟩, by rw [List.length_cons, List.length_cons, i2], ?_⟩
      · simp only [valW]
        rw [Nat.mul_assoc]
        generalize valW (subWords as bs.tail 0) = R at hK ⊢
        generalize (2 : Nat) ^ (32 * as.length) * K = Z at hK ⊢
        omega
      · intro v hv
        simp only [List.mem_cons] at hv
        rcases hv with h | h
        · rw [h]; omega
        · exact i3 v h
    · rw [if_neg hge]
      obtain ⟨⟨K, hK⟩, i2, i3⟩ := ih bs.tail 1
        (fun v hv => has v (List.mem_cons_of_mem _ hv)) hbt (by norm_num) htl
      refine ⟨⟨K, ?_⟩, by rw [List.length_cons, List.length_cons, i2], ?_⟩
      · simp only [valW]
        rw [Nat.mul_assoc]
        generalize valW (subWords as bs.tail 1) = R at hK ⊢
        generalize (2 : Nat) ^ (32 * as.length) * K = Z at hK ⊢
        omega
      · intro v hv
        simp only [List.mem_cons] at hv
        rcases hv with h | h
        · rw [h]; omega
        · exact i3 v h

theorem quoremTrim_le (n : Nat) (x : List Nat) : quoremTrim n x ≤ n := by
  induction n with
  | zero => simp [quoremTrim]
  | succ n ih =>
    unfold quoremTrim
    split_ifs <;> omega

theorem quoremTrim_value (n : Nat) (x : List Nat) :
    valW (wordsOf x (quoremTrim n x)) = valW (wordsOf x n) := by
  induction n with
  | zero => simp [quoremTrim]
  | succ n ih =>
    unfold quoremTrim
    by_cases h0 : n > 0 ∧ getW x n = 0
    · rw [if_pos h0, ih, valW_wordsOf_succ, h0.2]
      simp
    · rw [if_neg h0]

theorem quoremTrim_top (n : Nat) (x : List Nat) (h : 1 < quoremTrim n x) :
    getW x (quoremTrim n x - 1) ≠ 0 := by
  induction n with
  | zero => simp [quoremTrim] at h
  | succ n ih =>
    unfold quoremTrim at h ⊢
    by_cases h0 : n > 0 ∧ getW x n = 0
    · rw [if_pos h0] at h ⊢
      exact ih h
    · rw [if_neg h0] at h ⊢
      simp only [Nat.add_sub_cancel]
      intro hz
      exact h0 ⟨by omega, hz⟩

theorem quoremTrim_eq_zero (n : Nat) (x : List Nat) (h : quoremTrim n x = 0) : n = 0 := by
  induction n with
  | zero => rfl
  | succ n ih =>
    unfold quoremTrim at h
    by_cases h0 : n > 0 ∧ getW x n = 0
    · rw [if_pos h0] at h
      have := ih h
      omega
    · rw [if_neg h0] at h
      omega

theorem quorem_eq (b S : Bigint) :
    ___quorem_D2A b S =
      if S.wds > b.wds then (0, b)
      else quoremSecond (quoremFirst b S) S
        (getW b.x (S.wds - 1) / ((getW S.x (S.wds - 1) + 1) % 2 ^ 32)) := rfl

/-- A block whose top word became 0, with the word count lowered. -/
theorem trim_case (c : Bigint) (x1 : List Nat) (n : Nat) (hn : 1 ≤ n)
    (hx : ∀ w ∈ x1, w < 2 ^ 32) (h0 : getW x1 (n - 1) = 0) :
    ({ c with x := x1, wds := quoremTrim (n - 1) x1 } : Bigint).Norm ∧
    ({ c with x := x1, wds := quoremTrim (n - 1) x1 } : Bigint).value = valW (wordsOf x1 n) ∧
    ({ c with x := x1, wds := quoremTrim (n - 1) x1 } : Bigint).wds ≤ n - 1 := by
  refine ⟨⟨hx, ?_, ?_⟩, ?_, quoremTrim_le _ _⟩
  · intro h
    have h1 : n - 1 = 0 := quoremTrim_eq_zero _ _ h
    rw [h1] at h0
    exact h0
  · intro h
    exact quoremTrim_top _ _ h
  · show valW (wordsOf x1 (quoremTrim (n - 1) x1)) = _
    rw [quoremTrim_value]
    obtain ⟨m, rfl⟩ : ∃ m, n = m + 1 := ⟨n - 1, by omega⟩
    rw [valW_wordsOf_succ]
    simp only [Nat.add_sub_cancel] at h0 ⊢
    rw [h0]
    simp

/-- A block whose top word is not 0 after new words were stored. -/
theorem keep_case (c : Bigint) (x1 : List Nat) (n : Nat) (hn : 1 ≤ n) (hc : c.wds = n)
    (hx : ∀ w ∈ x1, w < 2 ^ 32) (h0 : getW x1 (n - 1) ≠ 0) :
    ({ c with x := x1 } : Bigint).Norm ∧
    ({ c with x := x1 } : Bigint).value = valW (wordsOf x1 n) ∧
    ({ c with x := x1 } : Bigint).wds = n := by
  refine ⟨⟨hx, ?_, ?_⟩, ?_, hc⟩
  · intro h
    have : c.wds = 0 := h
    omega
  · intro _
    show getW x1 (c.wds - 1) ≠ 0
    rw [hc]
    exact h0
  · show valW (wordsOf x1 c.wds) = _
    rw [hc]

/-- Value of a number with `n + 1` words below `2^(32 n)` times its top word plus one. -/
theorem value_top_bounds (x : List Nat) (hx : ∀ w ∈ x, w < 2 ^ 32) (n : Nat) :
    2 ^ (32 * n) * getW x n ≤ valW (wordsOf x (n + 1)) ∧
    valW (wordsOf x (n + 1)) < 2 ^ (32 * n) * (getW x n + 1) := by
  rw [valW_wordsOf_succ]
  have := valW_wordsOf_lt x hx n
  constructor
  · omega
  · rw [Nat.mul_add, Nat.mul_one]
    omega

theorem quoremFirst_spec (b S : Bigint) (hb : b.Norm) (hS : S.Pos) (hn : b.wds = S.wds)
    (hst : getW S.x (S.wds - 1) < 2 ^ 32 - 1) :
    (quoremFirst b S).1.Norm ∧
    (quoremFirst b S).1.value +
        getW b.x (S.wds - 1) / (getW S.x (S.wds - 1) + 1) * S.value = b.value ∧
    (quoremFirst b S).1.wds ≤ S.wds ∧
    ((quoremFirst b S).1.wds = S.wds → (quoremFirst b S).2 = S.wds - 1) := by
  obtain ⟨hSw, hS1, hSt⟩ := hS
  obtain ⟨m, hm⟩ : ∃ m, S.wds = m + 1 := ⟨S.wds - 1, by omega⟩
  have hv11 : (getW S.x (S.wds - 1) + 1) % 2 ^ 32 = getW S.x (S.wds - 1) + 1 :=
    Nat.mod_eq_of_lt (by omega)
  have hbt := getW_lt b.x hb.1 (S.wds - 1)
  have hbv : b.value = valW (wordsOf b.x S.wds) := by
    show valW (wordsOf b.x b.wds) = _
    rw [hn]
  have hSv : S.value = valW (wordsOf S.x S.wds) := rfl
  unfold quoremFirst
  simp only [hv11]
  generalize hqd : getW b.x (S.wds - 1) / (getW S.x (S.wds - 1) + 1) = q
  by_cases hq : getW S.x (S.wds - 1) + 1 ≤ getW b.x (S.wds - 1)
  · -- the estimate is not 0
    simp only [if_pos hq]
    have hqlt : q < 2 ^ 32 := by
      rw [← hqd]
      exact lt_of_le_of_lt (Nat.div_le_self _ _) hbt
    obtain ⟨⟨K, hK⟩, i2, i3⟩ := quoremSub_spec q hqlt (wordsOf b.x S.wds) (wordsOf S.x S.wds) 0 0
      (wordsOf_lt b.x hb.1 _) (wordsOf_lt S.x hSw _) (by norm_num) (by norm_num)
      (by rw [wordsOf_length, wordsOf_length])
    rw [wordsOf_length] at hK i2
    have hsublt := valW_lt _ i3
    rw [i2] at hsublt
    -- q * S <= b
    have hkey : q * valW (wordsOf S.x S.wds) ≤ valW (wordsOf b.x S.wds) := by
      have t1 := value_top_bounds S.x hSw m
      have t2 := value_top_bounds b.x hb.1 m
      rw [← hqd, hm]
      simp only [Nat.add_sub_cancel]
      calc getW b.x m / (getW S.x m + 1) * valW (wordsOf S.x (m + 1))
          ≤ getW b.x m / (getW S.x m + 1) * (2 ^ (32 * m) * (getW S.x m + 1)) :=
            Nat.mul_le_mul_left _ (le_of_lt t1.2)
        _ = 2 ^ (32 * m) * (getW b.x m / (getW S.x m + 1) * (getW S.x m + 1)) := by ring
        _ ≤ 2 ^ (32 * m) * getW b.x m := Nat.mul_le_mul_left _ (Nat.div_mul_le_self _ _)
        _ ≤ valW (wordsOf b.x (m + 1)) := t2.1
    have hK0 : K = 0 := by
      by_contra hne
      have : 2 ^ (32 * S.wds) * 1 ≤ 2 ^ (32 * S.wds) * K := Nat.mul_le_mul_left _ (by omega)
      have t3 := valW_wordsOf_lt b.x hb.1 S.wds
      omega
    simp only [hK0, Nat.mul_zero, Nat.add_zero] at hK
    generalize quoremSub q (wordsOf b.x S.wds) (wordsOf S.x S.wds) 0 0 = sub at *
    have hx1 : ∀ w ∈ sub ++ b.x.drop S.wds, w < 2 ^ 32 := mem_append_drop_lt _ _ _ i3 hb.1
    have hw1 : wordsOf (sub ++ b.x.drop S.wds) S.wds = sub := by
      rw [wordsOf_append_left _ _ _ (le_of_eq i2.symm), ← i2]
      exact wordsOf_self _
    by_cases h0 : getW (sub ++ b.x.drop S.wds) (S.wds - 1) = 0
    · simp only [if_pos h0]
      obtain ⟨c1, c2, c3⟩ := trim_case b _ S.wds hS1 hx1 h0
      refine ⟨c1, ?_, le_trans c3 (Nat.sub_le _ _), ?_⟩
      · rw [c2, hw1, hbv, hSv]
        exact hK
      · intro h
        exfalso
        have h1 : quoremTrim (S.wds - 1) (sub ++ b.x.drop S.wds) = S.wds := h
        have h2 := quoremTrim_le (S.wds - 1) (sub ++ b.x.drop S.wds)
        omega
    · simp only [if_neg h0]
      obtain ⟨c1, c2, c3⟩ := keep_case b _ S.wds hS1 hn hx1 h0
      refine ⟨c1, ?_, le_of_eq c3, fun _ => trivial⟩
      rw [c2, hw1, hbv, hSv]
      exact hK
  · have hq0 : q = 0 := by
      rw [← hqd]
      exact Nat.div_eq_of_lt (by omega)
    simp only [if_neg hq]
    refine ⟨hb, by rw [hq0]; simp, le_of_eq hn, fun _ => trivial⟩

theorem quoremSecond_spec (r1 : Bigint × Nat) (S : Bigint) (q : Nat) (h1 : r1.1.Norm)
    (hS : S.Pos) (hw : r1.1.wds ≤ S.wds) (h2 : r1.1.wds = S.wds → r1.2 = S.wds - 1) :
    ((quoremSecond r1 S q).1 = q ∧ (quoremSecond r1 S q).2 = r1.1 ∧ r1.1.value < S.value) ∨
    ((quoremSecond r1 S q).1 = q + 1 ∧ (quoremSecond r1 S q).2.value + S.value = r1.1.value ∧
      (quoremSecond r1 S q).2.Norm ∧ (quoremSecond r1 S q).2.wds ≤ S.wds) := by
  unfold quoremSecond
  by_cases hc : ___cmp_D2A r1.1 S < 0
  · left
    simp only [if_pos hc, true_and]
    rcases cmp_Norm_Pos r1.1 S h1 hS with h | h | h
    · exact h.2
    · omega
    · omega
  · right
    simp only [if_neg hc]
    have hge : S.value ≤ r1.1.value := by
      rcases cmp_Norm_Pos r1.1 S h1 hS with h | h | h
      · exact absurd h.1 hc
      · exact le_of_eq h.2.symm
      · exact le_of_lt h.2
    have hwe : r1.1.wds = S.wds := by
      by_contra hne
      apply hc
      unfold ___cmp_D2A
      rw [if_pos (by omega)]
      omega
    have hr2 := h2 hwe
    obtain ⟨hSw, hS1, hSt⟩ := hS
    obtain ⟨⟨K, hK⟩, i2, i3⟩ := subWords_spec (wordsOf r1.1.x S.wds) (wordsOf S.x S.wds) 0
      (wordsOf_lt r1.1.x h1.1 _) (wordsOf_lt S.x hSw _) (by norm_num)
      (by rw [wordsOf_length, wordsOf_length])
    rw [wordsOf_length] at hK i2
    have hsublt := valW_lt _ i3
    rw [i2] at hsublt
    have hrv : r1.1.value = valW (wordsOf r1.1.x S.wds) := by
      show valW (wordsOf r1.1.x r1.1.wds) = _
      rw [hwe]
    have hSv : S.value = valW (wordsOf S.x S.wds) := rfl
    have hK0 : K = 0 := by
      by_contra hne
      have : 2 ^ (32 * S.wds) * 1 ≤ 2 ^ (32 * S.wds) * K := Nat.mul_le_mul_left _ (by omega)
      have t3 := valW_wordsOf_lt r1.1.x h1.1 S.wds
      omega
    simp only [hK0, Nat.mul_zero, Nat.add_zero] at hK
    generalize subWords (wordsOf r1.1.x S.wds) (wordsOf S.x S.wds) 0 = sub at *
    have hx1 : ∀ w ∈ sub ++ r1.1.x.drop S.wds, w < 2 ^ 32 := mem_append_drop_lt _ _ _ i3 h1.1
    have hw1 : wordsOf (sub ++ r1.1.x.drop S.wds) S.wds = sub := by
      rw [wordsOf_append_left _ _ _ (le_of_eq i2.symm), ← i2]
      exact wordsOf_self _
    rw [hr2]
    by_cases h0 : getW (sub ++ r1.1.x.drop S.wds) (S.wds - 1) = 0
    · simp only [h0, ne_eq, not_true_eq_false, if_false, true_and]
      obtain ⟨c1, c2, c3⟩ := trim_case r1.1 _ S.wds hS1 hx1 h0
      refine ⟨?_, c1, le_trans c3 (Nat.sub_le _ _)⟩
      rw [c2, hw1, hrv, hSv]
      exact hK
    · simp only [h0, ne_eq, not_false_eq_true, if_true, true_and]
      obtain ⟨c1, c2, c3⟩ := keep_case r1.1 _ S.wds hS1 hwe hx1 h0
      refine ⟨?_, c1, le_of_eq c3⟩
      rw [c2, hw1, hrv, hSv]
      exact hK

/-- The division identity of `___quorem_D2A`: the numerator is the quotient times the divisor
plus the rest; the rest is in normal form; it is below the divisor unless the second
subtraction took place. -/
theorem quorem_spec (b S : Bigint) (hb : b.Norm) (hS : S.Pos) (hwd : b.wds ≤ S.wds)
    (hst : getW S.x (S.wds - 1) < 2 ^ 32 - 1) :
    b.value = (___quorem_D2A b S).1 * S.value + (___quorem_D2A b S).2.value ∧
    (___quorem_D2A b S).2.Norm ∧ (___quorem_D2A b S).2.wds ≤ S.wds ∧
    ((___quorem_D2A b S).2.value < S.value ∨
      (b.wds = S.wds ∧
        (___quorem_D2A b S).1 = getW b.x (S.wds - 1) / (getW S.x (S.wds - 1) + 1) + 1)) := by
  rw [quorem_eq]
  by_cases hgt : S.wds > b.wds
  · simp only [if_pos hgt]
    refine ⟨by simp, hb, hwd, Or.inl ?_⟩
    have h1 := value_lt b hb.1
    have h2 := hS.value_ge
    have h3 : 2 ^ (32 * b.wds) ≤ 2 ^ (32 * (S.wds - 1)) :=
      Nat.pow_le_pow_right (by norm_num) (by omega)
    omega
  · simp only [if_neg hgt]
    have hn : b.wds = S.wds := by omega
    have hv11 : (getW S.x (S.wds - 1) + 1) % 2 ^ 32 = getW S.x (S.wds - 1) + 1 :=
      Nat.mod_eq_of_lt (by omega)
    rw [hv11]
    obtain ⟨f1, f2, f3, f4⟩ := quoremFirst_spec b S hb hS hn hst
    rcases quoremSecond_spec (quoremFirst b S) S
      (getW b.x (S.wds - 1) / (getW S.x (S.wds - 1) + 1)) f1 hS f3 f4 with h | h
    · obtain ⟨g1, g2, g3⟩ := h
      rw [g1, g2]
      exact ⟨by omega, f1, f3, Or.inl g3⟩
    · obtain ⟨g1, g2, g3, g4⟩ := h
      rw [g1]
      refine ⟨?_, g3, g4, Or.inr ⟨hn, rfl⟩⟩
      rw [Nat.add_mul, Nat.one_mul]
      omega

theorem digit_aux (st q : Nat) (h : q + 1 ≤ st) : (st + 1) * (q + 1) ≤ (q + 2) * st := by
  nlinarith

/-- The digit of `___quorem_D2A`: when the numerator is below ten times the divisor and the top
word of the divisor is at least 8, the result is the true quotient and the rest is
the true remainder. -/
theorem quorem_digit (b S : Bigint) (hb : b.Norm) (hS : S.Pos) (hwd : b.wds ≤ S.wds)
    (hst : getW S.x (S.wds - 1) < 2 ^ 32 - 1) (h10 : 8 ≤ getW S.x (S.wds - 1))
    (hlt : b.value < 10 * S.value) :
    (___quorem_D2A b S).2.value < S.value ∧ (___quorem_D2A b S).1 = b.value / S.value ∧
    (___quorem_D2A b S).1 ≤ 9 ∧ (___quorem_D2A b S).2.value = b.value % S.value := by
  obtain ⟨e1, e2, e3, e4⟩ := quorem_spec b S hb hS hwd hst
  have hSpos := hS.value_pos
  have hrem : (___quorem_D2A b S).2.value < S.value := by
    rcases e4 with h | ⟨hn, hq⟩
    · exact h
    · obtain ⟨hSw, hS1, hSt⟩ := hS
      obtain ⟨m, hm⟩ : ∃ m, S.wds = m + 1 := ⟨S.wds - 1, by omega⟩
      have t1 := value_top_bounds S.x hSw m
      have t2 := value_top_bounds b.x hb.1 m
      have hbv : b.value = valW (wordsOf b.x (m + 1)) := by
        show valW (wordsOf b.x b.wds) = _
        rw [hn, hm]
      have hSv : S.value = valW (wordsOf S.x (m + 1)) := by
        show valW (wordsOf S.x S.wds) = _
        rw [hm]
      rw [hm] at hq h10
      simp only [Nat.add_sub_cancel] at hq h10
      rw [← hbv] at t2
      rw [← hSv] at t1
      rw [hq] at e1
      generalize (___quorem_D2A b S).2.value = r2 at *
      generalize getW b.x m = bt at *
      generalize getW S.x m = st at *
      generalize (2 : Nat) ^ (32 * m) = W at *
      generalize hqq : bt / (st + 1) = q at *
      have d1 : q * (st + 1) ≤ bt := by rw [← hqq]; exact Nat.div_mul_le_self _ _
      have d2 : bt < (st + 1) * (q + 1) := by rw [← hqq]; exact Nat.lt_mul_div_succ _ (by omega)
      -- q <= 9
      have hq9 : q ≤ 9 := by
        by_contra hc
        have : 10 * (st + 1) ≤ q * (st + 1) := Nat.mul_le_mul_right _ (by omega)
        have : W * (10 * (st + 1)) ≤ W * bt := Nat.mul_le_mul_left _ (by omega)
        have : 10 * S.value < 10 * (W * (st + 1)) := by omega
        have e : W * (10 * (st + 1)) = 10 * (W * (st + 1)) := by ring
        omega
      -- b < (q + 2) * S
      have hb2 : b.value < (q + 2) * S.value := by
        by_cases hq8 : 8 ≤ q
        · have : 10 * S.value ≤ (q + 2) * S.value := Nat.mul_le_mul_right _ (by omega)
          omega
        · have a1 : W * (bt + 1) ≤ W * ((st + 1) * (q + 1)) := Nat.mul_le_mul_left _ (by omega)
          have a2 : (st + 1) * (q + 1) ≤ (q + 2) * st := digit_aux st q (by omega)
          have a3 : W * ((st + 1) * (q + 1)) ≤ W * ((q + 2) * st) := Nat.mul_le_mul_left _ a2
          have a4 : (q + 2) * (W * st) ≤ (q + 2) * S.value := Nat.mul_le_mul_left _ t1.1
          have e : W * ((q + 2) * st) = (q + 2) * (W * st) := by ring
          omega
      have e5 : (q + 2) * S.value = (q + 1) * S.value + S.value := by ring
      omega
  have hdiv : (___quorem_D2A b S).1 = b.value / S.value := by
    symm
    apply Nat.div_eq_of_lt_le
    · rw [e1]
      exact Nat.le_add_right _ _
    · rw [Nat.add_mul, Nat.one_mul]
      omega
  refine ⟨hrem, hdiv, ?_, ?_⟩
  · rw [hdiv]
    apply Nat.le_of_lt_succ
    rw [Nat.div_lt_iff_lt_mul hSpos]
    omega
  · rw [hdiv] at e1
    have := Nat.div_add_mod b.value S.value
    have e6 : b.value / S.value * S.value = S.value * (b.value / S.value) := Nat.mul_comm _ _
    omega



/-! ## `___rshift_D2A`, `___trailz_D2A` and the conversion of the mantissa -/

theorem shr_word (k y w : Nat) (hk : k ≤ 32) (hy : y < 2 ^ (32 - k)) :
    (y ||| (w <<< (32 - k))) % 2 ^ 32 = y + 2 ^ (32 - k) * (w % 2 ^ k) := by
  have hor : y ||| (w <<< (32 - k)) = 2 ^ (32 - k) * w + y := by
    rw [Nat.lor_comm, Nat.shiftLeft_eq, Nat.mul_comm, ← Nat.mul_add_lt_is_or hy]
  have hp : (2 : Nat) ^ 32 = 2 ^ (32 - k) * 2 ^ k := by
    rw [← pow_add]; congr 1; omega
  rw [hor]
  have hm : 0 < 2 ^ k := by positivity
  have hw := Nat.div_add_mod w (2 ^ k)
  have hlt : 2 ^ (32 - k) * (w % 2 ^ k) + y < 2 ^ 32 := by
    have h1 : w % 2 ^ k + 1 ≤ 2 ^ k := Nat.mod_lt _ hm
    have h2 := Nat.mul_le_mul_left (2 ^ (32 - k)) h1
    rw [← hp, Nat.mul_add, Nat.mul_one] at h2
    omega
  have he : 2 ^ (32 - k) * w + y =
      (2 ^ (32 - k) * (w % 2 ^ k) + y) + 2 ^ 32 * (w / 2 ^ k) := by
    conv_lhs => rw [← hw]
    rw [hp]
    ring
  rw [he, Nat.add_mul_mod_self_left, Nat.mod_eq_of_lt hlt]
  ring

theorem shr_lt (k w : Nat) (hk : k ≤ 32) (hw : w < 2 ^ 32) : w >>> k < 2 ^ (32 - k) := by
  rw [Nat.shiftRight_eq_div_pow, Nat.div_lt_iff_lt_mul (by positivity), ← pow_add]
  rwa [show 32 - k + k = 32 by omega]

theorem valW_shrWords (k : Nat) (hk : k ≤ 32) (ws : List Nat) (y : Nat)
    (hws : ∀ w ∈ ws, w < 2 ^ 32) (hy : y < 2 ^ (32 - k)) :
    valW (shrWords k ws y) = y + 2 ^ (32 - k) * valW ws := by
  induction ws generalizing y with
  | nil => simp [shrWords, valW]
  | cons w ws ih =>
    have hw := hws w (List.mem_cons_self w ws)
    rw [shrWords, valW, valW,
      ih _ (fun x hx => hws x (List.mem_cons_of_mem w hx)) (shr_lt k w hk hw),
      shr_word k y w hk hy, Nat.shiftRight_eq_div_pow]
    have hp : (2 : Nat) ^ 32 = 2 ^ (32 - k) * 2 ^ k := by
      rw [← pow_add]; congr 1; omega
    have hdm := Nat.div_add_mod w (2 ^ k)
    have e1 : 2 ^ 32 * (w / 2 ^ k + 2 ^ (32 - k) * valW ws) =
        2 ^ (32 - k) * (2 ^ k * (w / 2 ^ k)) + 2 ^ (32 - k) * (2 ^ 32 * valW ws) := by
      rw [hp]; ring
    have e2 : 2 ^ (32 - k) * (w + 2 ^ 32 * valW ws) =
        2 ^ (32 - k) * (2 ^ k * (w / 2 ^ k) + w % 2 ^ k) + 2 ^ (32 - k) * (2 ^ 32 * valW ws) := by
      rw [hdm]; ring
    rw [e1, e2]
    ring

theorem shrWords_length (k : Nat) (ws : List Nat) (y : Nat) :
    (shrWords k ws y).length = ws.length + 1 := by
  induction ws generalizing y with
  | nil => rfl
  | cons w ws ih => simp [shrWords, ih]

theorem valW_drop (l : List Nat) (n : Nat) (hl : ∀ w ∈ l, w < 2 ^ 32) :
    valW (l.drop n) = valW l / 2 ^ (32 * n) := by
  induction n generalizing l with
  | zero => simp
  | succ n ih =>
    cases l with
    | nil => simp [valW]
    | cons a t =>
      have ha := hl a (List.mem_cons_self _ _)
      have h1 : valW ((a :: t).drop (n + 1)) = valW t / 2 ^ (32 * n) := by
        rw [List.drop_succ_cons]
        exact ih t (fun w hw => hl w (List.mem_cons_of_mem _ hw))
      have h2 : valW (a :: t) / 2 ^ 32 = valW t := by
        show (a + 2 ^ 32 * valW t) / 2 ^ 32 = valW t
        rw [Nat.add_mul_div_left _ _ (by positivity), Nat.div_eq_of_lt ha, Nat.zero_add]
      have e : 32 * (n + 1) = 32 + 32 * n := by ring
      rw [h1, e, pow_add, ← Nat.div_div_eq_div_mul, h2]

theorem wordsOf_append_self (l r : List Nat) : wordsOf (l ++ r) l.length = l := by
  rw [wordsOf_append_left _ _ _ (le_refl _)]
  exact wordsOf_self l

theorem valW_wordsOf_append (l r : List Nat) (n : Nat) (h : l.length ≤ n)
    (hz : ∀ i, l.length ≤ i → i < n → getW (l ++ r) i = 0) :
    valW (wordsOf (l ++ r) n) = valW l := by
  induction n with
  | zero =>
    have : l = [] := List.length_eq_zero.mp (by omega)
    subst this
    simp [wordsOf, valW]
  | succ n ih =>
    by_cases hl : l.length = n + 1
    · rw [← hl, wordsOf_append_self]
    · rw [valW_wordsOf_succ, hz n (by omega) (by omega), Nat.mul_zero, Nat.add_zero]
      exact ih (by omega) (fun i h1 h2 => hz i h1 (by omega))

/-- The effect of `___rshift_D2A` on a non-zero number: the value is divided by `2^k`, the
result is in normal form. -/
theorem rshift_spec (b : Bigint) (hb : b.Pos) (k : Nat) :
    (___rshift_D2A b k).value = b.value / 2 ^ k ∧ (___rshift_D2A b k).Norm := by
  have hw := hb.1
  have hW := wordsOf_lt b.x hw b.wds
  have hge := hb.value_ge
  have hlt := value_lt b hw
  have hk := Nat.div_add_mod k 32
  have hr : k % 32 < 32 := Nat.mod_lt _ (by norm_num)
  unfold ___rshift_D2A
  simp only []
  by_cases h1 : k / 32 < b.wds
  · rw [if_pos h1]
    have hsrc : ∀ w ∈ (wordsOf b.x b.wds).drop (k / 32), w < 2 ^ 32 :=
      fun w hw' => hW w (List.mem_of_mem_drop hw')
    have hlen : ((wordsOf b.x b.wds).drop (k / 32)).length = b.wds - k / 32 := by
      rw [List.length_drop, wordsOf_length]
    have hvs : valW ((wordsOf b.x b.wds).drop (k / 32)) = b.value / 2 ^ (32 * (k / 32)) :=
      valW_drop _ _ hW
    generalize (wordsOf b.x b.wds).drop (k / 32) = src at hsrc hlen hvs ⊢
    by_cases h2 : k % 32 = 0
    · rw [if_pos h2]
      have hk' : 32 * (k / 32) = k := by omega
      rw [hk'] at hvs
      have hv : ({ b with wds := src.length, x := src ++ b.x.drop src.length } : Bigint).value =
          b.value / 2 ^ k := by
        show valW (wordsOf (src ++ b.x.drop src.length) src.length) = _
        rw [wordsOf_append_self, hvs]
      refine ⟨hv, ?_⟩
      apply Norm_of_value_ge
      · exact mem_append_drop_lt _ _ _ hsrc hw
      · intro h0
        have : src.length = 0 := h0
        omega
      · intro _
        rw [hv]
        show 2 ^ (32 * (src.length - 1)) ≤ _
        rw [Nat.le_div_iff_mul_le (by positivity), ← pow_add, hlen]
        refine le_trans (Nat.pow_le_pow_right (by norm_num) ?_) hge
        omega
    · rw [if_neg h2]
      cases src with
      | nil => simp at hlen; omega
      | cons h t =>
        simp only [List.tail_cons, List.headD_cons]
        have hh := hsrc h (List.mem_cons_self _ _)
        have ht : ∀ w ∈ t, w < 2 ^ 32 := fun w hw' => hsrc w (List.mem_cons_of_mem _ hw')
        have hy := shr_lt (k % 32) h (le_of_lt hr) hh
        have hvo := valW_shrWords (k % 32) (le_of_lt hr) t (h >>> (k % 32)) ht hy
        have hlo := shrWords_length (k % 32) t (h >>> (k % 32))
        have hbo := shrWords_lt (k % 32) t (h >>> (k % 32)) ht
          (lt_of_le_of_lt (shr_le _ _) hh)
        simp only [List.length_cons] at hlen
        -- the value of the shifted words
        have hval : valW (shrWords (k % 32) t (h >>> (k % 32))) = b.value / 2 ^ k := by
          rw [hvo, Nat.shiftRight_eq_div_pow]
          have e1 : valW (h :: t) / 2 ^ (k % 32) = h / 2 ^ (k % 32) + 2 ^ (32 - k % 32) * valW t := by
            show (h + 2 ^ 32 * valW t) / 2 ^ (k % 32) = _
            have hp : (2 : Nat) ^ 32 = 2 ^ (k % 32) * 2 ^ (32 - k % 32) := by
              rw [← pow_add]; congr 1; omega
            rw [hp, Nat.mul_assoc, Nat.add_mul_div_left _ _ (by positivity)]
          rw [← e1, hvs, Nat.div_div_eq_div_mul, ← pow_add, hk]
        generalize shrWords (k % 32) t (h >>> (k % 32)) = out at hvo hlo hbo hval ⊢
        have hne : out ≠ [] := by
          intro h0
          rw [h0] at hlo
          simp at hlo
        have hsplit := valW_split_last out hne
        have hv : ({ b with
            wds := (if out.getLastD 0 ≠ 0 then out.length else out.length - 1)
            x := out ++ b.x.drop out.length } : Bigint).value = b.value / 2 ^ k := by
          show valW (wordsOf (out ++ b.x.drop out.length)
            (if out.getLastD 0 ≠ 0 then out.length else out.length - 1)) = _
          rw [← hval]
          split_ifs with h0
          · rw [wordsOf_append_self]
          · rw [not_not] at h0
            rw [wordsOf_append_left _ _ _ (Nat.sub_le _ _), hsplit, h0]
            simp
        refine ⟨hv, ?_⟩
        apply Norm_of_value_ge
        · exact mem_append_drop_lt _ _ _ hbo hw
        · intro h0
          have h0' : (if out.getLastD 0 ≠ 0 then out.length else out.length - 1) = 0 := h0
          show getW (out ++ b.x.drop out.length) 0 = 0
          split_ifs at h0' with h3
          · omega
          · rw [not_not] at h3
            rw [getW_append_left _ _ _ (by omega)]
            have e : getW out 0 = getW out (out.length - 1) := by rw [h0']
            rw [e, getW_last, h3]
        · intro hgt
          have hgt' : 1 < (if out.getLastD 0 ≠ 0 then out.length else out.length - 1) := hgt
          rw [hv]
          show 2 ^ (32 * ((if out.getLastD 0 ≠ 0 then out.length else out.length - 1) - 1)) ≤ _
          split_ifs at hgt' ⊢ with h3
          · rw [← hval, hsplit]
            have : 2 ^ (32 * (out.length - 1)) * 1 ≤
                2 ^ (32 * (out.length - 1)) * out.getLastD 0 :=
              Nat.mul_le_mul_left _ (by omega)
            omega
          · rw [Nat.le_div_iff_mul_le (by positivity), ← pow_add]
            refine le_trans (Nat.pow_le_pow_right (by norm_num) ?_) hge
            omega
  · rw [if_neg h1]
    have hv : ({ b with wds := 0, x := 0 :: b.x.tail } : Bigint).value = b.value / 2 ^ k := by
      rw [value_zero_of_wds _ rfl]
      symm
      apply Nat.div_eq_of_lt
      refine lt_of_lt_of_le hlt (Nat.pow_le_pow_right (by norm_num) ?_)
      omega
    refine ⟨hv, ?_, ?_, ?_⟩
    · intro w hw'
      simp only [List.mem_cons] at hw'
      rcases hw' with h | h
      · rw [h]; norm_num
      · exact hw w (List.mem_of_mem_tail h)
    · intro _
      rfl
    · intro h
      have : (1 : Nat) < 0 := h
      omega

theorem cttz_spec (fuel : Nat) : ∀ w, w ≠ 0 → w < 2 ^ fuel →
    2 ^ cttz fuel w ∣ w ∧ (w / 2 ^ cttz fuel w) % 2 = 1 := by
  induction fuel with
  | zero =>
    intro w h0 h1
    simp at h1
    omega
  | succ fuel ih =>
    intro w h0 h1
    rw [cttz]
    by_cases hodd : w % 2 = 1
    · rw [if_pos hodd]
      simp [hodd]
    · rw [if_neg hodd]
      have h2 : w / 2 ≠ 0 := by omega
      have h3 : w / 2 < 2 ^ fuel := by
        rw [pow_succ] at h1
        omega
      obtain ⟨i1, i2⟩ := ih (w / 2) h2 h3
      have hw : w = 2 * (w / 2) := by omega
      constructor
      · rw [Nat.add_comm, pow_succ, Nat.mul_comm]
        conv_rhs => rw [hw]
        exact Nat.mul_dvd_mul_left 2 i1
      · rw [Nat.add_comm, pow_succ, Nat.mul_comm, ← Nat.div_div_eq_div_mul]
        exact i2

theorem trailzWords_spec (ws : List Nat) (hws : ∀ w ∈ ws, w < 2 ^ 32) (hv : valW ws ≠ 0) :
    2 ^ trailzWords ws ∣ valW ws ∧ (valW ws / 2 ^ trailzWords ws) % 2 = 1 := by
  induction ws with
  | nil => simp [valW] at hv
  | cons w ws ih =>
    have hw := hws w (List.mem_cons_self _ _)
    rw [trailzWords]
    by_cases h0 : w ≠ 0
    · rw [if_pos h0]
      obtain ⟨c1, c2⟩ := cttz_spec 32 w h0 hw
      have hc : cttz 32 w < 32 := by
        by_contra hge
        have h1 : 2 ^ 32 ∣ w := dvd_trans (pow_dvd_pow 2 (by omega)) c1
        have := Nat.le_of_dvd (by omega) h1
        omega
      have hp : (2 : Nat) ^ 32 = 2 ^ cttz 32 w * 2 ^ (32 - cttz 32 w) := by
        rw [← pow_add]; congr 1; omega
      have hp2 : (2 : Nat) ^ (32 - cttz 32 w) = 2 * 2 ^ (31 - cttz 32 w) := by
        rw [← pow_succ']; congr 1; omega
      constructor
      · show 2 ^ cttz 32 w ∣ w + 2 ^ 32 * valW ws
        apply dvd_add c1
        rw [hp, Nat.mul_assoc]
        exact dvd_mul_right _ _
      · show (w + 2 ^ 32 * valW ws) / 2 ^ cttz 32 w % 2 = 1
        rw [hp, Nat.mul_assoc, Nat.add_mul_div_left _ _ (by positivity), hp2, Nat.mul_assoc,
          Nat.add_mul_mod_self_left]
        exact c2
    · rw [if_neg h0]
      rw [not_not] at h0
      subst h0
      have hv' : valW ws ≠ 0 := by
        intro h
        apply hv
        show 0 + 2 ^ 32 * valW ws = 0
        rw [h]
        rfl
      obtain ⟨i1, i2⟩ := ih (fun v hv => hws v (List.mem_cons_of_mem _ hv)) hv'
      constructor
      · show 2 ^ (32 + trailzWords ws) ∣ 0 + 2 ^ 32 * valW ws
        rw [Nat.zero_add, pow_add]
        exact Nat.mul_dvd_mul_left _ i1
      · show (0 + 2 ^ 32 * valW ws) / 2 ^ (32 + trailzWords ws) % 2 = 1
        rw [Nat.zero_add, pow_add, ← Nat.div_div_eq_div_mul,
          Nat.mul_div_cancel_left _ (by positivity)]
        exact i2

/-- The count of `___trailz_D2A`: the largest power of two dividing the value. -/
theorem trailz_spec (b : Bigint) (hb : b.Pos) :
    2 ^ ___trailz_D2A b ∣ b.value ∧ (b.value / 2 ^ ___trailz_D2A b) % 2 = 1 :=
  trailzWords_spec _ (wordsOf_lt b.x hb.1 _) (Nat.pos_iff_ne_zero.mp hb.value_pos)

/-- The bit length of a non-zero number, from its top word. -/
theorem bitlen_spec (b : Bigint) (hb : b.Pos) :
    2 ^ ((b.wds - 1) * 32 + 32 - hi0bits (getW b.x (b.wds - 1)) - 1) ≤ b.value ∧
    b.value < 2 ^ ((b.wds - 1) * 32 + 32 - hi0bits (getW b.x (b.wds - 1))) ∧
    hi0bits (getW b.x (b.wds - 1)) ≤ 31 := by
  obtain ⟨hw, h1, ht⟩ := hb
  obtain ⟨m, hm⟩ : ∃ m, b.wds = m + 1 := ⟨b.wds - 1, by omega⟩
  have tb := value_top_bounds b.x hw m
  have hbv : b.value = valW (wordsOf b.x (m + 1)) := by
    show valW (wordsOf b.x b.wds) = _
    rw [hm]
  rw [← hbv] at tb
  rw [hm] at ht ⊢
  simp only [Nat.add_sub_cancel] at ht ⊢
  have hl := log2n_spec (getW b.x m) (by omega)
  have htop := getW_lt b.x hw m
  have hl31 : log2n (getW b.x m) ≤ 31 := by
    by_contra hc
    have : 2 ^ 32 ≤ 2 ^ log2n (getW b.x m) := Nat.pow_le_pow_right (by norm_num) (by omega)
    omega
  have hh : hi0bits (getW b.x m) = 31 - log2n (getW b.x m) := by
    unfold hi0bits
    rw [if_neg ht]
  rw [hh]
  have e1 : m * 32 + 32 - (31 - log2n (getW b.x m)) - 1 = 32 * m + log2n (getW b.x m) := by
    omega
  have e2 : m * 32 + 32 - (31 - log2n (getW b.x m)) = 32 * m + (log2n (getW b.x m) + 1) := by
    omega
  rw [e1, e2, pow_add, pow_add]
  refine ⟨?_, ?_, by omega⟩
  · exact le_trans (Nat.mul_le_mul_left _ hl.1) tb.1
  · exact lt_of_lt_of_le tb.2 (Nat.mul_le_mul_left _ hl.2)

/-- The mantissa as a bignum: its value is that of the input words, it is in normal form,
and the second component is its bit length. -/
theorem bitstob_spec (bits : List Nat) (nbits : Nat) (hbits : ∀ w ∈ bits, w < 2 ^ 32) :
    (bitstob bits nbits).1.value = valW (wordsOf bits ((nbits - 1) / 32 + 1)) ∧
    (bitstob bits nbits).1.Norm ∧
    (valW (wordsOf bits ((nbits - 1) / 32 + 1)) ≠ 0 →
      (bitstob bits nbits).1.Pos ∧
      2 ^ ((bitstob bits nbits).2 - 1) ≤ valW (wordsOf bits ((nbits - 1) / 32 + 1)) ∧
      valW (wordsOf bits ((nbits - 1) / 32 + 1)) < 2 ^ (bitstob bits nbits).2 ∧
      1 ≤ (bitstob bits nbits).2) := by
  have hx := wordsOf_lt bits hbits ((nbits - 1) / 32 + 1)
  have hlen := wordsOf_length bits ((nbits - 1) / 32 + 1)
  generalize hX : wordsOf bits ((nbits - 1) / 32 + 1) = X at hx hlen
  generalize hn : (nbits - 1) / 32 + 1 = n at hlen hX
  have hv : (bitstob bits nbits).1.value = valW X := by
    unfold bitstob
    simp only [hn, hX]
    show valW (wordsOf X (trimTop n X)) = _
    rw [trimTop_value, ← hlen, wordsOf_self]
  have hnorm : (bitstob bits nbits).1.Norm := by
    unfold bitstob
    simp only [hn, hX]
    refine ⟨hx, ?_, ?_⟩
    · intro h0
      have h0' : trimTop n X = 0 := h0
      show getW X 0 = 0
      by_cases hn0 : n = 0
      · exact getW_of_le _ _ (by omega)
      · exact trimTop_zero_words _ _ h0' 0 (by omega)
    · intro h1
      have h1' : 1 < trimTop n X := h1
      show getW X (trimTop n X - 1) ≠ 0
      exact trimTop_top n X (by omega)
  refine ⟨hv, hnorm, ?_⟩
  intro hne
  have hpos : (bitstob bits nbits).1.Pos := hnorm.pos_of_value (by omega)
  have hbl := bitlen_spec _ hpos
  rw [hv] at hbl
  have h2 : (bitstob bits nbits).2 = ((bitstob bits nbits).1.wds - 1) * 32 + 32 -
      hi0bits (getW (bitstob bits nbits).1.x ((bitstob bits nbits).1.wds - 1)) := by
    have hw1 := hpos.2.1
    unfold bitstob at hw1 ⊢
    simp only [hn, hX] at hw1 ⊢
    rw [if_neg (by omega)]
  rw [h2]
  exact ⟨hpos, hbl.1, hbl.2.1, by omega⟩



/-! ## `___b2d_D2A` -/

/-- The leading zero count of a non-zero 32-bit word brackets the word. -/
theorem hi0bits_spec (y : Nat) (h0 : y ≠ 0) (hy : y < 2 ^ 32) :
    hi0bits y ≤ 31 ∧ 2 ^ (31 - hi0bits y) ≤ y ∧ y < 2 ^ (32 - hi0bits y) := by
  have hl := log2n_spec y (by omega)
  have hl31 : log2n y ≤ 31 := by
    by_contra hc
    have : 2 ^ 32 ≤ 2 ^ log2n y := Nat.pow_le_pow_right (by norm_num) (by omega)
    omega
  have hh : hi0bits y = 31 - log2n y := by
    unfold hi0bits
    rw [if_neg h0]
  rw [hh]
  have e1 : 31 - (31 - log2n y) = log2n y := by omega
  have e2 : 32 - (31 - log2n y) = log2n y + 1 := by omega
  rw [e1, e2]
  exact ⟨by omega, hl.1, hl.2⟩

/-- The top three words of a non-zero number, as a 96-bit number `T`, bracket the value. -/
theorem top96 (b : Bigint) (hb : b.Pos) :
    (getW b.x (b.wds - 1) * 2 ^ 64 + (if b.wds > 1 then getW b.x (b.wds - 2) else 0) * 2 ^ 32 +
      (if b.wds > 2 then getW b.x (b.wds - 3) else 0)) * 2 ^ (32 * b.wds) ≤ b.value * 2 ^ 96 ∧
    b.value * 2 ^ 96 < (getW b.x (b.wds - 1) * 2 ^ 64 +
      (if b.wds > 1 then getW b.x (b.wds - 2) else 0) * 2 ^ 32 +
      (if b.wds > 2 then getW b.x (b.wds - 3) else 0) + 1) * 2 ^ (32 * b.wds) := by
  obtain ⟨hw, h1, _⟩ := hb
  have hv : b.value = valW (wordsOf b.x b.wds) := rfl
  rw [hv]
  generalize b.wds = n at h1 ⊢
  rcases Nat.lt_or_ge n 3 with h3 | h3
  · have : n = 1 ∨ n = 2 := by omega
    rcases this with h | h <;> subst h
    · simp [wordsOf, List.range_succ, valW]
      constructor <;> ring_nf <;> omega
    · simp [wordsOf, List.range_succ, valW]
      constructor <;> ring_nf <;> omega
  · obtain ⟨m, rfl⟩ : ∃ m, n = m + 3 := ⟨n - 3, by omega⟩
    have hlow := valW_wordsOf_lt b.x hw m
    rw [valW_wordsOf_succ, valW_wordsOf_succ, valW_wordsOf_succ]
    simp only [show m + 3 > 1 by omega, show m + 3 > 2 by omega, if_true,
      show m + 3 - 1 = m + 2 by omega, show m + 3 - 2 = m + 1 by omega,
      show m + 3 - 3 = m by omega]
    have e1 : (2 : Nat) ^ (32 * (m + 1)) = 2 ^ (32 * m) * 2 ^ 32 := by
      rw [Nat.mul_add, pow_add]
    have e2 : (2 : Nat) ^ (32 * (m + 2)) = 2 ^ (32 * m) * 2 ^ 64 := by
      rw [Nat.mul_add, pow_add]
    have e3 : (2 : Nat) ^ (32 * (m + 3)) = 2 ^ (32 * m) * 2 ^ 96 := by
      rw [Nat.mul_add, pow_add]
    rw [e1, e2, e3]
    generalize (2 : Nat) ^ (32 * m) = P at *
    generalize valW (wordsOf b.x m) = low at *
    generalize getW b.x m = w at *
    generalize getW b.x (m + 1) = z at *
    generalize getW b.x (m + 2) = y at *
    constructor
    · have : (y * 2 ^ 64 + z * 2 ^ 32 + w) * (P * 2 ^ 96) =
          (P * w + P * 2 ^ 32 * z + P * 2 ^ 64 * y) * 2 ^ 96 := by ring
      rw [this]
      apply Nat.mul_le_mul_right
      omega
    · have : (y * 2 ^ 64 + z * 2 ^ 32 + w + 1) * (P * 2 ^ 96) =
          (P * w + P * 2 ^ 32 * z + P * 2 ^ 64 * y + P) * 2 ^ 96 := by ring
      rw [this]
      apply Nat.mul_lt_mul_of_pos_right _ (by positivity)
      omega

theorem pow_split32 (r : Nat) (h : r ≤ 32) : (2 : Nat) ^ 32 = 2 ^ r * 2 ^ (32 - r) := by
  rw [← pow_add]; congr 1; omega

/-- The 53 leading bits which `___b2d_D2A` takes from the top three words. -/
theorem b2d_mant (y z w : Nat) (hy0 : y ≠ 0) (hy : y < 2 ^ 32) (hz : z < 2 ^ 32)
    (hw : w < 2 ^ 32) :
    ((if hi0bits y < 11 then y >>> (11 - hi0bits y)
      else if hi0bits y = 11 then y
      else ((y <<< (hi0bits y - 11)) ||| (z >>> (32 - (hi0bits y - 11)))) % 2 ^ 32) % 2 ^ 20) *
        2 ^ 32 +
      (if hi0bits y < 11 then ((y <<< (21 + hi0bits y)) ||| (z >>> (11 - hi0bits y))) % 2 ^ 32
      else if hi0bits y = 11 then z
      else ((z <<< (hi0bits y - 11)) ||| (w >>> (32 - (hi0bits y - 11)))) % 2 ^ 32) + 2 ^ 52 =
    (y * 2 ^ 64 + z * 2 ^ 32 + w) / 2 ^ (43 - hi0bits y) := by
  obtain ⟨hk31, hlo, hhi⟩ := hi0bits_spec y hy0 hy
  generalize hi0bits y = k at hk31 hlo hhi ⊢
  by_cases h1 : k < 11
  · -- the top word holds more than 21 bits
    rw [if_pos h1, if_pos h1]
    obtain ⟨r, hr⟩ : ∃ r, r = 11 - k := ⟨_, rfl⟩
    have hr1 : 1 ≤ r := by omega
    have hr2 : r ≤ 11 := by omega
    have e21 : 21 + k = 32 - r := by omega
    have e43 : 43 - k = 32 + r := by omega
    rw [← hr, e21, e43]
    have hs := shl_word (32 - r) y (z >>> r) (by omega)
      (by have := shr_lt r z (by omega) hz; exact this)
    rw [show 32 - (32 - r) = r by omega] at hs
    have hp := pow_split32 r (by omega)
    have hd0 : y >>> r = y / 2 ^ r := Nat.shiftRight_eq_div_pow _ _
    have hzr : z >>> r = z / 2 ^ r := Nat.shiftRight_eq_div_pow _ _
    rw [hd0, hzr] at hs
    rw [hd0, hzr]
    -- d0 is in [2^20, 2^21)
    have h20 : 2 ^ 20 ≤ y / 2 ^ r := by
      rw [Nat.le_div_iff_mul_le (by positivity), ← pow_add]
      exact le_trans (Nat.pow_le_pow_right (by norm_num) (by omega)) hlo
    have h21 : y / 2 ^ r < 2 ^ 21 := by
      rw [Nat.div_lt_iff_lt_mul (by positivity), ← pow_add]
      exact lt_of_lt_of_le hhi (Nat.pow_le_pow_right (by norm_num) (by omega))
    have hm : y / 2 ^ r % 2 ^ 20 = y / 2 ^ r - 2 ^ 20 := by omega
    rw [hm]
    -- the right side
    have hR : (y * 2 ^ 64 + z * 2 ^ 32 + w) / 2 ^ (32 + r) = 2 ^ (32 - r) * y + z / 2 ^ r := by
      rw [pow_add, ← Nat.div_div_eq_div_mul]
      have e1 : (y * 2 ^ 64 + z * 2 ^ 32 + w) / 2 ^ 32 = y * 2 ^ 32 + z := by
        have : y * 2 ^ 64 + z * 2 ^ 32 + w = w + 2 ^ 32 * (y * 2 ^ 32 + z) := by ring
        rw [this, Nat.add_mul_div_left _ _ (by positivity), Nat.div_eq_of_lt hw, Nat.zero_add]
      rw [e1]
      have e2 : y * 2 ^ 32 + z = z + 2 ^ r * (2 ^ (32 - r) * y) := by
        rw [hp]; ring
      rw [e2, Nat.add_mul_div_left _ _ (by positivity), Nat.add_comm]
    rw [hR]
    generalize (y <<< (32 - r) ||| z / 2 ^ r) % 2 ^ 32 = d1 at hs ⊢
    generalize y / 2 ^ r = d0 at *
    generalize 2 ^ (32 - r) * y = Y at *
    generalize z / 2 ^ r = Z at *
    omega
  · by_cases h2 : k = 11
    · rw [if_neg h1, if_neg h1, if_pos h2, if_pos h2]
      subst h2
      have hm : y % 2 ^ 20 = y - 2 ^ 20 := by
        norm_num at hlo hhi ⊢
        omega
      rw [hm]
      have e1 : (y * 2 ^ 64 + z * 2 ^ 32 + w) / 2 ^ (43 - 11) = y * 2 ^ 32 + z := by
        have : y * 2 ^ 64 + z * 2 ^ 32 + w = w + 2 ^ 32 * (y * 2 ^ 32 + z) := by ring
        rw [this, show 43 - 11 = 32 by norm_num, Nat.add_mul_div_left _ _ (by positivity),
          Nat.div_eq_of_lt hw, Nat.zero_add]
      rw [e1]
      norm_num at hlo hhi ⊢
      omega
    · rw [if_neg h1, if_neg h1, if_neg h2, if_neg h2]
      obtain ⟨s, hs⟩ : ∃ s, s = k - 11 := ⟨_, rfl⟩
      have hs1 : 1 ≤ s := by omega
      have hs2 : s ≤ 20 := by omega
      have e43 : 43 - k = 32 - s := by omega
      rw [← hs, e43]
      have ha := shl_word s y (z >>> (32 - s)) (by omega) (shr_word_lt s z (by omega) hz)
      have hb := shl_word s z (w >>> (32 - s)) (by omega) (shr_word_lt s w (by omega) hw)
      have hy0' : y >>> (32 - s) = 0 := by
        rw [Nat.shiftRight_eq_div_pow]
        apply Nat.div_eq_of_lt
        exact lt_of_lt_of_le hhi (Nat.pow_le_pow_right (by norm_num) (by omega))
      rw [hy0', Nat.mul_zero, Nat.add_zero] at ha
      have hzr : z >>> (32 - s) = z / 2 ^ (32 - s) := Nat.shiftRight_eq_div_pow _ _
      have hwr : w >>> (32 - s) = w / 2 ^ (32 - s) := Nat.shiftRight_eq_div_pow _ _
      rw [hzr] at ha hb
      rw [hwr] at hb
      rw [hzr, hwr]
      have hp := pow_split32 s (by omega)
      have hzlt : z / 2 ^ (32 - s) < 2 ^ s := by
        rw [Nat.div_lt_iff_lt_mul (by positivity), ← hp]
        exact hz
      -- d0 is in [2^20, 2^21)
      have h20 : 2 ^ 20 ≤ 2 ^ s * y := by
        have : 2 ^ s * 2 ^ (31 - k) ≤ 2 ^ s * y := Nat.mul_le_mul_left _ hlo
        rw [← pow_add, show s + (31 - k) = 20 by omega] at this
        exact this
      have h21 : 2 ^ s * y + 2 ^ s ≤ 2 ^ 21 := by
        have : 2 ^ s * (y + 1) ≤ 2 ^ s * 2 ^ (32 - k) := Nat.mul_le_mul_left _ hhi
        rw [← pow_add, show s + (32 - k) = 21 by omega, Nat.mul_add, Nat.mul_one] at this
        exact this
      have hR : (y * 2 ^ 64 + z * 2 ^ 32 + w) / 2 ^ (32 - s) =
          2 ^ 32 * (2 ^ s * y) + 2 ^ s * z + w / 2 ^ (32 - s) := by
        have : y * 2 ^ 64 + z * 2 ^ 32 + w =
            w + 2 ^ (32 - s) * (2 ^ 32 * (2 ^ s * y) + 2 ^ s * z) := by
          have e : 2 ^ (32 - s) * (2 ^ 32 * (2 ^ s * y) + 2 ^ s * z) =
              (2 ^ s * 2 ^ (32 - s)) * (2 ^ 32 * y) + (2 ^ s * 2 ^ (32 - s)) * z := by ring
          rw [e, ← hp]
          ring
        rw [this, Nat.add_mul_div_left _ _ (by positivity), Nat.add_comm]
      rw [hR]
      generalize (y <<< s ||| z / 2 ^ (32 - s)) % 2 ^ 32 = d0 at ha ⊢
      generalize (z <<< s ||| w / 2 ^ (32 - s)) % 2 ^ 32 = d1 at hb ⊢
      generalize 2 ^ s * y = Y at *
      generalize 2 ^ s * z = Z at *
      generalize z / 2 ^ (32 - s) = zq at *
      generalize w / 2 ^ (32 - s) = wq at *
      generalize (2 : Nat) ^ s = S at *
      omega

/-- The double which `___b2d_D2A` returns is `M / 2^52` for the 53 leading bits `M` of the
number: with `L` the bit length, `M * 2^(L-53) <= value < (M + 1) * 2^(L-53)`. -/
theorem b2d_spec (b : Bigint) (hb : b.Pos) :
    ∃ M : Nat, ___b2d_D2A b = (M : ℚ) / 2 ^ 52 ∧ 2 ^ 52 ≤ M ∧ M < 2 ^ 53 ∧
      M * 2 ^ (32 * b.wds - hi0bits (getW b.x (b.wds - 1))) ≤ b.value * 2 ^ 53 ∧
      b.value * 2 ^ 53 < (M + 1) * 2 ^ (32 * b.wds - hi0bits (getW b.x (b.wds - 1))) := by
  have t96 := top96 b hb
  obtain ⟨hw, h1, ht⟩ := hb
  have hy := getW_lt b.x hw (b.wds - 1)
  have hz : (if b.wds > 1 then getW b.x (b.wds - 2) else 0) < 2 ^ 32 := by
    split_ifs
    · exact getW_lt b.x hw _
    · norm_num
  have hw3 : (if b.wds > 2 then getW b.x (b.wds - 3) else 0) < 2 ^ 32 := by
    split_ifs
    · exact getW_lt b.x hw _
    · norm_num
  have hm := b2d_mant _ _ _ ht hy hz hw3
  obtain ⟨hk31, hlo, hhi⟩ := hi0bits_spec _ ht hy
  refine ⟨(getW b.x (b.wds - 1) * 2 ^ 64 + (if b.wds > 1 then getW b.x (b.wds - 2) else 0) * 2 ^ 32 +
      (if b.wds > 2 then getW b.x (b.wds - 3) else 0)) /
      2 ^ (43 - hi0bits (getW b.x (b.wds - 1))), ?_, ?_, ?_, ?_, ?_⟩
  · rw [← hm]
    unfold ___b2d_D2A
    simp only []
    push_cast
    ring
  all_goals
    generalize (if b.wds > 1 then getW b.x (b.wds - 2) else 0) = z at *
    generalize (if b.wds > 2 then getW b.x (b.wds - 3) else 0) = w at *
    generalize getW b.x (b.wds - 1) = y at *
    generalize hi0bits y = k at *
    have hD : (2 : Nat) ^ (43 - k) * 2 ^ k = 2 ^ 43 := by
      rw [← pow_add]; congr 1; omega
    have hL : (2 : Nat) ^ (32 * b.wds - k) * 2 ^ k = 2 ^ (32 * b.wds) := by
      rw [← pow_add]; congr 1; omega
    have hdm := Nat.div_add_mod (y * 2 ^ 64 + z * 2 ^ 32 + w) (2 ^ (43 - k))
    have hml := Nat.mod_lt (y * 2 ^ 64 + z * 2 ^ 32 + w) (show 0 < 2 ^ (43 - k) by positivity)
    generalize hT : y * 2 ^ 64 + z * 2 ^ 32 + w = T at *
  · -- 2^52 <= M
    rw [Nat.le_div_iff_mul_le (by positivity), ← pow_add]
    have : 2 ^ (31 - k) * 2 ^ 64 ≤ y * 2 ^ 64 := Nat.mul_le_mul_right _ hlo
    rw [← pow_add] at this
    have e : 52 + (43 - k) = 31 - k + 64 := by omega
    rw [e]
    omega
  · -- M < 2^53
    rw [Nat.div_lt_iff_lt_mul (by positivity), ← pow_add]
    have : (y + 1) * 2 ^ 64 ≤ 2 ^ (32 - k) * 2 ^ 64 := Nat.mul_le_mul_right _ hhi
    rw [← pow_add] at this
    have e : 53 + (43 - k) = 32 - k + 64 := by omega
    rw [e]
    omega
  · -- lower bound
    apply Nat.le_of_mul_le_mul_right _ (show 0 < 2 ^ 43 by positivity)
    calc T / 2 ^ (43 - k) * 2 ^ (32 * b.wds - k) * 2 ^ 43
        = (2 ^ (43 - k) * (T / 2 ^ (43 - k))) * (2 ^ (32 * b.wds - k) * 2 ^ k) := by
          rw [← hD]; ring
      _ ≤ T * 2 ^ (32 * b.wds) := by
          rw [hL]
          exact Nat.mul_le_mul_right _ (by omega)
      _ ≤ b.value * 2 ^ 96 := t96.1
      _ = b.value * 2 ^ 53 * 2 ^ 43 := by ring
  · -- upper bound
    apply Nat.lt_of_mul_lt_mul_right (a := 2 ^ 43)
    calc b.value * 2 ^ 53 * 2 ^ 43 = b.value * 2 ^ 96 := by ring
      _ < (T + 1) * 2 ^ (32 * b.wds) := t96.2
      _ ≤ (2 ^ (43 - k) * (T / 2 ^ (43 - k) + 1)) * 2 ^ (32 * b.wds) := by
          apply Nat.mul_le_mul_right
          rw [Nat.mul_add, Nat.mul_one]
          omega
      _ = (T / 2 ^ (43 - k) + 1) * 2 ^ (32 * b.wds - k) * 2 ^ 43 := by
          rw [← hL, ← hD]; ring



/-! ## Normalized bignums -/

theorem Bigint.Pos.canon {b : Bigint} (h : b.Pos) : b.Canon := ⟨h.1, fun _ => h.2.2⟩

theorem Bigint.Canon.pos {b : Bigint} (h : b.Canon) (h1 : 1 ≤ b.wds) : b.Pos :=
  ⟨h.1, h1, h.2 h1⟩

/-- A normalized bignum whose word 0 reads 0 when it has no words is in normal form. -/
theorem Bigint.Canon.to_norm {b : Bigint} (h : b.Canon) (h0 : b.wds = 0 → getW b.x 0 = 0) :
    b.Norm := ⟨h.1, h0, fun h1 => h.2 (by omega)⟩

/-- A normalized bignum is zero exactly when it has no words. -/
theorem Bigint.Canon.value_eq_zero {b : Bigint} (h : b.Canon) : b.value = 0 ↔ b.wds = 0 := by
  constructor
  · intro hv
    by_contra hc
    have := (h.pos (by omega)).value_pos
    omega
  · exact value_zero_of_wds b

/-- The sign of `___cmp_D2A` is the order of the values of normalized bignums. -/
theorem cmp_Canon (a b : Bigint) (ha : a.Canon) (hb : b.Canon) :
    (___cmp_D2A a b < 0 ∧ a.value < b.value) ∨
    (___cmp_D2A a b = 0 ∧ a.value = b.value) ∨
    (___cmp_D2A a b > 0 ∧ a.value > b.value) := by
  by_cases ha0 : a.wds = 0
  · by_cases hb0 : b.wds = 0
    · right; left
      refine ⟨?_, by rw [value_zero_of_wds a ha0, value_zero_of_wds b hb0]⟩
      unfold ___cmp_D2A
      rw [if_neg (by rw [ha0, hb0]; simp), if_pos ha0]
    · left
      refine ⟨?_, by rw [value_zero_of_wds a ha0]; exact (hb.pos (by omega)).value_pos⟩
      unfold ___cmp_D2A
      rw [if_pos (by rw [ha0]; push_cast; omega), ha0]
      push_cast
      omega
  · by_cases hb0 : b.wds = 0
    · right; right
      refine ⟨?_, by rw [value_zero_of_wds b hb0]; exact (ha.pos (by omega)).value_pos⟩
      unfold ___cmp_D2A
      rw [if_pos (by rw [hb0]; push_cast; omega), hb0]
      push_cast
      omega
    · exact cmp_spec a b ha.1 hb.1 (by omega) (by omega)
        (fun _ => (ha.pos (by omega)).value_ge) (fun _ => (hb.pos (by omega)).value_ge)

/-- The word loop of `___cmp_D2A` returns -1, 0 or 1. -/
theorem cmpWords_range (n : Nat) (xa xb : List Nat) :
    cmpWords n xa xb = -1 ∨ cmpWords n xa xb = 0 ∨ cmpWords n xa xb = 1 := by
  induction n with
  | zero => right; left; rfl
  | succ n ih =>
    unfold cmpWords
    split_ifs
    · exact ih
    · left; rfl
    · right; right; rfl

/-- What `___cmp_D2A` returns: the difference of the word counts when they differ, else -1, 0
or 1. -/
theorem cmp_values (a b : Bigint) :
    (a.wds ≠ b.wds ∧ ___cmp_D2A a b = (a.wds : Int) - b.wds) ∨
    (a.wds = b.wds ∧ (___cmp_D2A a b = -1 ∨ ___cmp_D2A a b = 0 ∨ ___cmp_D2A a b = 1)) := by
  unfold ___cmp_D2A
  by_cases hw : (a.wds : Int) - b.wds ≠ 0
  · left
    rw [if_pos hw]
    exact ⟨by omega, rfl⟩
  · right
    rw [if_neg hw]
    refine ⟨by omega, ?_⟩
    split_ifs
    · right; left; rfl
    · exact cmpWords_range _ _ _

/-- Word lists of the same length with 32-bit words and the same value are equal. -/
theorem valW_inj (l1 : List Nat) : ∀ (l2 : List Nat), l1.length = l2.length →
    (∀ w ∈ l1, w < 2 ^ 32) → (∀ w ∈ l2, w < 2 ^ 32) → valW l1 = valW l2 → l1 = l2 := by
  induction l1 with
  | nil =>
    intro l2 hl _ _ _
    cases l2 with
    | nil => rfl
    | cons _ _ => simp at hl
  | cons w ws ih =>
    intro l2 hl h1 h2 hv
    cases l2 with
    | nil => simp at hl
    | cons v vs =>
      simp only [List.length_cons, Nat.add_right_cancel_iff] at hl
      simp only [valW] at hv
      have hw := h1 w (List.mem_cons_self _ _)
      have hv' := h2 v (List.mem_cons_self _ _)
      have e1 : w = v := by omega
      have e2 : valW ws = valW vs := by omega
      rw [e1, ih vs hl (fun x hx => h1 x (List.mem_cons_of_mem _ hx))
        (fun x hx => h2 x (List.mem_cons_of_mem _ hx)) e2]

/-- Normalized bignums with the same value have the same words. -/
theorem Canon_unique (a b : Bigint) (ha : a.Canon) (hb : b.Canon) (hv : a.value = b.value) :
    a.wds = b.wds ∧ wordsOf a.x a.wds = wordsOf b.x b.wds := by
  have hw : a.wds = b.wds := by
    rcases cmp_values a b with ⟨h1, h2⟩ | ⟨h1, _⟩
    · exfalso
      rcases cmp_Canon a b ha hb with c | c | c <;> omega
    · exact h1
  refine ⟨hw, ?_⟩
  apply valW_inj
  · rw [wordsOf_length, wordsOf_length, hw]
  · exact wordsOf_lt a.x ha.1 _
  · exact wordsOf_lt b.x hb.1 _
  · exact hv

/-- The product of `___mult_D2A` is normalized. -/
theorem mult_Canon (a b : Bigint) (ha : ∀ w ∈ a.x, w < 2 ^ 32) (hb : ∀ w ∈ b.x, w < 2 ^ 32) :
    (___mult_D2A a b).Canon := by
  obtain ⟨_, hn⟩ := mult_spec a b ha hb
  refine ⟨hn.1, fun h1 => ?_⟩
  have h := trimTop_top ((if a.wds < b.wds then b else a).wds + (if a.wds < b.wds then a else b).wds)
    (___mult_D2A a b).x (by
      have : (___mult_D2A a b).wds = trimTop ((if a.wds < b.wds then b else a).wds +
        (if a.wds < b.wds then a else b).wds) (___mult_D2A a b).x := rfl
      omega)
  exact h



/-! ## `___multadd_D2A` with an addend -/

/-- The effect of `___multadd_D2A b m a` on a bignum with at least one word: the value is
`b * m + a`; a word is appended exactly when the loop ends with a carry, which is the
part of `b * m + a` above the words of `b`. -/
theorem multadd_gen (b : Bigint) (hw : ∀ w ∈ b.x, w < 2 ^ 32) (h1 : 1 ≤ b.wds) (m a : Nat)
    (hm : m < 2 ^ 32) (ha : a < 2 ^ 32) :
    (___multadd_D2A b m a).value = b.value * m + a ∧
    (∀ w ∈ (___multadd_D2A b m a).x, w < 2 ^ 32) ∧
    (mulAddWords m (wordsOf b.x b.wds) a).2 = (b.value * m + a) / 2 ^ (32 * b.wds) ∧
    ((mulAddWords m (wordsOf b.x b.wds) a).2 = 0 → (___multadd_D2A b m a).wds = b.wds) ∧
    ((mulAddWords m (wordsOf b.x b.wds) a).2 ≠ 0 → (___multadd_D2A b m a).wds = b.wds + 1) := by
  have hsrc := wordsOf_lt b.x hw b.wds
  obtain ⟨i1, i2, i3, i4⟩ := mulAddWords_spec m hm (wordsOf b.x b.wds) hsrc a ha
  rw [wordsOf_length] at i1 i2
  have hmax : max b.wds 1 = b.wds := max_eq_left h1
  have hbv : valW (wordsOf b.x b.wds) = b.value := rfl
  rw [hbv] at i1
  have hlo : valW (mulAddWords m (wordsOf b.x b.wds) a).1 < 2 ^ (32 * b.wds) := by
    have := valW_lt _ i3
    rwa [i2] at this
  have hcarry : (mulAddWords m (wordsOf b.x b.wds) a).2 = (b.value * m + a) / 2 ^ (32 * b.wds) := by
    symm
    apply Nat.div_eq_of_lt_le
    · rw [← i1, Nat.mul_comm]
      exact Nat.le_add_left _ _
    · rw [← i1, Nat.add_mul, Nat.one_mul, Nat.mul_comm]
      omega
  by_cases hc : (mulAddWords m (wordsOf b.x b.wds) a).2 = 0
  · have hres : ___multadd_D2A b m a =
        { b with x := (mulAddWords m (wordsOf b.x b.wds) a).1 } := by
      unfold ___multadd_D2A
      simp only [hmax, hc, if_true]
    rw [hc, Nat.mul_zero, Nat.add_zero] at i1
    refine ⟨?_, ?_, hcarry, fun _ => by rw [hres], fun h => absurd hc h⟩
    · rw [hres]
      unfold Bigint.value
      simp only
      rw [valW_wordsOf_full _ _ (by rw [i2]), i1]
      rfl
    · rw [hres]
      exact i3
  · have hres : (___multadd_D2A b m a).x = (mulAddWords m (wordsOf b.x b.wds) a).1 ++
          [(mulAddWords m (wordsOf b.x b.wds) a).2] ∧
        (___multadd_D2A b m a).wds = b.wds + 1 := by
      have e := wordsOf_self (mulAddWords m (wordsOf b.x b.wds) a).1
      rw [i2] at e
      unfold ___multadd_D2A
      simp only [hmax, hc, if_false, e]
      constructor <;> trivial
    refine ⟨?_, ?_, hcarry, fun h => absurd h hc, fun _ => hres.2⟩
    · unfold Bigint.value
      rw [hres.1, hres.2, valW_wordsOf_full _ _ (by simp [i2]), valW_append, i2]
      simp only [valW, Nat.mul_zero, Nat.add_zero]
      exact i1
    · rw [hres.1]
      intro w hw'
      rw [List.mem_append, List.mem_singleton] at hw'
      rcases hw' with h | h
      · exact i3 w h
      · rw [h]; exact i4

/-! ## `___diff_D2A` -/

/-- The words a subtraction reads from an operand: its value, when word 0 of an operand
without words reads 0. -/
theorem valW_wordsOf_max (b : Bigint) (h0 : b.wds = 0 → getW b.x 0 = 0) :
    valW (wordsOf b.x (max b.wds 1)) = b.value := by
  by_cases hz : b.wds = 0
  · rw [value_zero_of_wds b hz, hz]
    simp [wordsOf, valW, List.range_succ, h0 hz]
  · rw [max_eq_left (by omega)]
    rfl

/-- The subtraction of `___diff_D2A` for a larger first operand. -/
theorem diff_core (a1 b1 : Bigint) (ha : a1.Pos) (hb : ∀ w ∈ b1.x, w < 2 ^ 32)
    (hb0 : b1.wds = 0 → getW b1.x 0 = 0) (hwd : b1.wds ≤ a1.wds) (hlt : b1.value < a1.value)
    (s : Nat) :
    ({ ___Balloc_D2A a1.k with
        sign := s
        wds := trimTop a1.wds (subWords (wordsOf a1.x (max a1.wds 1))
          (wordsOf b1.x (max b1.wds 1)) 0)
        x := subWords (wordsOf a1.x (max a1.wds 1)) (wordsOf b1.x (max b1.wds 1)) 0 } :
        Bigint).value = a1.value - b1.value ∧
    ({ ___Balloc_D2A a1.k with
        sign := s
        wds := trimTop a1.wds (subWords (wordsOf a1.x (max a1.wds 1))
          (wordsOf b1.x (max b1.wds 1)) 0)
        x := subWords (wordsOf a1.x (max a1.wds 1)) (wordsOf b1.x (max b1.wds 1)) 0 } :
        Bigint).Pos := by
  have hmax : max a1.wds 1 = a1.wds := max_eq_left ha.2.1
  have hA := wordsOf_lt a1.x ha.1 a1.wds
  have hB := wordsOf_lt b1.x hb (max b1.wds 1)
  have hvB := valW_wordsOf_max b1 hb0
  have hlen : (wordsOf b1.x (max b1.wds 1)).length ≤ (wordsOf a1.x a1.wds).length := by
    rw [wordsOf_length, wordsOf_length]
    have := ha.2.1
    omega
  rw [hmax]
  obtain ⟨⟨K, hK⟩, s2, s3⟩ := subWords_spec (wordsOf a1.x a1.wds) (wordsOf b1.x (max b1.wds 1)) 0
    hA hB (by omega) hlen
  rw [wordsOf_length] at hK s2
  rw [hvB] at hK
  have hAv : valW (wordsOf a1.x a1.wds) = a1.value := rfl
  rw [hAv] at hK
  have hAlt := value_lt a1 ha.1
  have hxlt : valW (subWords (wordsOf a1.x a1.wds) (wordsOf b1.x (max b1.wds 1)) 0) <
      2 ^ (32 * a1.wds) := by
    have := valW_lt _ s3
    rwa [s2] at this
  generalize subWords (wordsOf a1.x a1.wds) (wordsOf b1.x (max b1.wds 1)) 0 = xc at *
  have hK0 : K = 0 := by
    by_contra hc
    have : 2 ^ (32 * a1.wds) * 1 ≤ 2 ^ (32 * a1.wds) * K := Nat.mul_le_mul_left _ (by omega)
    omega
  rw [hK0, Nat.mul_zero, Nat.add_zero, Nat.add_zero] at hK
  have hv : valW (wordsOf xc (trimTop a1.wds xc)) = a1.value - b1.value := by
    rw [trimTop_value]
    have e := wordsOf_self xc
    rw [s2] at e
    rw [e]
    omega
  refine ⟨hv, s3, ?_, ?_⟩
  · show 1 ≤ trimTop a1.wds xc
    by_contra hc
    have h0 : trimTop a1.wds xc = 0 := by omega
    rw [h0] at hv
    simp [wordsOf, valW] at hv
    omega
  · show getW xc (trimTop a1.wds xc - 1) ≠ 0
    apply trimTop_top
    intro h0
    rw [h0] at hv
    simp [wordsOf, valW] at hv
    omega

/-- The effect of `___diff_D2A` on normalized operands whose word 0 reads 0 when they have no
words: the absolute difference, the sign flag set exactly when the first operand is
the smaller one, and a single zero word for equal operands. -/
theorem diff_spec (a b : Bigint) (ha : a.Canon) (hb : b.Canon)
    (ha0 : a.wds = 0 → getW a.x 0 = 0) (hb0 : b.wds = 0 → getW b.x 0 = 0) :
    (a.value = b.value → (___diff_D2A a b).value = 0 ∧ (___diff_D2A a b).sign = 0 ∧
      (___diff_D2A a b).wds = 1 ∧ (___diff_D2A a b).x = [0]) ∧
    (a.value < b.value → (___diff_D2A a b).value = b.value - a.value ∧
      (___diff_D2A a b).sign = 1 ∧ (___diff_D2A a b).Pos) ∧
    (b.value < a.value → (___diff_D2A a b).value = a.value - b.value ∧
      (___diff_D2A a b).sign = 0 ∧ (___diff_D2A a b).Pos) := by
  have hc := cmp_Canon a b ha hb
  refine ⟨fun he => ?_, fun hl => ?_, fun hg => ?_⟩
  · have h0 : ___cmp_D2A a b = 0 := by
      rcases hc with c | c | c
      · omega
      · exact c.1
      · omega
    unfold ___diff_D2A
    simp only [h0, if_true]
    refine ⟨?_, by trivial, by trivial, by trivial⟩
    simp [Bigint.value, wordsOf, valW, List.range_succ, getW]
  · have h0 : ___cmp_D2A a b < 0 := by
      rcases hc with c | c | c
      · exact c.1
      · omega
      · omega
    have hbp : b.Pos := hb.pos (by
      by_contra hz
      have := value_zero_of_wds b (by omega)
      omega)
    have hwd : a.wds ≤ b.wds := by
      rcases cmp_values a b with ⟨_, h2⟩ | ⟨h1, _⟩ <;> omega
    have hne : ¬ ___cmp_D2A a b = 0 := by omega
    obtain ⟨d1, d2⟩ := diff_core b a hbp ha.1 ha0 hwd hl 1
    unfold ___diff_D2A
    simp only [hne, h0, if_true, if_false]
    exact ⟨d1, by trivial, d2⟩
  · have h0 : ___cmp_D2A a b > 0 := by
      rcases hc with c | c | c
      · omega
      · omega
      · exact c.1
    have hap : a.Pos := ha.pos (by
      by_contra hz
      have := value_zero_of_wds a (by omega)
      omega)
    have hwd : b.wds ≤ a.wds := by
      rcases cmp_values a b with ⟨_, h2⟩ | ⟨h1, _⟩ <;> omega
    have hne : ¬ ___cmp_D2A a b = 0 := by omega
    have hnl : ¬ ___cmp_D2A a b < 0 := by omega
    obtain ⟨d1, d2⟩ := diff_core a b hap hb.1 hb0 hwd hg 0
    unfold ___diff_D2A
    simp only [hne, hnl, if_false]
    exact ⟨d1, by trivial, d2⟩

/-! ## `___rshift_D2A` and `___lshift_D2A` on normalized operands -/

/-- A right shift of a normalized bignum is in normal form. -/
theorem rshift_Norm (b : Bigint) (hb : b.Canon) (k : Nat) :
    (___rshift_D2A b k).value = b.value / 2 ^ k ∧ (___rshift_D2A b k).Norm := by
  by_cases hz : b.wds = 0
  · have hres : ___rshift_D2A b k = { b with wds := 0, x := 0 :: b.x.tail } := by
      unfold ___rshift_D2A
      simp only [hz, Nat.not_lt_zero, if_false]
    rw [hres]
    refine ⟨?_, ?_, fun _ => rfl, fun h => ?_⟩
    · rw [value_zero_of_wds b hz, value_zero_of_wds _ rfl]
      simp
    · intro w hw'
      simp only [List.mem_cons] at hw'
      rcases hw' with h | h
      · rw [h]; norm_num
      · exact hb.1 w (List.mem_of_mem_tail h)
    · have : (1 : Nat) < 0 := h
      omega
  · exact rshift_spec b (hb.pos (by omega)) k

/-- The second stage of `___quorem_D2A` keeps the estimate or raises it by one. -/
theorem quoremSecond_fst (r1 : Bigint × Nat) (S : Bigint) (q : Nat) :
    (quoremSecond r1 S q).1 = q ∨ (quoremSecond r1 S q).1 = q + 1 := by
  unfold quoremSecond
  simp only []
  split_ifs
  · left; rfl
  · right; rfl
  · right; rfl



/-! ## `___pow5mult_D2A` and its cache -/

/-- The part of the cache from position `s` on, `r` blocks long. -/
theorem p5seg_succ (s r : Nat) :
    (List.range (r + 1)).map (fun j => p5chain (s + j)) =
      p5chain s :: (List.range r).map (fun j => p5chain (s + 1 + j)) := by
  rw [List.range_succ_eq_map, List.map_cons, List.map_map]
  congr 1
  apply List.map_congr_left
  intro j _
  show p5chain (s + (j + 1)) = p5chain (s + 1 + j)
  congr 1
  omega

/-- With the cache holding the powers the program builds, the loop on the cache computes
what the loop without cache computes, and it leaves such a cache, not a shorter one. -/
theorem pow5loop_st_eq (fuel : Nat) : ∀ (b : Bigint) (i r k : Nat),
    (pow5loop_st fuel b (p5chain i) ((List.range r).map (fun j => p5chain (i + 1 + j))) k).1 =
      pow5loop fuel b (p5chain i) k ∧
    ∃ r', r ≤ r' ∧
      (pow5loop_st fuel b (p5chain i) ((List.range r).map (fun j => p5chain (i + 1 + j))) k).2 =
        (List.range r').map (fun j => p5chain (i + 1 + j)) := by
  induction fuel with
  | zero =>
    intro b i r k
    exact ⟨rfl, r, le_refl _, rfl⟩
  | succ fuel ih =>
    intro b i r k
    by_cases hk : k / 2 = 0
    · refine ⟨?_, r, le_refl _, ?_⟩
      · simp only [pow5loop_st, pow5loop, hk, if_true]
      · simp only [pow5loop_st, hk, if_true]
    · cases r with
      | zero =>
        obtain ⟨e1, r', _, e2⟩ := ih (if k % 2 = 1 then ___mult_D2A b (p5chain i) else b) (i + 1) 0
          (k / 2)
        simp only [List.range_zero, List.map_nil] at e1 e2
        refine ⟨?_, r' + 1, by omega, ?_⟩
        · simp only [pow5loop_st, pow5loop, hk, if_false, List.range_zero, List.map_nil]
          exact e1
        · simp only [pow5loop_st, hk, if_false, List.range_zero, List.map_nil]
          rw [p5seg_succ]
          congr 1
      | succ r0 =>
        obtain ⟨e1, r', hr, e2⟩ := ih (if k % 2 = 1 then ___mult_D2A b (p5chain i) else b) (i + 1) r0
          (k / 2)
        refine ⟨?_, r' + 1, by omega, ?_⟩
        · rw [p5seg_succ]
          simp only [pow5loop_st, pow5loop, hk, if_false]
          exact e1
        · rw [p5seg_succ, p5seg_succ]
          simp only [pow5loop_st, hk, if_false]
          congr 1

/-- The function on the cache returns what `___pow5mult_D2A` returns, whatever part of the cache
has been built, and leaves a cache that is not shorter. -/
theorem pow5mult_st_eq (c : Nat) (b : Bigint) (k : Nat) :
    (___pow5mult_D2A_st (p5cache c) b k).1 = ___pow5mult_D2A b k ∧
    ∃ c', c ≤ c' ∧ (___pow5mult_D2A_st (p5cache c) b k).2 = p5cache c' := by
  unfold ___pow5mult_D2A_st ___pow5mult_D2A
  by_cases hk : k / 4 = 0
  · simp only [hk, if_true]
    exact ⟨by trivial, c, le_refl _, by trivial⟩
  · simp only [hk, if_false]
    have h0 : p5chain 0 = ___i2b_D2A 625 := rfl
    cases c with
    | zero =>
      obtain ⟨e1, r', _, e2⟩ := pow5loop_st_eq 32
        (if k % 4 ≠ 0 then ___multadd_D2A b ([5, 25, 125].getD (k % 4 - 1) 0) 0 else b) 0 0 (k / 4)
      simp only [List.range_zero, List.map_nil, h0] at e1 e2
      refine ⟨?_, r' + 1, by omega, ?_⟩
      · simp only [p5cache, List.range_zero, List.map_nil]
        exact e1
      · simp only [p5cache, List.range_zero, List.map_nil]
        have := p5seg_succ 0 r'
        simp only [Nat.zero_add] at this
        rw [this, h0, e2]
    | succ c0 =>
      obtain ⟨e1, r', hr, e2⟩ := pow5loop_st_eq 32
        (if k % 4 ≠ 0 then ___multadd_D2A b ([5, 25, 125].getD (k % 4 - 1) 0) 0 else b) 0 c0 (k / 4)
      have s1 := p5seg_succ 0 c0
      have s2 := p5seg_succ 0 r'
      simp only [Nat.zero_add] at s1 s2
      refine ⟨?_, r' + 1, by omega, ?_⟩
      · simp only [p5cache]
        rw [s1]
        exact e1
      · simp only [p5cache]
        rw [s1, s2]
        simp only []
        rw [e2]



/-! ## The allocator on the arena -/

theorem getD_set_self (l : List (List Bigint)) (k : Nat) (v : List Bigint) (h : k < l.length) :
    (l.set k v).getD k [] = v := by
  simp [List.getD, List.getElem?_set, h]

theorem getD_set_ne (l : List (List Bigint)) (k j : Nat) (v : List Bigint) (h : j ≠ k) :
    (l.set k v).getD j [] = l.getD j [] := by
  simp [List.getD, List.getElem?_set, Ne.symm h]

theorem getD_ne_nil_lt (l : List (List Bigint)) (k : Nat) (h : l.getD k [] ≠ []) : k < l.length := by
  by_contra hc
  apply h
  simp [List.getD, List.getElem?_eq_none (Nat.le_of_not_lt hc)]

/-- The block taken from a non-empty free list. -/
theorem Balloc_st_pop (A : Arena) (k : Nat) (junk : List Nat) (v : Bigint) (rest : List Bigint)
    (h : A.freelist.getD k [] = v :: rest) :
    ___Balloc_D2A_st A k junk =
      ({ v with sign := 0, wds := 0 }, { A with freelist := A.freelist.set k rest }) := by
  unfold ___Balloc_D2A_st
  rw [h]

/-- The block made when the free list is empty. -/
theorem Balloc_st_fresh (A : Arena) (k : Nat) (junk : List Nat) (h : A.freelist.getD k [] = []) :
    (___Balloc_D2A_st A k junk).1.k = k ∧
    (___Balloc_D2A_st A k junk).1.maxwds = 2 ^ (k % 32) % 2 ^ 32 ∧
    (___Balloc_D2A_st A k junk).1.sign = 0 ∧ (___Balloc_D2A_st A k junk).1.wds = 0 ∧
    (___Balloc_D2A_st A k junk).2.freelist = A.freelist := by
  unfold ___Balloc_D2A_st
  rw [h]
  simp only []
  split_ifs <;> exact ⟨rfl, rfl, rfl, rfl, rfl⟩




/-! ## The sink: count and bounded writes -/

theorem optRel_count {a b : Option PFormat} (h : Option.Rel SameControl a b) :
    a.map PFormat.count = b.map PFormat.count := by
  cases h with
  | none => rfl
  | some h => exact congrArg some h.2.2.2.2.2.1

theorem putcs_buf_above (cs : List Nat) (s : PFormat) (hl : s.flags &&& 0x2000 = 0) (i : Nat)
    (hi : s.quota ≤ i) : (putcs cs s).buf i = s.buf i := by
  induction cs generalizing s with
  | nil => rfl
  | cons c cs ih =>
    rw [putcs, ih _ (by simpa using hl) (by simpa using hi)]
    unfold ___pformat_putc
    split_ifs with h1 h2
    · rfl
    · rfl
    · have : s.count < s.quota := by
        by_contra hn
        exact h1 ⟨hl, by omega⟩
      exact Function.update_noteq (by omega) _ _

/-- C2: `___pformat_putc` advances the running count by one (modulo 2^32, the width of the
field) in each of its three branches, stored or not.  Hence two descriptors
that differ only in their sink (buffer, stream, quota, flags `0x2000` and `0x1000`)
finish any sequence of `___pformat_putc` calls and each of the handlers `___pformat_int`,
`___pformat_putchars`, `___pformat_float`, `___pformat_efloat` and `___pformat_gfloat` with the same
count. -/
theorem count_independent_of_sink (s t : PFormat) (h : SameControl s t) :
    (∀ c, (___pformat_putc c s).count = (s.count + 1) % 2 ^ 32 ∧
      (s.count + 1 < 2 ^ 32 → (___pformat_putc c s).count = s.count + 1)) ∧
    (∀ cs, (putcs cs s).count = (putcs cs t).count) ∧
    (∀ v, (___pformat_int v s).count = (___pformat_int v t).count) ∧
    (∀ cs n, (___pformat_putchars cs n s).count = (___pformat_putchars cs n t).count) ∧
    (∀ loc x, (___pformat_float loc x s).map PFormat.count =
      (___pformat_float loc x t).map PFormat.count) ∧
    (∀ loc x, (___pformat_efloat loc x s).map PFormat.count =
      (___pformat_efloat loc x t).map PFormat.count) ∧
    (∀ loc x, (___pformat_gfloat loc x s).map PFormat.count =
      (___pformat_gfloat loc x t).map PFormat.count) := by
  refine ⟨fun c => ⟨putc_count c s, fun hc => ?_⟩, fun cs => (h.putcs cs).2.2.2.2.2.1,
    fun v => (h.pformat_int v).2.2.2.2.2.1, fun cs n => (h.putchars cs n).2.2.2.2.2.1,
    fun loc x => optRel_count (h.float loc x), fun loc x => optRel_count (h.efloat loc x),
    fun loc x => optRel_count (h.gfloat loc x)⟩
  rw [putc_count, Nat.mod_eq_of_lt hc]

/-- Witness for C2: `%.2f` of 1.0 into a buffer of three characters and into a stream, both
count four characters. -/
theorem count_independent_of_sink_witness :
    (___pformat_float cLocale (ofDouble 0 1023 0) (bufferStream 3 0 (-1) 2)).map PFormat.count =
      (___pformat_float cLocale (ofDouble 0 1023 0) (fileStream 0 (-1) 2)).map PFormat.count ∧
    (___pformat_float cLocale (ofDouble 0 1023 0) (bufferStream 3 0 (-1) 2)).map PFormat.count =
      some 4 :=
  ⟨(count_independent_of_sink (bufferStream 3 0 (-1) 2) (fileStream 0 (-1) 2)
      ⟨by decide, rfl, rfl, rfl, rfl, rfl, rfl⟩).2.2.2.2.1 cLocale (ofDouble 0 1023 0),
    by decide!⟩

/-- C3: with the no-limit flag `0x2000` clear and a quota of `n`, a call of `___pformat_putc`
either leaves the buffer as it is, or the count is below `n` and the buffer is
updated at the index equal to the count; the buffer is left alone whenever the
count has reached `n`; and after any sequence of calls every cell at an index
`>= n` still holds its old content. -/
theorem putc_bounded_store (n : Nat) (s : PFormat) (hl : s.flags &&& 0x2000 = 0)
    (hq : s.quota = n) :
    (∀ c, ((___pformat_putc c s).buf = s.buf ∨
        (s.count < n ∧ (___pformat_putc c s).buf = Function.update s.buf s.count c)) ∧
      (n ≤ s.count → (___pformat_putc c s).buf = s.buf)) ∧
    (∀ cs i, n ≤ i → (putcs cs s).buf i = s.buf i) := by
  subst hq
  refine ⟨fun c => ⟨?_, fun hn => ?_⟩, fun cs i hi => putcs_buf_above cs s hl i hi⟩
  · unfold ___pformat_putc
    split_ifs with h1 h2
    · exact Or.inl rfl
    · exact Or.inl rfl
    · refine Or.inr ⟨?_, rfl⟩
      by_contra hn
      exact h1 ⟨hl, by omega⟩
  · unfold ___pformat_putc
    rw [if_pos ⟨hl, hn⟩]

/-- Witness for C3: five characters sent to a buffer of three leave cell 3 untouched and fill
cell 2. -/
theorem putc_bounded_store_witness :
    (putcs [49, 50, 51, 52, 53] (bufferStream 3 0 (-1) (-1))).buf 3 = 0 ∧
    (putcs [49, 50, 51, 52, 53] (bufferStream 3 0 (-1) (-1))).buf 2 = 51 :=
  ⟨(putc_bounded_store 3 (bufferStream 3 0 (-1) (-1)) (by decide) rfl).2 [49, 50, 51, 52, 53] 3
      (le_refl 3),
    by decide!⟩

/-! ## Layout of `%f`, `%e` and `%g` -/

/-- C10: for a zero whose sign bit is set `___pformat_cvt` returns the string `"0"` with the sign
word `0x8000` (and the sign word 0 for a positive zero), in every mode; the `%f`
handler then writes padding spaces, `'-'`, padding zeros, `'0'`, the radix point (when
the precision is at least 1 or with `#`), `precision` zeros and padding spaces,
with no padding when there is no field width.  In particular `%.1f` of -0.0 is
`"-0.0"` and of 0.0 is `"0.0"`. -/
theorem negative_zero_sign (loc : Locale) (s : PFormat) (hp : 0 ≤ s.precision) :
    (∀ mode nd, ___pformat_cvt mode ⟨0x8000, 0⟩ nd = some ⟨[48], 1, 0x8000⟩) ∧
    (∀ mode nd, ___pformat_cvt mode ⟨0, 0⟩ nd = some ⟨[48], 1, 0⟩) ∧
    (∃ (a b c : Nat) (w p rl : Int) (rc : Nat),
      ___pformat_float loc ⟨0x8000, 0⟩ s =
        some (upd (putcs (List.replicate a 32 ++ [45] ++ List.replicate b 48 ++ [48] ++
          (if 1 ≤ s.precision ∨ s.flags &&& 0x800 ≠ 0 then radixChars loc s.rplen s.rpchr
            else []) ++
          List.replicate s.precision.toNat 48 ++ List.replicate c 32) s) w p rl rc) ∧
      (s.width < 0 → a = 0 ∧ b = 0 ∧ c = 0)) ∧
    (___pformat_float cLocale (ofDouble 1 0 0) (fileStream 0 (-1) 1)).map PFormat.file =
      some ("-0.0".toList.map Char.toNat) ∧
    (___pformat_float cLocale (ofDouble 0 0 0) (fileStream 0 (-1) 1)).map PFormat.file =
      some ("0.0".toList.map Char.toNat) := by
  have hz : ∀ mode nd, ___pformat_cvt mode ⟨0x8000, 0⟩ nd = some ⟨[48], 1, 0x8000⟩ :=
    fun mode nd => cvt_zero mode nd 0x8000 (by decide)
  refine ⟨hz, fun mode nd => cvt_zero mode nd 0 (by decide), ?_, by decide!, by decide!⟩
  obtain ⟨a, b, c, w, p, rl, rc, h1, h2⟩ := padWidth_emit_float_layout loc 0x8000 [48] 1 s
  refine ⟨a, b, c, w, p, rl, rc, ?_, h2⟩
  rw [float_some loc ⟨0x8000, 0⟩ s ⟨[48], 1, 0x8000⟩ hp (hz 3 s.precision) (by decide), h1]
  simp [signChars, digitsPad]

/-- Witness for C10: `%.1f` of -0.0 on a stream. -/
theorem negative_zero_sign_witness :
    (___pformat_float cLocale (ofDouble 1 0 0) (fileStream 0 (-1) 1)).map PFormat.file =
      some ("-0.0".toList.map Char.toNat) :=
  (negative_zero_sign cLocale (fileStream 0 (-1) 1) (by decide)).2.2.2.1

/-! ## Default precision -/

/-- C13: with a negative (unspecified) precision `___pformat_float` and `___pformat_efloat` behave
exactly as with the precision 6: the whole result, output included, is the same, and the
`%e` handler asks the converter for 7 significant digits (mode 2), the `%f` handler for 6
digits after the point (mode 3). -/
theorem default_precision_float_efloat (loc : Locale) (x : LDouble) (s : PFormat)
    (hp : s.precision < 0) :
    ___pformat_float loc x s = ___pformat_float loc x { s with precision := 6 } ∧
    ___pformat_efloat loc x s = ___pformat_efloat loc x { s with precision := 6 } ∧
    ___pformat_float loc x s =
      (___pformat_cvt 3 x 6).map (fun r =>
        if r.decpt = -0x8000 then ___pformat_emit_inf_or_nan r.sign r.digits { s with precision := 6 }
        else padWidth 32 (___pformat_emit_float loc r.sign r.digits r.decpt
          { s with precision := 6 })) ∧
    ___pformat_efloat loc x s =
      (___pformat_cvt 2 x 7).map (fun r =>
        if r.decpt = -0x8000 then ___pformat_emit_inf_or_nan r.sign r.digits { s with precision := 6 }
        else ___pformat_emit_efloat loc r.sign r.digits r.decpt { s with precision := 6 }) := by
  refine ⟨?_, ?_, ?_, ?_⟩
  · unfold ___pformat_float
    simp only [if_pos hp, show ¬ (6 : Int) < 0 by decide, if_false]
  · unfold ___pformat_efloat
    simp only [if_pos hp, show ¬ (6 : Int) < 0 by decide, if_false]
  · unfold ___pformat_float
    simp only [if_pos hp]
  · unfold ___pformat_efloat
    simp only [if_pos hp]
    rfl

/-- Witness for C13: `%f` and `%e` of 1.5 without a precision give `"1.500000"` and
`"1.500000e+00"`. -/
theorem default_precision_float_efloat_witness :
    (___pformat_float cLocale (ofDouble 0 1023 2251799813685248)
      (fileStream 0x20 (-1) (-1))).map PFormat.file = some ("1.500000".toList.map Char.toNat) ∧
    (___pformat_efloat cLocale (ofDouble 0 1023 2251799813685248)
      (fileStream 0x20 (-1) (-1))).map PFormat.file =
        some ("1.500000e+00".toList.map Char.toNat) :=
  ⟨by
    rw [(default_precision_float_efloat cLocale (ofDouble 0 1023 2251799813685248)
      (fileStream 0x20 (-1) (-1)) (by decide)).1]
    decide!,
   by
    rw [(default_precision_float_efloat cLocale (ofDouble 0 1023 2251799813685248)
      (fileStream 0x20 (-1) (-1)) (by decide)).2.1]
    decide!⟩

theorem trimTop_zero (n : Nat) (x : List Nat) (h : ∀ i, i < n → getW x i = 0) :
    trimTop n x = 0 := by
  induction n with
  | zero => rfl
  | succ n ih =>
    unfold trimTop
    rw [if_pos (h n (by omega))]
    exact ih (fun i hi => h i (by omega))

theorem getW_wordsOf (x : List Nat) (n i : Nat) (h : i < n) : getW (wordsOf x n) i = getW x i := by
  unfold wordsOf
  unfold getW
  rw [List.getD_eq_getElem?_getD, List.getElem?_map, List.getElem?_range h]
  rfl

/-- Counterexample for C17: for the class zero `___gdtoa` stores 1 through `decpt`, not 0. -/
theorem gdtoa_zero_decpt_not_zero :
    ___gdtoa fpi_ldouble 0 [0, 0] 0 0 0 = some ⟨[48], 1, 0⟩ ∧
    (___gdtoa fpi_ldouble 0 [0, 0] 0 0 0).map DtoaResult.decpt ≠ some 0 := by
  constructor <;> decide!

/-- C17 as amended: for an input of class zero (`kind & 7 = 0`), and for an input of class normal
or denormal whose mantissa words are all 0, whatever the mode and the requested digit
count, `___gdtoa` returns the string `"0"` and stores 1 through `decpt`. -/
theorem gdtoa_zero (fpi : FPI) (be : Int) (bits : List Nat) (kind : Nat) (mode nd : Int)
    (h : kind % 8 = 0 ∨ ((kind % 8 = 1 ∨ kind % 8 = 2) ∧
      ∀ i, i < (fpi.nbits - 1) / 32 + 1 → getW bits i = 0)) :
    ___gdtoa fpi be bits kind mode nd =
      some { digits := [48], decpt := 1, kind := kind &&& (2 ^ 32 - 49) } := by
  unfold ___gdtoa
  rcases h with h | ⟨h, hz⟩
  · rw [h]
  · have hw : (bitstob bits fpi.nbits).1.wds = 0 := by
      unfold bitstob
      apply trimTop_zero
      intro i hi
      rw [getW_wordsOf _ _ _ hi]
      exact hz i hi
    have htz : ___trailz_D2A (bitstob bits fpi.nbits).1 = 0 := by
      unfold ___trailz_D2A
      rw [hw]
      rfl
    rcases h with h | h <;> rw [h] <;> simp only [htz, ne_eq, not_true_eq_false, if_false, hw, if_true]

/-- Witness for C17 as amended: a normal class with an all-zero 64-bit mantissa, in mode 3 with 5
digits. -/
theorem gdtoa_zero_witness :
    ___gdtoa fpi_ldouble (-63) [0, 0] 1 3 5 = some { digits := [48], decpt := 1, kind := 1 } :=
  gdtoa_zero fpi_ldouble (-63) [0, 0] 1 3 5 (Or.inr ⟨Or.inl (by decide), by decide⟩)

theorem cvt_nonfinite (mode : Int) (x : LDouble) (nd : Int) (hx : fxam x &&& 256 ≠ 0) :
    ___pformat_cvt mode x nd =
      some (if fxam x &&& 1024 = 0 then
        { digits := [78, 97, 78], decpt := -32768, sign := 0 }
      else { digits := [73, 110, 102, 105, 110, 105, 116, 121], decpt := -32768,
             sign := x.se &&& 0x8000 }) := by
  unfold ___pformat_cvt
  simp only [hx, if_false]
  by_cases h : fxam x &&& 1024 = 0
  · simp only [h, if_true]
    rfl
  · simp only [h, if_false]
    rfl

/-- C18: for the classes infinite (`kind & 7 = 3`) and NaN (`kind & 7 = 4`) `___gdtoa` returns the
fixed string `"Infinity"` resp. `"NaN"` and stores -32768 through `decpt`, whatever the
descriptor, the exponent, the mantissa words, the mode and the digit count: the result is
a constant, no bignum routine takes part in it.  The converter of the formatters
reports the position -32768 exactly for the arguments that are infinite or NaN, and the
handlers take the inf/nan path `___pformat_emit_inf_or_nan` exactly then. -/
theorem gdtoa_inf_nan (fpi : FPI) (be : Int) (bits : List Nat) (kind : Nat) (mode nd : Int) :
    (kind % 8 = 3 → ___gdtoa fpi be bits kind mode nd =
      some { digits := [73, 110, 102, 105, 110, 105, 116, 121], decpt := -32768,
             kind := kind &&& (2 ^ 32 - 49) }) ∧
    (kind % 8 = 4 → ___gdtoa fpi be bits kind mode nd =
      some { digits := [78, 97, 78], decpt := -32768, kind := kind &&& (2 ^ 32 - 49) }) ∧
    (∀ (loc : Locale) (x : LDouble) (s : PFormat),
      (fxam x &&& 256 ≠ 0 →
        ∃ r, ___pformat_cvt 3 x (if s.precision < 0 then 6 else s.precision) = some r ∧
          r.decpt = -32768 ∧
          ___pformat_float loc x s = some (___pformat_emit_inf_or_nan r.sign r.digits
            (if s.precision < 0 then { s with precision := 6 } else s))) ∧
      (fxam x &&& 256 = 0 →
        ∃ r, ___pformat_cvt 3 x (if s.precision < 0 then 6 else s.precision) = some r ∧
          r.decpt ≠ -32768 ∧
          ___pformat_float loc x s = some (padWidth 32 (___pformat_emit_float loc r.sign r.digits
            r.decpt (if s.precision < 0 then { s with precision := 6 } else s))))) := by
  refine ⟨fun h => ?_, fun h => ?_, fun loc x s => ⟨fun hx => ?_, fun hx => ?_⟩⟩
  · unfold ___gdtoa
    rw [h]
  · unfold ___gdtoa
    rw [h]
  · have h1 := cvt_nonfinite 3 x (if s.precision < 0 then 6 else s.precision) hx
    have h2 : (if fxam x &&& 1024 = 0 then
        ({ digits := [78, 97, 78], decpt := -32768, sign := 0 } : Cvt)
      else { digits := [73, 110, 102, 105, 110, 105, 116, 121], decpt := -32768,
             sign := x.se &&& 0x8000 }).decpt = -32768 := by
      split_ifs <;> rfl
    refine ⟨_, h1, h2, ?_⟩
    unfold ___pformat_float
    by_cases hp : s.precision < 0
    · simp only [if_pos hp] at h1 ⊢
      simp only [h1, Option.map_some']
      rw [if_pos h2]
    · simp only [if_neg hp] at h1 ⊢
      simp only [h1, Option.map_some']
      rw [if_pos h2]
  · have hnd : (0 : Int) ≤ if s.precision < 0 then 6 else s.precision := by
      split_ifs <;> omega
    obtain ⟨r, h1, h2, -⟩ := cvt_finite 3 (Or.inr rfl) x _ hnd hx
    have h3 : r.decpt ≠ -32768 := by omega
    refine ⟨r, h1, h3, ?_⟩
    unfold ___pformat_float
    by_cases hp : s.precision < 0
    · simp only [if_pos hp] at h1 ⊢
      simp only [h1, Option.map_some']
      rw [if_neg h3]
    · simp only [if_neg hp] at h1 ⊢
      simp only [h1, Option.map_some']
      rw [if_neg h3]

/-- Witness for C18: an infinity with the words of its mantissa set, in mode 2. -/
theorem gdtoa_inf_nan_witness :
    ___gdtoa fpi_ldouble 0 [0, 2 ^ 31] 3 2 17 =
      some { digits := [73, 110, 102, 105, 110, 105, 116, 121], decpt := -32768, kind := 3 } :=
  (gdtoa_inf_nan fpi_ldouble 0 [0, 2 ^ 31] 3 2 17).1 (by decide)

/-! ## Infinities and NaNs -/

theorem range_map_getD (l : List Nat) :
    (List.range l.length).map (fun i => l.getD i 0) = l := by
  apply List.ext_getElem
  · simp
  · intro i h1 h2
    simp [List.getD_eq_getElem?_getD, List.getElem?_eq_getElem h2]

theorem signChars_length_le (sign fl : Nat) : (signChars sign fl).length ≤ 1 := by
  unfold signChars
  split_ifs <;> simp

/-- What `___pformat_emit_inf_or_nan` writes for the two strings of the converter. -/
theorem emit_inf_or_nan_out (nan : Bool) (sign : Nat) (s : PFormat) :
    ∃ (w p rl : Int) (rc : Nat),
      ___pformat_emit_inf_or_nan sign
          (if nan then [78, 97, 78] else [73, 110, 102, 105, 110, 105, 116, 121]) s =
        upd (putcs (infNanOut nan sign s.flags s.width) s) w p rl rc := by
  rw [emit_inf_or_nan_eq, putchars_eq]
  have hL : ((signChars sign s.flags).length : Int) + 3 =
      ((infNanText sign (if nan then [78, 97, 78] else [73, 110, 102, 105, 110, 105, 116, 121])
        s.flags).length : Int) := by
    simp [infNanText]
  have hlen : putcharsLen ((signChars sign s.flags).length + 3)
      (upd s s.width (-1) s.rplen s.rpchr) = ((signChars sign s.flags).length : Int) + 3 := by
    unfold putcharsLen
    have : ¬ ((-1 : Int) > -1) := by decide
    have h2 : ((signChars sign s.flags).length : Int) + 3 > -1 := by omega
    simp only [upd_precision, this, h2, decide_False, decide_True]
    rfl
  have htext : (List.range ((signChars sign s.flags).length + 3)).map
      (fun i => (infNanText sign
        (if nan then [78, 97, 78] else [73, 110, 102, 105, 110, 105, 116, 121]) s.flags).getD i 0)
      = infNanText sign (if nan then [78, 97, 78] else [73, 110, 102, 105, 110, 105, 116, 121])
          s.flags := by
    have := range_map_getD (infNanText sign
      (if nan then [78, 97, 78] else [73, 110, 102, 105, 110, 105, 116, 121]) s.flags)
    rw [show (infNanText sign (if nan then [78, 97, 78] else
      [73, 110, 102, 105, 110, 105, 116, 121]) s.flags).length =
        (signChars sign s.flags).length + 3 by simp [infNanText]] at this
    exact this
  have htok : (List.range 3).map (fun i =>
      (((if nan then [78, 97, 78] else [73, 110, 102, 105, 110, 105, 116, 121] : List Nat).getD i 0)
        &&& 223) ||| (s.flags &&& 32)) =
      if nan then (if s.flags &&& 32 = 0 then [78, 65, 78] else [110, 97, 110])
      else (if s.flags &&& 32 = 0 then [73, 78, 70] else [105, 110, 102]) := by
    cases nan <;> rcases land_pow_cases s.flags 5 with h | h
    all_goals
      have h5 : s.flags &&& 32 = _ := h
      simp [List.range_succ, h5]
      decide
  refine ⟨if 0 < putcharsW ((signChars sign s.flags).length + 3)
      (upd s s.width (-1) s.rplen s.rpchr) then -1
    else putcharsW ((signChars sign s.flags).length + 3)
      (upd s s.width (-1) s.rplen s.rpchr) - 1, -1, s.rplen, s.rpchr, ?_⟩
  simp only [upd_precision, upd_rplen, upd_rpchr, putcs_upd, upd_upd]
  congr 2
  unfold putcharsChars putcharsW
  rw [hlen]
  have e1 : ((((signChars sign s.flags).length : Int) + 3).toNat) =
      (signChars sign s.flags).length + 3 := by omega
  rw [e1, htext]
  simp only [upd_width, upd_flags, putcs_upd]
  unfold infNanOut infNanText
  rw [htok]
  have hs : (if sign ≠ 0 then [45] else if s.flags &&& 256 ≠ 0 then [43]
      else if s.flags &&& 64 ≠ 0 then [32] else [] : List Nat) = signChars sign s.flags := rfl
  simp only [hs]
  have hle := signChars_length_le sign s.flags
  by_cases hj : s.flags &&& 0x400 = 0
  · by_cases hw : s.width > ((signChars sign s.flags).length : Int) + 3
    · simp [hj, hw, show (1 : Int) ≤ s.width - (((signChars sign s.flags).length : Int) + 3) by omega]
    · simp [hj, hw]
      omega
  · by_cases hw : s.width > ((signChars sign s.flags).length : Int) + 3
    · simp [hj, hw]
    · simp [hj, hw]
      omega
theorem handlers_nonfinite (x : LDouble) (s : PFormat) (P : Int) :
    ∃ (w p rl : Int) (rc : Nat),
      ___pformat_emit_inf_or_nan
          (if fxam x &&& 1024 = 0 then ({ digits := [78, 97, 78], decpt := -32768, sign := 0 } : Cvt)
            else { digits := [73, 110, 102, 105, 110, 105, 116, 121], decpt := -32768,
                   sign := x.se &&& 0x8000 }).sign
          (if fxam x &&& 1024 = 0 then ({ digits := [78, 97, 78], decpt := -32768, sign := 0 } : Cvt)
            else { digits := [73, 110, 102, 105, 110, 105, 116, 121], decpt := -32768,
                   sign := x.se &&& 0x8000 }).digits
          (upd s s.width P s.rplen s.rpchr) =
        upd (putcs (infNanOut (decide (fxam x &&& 1024 = 0))
          (if fxam x &&& 1024 = 0 then 0 else x.se &&& 0x8000) s.flags s.width) s) w p rl rc := by
  by_cases h : fxam x &&& 1024 = 0
  · obtain ⟨w, p, rl, rc, e⟩ := emit_inf_or_nan_out true 0 (upd s s.width P s.rplen s.rpchr)
    refine ⟨w, p, rl, rc, ?_⟩
    simp only [h, if_true, decide_True]
    simp only [if_true, upd_flags, upd_width, putcs_upd, upd_upd] at e
    exact e
  · obtain ⟨w, p, rl, rc, e⟩ :=
      emit_inf_or_nan_out false (x.se &&& 0x8000) (upd s s.width P s.rplen s.rpchr)
    refine ⟨w, p, rl, rc, ?_⟩
    simp only [h, if_false, decide_False]
    simp only [Bool.false_eq_true, if_false, upd_flags, upd_width, putcs_upd, upd_upd] at e
    exact e

/-- C11: for an argument that is an infinity or a NaN, whatever the precision and the zero-pad
flag, the handlers `%f`, `%e` and `%g` write exactly `infNanOut`: the three letters `inf` or
`nan` (upper case unless the flag `0x20` of a lower-case conversion is set), preceded by `-`
for a negative infinity, else by `+` or a space per the sign flags (a NaN is never shown
as negative), and spaces up to the field width, on the left, or on the right with the
left-justify flag.  `%.2f` of a NaN is `"nan"` with and without the zero-pad flag. -/
theorem inf_nan_format (loc : Locale) (x : LDouble) (s : PFormat) (hx : fxam x &&& 256 ≠ 0) :
    (∃ (w p rl : Int) (rc : Nat), ___pformat_float loc x s =
      some (upd (putcs (infNanOut (decide (fxam x &&& 1024 = 0))
        (if fxam x &&& 1024 = 0 then 0 else x.se &&& 0x8000) s.flags s.width) s) w p rl rc)) ∧
    (∃ (w p rl : Int) (rc : Nat), ___pformat_efloat loc x s =
      some (upd (putcs (infNanOut (decide (fxam x &&& 1024 = 0))
        (if fxam x &&& 1024 = 0 then 0 else x.se &&& 0x8000) s.flags s.width) s) w p rl rc)) ∧
    (∃ (w p rl : Int) (rc : Nat), ___pformat_gfloat loc x s =
      some (upd (putcs (infNanOut (decide (fxam x &&& 1024 = 0))
        (if fxam x &&& 1024 = 0 then 0 else x.se &&& 0x8000) s.flags s.width) s) w p rl rc)) ∧
    (___pformat_float cLocale ⟨0x7fff, 2 ^ 63 + 2 ^ 62⟩ (fileStream 0x20 (-1) 2)).map PFormat.file =
      some ("nan".toList.map Char.toNat) ∧
    (___pformat_float cLocale ⟨0x7fff, 2 ^ 63 + 2 ^ 62⟩ (fileStream 0x220 (-1) 2)).map PFormat.file =
      some ("nan".toList.map Char.toNat) := by
  have hd : ∀ c : Cvt, c = (if fxam x &&& 1024 = 0 then
        ({ digits := [78, 97, 78], decpt := -32768, sign := 0 } : Cvt)
      else { digits := [73, 110, 102, 105, 110, 105, 116, 121], decpt := -32768,
             sign := x.se &&& 0x8000 }) → c.decpt = -0x8000 := by
    intro c hc
    rw [hc]
    split_ifs <;> rfl
  refine ⟨?_, ?_, ?_, by decide!, by decide!⟩
  · obtain ⟨w, p, rl, rc, e⟩ := handlers_nonfinite x s
      (if s.precision < 0 then 6 else s.precision)
    refine ⟨w, p, rl, rc, ?_⟩
    unfold ___pformat_float
    rw [← e]
    by_cases hp : s.precision < 0
    · simp only [if_pos hp, cvt_nonfinite _ x _ hx, Option.map_some', hd _ rfl, if_true]
      rfl
    · simp only [if_neg hp, cvt_nonfinite _ x _ hx, Option.map_some', hd _ rfl, if_true]
      rfl
  · obtain ⟨w, p, rl, rc, e⟩ := handlers_nonfinite x s
      (if s.precision < 0 then 6 else s.precision)
    refine ⟨w, p, rl, rc, ?_⟩
    unfold ___pformat_efloat
    rw [← e]
    by_cases hp : s.precision < 0
    · simp only [if_pos hp, cvt_nonfinite _ x _ hx, Option.map_some', hd _ rfl, if_true]
      rfl
    · simp only [if_neg hp, cvt_nonfinite _ x _ hx, Option.map_some', hd _ rfl, if_true]
      rfl
  · obtain ⟨w, p, rl, rc, e⟩ := handlers_nonfinite x s
      (if s.precision < 0 then 6 else if s.precision = 0 then 1 else s.precision)
    refine ⟨w, p, rl, rc, ?_⟩
    unfold ___pformat_gfloat
    rw [← e]
    by_cases hp : s.precision < 0
    · simp only [if_pos hp, cvt_nonfinite _ x _ hx, Option.map_some', hd _ rfl, if_true]
      rfl
    · by_cases h0 : s.precision = 0
      · simp only [if_neg hp, if_pos h0, cvt_nonfinite _ x _ hx, Option.map_some', hd _ rfl,
          if_true]
        rfl
      · simp only [if_neg hp, if_neg h0, cvt_nonfinite _ x _ hx, Option.map_some', hd _ rfl,
          if_true]
        rfl

/-- Witness for C11: a negative infinity in a field of 6 with the zero-pad flag and an upper-case
conversion is padded with spaces: `"  -INF"`. -/
theorem inf_nan_format_witness :
    fxam ⟨0xffff, 2 ^ 63⟩ &&& 256 ≠ 0 ∧
    (___pformat_float cLocale ⟨0xffff, 2 ^ 63⟩ (fileStream 0x200 6 2)).map PFormat.file =
      some ("  -INF".toList.map Char.toNat) := by
  refine ⟨by decide, ?_⟩
  obtain ⟨w, p, rl, rc, e⟩ :=
    (inf_nan_format cLocale ⟨0xffff, 2 ^ 63⟩ (fileStream 0x200 6 2) (by decide)).1
  rw [e, Option.map_some', upd_file, putcs_file _ _ (by decide) (by decide)]
  decide
/-! ## Width and precision from the argument list -/

/-- Counterexample for C15: for the argument `-2^31` as a width the 32-bit negation gives `-2^31`
again; the width does not become `2^31`. -/
theorem star_width_int_min :
    (pformatStar (-2 ^ 31) (parseStart 0)).width = -2 ^ 31 ∧
    (pformatStar (-2 ^ 31) (parseStart 0)).width ≠ -(-2 ^ 31) := by
  constructor <;> decide

/-- C15 as amended: `arg` is a 32-bit `int`.  Taken as the width (state 0, `width_spec` at the
width), a negative `arg` other than `-2^31` makes the width `-arg` and sets the left-justify
flag `0x400` (for `-2^31` the width stays `-2^31`, the flag is set too); taken as the precision
(state 2, `width_spec` at the precision, as `.` leaves them), a negative `arg` resets the
precision to -1 and changes neither flags nor width; an `arg >= 0` is stored unchanged and
the flags stay. -/
theorem star_argument (arg : Int) (p : ParseState) (hlo : -2 ^ 31 ≤ arg) (hhi : arg < 2 ^ 31) :
    (p.state = 0 → p.width_spec = WidthSpec.width →
      (arg < 0 →
        (pformatStar arg p).width = wrap32 (-arg) ∧
        (arg ≠ -2 ^ 31 → (pformatStar arg p).width = -arg) ∧
        (pformatStar arg p).flags = p.flags ||| 0x400 ∧
        (pformatStar arg p).precision = p.precision) ∧
      (0 ≤ arg →
        (pformatStar arg p).width = arg ∧ (pformatStar arg p).flags = p.flags ∧
        (pformatStar arg p).precision = p.precision)) ∧
    (p.state = 2 → p.width_spec = WidthSpec.precision →
      (arg < 0 →
        (pformatStar arg p).precision = -1 ∧ (pformatStar arg p).flags = p.flags ∧
        (pformatStar arg p).width = p.width) ∧
      (0 ≤ arg →
        (pformatStar arg p).precision = arg ∧ (pformatStar arg p).flags = p.flags ∧
        (pformatStar arg p).width = p.width)) := by
  refine ⟨fun hs hw => ⟨fun ha => ?_, fun ha => ?_⟩, fun hs hw => ⟨fun ha => ?_, fun ha => ?_⟩⟩
  · have e : pformatStar arg p =
        { p with width := wrap32 (-arg), flags := p.flags ||| 1024,
                 width_spec := WidthSpec.null } := by
      unfold pformatStar
      rw [hw]
      simp only [hs, ha, if_true]
      rfl
    rw [e]
    refine ⟨rfl, fun hne => ?_, rfl, rfl⟩
    show wrap32 (-arg) = -arg
    unfold wrap32
    have h1 : (0 : Int) ≤ -arg + 2 ^ 31 := by omega
    have h2 : -arg + 2 ^ 31 < 2 ^ 32 := by
      have : arg ≠ -2147483648 := hne
      norm_num at hlo ⊢
      omega
    rw [Int.emod_eq_of_lt h1 h2]
    ring
  · have e : pformatStar arg p = { p with width := arg, width_spec := WidthSpec.null } := by
      unfold pformatStar
      rw [hw]
      simp only [hs, show ¬ arg < 0 by omega, if_false]
      rfl
    rw [e]
    exact ⟨rfl, rfl, rfl⟩
  · have e : pformatStar arg p = { p with precision := -1, width_spec := WidthSpec.null } := by
      unfold pformatStar
      rw [hw]
      simp only [hs, ha, if_true]
      rfl
    rw [e]
    exact ⟨rfl, rfl, rfl⟩
  · have e : pformatStar arg p = { p with precision := arg, width_spec := WidthSpec.null } := by
      unfold pformatStar
      rw [hw]
      simp only [hs, show ¬ arg < 0 by omega, if_false]
      rfl
    rw [e]
    exact ⟨rfl, rfl, rfl⟩

/-- Witness for C15 as amended: `%*` with the argument -8 at the start of a conversion gives the
width 8 and the left-justify flag; `%.*` with -3 leaves the precision unspecified. -/
theorem star_argument_witness :
    (pformatStar (-8) (parseStart 0)).width = 8 ∧
    (pformatStar (-8) (parseStart 0)).flags = 0x400 ∧
    (pformatStar (-3) (pformatDot (parseStart 0))).precision = -1 :=
  ⟨(((star_argument (-8) (parseStart 0) (by decide) (by decide)).1 rfl rfl).1
      (by decide)).2.1 (by decide),
   (((star_argument (-8) (parseStart 0) (by decide) (by decide)).1 rfl rfl).1
      (by decide)).2.2.1,
   (((star_argument (-3) (pformatDot (parseStart 0)) (by decide) (by decide)).2 rfl rfl).1
      (by decide)).1⟩
/-! ## Padding of the fixed form -/

theorem land_448_of_80 (f : Nat) (h : f &&& 0x80 = 0) :
    f &&& 448 ≠ 0 ↔ (f &&& 256 ≠ 0 ∨ f &&& 64 ≠ 0) := by
  have e : f &&& 448 = (f &&& 256) ||| ((f &&& 128) ||| (f &&& 64)) := by
    rw [← Nat.and_or_distrib_left, ← Nat.and_or_distrib_left]
    rfl
  have h' : f &&& 128 = 0 := h
  rw [e, h', Nat.zero_or]
  constructor
  · intro hne
    by_contra hc
    push_neg at hc
    rw [hc.1, hc.2] at hne
    exact hne rfl
  · intro hor hz
    have h1 : f &&& 256 = 0 := by
      apply Nat.eq_of_testBit_eq
      intro i
      have := congrArg (fun x => x.testBit i) hz
      simp only [Nat.testBit_or, Nat.zero_testBit, Bool.or_eq_false_iff] at this
      simpa using this.1
    have h2 : f &&& 64 = 0 := by
      apply Nat.eq_of_testBit_eq
      intro i
      have := congrArg (fun x => x.testBit i) hz
      simp only [Nat.testBit_or, Nat.zero_testBit, Bool.or_eq_false_iff] at this
      simpa using this.2
    rcases hor with h | h
    · exact h h1
    · exact h h2

theorem land_1536_cases (f : Nat) :
    (f &&& 1536 = 0 ∧ f &&& 1024 = 0) ∨ (f &&& 1536 = 512 ∧ f &&& 1024 = 0) ∨
    (f &&& 1536 = 1024 ∧ f &&& 1024 ≠ 0) ∨ (f &&& 1536 = 1536 ∧ f &&& 1024 ≠ 0) := by
  have e : f &&& 1536 = (f &&& 1024) ||| (f &&& 512) := Nat.and_or_distrib_left f 1024 512
  rcases land_pow_cases f 10 with h1 | h1 <;> rcases land_pow_cases f 9 with h2 | h2
  all_goals
    have h1' : f &&& 1024 = _ := h1
    have h2' : f &&& 512 = _ := h2
    rw [e, h1', h2']
    simp

theorem signChars_length (sign fl : Nat) (h80 : fl &&& 0x80 = 0) :
    ((signChars sign fl).length : Int) = if sign ≠ 0 ∨ fl &&& 448 ≠ 0 then 1 else 0 := by
  by_cases hs : sign ≠ 0 ∨ fl &&& 448 ≠ 0
  · rw [if_pos hs]
    rcases hs with h | h
    · simp [signChars, h]
    · rcases (land_448_of_80 fl h80).mp h with h2 | h2
      · unfold signChars
        split_ifs <;> simp
      · unfold signChars
        split_ifs <;> simp
  · rw [if_neg hs]
    push_neg at hs
    have h2 := (not_iff_not.mpr (land_448_of_80 fl h80)).mp (not_not.mpr hs.2)
    push_neg at h2
    simp [signChars, hs.1, h2.1, h2.2]

/-- The width that `___pformat_emit_float` reserves when the number with its sign is shorter than
the field: the difference, with the space padding still to be done exactly when neither
the zero-pad nor the left-justify flag is set. -/
theorem emitFloatReserve_pad (sign : Nat) (len : Int) (s : PFormat) (hp : 0 ≤ s.precision)
    (h80 : s.flags &&& 0x80 = 0)
    (hN : (if 0 < len then len else 1) + (if 1 ≤ s.precision ∨ s.flags &&& 0x800 ≠ 0 then 1 else 0)
      + s.precision + (signChars sign s.flags).length < s.width) :
    emitFloatReserve sign len s =
      (s.width - ((if 0 < len then len else 1) +
        (if 1 ≤ s.precision ∨ s.flags &&& 0x800 ≠ 0 then 1 else 0) + s.precision +
        (signChars sign s.flags).length), decide (s.flags &&& 1536 = 0)) := by
  rw [signChars_length sign s.flags h80] at hN ⊢
  have hr : (¬ (s.precision < 1 ∧ s.flags &&& 0x800 = 0)) ↔
      (1 ≤ s.precision ∨ s.flags &&& 0x800 ≠ 0) := by
    constructor
    · intro h
      by_contra hc
      push_neg at hc
      exact h ⟨by omega, hc.2⟩
    · rintro h ⟨a, b⟩
      rcases h with h | h
      · omega
      · exact h b
  have hI : (if 0 < len then len else 1) < s.width := by
    split_ifs at hN ⊢ <;> omega
  unfold emitFloatReserve
  simp only [hr, reserve_afterInt len s.width hI]
  generalize (if 0 < len then len else 1) = I at hN hI ⊢
  by_cases hR : 1 ≤ s.precision ∨ s.flags &&& 0x800 ≠ 0 <;>
    by_cases hG : sign ≠ 0 ∨ s.flags &&& 448 ≠ 0 <;>
    simp only [hR, hG, if_true, if_false, decide_True, decide_False, true_and,
      false_and, Bool.false_eq_true, ne_eq, not_true_eq_false, not_false_eq_true] at hN ⊢ <;>
    (by_cases hJ : s.flags &&& 1536 = 0 <;>
      simp only [hJ, if_true, if_false, decide_True, decide_False, not_true_eq_false,
        not_false_eq_true] <;>
      (split_ifs <;> first | (exfalso; omega) | (congr 1; omega)))

theorem padWidth_emit_float_chars (loc : Locale) (sign : Nat) (value : List Nat) (len : Int)
    (s : PFormat) :
    ∃ (w p rl : Int) (rc : Nat),
      padWidth 32 (___pformat_emit_float loc sign value len s) =
        upd (putcs (List.replicate (if (emitFloatReserve sign len s).2
            then (emitFloatReserve sign len s).1.toNat else 0) 32 ++
          (signChars sign s.flags ++
          (List.replicate (if 1 ≤ efW2 sign len s ∧ s.flags &&& 1536 = 512
            then (efW2 sign len s).toNat else 0) 48 ++
          (floatBody loc value len s ++
          List.replicate (if 1 ≤ efW2 sign len s ∧ s.flags &&& 1536 = 512 then (-1 : Int)
            else efW2 sign len s).toNat 32)))) s) w p rl rc := by
  have h1 : (if len < 0 then (-len).toNat else 0) = (-len).toNat := by
    split_ifs <;> omega
  have h2 : digitsPad (if 0 < len then value.drop len.toNat else value) (efP6 len s).toNat =
      digitsPad (value.drop len.toNat) (s.precision + min len 0).toNat := by
    unfold efP6
    rcases lt_trichotomy len 0 with h | h | h
    · have h1 : len.toNat = 0 := by omega
      simp [h, show ¬ 0 < len by omega, h1, min_eq_left (le_of_lt h)]
    · subst h; simp
    · simp [h, show ¬ len < 0 by omega, min_eq_right (le_of_lt h)]
  rw [emit_float_eq, padWidth_eq]
  simp only [emitFloatCtl, upd_width, upd_precision, upd_rplen, upd_rpchr, putcs_upd, upd_upd,
    putcs_putcs, emitFloatChars, ite_replicate, List.append_assoc, h1, h2, floatBody]
  exact ⟨_, _, _, _, rfl⟩

/-- Order and amount of the padding of the fixed form when the number is shorter than the
field. -/
theorem emit_float_padding (loc : Locale) (sign : Nat) (value : List Nat) (len : Int)
    (s : PFormat) (hp : 0 ≤ s.precision) (h80 : s.flags &&& 0x80 = 0)
    (hN : floatNatural sign len s < s.width) :
    ∃ (w p rl : Int) (rc : Nat),
      padWidth 32 (___pformat_emit_float loc sign value len s) =
        upd (putcs ((if s.flags &&& 1536 = 0
            then List.replicate (s.width - floatNatural sign len s).toNat 32 else []) ++
          signChars sign s.flags ++
          (if s.flags &&& 1536 = 512
            then List.replicate (s.width - floatNatural sign len s).toNat 48 else []) ++
          floatBody loc value len s ++
          (if s.flags &&& 1024 ≠ 0
            then List.replicate (s.width - floatNatural sign len s).toNat 32 else [])) s)
          w p rl rc := by
  obtain ⟨w, p, rl, rc, e⟩ := padWidth_emit_float_chars loc sign value len s
  refine ⟨w, p, rl, rc, ?_⟩
  rw [e]
  have hr := emitFloatReserve_pad sign len s hp h80 hN
  have hr' : emitFloatReserve sign len s =
      (s.width - floatNatural sign len s, decide (s.flags &&& 1536 = 0)) := hr
  have hpad : 1 ≤ s.width - floatNatural sign len s := by omega
  generalize s.width - floatNatural sign len s = pad at hr' hpad ⊢
  congr 2
  rcases land_1536_cases s.flags with ⟨h1, h2⟩ | ⟨h1, h2⟩ | ⟨h1, h2⟩ | ⟨h1, h2⟩
  all_goals
    have hw : efW2 sign len s = if s.flags &&& 1536 = 0 then -1 else pad := by
      unfold efW2
      rw [hr']
      simp only [h1]
      first
        | (simp only [decide_True, if_true]
           rw [if_pos (by omega)])
        | simp
    simp only [hr', hw, h1]
    simp [hpad, h2]

/-- C22: multiply-and-add is exact and grows by at most one word.  For a normalized bignum `b`
with at least one word and `0 <= m, a < 2^31`, `___multadd_D2A b m a` has the value
`m * b + a`; its word count is that of `b`, or one more, and it is one more exactly when the
carry left by the loop is not 0.  That carry is the part of `m * b + a` above the words of
`b`. -/
theorem multadd_exact (b : Bigint) (hb : b.Canon) (h1 : 1 ≤ b.wds) (m a : Nat)
    (hm : m < 2 ^ 31) (ha : a < 2 ^ 31) :
    (___multadd_D2A b m a).value = m * b.value + a ∧
    ((___multadd_D2A b m a).wds = b.wds ∨ (___multadd_D2A b m a).wds = b.wds + 1) ∧
    ((___multadd_D2A b m a).wds = b.wds + 1 ↔ (mulAddWords m (wordsOf b.x b.wds) a).2 ≠ 0) ∧
    (mulAddWords m (wordsOf b.x b.wds) a).2 = (m * b.value + a) / 2 ^ (32 * b.wds) := by
  obtain ⟨g1, _, g3, g4, g5⟩ := multadd_gen b hb.1 h1 m a
    (lt_trans hm (by norm_num)) (lt_trans ha (by norm_num))
  rw [Nat.mul_comm] at g1 g3
  refine ⟨g1, ?_, ?_, g3⟩
  · by_cases hc : (mulAddWords m (wordsOf b.x b.wds) a).2 = 0
    · exact Or.inl (g4 hc)
    · exact Or.inr (g5 hc)
  · constructor
    · intro h hc
      have := g4 hc
      omega
    · exact g5

/-- Witness for C22: `7 * 10 + 3` stays in one word, `(2^32 - 1) * 10 + 3` takes a second one. -/
theorem multadd_exact_witness :
    (___multadd_D2A (___i2b_D2A 7) 10 3).value = 10 * (___i2b_D2A 7).value + 3 ∧
    (___multadd_D2A (___i2b_D2A (2 ^ 32 - 1)) 10 3).value =
      10 * (___i2b_D2A (2 ^ 32 - 1)).value + 3 :=
  ⟨(multadd_exact (___i2b_D2A 7) (i2b_Pos 7 (by decide) (by decide)).canon (by decide) 10 3
      (by decide) (by decide)).1,
   (multadd_exact (___i2b_D2A (2 ^ 32 - 1)) (i2b_Pos (2 ^ 32 - 1) (by decide) (by decide)).canon
      (by decide) 10 3 (by decide) (by decide)).1⟩

/-- C25: comparison agrees with the numeric order.  For normalized bignums `a` and `b`,
`___cmp_D2A a b` is negative exactly when `a < b`, zero exactly when `a = b` and positive exactly
when `a > b`; so the sign of `___cmp_D2A b a` is the opposite one. -/
theorem cmp_order (a b : Bigint) (ha : a.Canon) (hb : b.Canon) :
    (___cmp_D2A a b < 0 ↔ a.value < b.value) ∧
    (___cmp_D2A a b = 0 ↔ a.value = b.value) ∧
    (___cmp_D2A a b > 0 ↔ a.value > b.value) ∧
    (___cmp_D2A a b < 0 ↔ ___cmp_D2A b a > 0) ∧
    (___cmp_D2A a b = 0 ↔ ___cmp_D2A b a = 0) ∧
    (___cmp_D2A a b > 0 ↔ ___cmp_D2A b a < 0) := by
  have h1 := cmp_Canon a b ha hb
  have h2 := cmp_Canon b a hb ha
  refine ⟨⟨?_, ?_⟩, ⟨?_, ?_⟩, ⟨?_, ?_⟩, ⟨?_, ?_⟩, ⟨?_, ?_⟩, ⟨?_, ?_⟩⟩ <;> intro h <;>
    rcases h1 with c | c | c <;> rcases h2 with d | d | d <;> omega

/-- Witness for C25: 3 against 5. -/
theorem cmp_order_witness :
    (___cmp_D2A (___i2b_D2A 3) (___i2b_D2A 5) < 0 ↔ (___i2b_D2A 3).value < (___i2b_D2A 5).value) :=
  (cmp_order (___i2b_D2A 3) (___i2b_D2A 5) (i2b_Pos 3 (by decide) (by decide)).canon
    (i2b_Pos 5 (by decide) (by decide)).canon).1

/-- Counterexample for C26: for `2^64` (three words) against 1 (one word) `___cmp_D2A` returns the
difference of the word counts, 2. -/
theorem cmp_returns_two :
    ___cmp_D2A { k := 2, maxwds := 4, sign := 0, wds := 3, x := [0, 0, 1] } (___i2b_D2A 1) = 2 ∧
    ¬ (___cmp_D2A { k := 2, maxwds := 4, sign := 0, wds := 3, x := [0, 0, 1] } (___i2b_D2A 1) = -1 ∨
       ___cmp_D2A { k := 2, maxwds := 4, sign := 0, wds := 3, x := [0, 0, 1] } (___i2b_D2A 1) = 0 ∨
       ___cmp_D2A { k := 2, maxwds := 4, sign := 0, wds := 3, x := [0, 0, 1] } (___i2b_D2A 1) = 1) := by
  constructor <;> decide

/-- C26 as amended: for all bignums `a` and `b`, `___cmp_D2A a b` is the difference of the word
counts when they differ, and one of -1, 0, 1 when they are equal. -/
theorem cmp_result (a b : Bigint) :
    (a.wds ≠ b.wds ∧ ___cmp_D2A a b = (a.wds : Int) - b.wds) ∨
    (a.wds = b.wds ∧ (___cmp_D2A a b = -1 ∨ ___cmp_D2A a b = 0 ∨ ___cmp_D2A a b = 1)) :=
  cmp_values a b

/-- Counterexample for C30: free list 1 holds a block that records class 1 and the capacity 1.
`___Balloc_D2A` hands it out with that capacity, not `2^1`. -/
theorem Balloc_keeps_capacity :
    (∀ v ∈ ([[], [{ k := 1, maxwds := 1, sign := 0, wds := 1, x := [7] }], [], [], [], [], [], [],
        [], [], [], [], [], [], [], []] : List (List Bigint)).getD 1 [], v.k = 1) ∧
    (___Balloc_D2A_st
      { freelist := [[], [{ k := 1, maxwds := 1, sign := 0, wds := 1, x := [7] }], [], [], [], [],
          [], [], [], [], [], [], [], [], [], []], pmem := 0 } 1 []).1.maxwds = 1 ∧
    (___Balloc_D2A_st
      { freelist := [[], [{ k := 1, maxwds := 1, sign := 0, wds := 1, x := [7] }], [], [], [], [],
          [], [], [], [], [], [], [], [], [], []], pmem := 0 } 1 []).1.maxwds ≠ 2 ^ 1 := by
  refine ⟨by decide, by decide, by decide⟩

/-- C30 as amended: `k` is one of the sixteen size classes and every block on free list `k`
records the class `k` and the capacity `2^k`.  Then `___Balloc_D2A` returns a bignum with word
count 0 and sign 0 (value zero), class `k` and capacity `2^k`.  If free list `k` is not empty
the block is its head, the list becomes its tail and the pool pointer stays; otherwise
the block is new and every free list is unchanged.  The free lists of the other classes
are never changed. -/
theorem Balloc_contract (A : Arena) (k : Nat) (junk : List Nat) (hk : k < 16)
    (hcls : ∀ v ∈ A.freelist.getD k [], v.k = k ∧ v.maxwds = 2 ^ k) :
    (___Balloc_D2A_st A k junk).1.wds = 0 ∧ (___Balloc_D2A_st A k junk).1.sign = 0 ∧
    (___Balloc_D2A_st A k junk).1.value = 0 ∧ (___Balloc_D2A_st A k junk).1.k = k ∧
    (___Balloc_D2A_st A k junk).1.maxwds = 2 ^ k ∧
    (∀ v rest, A.freelist.getD k [] = v :: rest →
      (___Balloc_D2A_st A k junk).1 = { v with sign := 0, wds := 0 } ∧
      (___Balloc_D2A_st A k junk).2.freelist.getD k [] = rest ∧
      (___Balloc_D2A_st A k junk).2.pmem = A.pmem) ∧
    (A.freelist.getD k [] = [] → (___Balloc_D2A_st A k junk).2.freelist = A.freelist) ∧
    (∀ j, j ≠ k → (___Balloc_D2A_st A k junk).2.freelist.getD j [] = A.freelist.getD j []) := by
  cases h : A.freelist.getD k [] with
  | nil =>
    obtain ⟨f1, f2, f3, f4, f5⟩ := Balloc_st_fresh A k junk h
    have e : 2 ^ (k % 32) % 2 ^ 32 = 2 ^ k := by
      rw [Nat.mod_eq_of_lt (by omega : k < 32)]
      apply Nat.mod_eq_of_lt
      exact Nat.pow_lt_pow_right (by norm_num) (by omega)
    refine ⟨f4, f3, value_zero_of_wds _ f4, f1, by rw [f2, e], ?_, fun _ => f5, fun j _ => ?_⟩
    · intro v rest hv
      exact absurd hv (by simp)
    · rw [f5]
  | cons v rest =>
    have hp := Balloc_st_pop A k junk v rest h
    have hv := hcls v (by rw [h]; exact List.mem_cons_self _ _)
    have hlt : k < A.freelist.length := getD_ne_nil_lt _ _ (by rw [h]; simp)
    rw [hp]
    refine ⟨rfl, rfl, value_zero_of_wds _ rfl, hv.1, hv.2, ?_, fun h0 => absurd h0 (by simp),
      fun j hj => getD_set_ne _ _ _ _ hj⟩
    intro v' rest' hv'
    have e1 : v' = v := (List.cons.inj hv').1.symm
    have e2 : rest' = rest := (List.cons.inj hv').2.symm
    rw [e1, e2]
    exact ⟨rfl, getD_set_self _ _ _ hlt, rfl⟩

/-- Witness for C30 as amended: class 1 with an empty arena, and with a block of class 1 and
capacity 2 on free list 1. -/
theorem Balloc_contract_witness :
    (___Balloc_D2A_st { freelist := List.replicate 16 [], pmem := 0 } 1 []).1.maxwds = 2 ^ 1 ∧
    (___Balloc_D2A_st
      { freelist := [[], [{ k := 1, maxwds := 2, sign := 1, wds := 1, x := [7] }], [], [], [], [],
          [], [], [], [], [], [], [], [], [], []], pmem := 0 } 1 []).1.wds = 0 :=
  ⟨(Balloc_contract { freelist := List.replicate 16 [], pmem := 0 } 1 [] (by decide)
      (by decide)).2.2.2.2.1,
   (Balloc_contract
      { freelist := [[], [{ k := 1, maxwds := 2, sign := 1, wds := 1, x := [7] }], [], [], [], [],
          [], [], [], [], [], [], [], [], [], []], pmem := 0 } 1 [] (by decide) (by decide)).1⟩



/-! ## The division step `___quorem_D2A` -/

/-- Counterexample for C36: the one-word bignum `0xffffffff` is normalized and not zero, and the
32-bit sum of its top word and one is 0; `___quorem_D2A` divides by it. -/
theorem quorem_divisor_wraps :
    ({ k := 0, maxwds := 1, sign := 0, wds := 1, x := [4294967295] } : Bigint).Canon ∧
    ({ k := 0, maxwds := 1, sign := 0, wds := 1, x := [4294967295] } : Bigint).value ≠ 0 ∧
    quoremDivisor { k := 0, maxwds := 1, sign := 0, wds := 1, x := [4294967295] } = 0 := by
  refine ⟨⟨?_, ?_⟩, by decide, by decide⟩
  · intro w hw
    simp only [List.mem_singleton] at hw
    rw [hw]
    norm_num
  · intro _
    decide

/-- C36 as amended: for a normalized divisor `S` that is not zero and whose top word is below
`2^32 - 1`, the divisor of the quotient estimate is not zero; it is the top word plus one,
it is at least 2, and it is what `___quorem_D2A` divides the word of the numerator by. -/
theorem quorem_divisor_defined (S : Bigint) (hS : S.Canon) (hnz : S.value ≠ 0)
    (hst : getW S.x (S.wds - 1) < 2 ^ 32 - 1) :
    quoremDivisor S ≠ 0 ∧ quoremDivisor S = getW S.x (S.wds - 1) + 1 ∧ 2 ≤ quoremDivisor S ∧
    (∀ b, ___quorem_D2A b S =
      if S.wds > b.wds then (0, b)
      else quoremSecond (quoremFirst b S) S (getW b.x (S.wds - 1) / quoremDivisor S)) := by
  have e : quoremDivisor S = getW S.x (S.wds - 1) + 1 := by
    unfold quoremDivisor
    exact Nat.mod_eq_of_lt (by omega)
  have h1 : 1 ≤ S.wds := by
    by_contra h
    exact hnz (value_zero_of_wds S (by omega))
  have htop := (hS.pos h1).2.2
  refine ⟨by rw [e]; omega, e, by rw [e]; omega, fun b => ?_⟩
  rw [quorem_eq]
  rfl

/-- Witness for C36 as amended: the divisor 9. -/
theorem quorem_divisor_defined_witness : quoremDivisor (___i2b_D2A 9) ≠ 0 :=
  (quorem_divisor_defined (___i2b_D2A 9) (i2b_Pos 9 (by decide) (by decide)).canon (by decide)
    (by decide)).1

/-! ## Capacity of the blocks the bignum routines write -/

theorem mulAddWords_length (m : Nat) (ws : List Nat) :
    ∀ c, (mulAddWords m ws c).1.length = ws.length := by
  induction ws with
  | nil => intro c; rfl
  | cons w ws ih => intro c; simp [mulAddWords, ih]

/-- The class search of `___lshift_D2A` ends with a capacity that holds `n1` words. -/
theorem lshiftClass_spec (n1 : Nat) : ∀ fuel k, n1 ≤ 2 ^ (k + fuel) →
    n1 ≤ 2 ^ lshiftClass fuel n1 k (2 ^ k) ∧ k ≤ lshiftClass fuel n1 k (2 ^ k) ∧
    (lshiftClass fuel n1 k (2 ^ k) = k ∨ 2 ^ (lshiftClass fuel n1 k (2 ^ k) - 1) < n1) := by
  intro fuel
  induction fuel with
  | zero =>
    intro k h
    exact ⟨by simpa [lshiftClass] using h, le_refl _, Or.inl rfl⟩
  | succ fuel ih =>
    intro k h
    unfold lshiftClass
    by_cases hc : n1 > 2 ^ k
    · rw [if_pos hc]
      have e : 2 * 2 ^ k = 2 ^ (k + 1) := by rw [pow_succ]; ring
      rw [e]
      obtain ⟨i1, i2, i3⟩ := ih (k + 1) (by rw [show k + 1 + fuel = k + (fuel + 1) by omega]; exact h)
      refine ⟨i1, by omega, Or.inr ?_⟩
      rcases i3 with i3 | i3
      · rw [i3]
        simpa using hc
      · exact i3
    · rw [if_neg hc]
      exact ⟨by omega, le_refl _, Or.inl rfl⟩

theorem Balloc_maxwds (k : Nat) (hk : k ≤ 31) : (___Balloc_D2A k).maxwds = 2 ^ k := by
  show 2 ^ (k % 32) % 2 ^ 32 = 2 ^ k
  rw [Nat.mod_eq_of_lt (by omega : k < 32)]
  exact Nat.mod_eq_of_lt (Nat.pow_lt_pow_right (by norm_num) (by omega))

theorem pow_lt_class (k n : Nat) (h : 2 ^ k < 2 ^ n) : k < n := by
  by_contra hc
  have := Nat.pow_le_pow_right (by norm_num : 0 < 2) (not_lt.mp hc)
  omega

/-! ## The free lists and the result buffers -/

/-- The buffer and the count after a run of `___pformat_putc` calls into a buffer with a quota. -/
theorem putcs_quota_buf (cs : List Nat) : ∀ (s : PFormat), s.flags &&& 0x2000 = 0 →
    s.flags &&& 0x1000 = 0 → s.count + cs.length < 2 ^ 32 →
    (putcs cs s).count = s.count + cs.length ∧
    ∀ i, (putcs cs s).buf i =
      if s.count ≤ i ∧ i < s.count + cs.length ∧ i < s.quota then cs.getD (i - s.count) 0
      else s.buf i := by
  induction cs with
  | nil =>
    intro s _ _ _
    refine ⟨rfl, fun i => ?_⟩
    rw [if_neg (by intro h; simp only [List.length_nil] at h; omega)]
    rfl
  | cons c cs ih =>
    intro s h1 h2 h3
    simp only [List.length_cons] at h3
    have hc : (s.count + 1) % 2 ^ 32 = s.count + 1 := Nat.mod_eq_of_lt (by omega)
    by_cases hq : s.quota ≤ s.count
    · have e : ___pformat_putc c s = { s with count := s.count + 1 } := by
        unfold ___pformat_putc
        rw [if_pos ⟨h1, hq⟩, hc]
      obtain ⟨i1, i2⟩ := ih { s with count := s.count + 1 } h1 h2
        (by show s.count + 1 + cs.length < 2 ^ 32; omega)
      rw [putcs, e]
      refine ⟨by rw [i1]; show s.count + 1 + cs.length = s.count + (cs.length + 1); omega,
        fun i => ?_⟩
      rw [i2 i]
      have n1 : ¬ (s.count + 1 ≤ i ∧ i < s.count + 1 + cs.length ∧ i < s.quota) := by
        intro h; omega
      have n2 : ¬ (s.count ≤ i ∧ i < s.count + (cs.length + 1) ∧ i < s.quota) := by
        intro h; omega
      have n1' : ¬ (({ s with count := s.count + 1 } : PFormat).count ≤ i ∧
          i < ({ s with count := s.count + 1 } : PFormat).count + cs.length ∧
          i < ({ s with count := s.count + 1 } : PFormat).quota) := n1
      rw [if_neg n1', List.length_cons, if_neg n2]
    · have h0 : s.count < s.quota := Nat.lt_of_not_le hq
      obtain ⟨t, ht⟩ : ∃ t : PFormat,
          t = { s with buf := Function.update s.buf s.count c, count := s.count + 1 } := ⟨_, rfl⟩
      have e : ___pformat_putc c s = t := by
        unfold ___pformat_putc
        rw [if_neg (fun h => hq h.2), if_neg (not_not.mpr h2), hc, ht]
      have t1 : t.flags = s.flags := by rw [ht]
      have t2 : t.count = s.count + 1 := by rw [ht]
      have t3 : t.quota = s.quota := by rw [ht]
      have t4 : t.buf = Function.update s.buf s.count c := by rw [ht]
      obtain ⟨i1, i2⟩ := ih t (by rw [t1]; exact h1) (by rw [t1]; exact h2)
        (by rw [t2]; omega)
      rw [putcs, e]
      refine ⟨by rw [i1, t2, List.length_cons]; omega, fun i => ?_⟩
      rw [i2 i, List.length_cons, t2, t3, t4]
      by_cases hi : i = s.count
      · subst hi
        rw [if_neg (by intro h; omega), if_pos ⟨le_refl _, by omega, by omega⟩,
          Function.update_same, Nat.sub_self]
        rfl
      · rw [Function.update_noteq hi]
        by_cases hj : s.count + 1 ≤ i ∧ i < s.count + 1 + cs.length ∧ i < s.quota
        · rw [if_pos hj, if_pos ⟨by omega, by omega, hj.2.2⟩]
          obtain ⟨d, hd⟩ : ∃ d, i - s.count = d + 1 := ⟨i - s.count - 1, by omega⟩
          rw [hd, show i - (s.count + 1) = d by omega]
          rfl
        · rw [if_neg hj, if_neg (by intro h; apply hj; exact ⟨by omega, by omega, h.2.2⟩)]

/-- Characters beyond the quota only move the counter, up to its wrap at `2^32`. -/
theorem putcs_replicate_skip (c : Nat) : ∀ (n : Nat) (s : PFormat), s.flags &&& 0x2000 = 0 →
    s.quota ≤ s.count → s.count < 2 ^ 32 → s.count + n ≤ 2 ^ 32 →
    putcs (List.replicate n c) s = { s with count := (s.count + n) % 2 ^ 32 } := by
  intro n
  induction n with
  | zero =>
    intro s _ _ h _
    rw [Nat.add_zero, Nat.mod_eq_of_lt h]
    rfl
  | succ n ih =>
    intro s h1 h2 h3 h4
    have e : ___pformat_putc c s = { s with count := (s.count + 1) % 2 ^ 32 } := by
      unfold ___pformat_putc
      rw [if_pos ⟨h1, h2⟩]
    rw [List.replicate_succ, putcs, e]
    by_cases hn : n = 0
    · subst hn
      rfl
    · have hc : (s.count + 1) % 2 ^ 32 = s.count + 1 := Nat.mod_eq_of_lt (by omega)
      rw [hc, ih { s with count := s.count + 1 } h1 (by show s.quota ≤ s.count + 1; omega)
        (by show s.count + 1 < 2 ^ 32; omega) (by show s.count + 1 + n ≤ 2 ^ 32; omega)]
      show ({ s with count := (s.count + 1 + n) % 2 ^ 32 } : PFormat) = _
      rw [show s.count + 1 + n = s.count + (n + 1) by omega]

/-- The run of `_vsnprintf` with buffer size 2 on `N + 1` characters `A` followed by a `B`, when
`N + 1` is `2^32`: the counter wraps and the `B` is stored at index 0. -/
theorem vsnprintf_wrap (N : Nat) (hN : N + 1 = 2 ^ 32) :
    (65 :: (List.replicate N 65 ++ [66])).length = 2 ^ 32 + 1 ∧
    (65 :: (List.replicate N 65 ++ [66])).head? = some 65 ∧
    (_vsnprintf (fun _ => 0) 2 (65 :: (List.replicate N 65 ++ [66]))).2 = 1 ∧
    (_vsnprintf (fun _ => 0) 2 (65 :: (List.replicate N 65 ++ [66]))).1 0 = 66 := by
  have hrun : ___mingw_pformat 0 (fun _ => 0) 1 (65 :: (List.replicate N 65 ++ [66])) =
      putcs [66] { ___mingw_pformat 0 (fun _ => 0) 1 [65] with count := 0 } := by
    have e0 : ___mingw_pformat 0 (fun _ => 0) 1 (65 :: (List.replicate N 65 ++ [66])) =
        putcs [66] (putcs (List.replicate N 65) (___mingw_pformat 0 (fun _ => 0) 1 [65])) := by
      unfold ___mingw_pformat
      rw [putcs, putcs_append]
      rfl
    have e2 : (1 + N) % 2 ^ 32 = 0 := by
      rw [show 1 + N = 2 ^ 32 by omega]
      norm_num
    rw [e0, putcs_replicate_skip 65 N _ (by decide) (by decide) (by decide)
      (by show 1 + N ≤ 2 ^ 32; omega)]
    show putcs [66] { ___mingw_pformat 0 (fun _ => 0) 1 [65] with count := (1 + N) % 2 ^ 32 } = _
    rw [e2]
  have hv : _vsnprintf (fun _ => 0) 2 (65 :: (List.replicate N 65 ++ [66])) =
      if (___mingw_pformat 0 (fun _ => 0) 1 (65 :: (List.replicate N 65 ++ [66]))).count > 1 then
        (Function.update
          (___mingw_pformat 0 (fun _ => 0) 1 (65 :: (List.replicate N 65 ++ [66]))).buf 1 0,
          (___mingw_pformat 0 (fun _ => 0) 1 (65 :: (List.replicate N 65 ++ [66]))).count)
      else
        (Function.update
          (___mingw_pformat 0 (fun _ => 0) 1 (65 :: (List.replicate N 65 ++ [66]))).buf
          (___mingw_pformat 0 (fun _ => 0) 1 (65 :: (List.replicate N 65 ++ [66]))).count 0,
          (___mingw_pformat 0 (fun _ => 0) 1 (65 :: (List.replicate N 65 ++ [66]))).count) := rfl
  refine ⟨by simp; omega, rfl, ?_, ?_⟩
  · rw [hv, hrun]
    decide
  · rw [hv, hrun]
    decide

/-- Counterexample for C38: buffer size 2 and an output of `2^32` characters `A` followed by
one `B`.  The 32-bit counter wraps to 0 after the last `A`, the `B` is stored over the first
`A`, and the function returns 1: the buffer does not begin with the first character of the
output and the value returned is not its length. -/
theorem vsnprintf_counter_wraps :
    (65 :: (List.replicate 4294967295 65 ++ [66])).length = 2 ^ 32 + 1 ∧
    (65 :: (List.replicate 4294967295 65 ++ [66])).head? = some 65 ∧
    (_vsnprintf (fun _ => 0) 2 (65 :: (List.replicate 4294967295 65 ++ [66]))).2 = 1 ∧
    (_vsnprintf (fun _ => 0) 2 (65 :: (List.replicate 4294967295 65 ++ [66]))).1 0 = 66 :=
  vsnprintf_wrap 4294967295 (by norm_num)

/-- C38 as amended: the output has fewer than `2^32` characters (the counter has 32 bits).
Then `_vsnprintf` returns the full length `r` of the output.  With a buffer size `n >= 1` the
buffer holds the first `min(r, n - 1)` characters of the output, a NUL at the index
`min(r, n - 1)`, and its old content at every index above that, so nothing at an index
`>= n` is written; with `n = 0` the buffer is not written at all. -/
theorem vsnprintf_terminated (buf : Nat → Nat) (n : Nat) (out : List Nat) (hn : n < 2 ^ 32)
    (hlen : out.length < 2 ^ 32) :
    (_vsnprintf buf n out).2 = out.length ∧
    (n = 0 → (_vsnprintf buf n out).1 = buf) ∧
    (1 ≤ n →
      (∀ i, i < min out.length (n - 1) → (_vsnprintf buf n out).1 i = out.getD i 0) ∧
      (_vsnprintf buf n out).1 (min out.length (n - 1)) = 0 ∧
      (∀ i, min out.length (n - 1) < i → (_vsnprintf buf n out).1 i = buf i)) := by
  have hrun : ∀ q, (___mingw_pformat 0 buf q out).count = out.length ∧
      ∀ i, (___mingw_pformat 0 buf q out).buf i =
        if i < out.length ∧ i < q then out.getD i 0 else buf i := by
    intro q
    obtain ⟨h1, h2⟩ := putcs_quota_buf out (___mingw_pformat 0 buf q [])
      (by show (0 : Nat) &&& 0x2000 = 0; decide) (by show (0 : Nat) &&& 0x1000 = 0; decide)
      (by show 0 + out.length < 2 ^ 32; omega)
    have e0 : ___mingw_pformat 0 buf q out = putcs out (___mingw_pformat 0 buf q []) := rfl
    refine ⟨by rw [e0, h1]; show 0 + out.length = _; omega, fun i => ?_⟩
    rw [e0, h2 i]
    show (if 0 ≤ i ∧ i < 0 + out.length ∧ i < q then out.getD (i - 0) 0 else buf i) = _
    simp only [Nat.zero_le, true_and, Nat.zero_add, Nat.sub_zero]
  by_cases h0 : n = 0
  · subst h0
    have e : _vsnprintf buf 0 out =
        ((___mingw_pformat 0 buf 0 out).buf, (___mingw_pformat 0 buf 0 out).count) := rfl
    rw [e]
    refine ⟨(hrun 0).1, fun _ => ?_, fun h => absurd h (by omega)⟩
    funext i
    show (___mingw_pformat 0 buf 0 out).buf i = buf i
    rw [(hrun 0).2 i, if_neg (by intro h; omega)]
  · have hv2 : (n - 1) % 2 ^ 32 = n - 1 := Nat.mod_eq_of_lt (by omega)
    obtain ⟨hc, hb⟩ := hrun (n - 1)
    have e : _vsnprintf buf n out =
        (Function.update (___mingw_pformat 0 buf (n - 1) out).buf (min out.length (n - 1)) 0,
          out.length) := by
      unfold _vsnprintf
      simp only [if_neg h0, hv2, hc]
      split_ifs with hgt
      · rw [min_eq_right (by omega)]
      · rw [min_eq_left (by omega)]
    rw [e]
    refine ⟨rfl, fun h => absurd h h0, fun _ => ⟨fun i hi => ?_, ?_, fun i hi => ?_⟩⟩
    · show Function.update _ _ _ i = _
      rw [Function.update_noteq (by omega), hb i, if_pos (by omega)]
    · show Function.update _ _ _ _ = _
      rw [Function.update_same]
    · show Function.update _ _ _ i = _
      rw [Function.update_noteq (by omega), hb i, if_neg (by intro h; omega)]

/-- Witness for C38 as amended: `"hello"` into a buffer of 4 bytes. -/
theorem vsnprintf_terminated_witness :
    (_vsnprintf (fun _ => 7) 4 [104, 101, 108, 108, 111]).2 = 5 ∧
    (_vsnprintf (fun _ => 7) 4 [104, 101, 108, 108, 111]).1 3 = 0 :=
  ⟨(vsnprintf_terminated (fun _ => 7) 4 [104, 101, 108, 108, 111] (by decide) (by decide)).1,
   ((vsnprintf_terminated (fun _ => 7) 4 [104, 101, 108, 108, 111] (by decide) (by decide)).2.2
    (by decide)).2.1⟩

/-! ## The field width of `%f` as a minimum -/

/-- No width is left for padding when the number with its sign fills the field. -/
theorem emitFloatReserve_nopad (sign : Nat) (len : Int) (s : PFormat) (hp : 0 ≤ s.precision)
    (h80 : s.flags &&& 0x80 = 0)
    (hN : s.width ≤ (if 0 < len then len else 1) +
      (if 1 ≤ s.precision ∨ s.flags &&& 0x800 ≠ 0 then 1 else 0) + s.precision +
      (signChars sign s.flags).length) :
    (emitFloatReserve sign len s).2 = false ∧ (emitFloatReserve sign len s).1 ≤ 0 := by
  rw [signChars_length sign s.flags h80] at hN
  have hr : (¬ (s.precision < 1 ∧ s.flags &&& 0x800 = 0)) ↔
      (1 ≤ s.precision ∨ s.flags &&& 0x800 ≠ 0) := by
    constructor
    · intro h
      by_contra hc
      push_neg at hc
      exact h ⟨by omega, hc.2⟩
    · rintro h ⟨a, b⟩
      rcases h with h | h
      · omega
      · exact h b
  unfold emitFloatReserve
  simp only [hr]
  split
  · exact ⟨rfl, by norm_num⟩
  · rename_i v3 heq
    have hv3 := reserve_afterInt_le len s.width v3 heq
    generalize (if 0 < len then len else 1) = I at hN hv3
    clear heq
    by_cases hR : 1 ≤ s.precision ∨ s.flags &&& 0x800 ≠ 0 <;>
      by_cases hG : sign ≠ 0 ∨ s.flags &&& 448 ≠ 0 <;>
      simp only [hR, hG, if_true, if_false, decide_True, decide_False, true_and,
        false_and, Bool.false_eq_true, ne_eq, not_true_eq_false, not_false_eq_true] at hN ⊢ <;>
      (split_ifs <;> simp <;> omega)

theorem radixChars_cLocale (rplen : Int) (rpchr : Nat) :
    (radixChars cLocale rplen rpchr).length = 1 := by
  unfold radixChars
  split_ifs
  · rfl
  · rfl

theorem floatBody_length (value : List Nat) (len : Int) (s : PFormat) (hp : 0 ≤ s.precision)
    (hlen : -s.precision ≤ len) :
    ((floatBody cLocale value len s).length : Int) =
      (if 0 < len then len else 1) +
        (if 1 ≤ s.precision ∨ s.flags &&& 0x800 ≠ 0 then 1 else 0) + s.precision := by
  unfold floatBody
  simp only [List.length_append, List.length_replicate, digitsPad_length]
  have h1 : (((if 0 < len then digitsPad value len.toNat else [48]).length : Nat) : Int) =
      if 0 < len then len else 1 := by
    split_ifs with h
    · rw [digitsPad_length]; omega
    · rfl
  have h2 : (((if 1 ≤ s.precision ∨ s.flags &&& 0x800 ≠ 0
      then radixChars cLocale s.rplen s.rpchr else []).length : Nat) : Int) =
      if 1 ≤ s.precision ∨ s.flags &&& 0x800 ≠ 0 then 1 else 0 := by
    split_ifs with h
    · rw [radixChars_cLocale]; rfl
    · rfl
  push_cast
  rw [h1, h2]
  rcases le_total len 0 with h | h
  · rw [min_eq_left h]; omega
  · rw [min_eq_right h]; omega

/-- The number of characters `___pformat_emit_float` and the padding loop after it write in the
C locale. -/
theorem emit_float_count (sign : Nat) (value : List Nat) (len : Int) (s : PFormat)
    (hp : 0 ≤ s.precision) (h80 : s.flags &&& 0x80 = 0) (hlen : -s.precision ≤ len) :
    ∃ (out : List Nat) (w p rl : Int) (rc : Nat),
      padWidth 32 (___pformat_emit_float cLocale sign value len s) = upd (putcs out s) w p rl rc ∧
      (out.length : Int) = max s.width (floatNatural sign len s) := by
  have hb := floatBody_length value len s hp hlen
  by_cases hN : floatNatural sign len s < s.width
  · obtain ⟨w, p, rl, rc, e⟩ := emit_float_padding cLocale sign value len s hp h80 hN
    refine ⟨_, w, p, rl, rc, e, ?_⟩
    rw [max_eq_left (le_of_lt hN)]
    have hn : floatNatural sign len s = (floatBody cLocale value len s).length +
        (signChars sign s.flags).length := by
      rw [hb]; unfold floatNatural; ring
    simp only [List.length_append]
    rcases land_1536_cases s.flags with ⟨h1, h2⟩ | ⟨h1, h2⟩ | ⟨h1, h2⟩ | ⟨h1, h2⟩ <;>
      simp only [h1, h2, if_true, if_false, ne_eq, not_true_eq_false, not_false_eq_true,
        List.length_replicate, List.length_nil, show (512 : Nat) ≠ 0 by decide,
        show (1024 : Nat) ≠ 0 by decide, show (1536 : Nat) ≠ 0 by decide,
        show (1024 : Nat) ≠ 512 by decide, show (1536 : Nat) ≠ 512 by decide,
        show (0 : Nat) ≠ 512 by decide] <;>
      push_cast <;> omega
  · obtain ⟨w, p, rl, rc, e⟩ := padWidth_emit_float_chars cLocale sign value len s
    refine ⟨_, w, p, rl, rc, e, ?_⟩
    rw [max_eq_right (not_lt.mp hN)]
    obtain ⟨r2, r1⟩ := emitFloatReserve_nopad sign len s hp h80 (not_lt.mp hN)
    have hw : efW2 sign len s ≤ 0 := by
      unfold efW2
      rw [r2]
      simpa using r1
    have hn : floatNatural sign len s = (floatBody cLocale value len s).length +
        (signChars sign s.flags).length := by
      rw [hb]; unfold floatNatural; ring
    rw [r2, if_neg (by simp), if_neg (fun h => by omega), if_neg (fun h => by omega)]
    simp only [List.length_append, List.length_replicate, List.length_nil]
    rw [hn]
    push_cast
    omega

theorem infNanOut_length (nan : Bool) (sign fl : Nat) (width : Int) :
    ((infNanOut nan sign fl width).length : Int) =
      max width (3 + ((signChars sign fl).length : Int)) := by
  have h3 : ∀ t : List Nat, t = (if nan then (if fl &&& 32 = 0 then [78, 65, 78] else [110, 97, 110])
      else (if fl &&& 32 = 0 then [73, 78, 70] else [105, 110, 102])) → t.length = 3 := by
    intro t ht
    rw [ht]
    split_ifs <;> rfl
  unfold infNanOut
  simp only []
  rw [show (if sign ≠ 0 then [45] else if fl &&& 256 ≠ 0 then [43]
    else if fl &&& 64 ≠ 0 then [32] else [] : List Nat) = signChars sign fl from rfl]
  simp only [List.length_append, h3 _ rfl]
  by_cases hj : fl &&& 0x400 = 0
  · simp only [hj, if_true, ne_eq, not_true_eq_false, if_false, List.length_replicate,
      List.length_nil]
    push_cast
    omega
  · simp only [hj, if_false, ne_eq, not_false_eq_true, if_true, List.length_replicate,
      List.length_nil]
    push_cast
    omega

/-- C39: the field width is a minimum, never a truncation.  The descriptor is as the format
parser leaves it for a `%f` conversion (a precision that is not negative, no minus-sign
request `0x80`), the locale is the C locale (the program never sets another).  For a
finite argument the conversion writes `max(w, L)` characters, `w` the field width and `L` the
natural length `floatNatural`: the integer digits (one `0` when there are none), one for the
radix point when the precision is 1 or more or `#` is set, the precision, and one for the
sign when the value is negative or `+` or space is set.  For an infinity or a NaN it writes
`max(w, 3 + sign)` characters. -/
theorem float_width_minimum (x : LDouble) (s : PFormat) (hp : 0 ≤ s.precision)
    (h80 : s.flags &&& 0x80 = 0) :
    (fxam x &&& 256 = 0 →
      ∃ r : Cvt, ___pformat_cvt 3 x s.precision = some r ∧
        ∃ (out : List Nat) (w p rl : Int) (rc : Nat),
          ___pformat_float cLocale x s = some (upd (putcs out s) w p rl rc) ∧
          (out.length : Int) = max s.width (floatNatural r.sign r.decpt s)) ∧
    (fxam x &&& 256 ≠ 0 →
      ∃ (out : List Nat) (w p rl : Int) (rc : Nat),
        ___pformat_float cLocale x s = some (upd (putcs out s) w p rl rc) ∧
        (out.length : Int) = max s.width
          (3 + ((signChars (if fxam x &&& 1024 = 0 then 0 else x.se &&& 0x8000) s.flags).length :
            Int))) := by
  constructor
  · intro hx
    obtain ⟨r, hc, hlo, hneg⟩ := cvt_finite 3 (Or.inr rfl) x s.precision hp hx
    obtain ⟨out, w, p, rl, rc, e, hl⟩ :=
      emit_float_count r.sign r.digits r.decpt s hp h80 (hneg rfl)
    exact ⟨r, hc, out, w, p, rl, rc, by rw [float_some cLocale x s r hp hc (by omega), e], hl⟩
  · intro hx
    have hd : ∀ c : Cvt, c = (if fxam x &&& 1024 = 0 then
          ({ digits := [78, 97, 78], decpt := -32768, sign := 0 } : Cvt)
        else { digits := [73, 110, 102, 105, 110, 105, 116, 121], decpt := -32768,
               sign := x.se &&& 0x8000 }) → c.decpt = -0x8000 := by
      intro c hc
      rw [hc]
      split_ifs <;> rfl
    obtain ⟨w, p, rl, rc, e⟩ := handlers_nonfinite x s s.precision
    refine ⟨infNanOut (decide (fxam x &&& 1024 = 0))
      (if fxam x &&& 1024 = 0 then 0 else x.se &&& 0x8000) s.flags s.width, w, p, rl, rc, ?_,
      infNanOut_length _ _ _ _⟩
    unfold ___pformat_float
    rw [← e]
    simp only [if_neg (not_lt.mpr hp), cvt_nonfinite _ x _ hx, Option.map_some', hd _ rfl,
      if_true]
    rfl

/-- Witness for C39: `%06.0f` of 5.0. -/
theorem float_width_minimum_witness :
    ∃ r : Cvt, ___pformat_cvt 3 (ofDouble 0 1025 1125899906842624)
        (fileStream 0x200 6 0).precision = some r ∧
      ∃ (out : List Nat) (w p rl : Int) (rc : Nat),
        ___pformat_float cLocale (ofDouble 0 1025 1125899906842624) (fileStream 0x200 6 0) =
          some (upd (putcs out (fileStream 0x200 6 0)) w p rl rc) ∧
        (out.length : Int) = max (fileStream 0x200 6 0).width
          (floatNatural r.sign r.decpt (fileStream 0x200 6 0)) :=
  (float_width_minimum (ofDouble 0 1025 1125899906842624) (fileStream 0x200 6 0) (by decide)
    (by decide)).1 (by decide)

/-! ## The bignum routines as typed in the listing: where they leave exact arithmetic -/

theorem pat32_lt (i : Int) : pat32 i < 2 ^ 32 := by
  unfold pat32
  have h1 : 0 ≤ i % 2 ^ 32 := Int.emod_nonneg _ (by norm_num)
  have h2 : i % 2 ^ 32 < 2 ^ 32 := Int.emod_lt_of_pos _ (by norm_num)
  omega

theorem pat32_natCast (n : Nat) (h : n < 2 ^ 32) : pat32 (n : Int) = n := by
  unfold pat32
  rw [Int.emod_eq_of_lt (by omega) (by omega)]
  simp

theorem sar32_lt (w s : Nat) : sar32 w s < 2 ^ 32 := pat32_lt _

/-- A word without bit 31 is shifted as an unsigned number. -/
theorem sar32_of_lt (w s : Nat) (h : w < 2 ^ 31) : sar32 w s = w >>> s := by
  unfold sar32 sext32
  rw [if_pos h]
  have e : ((w : Int) >>> s) = ((w >>> s : Nat) : Int) := rfl
  rw [e]
  apply pat32_natCast
  have : w >>> s ≤ w := by
    rw [Nat.shiftRight_eq_div_pow]
    exact Nat.div_le_self _ _
  omega

/-- A word with bit 31 keeps it, whatever the shift count. -/
theorem sar32_of_ge (w s : Nat) (h1 : 2 ^ 31 ≤ w) (h2 : w < 2 ^ 32) : 2 ^ 31 ≤ sar32 w s := by
  unfold sar32 sext32 pat32
  rw [if_neg (by omega)]
  rw [Int.shiftRight_eq_div_pow]
  have hp : (0 : Int) < ((2 ^ s : Nat) : Int) := by positivity
  have h3 : ((w : Int) - 2 ^ 32) / ((2 ^ s : Nat) : Int) < 0 :=
    Int.ediv_neg' (by omega) hp
  have h4 : -(2 ^ 31 : Int) ≤ ((w : Int) - 2 ^ 32) / ((2 ^ s : Nat) : Int) := by
    rw [Int.le_ediv_iff_mul_le hp]
    have : (1 : Int) ≤ ((2 ^ s : Nat) : Int) := hp
    nlinarith
  generalize ((w : Int) - 2 ^ 32) / ((2 ^ s : Nat) : Int) = r at h3 h4
  omega

theorem sar32_eq_zero_iff (w s : Nat) (hw : w < 2 ^ 32) : sar32 w s = 0 ↔ w >>> s = 0 ∧ w < 2 ^ 31 := by
  by_cases h : w < 2 ^ 31
  · rw [sar32_of_lt w s h]
    exact ⟨fun h0 => ⟨h0, h⟩, fun h0 => h0.1⟩
  · have := sar32_of_ge w s (by omega) hw
    constructor
    · intro h0; omega
    · intro h0; omega

/-! ## Word count of `___lshift_D2A` as typed in the listing -/

theorem shlWordsL_getLastD (k : Nat) (ws : List Nat) :
    ∀ z, ws ≠ [] → (Listed.shlWords k ws z).getLastD 0 = sar32 (ws.getLastD 0) (32 - k) := by
  induction ws with
  | nil => intro z h; exact absurd rfl h
  | cons w ws ih =>
    intro z _
    cases ws with
    | nil => rfl
    | cons v vs =>
      have := ih (sar32 w (32 - k)) (List.cons_ne_nil _ _)
      simpa [Listed.shlWords, List.getLastD_cons] using this

theorem wordsOf_ne_nil (x : List Nat) (n : Nat) (h : 1 ≤ n) : wordsOf x n ≠ [] := by
  intro h0
  have := wordsOf_length x n
  rw [h0] at this
  simp at this
  omega

theorem wordsOf_getLastD1 (x : List Nat) (n : Nat) (h : 1 ≤ n) :
    (wordsOf x n).getLastD 0 = getW x (n - 1) := by
  obtain ⟨m, rfl⟩ : ∃ m, n = m + 1 := ⟨n - 1, by omega⟩
  rw [wordsOf_succ]
  simp

/-- No bits are shifted out of a word exactly when the signed shift gives 0: a word with
bit 31 set loses that bit to every shift count up to 31. -/
theorem sar32_shifted_out (w s : Nat) (hw : w < 2 ^ 32) (hs : s ≤ 31) :
    sar32 w s = 0 ↔ w >>> s = 0 := by
  rw [sar32_eq_zero_iff w s hw]
  constructor
  · exact fun h => h.1
  · intro h
    refine ⟨h, ?_⟩
    rw [Nat.shiftRight_eq_div_pow, Nat.div_eq_zero_iff (by positivity)] at h
    have : 2 ^ s ≤ 2 ^ 31 := Nat.pow_le_pow_right (by norm_num) hs
    omega

/-- C31: word count of the left shift, for `___lshift_D2A` as the listing types it.  For a
normalized bignum `b` that is not zero, with `w` words, the result has `w + k / 32` words
when `k` is a multiple of 32 or the bits shifted out of the top word
(`top >> (32 - k % 32)`) are all zero, and one more otherwise.  The count is decided by
the carry out of the top word, which the listing computes with a shift of an `int32_t`;
that carry is 0 exactly when no bit is shifted out. -/
theorem lshift_word_count (b : Bigint) (hb : b.Canon) (hnz : b.value ≠ 0) (k : Nat) :
    (Listed.___lshift_D2A b k).wds =
      if k % 32 = 0 ∨ getW b.x (b.wds - 1) >>> (32 - k % 32) = 0 then b.wds + k / 32
      else b.wds + k / 32 + 1 := by
  have h1 : 1 ≤ b.wds := by
    by_contra h
    exact hnz (value_zero_of_wds b (by omega))
  have hmax : max b.wds 1 = b.wds := max_eq_left h1
  unfold Listed.___lshift_D2A
  simp only [hmax]
  by_cases h2 : k % 32 = 0
  · rw [if_pos h2, if_pos (Or.inl h2)]
    show k / 32 + b.wds + 1 - 1 = _
    omega
  · rw [if_neg h2]
    have hl := shlWordsL_getLastD (k % 32) (wordsOf b.x b.wds) 0 (wordsOf_ne_nil b.x b.wds h1)
    rw [wordsOf_getLastD1 b.x b.wds h1] at hl
    have hz := sar32_shifted_out (getW b.x (b.wds - 1)) (32 - k % 32) (getW_lt b.x hb.1 _)
      (by omega)
    show (if (Listed.shlWords (k % 32) (wordsOf b.x b.wds) 0).getLastD 0 ≠ 0
      then k / 32 + b.wds + 1 else k / 32 + b.wds + 1 - 1) = _
    rw [hl]
    by_cases h3 : getW b.x (b.wds - 1) >>> (32 - k % 32) = 0
    · rw [if_neg (not_not.mpr (hz.mpr h3)), if_pos (Or.inr h3)]
      omega
    · rw [if_pos (fun h => h3 (hz.mp h)), if_neg (by rintro (h | h); exact h2 h; exact h3 h)]
      omega

/-- Witness for C31: `3 << 1` keeps one word, `0x80000000 << 1` needs two, `3 << 32` has two. -/
theorem lshift_word_count_witness :
    (Listed.___lshift_D2A (___i2b_D2A 3) 1).wds = 1 ∧
    (Listed.___lshift_D2A (___i2b_D2A 2147483648) 1).wds = 2 ∧
    (Listed.___lshift_D2A (___i2b_D2A 3) 32).wds = 2 :=
  ⟨lshift_word_count (___i2b_D2A 3) ⟨by decide, by decide⟩ (by decide) 1,
   lshift_word_count (___i2b_D2A 2147483648) ⟨by decide, by decide⟩ (by decide) 1,
   lshift_word_count (___i2b_D2A 3) ⟨by decide, by decide⟩ (by decide) 32⟩

/-! ## Form of the results of the routines as typed in the listing -/

theorem mulRowL_lt (y : Nat) (xa : List Nat) :
    ∀ acc c, (∀ w ∈ acc, w < 2 ^ 32) → c < 2 ^ 32 →
      ∀ w ∈ Listed.mulRow y xa acc c, w < 2 ^ 32 := by
  induction xa with
  | nil =>
    intro acc c hacc hc w hw
    simp only [Listed.mulRow, List.mem_cons] at hw
    rcases hw with hw | hw
    · rw [hw]; exact hc
    · exact hacc w (List.mem_of_mem_tail hw)
  | cons v vs ih =>
    intro acc c hacc hc w hw
    simp only [Listed.mulRow, List.mem_cons] at hw
    rcases hw with hw | hw
    · rw [hw]; exact Nat.mod_lt _ (by norm_num)
    · exact ih acc.tail _ (fun u hu => hacc u (List.mem_of_mem_tail hu))
        (Nat.mod_lt _ (by norm_num)) w hw

theorem mulRowL_length (y : Nat) (xa : List Nat) :
    ∀ acc carry, xa.length < acc.length → (Listed.mulRow y xa acc carry).length = acc.length := by
  induction xa with
  | nil =>
    intro acc carry h
    cases acc with
    | nil => simp at h
    | cons a t => simp [Listed.mulRow]
  | cons w ws ih =>
    intro acc carry h
    cases acc with
    | nil => simp at h
    | cons a t =>
      simp only [List.length_cons] at h
      simp [Listed.mulRow, ih t _ (by omega)]

theorem mulRowsL_lt (xa : List Nat) (ys : List Nat) :
    ∀ acc, (∀ w ∈ acc, w < 2 ^ 32) → ∀ w ∈ Listed.mulRows xa ys acc, w < 2 ^ 32 := by
  induction ys with
  | nil => intro acc h; exact h
  | cons y ys ih =>
    intro acc hacc
    have h1 : ∀ w ∈ (if y ≠ 0 then Listed.mulRow y xa acc 0 else acc), w < 2 ^ 32 := by
      split_ifs
      · exact mulRowL_lt y xa acc 0 hacc (by norm_num)
      · exact hacc
    unfold Listed.mulRows
    simp only []
    generalize (if y ≠ 0 then Listed.mulRow y xa acc 0 else acc) = acc1 at h1
    cases acc1 with
    | nil => intro w hw; simp at hw
    | cons a t =>
      intro w hw
      simp only [List.mem_cons] at hw
      rcases hw with hw | hw
      · rw [hw]; exact h1 a (List.mem_cons_self _ _)
      · exact ih t (fun u hu => h1 u (List.mem_cons_of_mem _ hu)) w hw

theorem mulRowsL_length (xa : List Nat) (ys : List Nat) :
    ∀ acc, (ys = [] ∨ xa.length + ys.length ≤ acc.length) →
      (Listed.mulRows xa ys acc).length = acc.length := by
  induction ys with
  | nil => intro acc _; rfl
  | cons y ys ih =>
    intro acc h
    have hl : xa.length + (ys.length + 1) ≤ acc.length := by
      rcases h with h | h
      · exact absurd h (List.cons_ne_nil _ _)
      · simpa using h
    have h1 : (if y ≠ 0 then Listed.mulRow y xa acc 0 else acc).length = acc.length := by
      split_ifs
      · exact mulRowL_length y xa acc 0 (by omega)
      · rfl
    unfold Listed.mulRows
    simp only []
    generalize (if y ≠ 0 then Listed.mulRow y xa acc 0 else acc) = acc1 at h1
    cases acc1 with
    | nil => simp at h1; omega
    | cons a t =>
      simp only [List.length_cons] at h1 ⊢
      rw [ih t (Or.inr (by omega))]
      exact h1

/-- The product as typed in the listing: 32-bit words, as many as the operands have
together, and the top word counted is not 0. -/
theorem multL_form (a b : Bigint) :
    (∀ w ∈ (Listed.___mult_D2A a b).x, w < 2 ^ 32) ∧
    (1 ≤ (Listed.___mult_D2A a b).wds →
      getW (Listed.___mult_D2A a b).x ((Listed.___mult_D2A a b).wds - 1) ≠ 0) ∧
    (Listed.___mult_D2A a b).wds ≤ a.wds + b.wds ∧
    (Listed.___mult_D2A a b).x.length = a.wds + b.wds := by
  unfold Listed.___mult_D2A
  simp only []
  have hz : ∀ n, ∀ w ∈ List.replicate n 0, w < 2 ^ 32 := by
    intro n w hw
    rw [List.eq_of_mem_replicate hw]
    norm_num
  refine ⟨mulRowsL_lt _ _ _ (hz _), fun h => trimTop_top _ _ (by omega), ?_, ?_⟩
  · have := trimTop_le ((if a.wds < b.wds then b else a).wds + (if a.wds < b.wds then a else b).wds)
      (Listed.mulRows (wordsOf (if a.wds < b.wds then b else a).x (if a.wds < b.wds then b else a).wds)
        (wordsOf (if a.wds < b.wds then a else b).x (if a.wds < b.wds then a else b).wds)
        (List.replicate ((if a.wds < b.wds then b else a).wds +
          (if a.wds < b.wds then a else b).wds) 0))
    split_ifs at this ⊢ <;> omega
  · rw [mulRowsL_length _ _ _ (Or.inr (by simp [wordsOf_length]))]
    rw [List.length_replicate]
    split_ifs <;> omega

theorem shlWordsL_length (k : Nat) (ws : List Nat) :
    ∀ z, (Listed.shlWords k ws z).length = ws.length + 1 := by
  induction ws with
  | nil => intro z; rfl
  | cons w ws ih => intro z; simp [Listed.shlWords, ih]

theorem shlWordsL_lt (k : Nat) (ws : List Nat) :
    ∀ z, z < 2 ^ 32 → ∀ w ∈ Listed.shlWords k ws z, w < 2 ^ 32 := by
  induction ws with
  | nil =>
    intro z hz w hw
    simp only [Listed.shlWords, List.mem_singleton] at hw
    rw [hw]; exact hz
  | cons v vs ih =>
    intro z hz w hw
    simp only [Listed.shlWords, List.mem_cons] at hw
    rcases hw with hw | hw
    · rw [hw]; exact Nat.mod_lt _ (by norm_num)
    · exact ih _ (sar32_lt _ _) w hw

/-- A word that is not 0 stays so when 32-bit words are or-ed into it. -/
theorem or_mod_ne_zero (a z : Nat) (ha : a ≠ 0) (ha2 : a < 2 ^ 32) (hz : z < 2 ^ 32) :
    (a ||| z) % 2 ^ 32 ≠ 0 := by
  have h1 : a ||| z < 2 ^ 32 := Nat.or_lt_two_pow ha2 hz
  rw [Nat.mod_eq_of_lt h1]
  obtain ⟨i, hi⟩ := Nat.ne_zero_implies_bit_true ha
  intro h0
  have h2 : (a ||| z).testBit i = true := by rw [Nat.testBit_or, hi]; rfl
  rw [h0, Nat.zero_testBit] at h2
  exact absurd h2 (by decide)

/-- A word of which no bit is shifted out keeps all its bits in the shifted word. -/
theorem shl_keeps (w k : Nat) (hk : k ≤ 32) (hw : w ≠ 0) (h0 : w >>> (32 - k) = 0) :
    w <<< k ≠ 0 ∧ w <<< k < 2 ^ 32 := by
  rw [Nat.shiftRight_eq_div_pow, Nat.div_eq_zero_iff (by positivity)] at h0
  rw [Nat.shiftLeft_eq]
  have hp : 0 < 2 ^ k := by positivity
  constructor
  · have : 0 < w * 2 ^ k := Nat.mul_pos (by omega) hp
    omega
  · calc w * 2 ^ k < 2 ^ (32 - k) * 2 ^ k := Nat.mul_lt_mul_of_pos_right h0 hp
      _ = 2 ^ 32 := by rw [← pow_add]; congr 1; omega

theorem shlWordsL_top (k : Nat) (hk : k ≤ 31) (ws : List Nat) :
    ∀ z, z < 2 ^ 32 → ws ≠ [] → ws.getLastD 0 ≠ 0 → ws.getLastD 0 < 2 ^ 32 →
      sar32 (ws.getLastD 0) (32 - k) = 0 →
      getW (Listed.shlWords k ws z) (ws.length - 1) ≠ 0 := by
  induction ws with
  | nil => intro z _ h; exact absurd rfl h
  | cons w ws ih =>
    intro z hz _ hne hlt h0
    cases ws with
    | nil =>
      simp only [List.getLastD_cons, List.getLast?_nil, Option.getD_none,
        List.getLastD_nil] at hne hlt h0
      have h1 := ((sar32_eq_zero_iff w (32 - k) hlt).mp h0).1
      obtain ⟨s1, s2⟩ := shl_keeps w k (by omega) hne h1
      show getW (Listed.shlWords k [w] z) 0 ≠ 0
      simp only [Listed.shlWords, getW_cons_zero]
      exact or_mod_ne_zero _ _ s1 s2 hz
    | cons v vs =>
      have e : (w :: v :: vs).getLastD 0 = (v :: vs).getLastD 0 := by
        simp [List.getLastD_cons]
      rw [e] at hne hlt h0
      have := ih (sar32 w (32 - k)) (sar32_lt _ _) (List.cons_ne_nil _ _) hne hlt h0
      simpa [Listed.shlWords, getW_cons_succ] using this

/-- The left shift as typed in the listing of a normalized bignum that is not zero: 32-bit
words, at least one word, and the top word counted is not 0. -/
theorem lshiftL_form (b : Bigint) (hb : b.Pos) (k : Nat) :
    (∀ w ∈ (Listed.___lshift_D2A b k).x, w < 2 ^ 32) ∧ 1 ≤ (Listed.___lshift_D2A b k).wds ∧
    getW (Listed.___lshift_D2A b k).x ((Listed.___lshift_D2A b k).wds - 1) ≠ 0 := by
  obtain ⟨hw, h1, ht⟩ := hb
  have hmax : max b.wds 1 = b.wds := max_eq_left h1
  have hsrc := wordsOf_lt b.x hw b.wds
  have hz : ∀ w ∈ List.replicate (k / 32) 0, w < 2 ^ 32 := by
    intro w hw
    rw [List.eq_of_mem_replicate hw]
    norm_num
  have hne := wordsOf_ne_nil b.x b.wds h1
  have hlast := wordsOf_getLastD1 b.x b.wds h1
  have htop : getW (wordsOf b.x b.wds) (b.wds - 1) = getW b.x (b.wds - 1) :=
    getW_wordsOf b.x b.wds (b.wds - 1) (by omega)
  unfold Listed.___lshift_D2A
  simp only [hmax]
  by_cases h2 : k % 32 = 0
  · simp only [if_pos h2]
    refine ⟨?_, ?_, ?_⟩
    · intro w hw'
      rcases List.mem_append.mp hw' with h | h
      · exact hz w h
      · exact hsrc w h
    · show 1 ≤ k / 32 + b.wds + 1 - 1
      omega
    · show getW (List.replicate (k / 32) 0 ++ wordsOf b.x b.wds) (k / 32 + b.wds + 1 - 1 - 1) ≠ 0
      rw [show k / 32 + b.wds + 1 - 1 - 1 = k / 32 + (b.wds - 1) by omega, getW_zeros_append, htop]
      exact ht
  · simp only [if_neg h2]
    have hl := shlWordsL_getLastD (k % 32) (wordsOf b.x b.wds) 0 hne
    have hlen := shlWordsL_length (k % 32) (wordsOf b.x b.wds) 0
    rw [wordsOf_length] at hlen
    refine ⟨?_, ?_, ?_⟩
    · intro w hw'
      rcases List.mem_append.mp hw' with h | h
      · exact hz w h
      · exact shlWordsL_lt _ _ 0 (by norm_num) w h
    · show 1 ≤ (if (Listed.shlWords (k % 32) (wordsOf b.x b.wds) 0).getLastD 0 ≠ 0
        then k / 32 + b.wds + 1 else k / 32 + b.wds + 1 - 1)
      split_ifs <;> omega
    · show getW (List.replicate (k / 32) 0 ++ Listed.shlWords (k % 32) (wordsOf b.x b.wds) 0)
        ((if (Listed.shlWords (k % 32) (wordsOf b.x b.wds) 0).getLastD 0 ≠ 0
          then k / 32 + b.wds + 1 else k / 32 + b.wds + 1 - 1) - 1) ≠ 0
      by_cases h3 : (Listed.shlWords (k % 32) (wordsOf b.x b.wds) 0).getLastD 0 ≠ 0
      · rw [if_pos h3, show k / 32 + b.wds + 1 - 1 = k / 32 + b.wds by omega, getW_zeros_append]
        have := getW_last (Listed.shlWords (k % 32) (wordsOf b.x b.wds) 0)
        rw [hlen, Nat.add_sub_cancel] at this
        rw [this]
        exact h3
      · rw [if_neg h3, show k / 32 + b.wds + 1 - 1 - 1 = k / 32 + (b.wds - 1) by omega,
          getW_zeros_append]
        have h4 : sar32 ((wordsOf b.x b.wds).getLastD 0) (32 - k % 32) = 0 := by
          rw [← hl]
          exact not_not.mp h3
        have := shlWordsL_top (k % 32) (by omega) (wordsOf b.x b.wds) 0 (by norm_num) hne
          (by rw [hlast]; exact ht) (by rw [hlast]; exact getW_lt b.x hw _) h4
        rw [wordsOf_length] at this
        exact this

theorem pat32_zero : pat32 0 = 0 := by decide

theorem diffLowL_length (as : List Nat) :
    ∀ bs v, (Listed.diffLow as bs v).1.length = as.length := by
  induction as with
  | nil => intro bs v; rfl
  | cons a as ih => intro bs v; simp [Listed.diffLow, ih]

theorem diffLowL_lt (as : List Nat) :
    ∀ bs v, ∀ w ∈ (Listed.diffLow as bs v).1, w < 2 ^ 32 := by
  induction as with
  | nil => intro bs v w hw; simp [Listed.diffLow] at hw
  | cons a as ih =>
    intro bs v w hw
    simp only [Listed.diffLow, List.mem_cons] at hw
    rcases hw with hw | hw
    · rw [hw]; exact pat32_lt _
    · exact ih _ _ w hw

theorem diffHighL_length (as : List Nat) : ∀ v, (Listed.diffHigh as v).length = as.length := by
  induction as with
  | nil => intro v; rfl
  | cons a as ih => intro v; simp [Listed.diffHigh, ih]

theorem diffHighL_lt (as : List Nat) : ∀ v, ∀ w ∈ Listed.diffHigh as v, w < 2 ^ 32 := by
  induction as with
  | nil => intro v w hw; simp [Listed.diffHigh] at hw
  | cons a as ih =>
    intro v w hw
    simp only [Listed.diffHigh, List.mem_cons] at hw
    rcases hw with hw | hw
    · rw [hw]; exact pat32_lt _
    · exact ih _ w hw

/-- Words whose 32-bit difference is 0 are equal. -/
theorem sub32_eq_zero (a b : Nat) (ha : a < 2 ^ 32) (hb : b < 2 ^ 32)
    (h : (a + 2 ^ 32 - b) % 2 ^ 32 = 0) : a = b := by
  omega

/-- When the first loop of `___diff_D2A` stores only zeros, the operands agree on the words it
ran over and it ends without a borrow. -/
theorem diffLowL_zero (as : List Nat) :
    ∀ bs, as.length = bs.length → (∀ w ∈ as, w < 2 ^ 32) → (∀ w ∈ bs, w < 2 ^ 32) →
      (∀ w ∈ (Listed.diffLow as bs 0).1, w = 0) →
      as = bs ∧ (Listed.diffLow as bs 0).2 = 0 := by
  induction as with
  | nil =>
    intro bs hl _ _ _
    cases bs with
    | nil => exact ⟨rfl, rfl⟩
    | cons b bs => simp at hl
  | cons a as ih =>
    intro bs hl ha hb hz
    cases bs with
    | nil => simp at hl
    | cons b bs =>
      simp only [List.length_cons, Nat.add_right_cancel_iff] at hl
      have ha1 := ha a (List.mem_cons_self _ _)
      have hb1 := hb b (List.mem_cons_self _ _)
      simp only [Listed.diffLow, List.headD_cons, List.tail_cons, List.mem_cons,
        forall_eq_or_imp, sub_zero] at hz ⊢
      obtain ⟨hz1, hz2⟩ := hz
      rw [pat32_natCast _ (Nat.mod_lt _ (by norm_num))] at hz1
      have e := sub32_eq_zero a b ha1 hb1 hz1
      subst e
      have hbw : borrow32 a a ((a + 2 ^ 32 - a) % 2 ^ 32) 0 = 0 := by
        unfold borrow32
        rw [pat32_zero]
        simp
      rw [hbw] at hz2 ⊢
      obtain ⟨i1, i2⟩ := ih bs hl (fun w hw => ha w (List.mem_cons_of_mem _ hw))
        (fun w hw => hb w (List.mem_cons_of_mem _ hw)) hz2
      exact ⟨by rw [i1], i2⟩

/-- When the second loop of `___diff_D2A` starts without a borrow and stores only zeros, the
words it ran over are 0. -/
theorem diffHighL_zero (as : List Nat) : (∀ w ∈ as, w < 2 ^ 32) →
    (∀ w ∈ Listed.diffHigh as 0, w = 0) → ∀ w ∈ as, w = 0 := by
  induction as with
  | nil => intro _ _ w hw; simp at hw
  | cons a as ih =>
    intro ha hz
    have ha1 := ha a (List.mem_cons_self _ _)
    simp only [Listed.diffHigh, List.mem_cons, forall_eq_or_imp, sub_zero, pat32_zero] at hz
    obtain ⟨hz1, hz2⟩ := hz
    rw [pat32_natCast _ ha1] at hz1
    subst hz1
    simp only [lt_self_iff_false, if_false] at hz2
    intro w hw
    simp only [List.mem_cons] at hw
    rcases hw with hw | hw
    · exact hw
    · exact ih (fun w hw => ha w (List.mem_cons_of_mem _ hw)) hz2 w hw

/-- The trimming loop of `___diff_D2A` stays within the words when one of them is not 0. -/
theorem diffTrimL_spec (sign : Nat) (xc : List Nat) :
    ∀ j, (∃ i, i < j ∧ getW xc i ≠ 0) →
      1 ≤ Listed.diffTrim sign xc j ∧ Listed.diffTrim sign xc j ≤ j ∧
      getW xc (Listed.diffTrim sign xc j - 1) ≠ 0 := by
  intro j
  induction j with
  | zero => rintro ⟨i, hi, _⟩; omega
  | succ j ih =>
    rintro ⟨i, hi, hne⟩
    unfold Listed.diffTrim
    by_cases h : getW xc j ≠ 0
    · rw [if_pos h]
      exact ⟨by omega, le_refl _, by simpa using h⟩
    · rw [if_neg h]
      have hij : i < j := by
        rcases Nat.lt_or_ge i j with h1 | h1
        · exact h1
        · have : i = j := by omega
          rw [this] at hne
          exact absurd hne h
      obtain ⟨i1, i2, i3⟩ := ih ⟨i, hij, hne⟩
      exact ⟨i1, by omega, i3⟩

theorem getW_all_zero (l : List Nat) (h : ∀ w ∈ l, w = 0) (i : Nat) : getW l i = 0 := by
  unfold getW
  by_cases hi : i < l.length
  · rw [List.getD_eq_getElem _ _ hi]
    exact h _ (List.getElem_mem hi)
  · exact List.getD_eq_default _ _ (by omega)

theorem getW_drop (l : List Nat) (n i : Nat) : getW (l.drop n) i = getW l (n + i) := by
  unfold getW
  rw [List.getD_eq_getElem?_getD, List.getD_eq_getElem?_getD, List.getElem?_drop]

/-- The words stored by the two loops of `___diff_D2A` for a larger operand `a1` and a smaller
one `b1`: as many as `a1` has, 32-bit, and not all 0 when `a1` is normalized and differs
from `b1`. -/
theorem diffL_words (a1 b1 : Bigint) (ha : a1.Canon) (hb : ∀ w ∈ b1.x, w < 2 ^ 32)
    (hb0 : b1.wds = 0 → getW b1.x 0 = 0) (hle : b1.wds ≤ a1.wds) (h1 : 1 ≤ a1.wds)
    (hne : ¬ (a1.wds = b1.wds ∧ wordsOf a1.x a1.wds = wordsOf b1.x b1.wds)) :
    ((Listed.diffLow (wordsOf a1.x (max b1.wds 1)) (wordsOf b1.x (max b1.wds 1)) 0).1 ++
      Listed.diffHigh ((wordsOf a1.x a1.wds).drop (max b1.wds 1))
        (Listed.diffLow (wordsOf a1.x (max b1.wds 1)) (wordsOf b1.x (max b1.wds 1)) 0).2).length
      = a1.wds ∧
    (∀ w ∈ (Listed.diffLow (wordsOf a1.x (max b1.wds 1)) (wordsOf b1.x (max b1.wds 1)) 0).1 ++
      Listed.diffHigh ((wordsOf a1.x a1.wds).drop (max b1.wds 1))
        (Listed.diffLow (wordsOf a1.x (max b1.wds 1)) (wordsOf b1.x (max b1.wds 1)) 0).2,
      w < 2 ^ 32) ∧
    ∃ i, i < a1.wds ∧ getW ((Listed.diffLow (wordsOf a1.x (max b1.wds 1))
        (wordsOf b1.x (max b1.wds 1)) 0).1 ++
      Listed.diffHigh ((wordsOf a1.x a1.wds).drop (max b1.wds 1))
        (Listed.diffLow (wordsOf a1.x (max b1.wds 1)) (wordsOf b1.x (max b1.wds 1)) 0).2) i ≠ 0 := by
  have hn1 : max b1.wds 1 ≤ a1.wds := max_le hle h1
  generalize hn : max b1.wds 1 = n1 at hn1 ⊢
  have hlen : ((Listed.diffLow (wordsOf a1.x n1) (wordsOf b1.x n1) 0).1 ++
      Listed.diffHigh ((wordsOf a1.x a1.wds).drop n1)
        (Listed.diffLow (wordsOf a1.x n1) (wordsOf b1.x n1) 0).2).length = a1.wds := by
    rw [List.length_append, diffLowL_length, diffHighL_length, List.length_drop, wordsOf_length,
      wordsOf_length]
    omega
  refine ⟨hlen, ?_, ?_⟩
  · intro w hw
    rcases List.mem_append.mp hw with h | h
    · exact diffLowL_lt _ _ _ w h
    · exact diffHighL_lt _ _ w h
  · by_contra hall
    have hz : ∀ w ∈ (Listed.diffLow (wordsOf a1.x n1) (wordsOf b1.x n1) 0).1 ++
        Listed.diffHigh ((wordsOf a1.x a1.wds).drop n1)
          (Listed.diffLow (wordsOf a1.x n1) (wordsOf b1.x n1) 0).2, w = 0 := by
      intro w hw
      obtain ⟨i, hi, rfl⟩ := List.getElem_of_mem hw
      by_contra hw0
      apply hall
      refine ⟨i, by rw [← hlen]; exact hi, ?_⟩
      unfold getW
      rw [List.getD_eq_getElem _ _ hi]
      exact hw0
    obtain ⟨e1, e2⟩ := diffLowL_zero (wordsOf a1.x n1) (wordsOf b1.x n1)
      (by rw [wordsOf_length, wordsOf_length]) (wordsOf_lt a1.x ha.1 n1) (wordsOf_lt b1.x hb n1)
      (fun w hw => hz w (List.mem_append_left _ hw))
    rw [e2] at hz
    have e3 := diffHighL_zero ((wordsOf a1.x a1.wds).drop n1)
      (fun w hw => wordsOf_lt a1.x ha.1 a1.wds w (List.mem_of_mem_drop hw))
      (fun w hw => hz w (List.mem_append_right _ hw))
    have htop := ha.2 h1
    rcases Nat.lt_or_ge n1 a1.wds with hgt | hge
    · -- the top word of a1 lies in the part the second loop ran over
      have := getW_all_zero _ e3 (a1.wds - 1 - n1)
      rw [getW_drop, show n1 + (a1.wds - 1 - n1) = a1.wds - 1 by omega,
        getW_wordsOf a1.x a1.wds (a1.wds - 1) (by omega)] at this
      exact htop this
    · have hn1' : n1 = a1.wds := by omega
      by_cases hbz : b1.wds = 0
      · have h11 : a1.wds = 1 := by
          rw [← hn1', ← hn, hbz]
          rfl
        have e4 : getW (wordsOf a1.x n1) 0 = getW (wordsOf b1.x n1) 0 := by rw [e1]
        rw [getW_wordsOf _ _ _ (by omega), getW_wordsOf _ _ _ (by omega), hb0 hbz] at e4
        rw [h11] at htop
        exact htop e4
      · have hbn : n1 = b1.wds := by
          rw [← hn]
          exact max_eq_left (by omega)
        apply hne
        have hab : a1.wds = b1.wds := by omega
        refine ⟨hab, ?_⟩
        rw [hn1'] at e1
        rw [← hab]
        exact e1

theorem cmpWords_eq_zero (n : Nat) (xa xb : List Nat) (h : wordsOf xa n = wordsOf xb n) :
    cmpWords n xa xb = 0 := by
  induction n with
  | zero => rfl
  | succ n ih =>
    rw [wordsOf_succ, wordsOf_succ] at h
    obtain ⟨h1, h2⟩ := List.append_inj h (by rw [wordsOf_length, wordsOf_length])
    have h3 : getW xa n = getW xb n := by simpa using h2
    unfold cmpWords
    rw [if_pos h3]
    exact ih h1

theorem cmp_eq_zero_of_words (a b : Bigint) (h : a.wds = b.wds)
    (hw : wordsOf a.x a.wds = wordsOf b.x b.wds) : ___cmp_D2A a b = 0 := by
  unfold ___cmp_D2A
  rw [if_neg (by rw [h]; simp)]
  split_ifs
  · rfl
  · rw [← h] at hw
    exact cmpWords_eq_zero a.wds a.x b.x hw

/-- The word count that `___diff_D2A` as typed in the listing stores for a larger operand `a1`
and a smaller one `b1`, both normalized: between 1 and the count of `a1`, and the top
word counted is not 0. -/
theorem diffL_ordered (a1 b1 : Bigint) (sign : Nat) (ha : a1.Canon)
    (hb : ∀ w ∈ b1.x, w < 2 ^ 32) (hb0 : b1.wds = 0 → getW b1.x 0 = 0) (hle : b1.wds ≤ a1.wds)
    (h1 : 1 ≤ a1.wds)
    (hne : ¬ (a1.wds = b1.wds ∧ wordsOf a1.x a1.wds = wordsOf b1.x b1.wds))
    (xc : List Nat)
    (hxc : xc = (Listed.diffLow (wordsOf a1.x (max b1.wds 1)) (wordsOf b1.x (max b1.wds 1)) 0).1 ++
      Listed.diffHigh ((wordsOf a1.x a1.wds).drop (max b1.wds 1))
        (Listed.diffLow (wordsOf a1.x (max b1.wds 1)) (wordsOf b1.x (max b1.wds 1)) 0).2) :
    xc.length = a1.wds ∧ (∀ w ∈ xc, w < 2 ^ 32) ∧
    1 ≤ (if xc.getLastD 0 ≠ 0 then a1.wds else Listed.diffTrim sign xc (a1.wds - 1)) ∧
    (if xc.getLastD 0 ≠ 0 then a1.wds else Listed.diffTrim sign xc (a1.wds - 1)) ≤ a1.wds ∧
    getW xc ((if xc.getLastD 0 ≠ 0 then a1.wds
      else Listed.diffTrim sign xc (a1.wds - 1)) - 1) ≠ 0 := by
  obtain ⟨w1, w2, i, hi, hnz⟩ := diffL_words a1 b1 ha hb hb0 hle h1 hne
  rw [← hxc] at w1 w2 hnz
  have hlast := getW_last xc
  rw [w1] at hlast
  refine ⟨w1, w2, ?_⟩
  by_cases h : xc.getLastD 0 ≠ 0
  · rw [if_pos h]
    exact ⟨h1, le_refl _, by rw [hlast]; exact h⟩
  · rw [if_neg h]
    have hij : i < a1.wds - 1 := by
      rcases Nat.lt_or_ge i (a1.wds - 1) with h2 | h2
      · exact h2
      · have : i = a1.wds - 1 := by omega
        rw [this, hlast] at hnz
        exact absurd hnz h
    obtain ⟨t1, t2, t3⟩ := diffTrimL_spec sign xc (a1.wds - 1) ⟨i, hij, hnz⟩
    exact ⟨t1, by omega, t3⟩

/-- The difference as typed in the listing of normalized operands whose word 0 reads 0 when
they have no words: equal operands give the single word 0; otherwise the result has
32-bit words, as many as the larger operand, a word count between 1 and that number,
and the top word counted is not 0.  The block has the class of the larger operand. -/
theorem diffL_form (a b : Bigint) (ha : a.Canon) (hb : b.Canon)
    (ha0 : a.wds = 0 → getW a.x 0 = 0) (hb0 : b.wds = 0 → getW b.x 0 = 0) :
    (___cmp_D2A a b = 0 →
      (Listed.___diff_D2A a b).wds = 1 ∧ (Listed.___diff_D2A a b).x = [0] ∧
      (Listed.___diff_D2A a b).k = 0 ∧ (Listed.___diff_D2A a b).maxwds = 1) ∧
    (___cmp_D2A a b ≠ 0 → ∃ a1 : Bigint, (a1 = a ∨ a1 = b) ∧
      (Listed.___diff_D2A a b).k = a1.k ∧
      (Listed.___diff_D2A a b).maxwds = (___Balloc_D2A a1.k).maxwds ∧
      (Listed.___diff_D2A a b).x.length = a1.wds ∧
      (∀ w ∈ (Listed.___diff_D2A a b).x, w < 2 ^ 32) ∧
      1 ≤ (Listed.___diff_D2A a b).wds ∧ (Listed.___diff_D2A a b).wds ≤ a1.wds ∧
      getW (Listed.___diff_D2A a b).x ((Listed.___diff_D2A a b).wds - 1) ≠ 0) := by
  constructor
  · intro h0
    refine ⟨?_, ?_, ?_, ?_⟩ <;> simp [Listed.___diff_D2A, h0, ___Balloc_D2A]
  · intro h0
    have hcv := cmp_values a b
    have hzz : ¬ (a.wds = 0 ∧ b.wds = 0) := by
      rintro ⟨z1, z2⟩
      apply h0
      unfold ___cmp_D2A
      rw [if_neg (by rw [z1, z2]; simp), if_pos z1]
    unfold Listed.___diff_D2A
    simp only [if_neg h0]
    by_cases hneg : ___cmp_D2A a b < 0
    · simp only [if_pos hneg]
      have hle : a.wds ≤ b.wds := by
        rcases hcv with ⟨c1, c2⟩ | ⟨c1, _⟩
        · rw [c2] at hneg; omega
        · omega
      have hne : ¬ (b.wds = a.wds ∧ wordsOf b.x b.wds = wordsOf a.x a.wds) := by
        rintro ⟨e1, e2⟩
        exact h0 (cmp_eq_zero_of_words a b e1.symm e2.symm)
      obtain ⟨r1, r2, r3, r4, r5⟩ := diffL_ordered b a 1 hb ha.1 ha0 hle (by omega) hne _ rfl
      exact ⟨b, Or.inr rfl, rfl, rfl, r1, r2, r3, r4, r5⟩
    · simp only [if_neg hneg]
      have hle : b.wds ≤ a.wds := by
        rcases hcv with ⟨c1, c2⟩ | ⟨c1, _⟩
        · rw [c2] at hneg h0; omega
        · omega
      have hne : ¬ (a.wds = b.wds ∧ wordsOf a.x a.wds = wordsOf b.x b.wds) := by
        rintro ⟨e1, e2⟩
        exact h0 (cmp_eq_zero_of_words a b e1 e2)
      obtain ⟨r1, r2, r3, r4, r5⟩ := diffL_ordered a b 0 ha hb.1 hb0 hle (by omega) hne _ rfl
      exact ⟨a, Or.inl rfl, rfl, rfl, r1, r2, r3, r4, r5⟩

theorem shrWordsL_length (k : Nat) (ws : List Nat) :
    ∀ y, (Listed.shrWords k ws y).length = ws.length + 1 := by
  induction ws with
  | nil => intro y; rfl
  | cons w ws ih => intro y; simp [Listed.shrWords, ih]

theorem shrWordsL_lt (k : Nat) (ws : List Nat) :
    ∀ y, y < 2 ^ 32 → ∀ w ∈ Listed.shrWords k ws y, w < 2 ^ 32 := by
  induction ws with
  | nil =>
    intro y hy w hw
    simp only [Listed.shrWords, List.mem_singleton] at hw
    rw [hw]; exact hy
  | cons v vs ih =>
    intro y hy w hw
    simp only [Listed.shrWords, List.mem_cons] at hw
    rcases hw with hw | hw
    · rw [hw]; exact Nat.mod_lt _ (by norm_num)
    · exact ih _ (sar32_lt _ _) w hw

theorem shrWordsL_getLastD (k : Nat) (ws : List Nat) :
    ∀ y, ws ≠ [] → (Listed.shrWords k ws y).getLastD 0 = sar32 (ws.getLastD 0) k := by
  induction ws with
  | nil => intro y h; exact absurd rfl h
  | cons w ws ih =>
    intro y _
    cases ws with
    | nil => rfl
    | cons v vs =>
      have := ih (sar32 w k) (List.cons_ne_nil _ _)
      simpa [Listed.shrWords, List.getLastD_cons] using this

theorem shrWordsL_top (k : Nat) (hk : k ≤ 32) (ws : List Nat) :
    ∀ y, y < 2 ^ 32 → ws ≠ [] → ws.getLastD 0 ≠ 0 → ws.getLastD 0 < 2 ^ 32 →
      sar32 (ws.getLastD 0) k = 0 →
      getW (Listed.shrWords k ws y) (ws.length - 1) ≠ 0 := by
  induction ws with
  | nil => intro y _ h; exact absurd rfl h
  | cons w ws ih =>
    intro y hy _ hne hlt h0
    cases ws with
    | nil =>
      simp only [List.getLastD_cons, List.getLast?_nil, Option.getD_none,
        List.getLastD_nil] at hne hlt h0
      have h1 := ((sar32_eq_zero_iff w k hlt).mp h0).1
      obtain ⟨s1, s2⟩ := shl_keeps w (32 - k) (by omega) hne
        (by rw [show 32 - (32 - k) = k by omega]; exact h1)
      show getW (Listed.shrWords k [w] y) 0 ≠ 0
      simp only [Listed.shrWords, getW_cons_zero]
      exact or_mod_ne_zero _ _ s1 s2 hy
    | cons v vs =>
      have e : (w :: v :: vs).getLastD 0 = (v :: vs).getLastD 0 := by
        simp [List.getLastD_cons]
      rw [e] at hne hlt h0
      have := ih (sar32 w k) (sar32_lt _ _) (List.cons_ne_nil _ _) hne hlt h0
      simpa [Listed.shrWords, getW_cons_succ] using this

/-- The right shift as typed in the listing of a normalized bignum: 32-bit words, no more
words than before, the top word counted is not 0, and word 0 is 0 when no word is
left. -/
theorem rshiftL_form (b : Bigint) (hb : b.Canon) (k : Nat) :
    (∀ w ∈ (Listed.___rshift_D2A b k).x, w < 2 ^ 32) ∧
    (1 ≤ (Listed.___rshift_D2A b k).wds →
      getW (Listed.___rshift_D2A b k).x ((Listed.___rshift_D2A b k).wds - 1) ≠ 0) ∧
    ((Listed.___rshift_D2A b k).wds = 0 → getW (Listed.___rshift_D2A b k).x 0 = 0) ∧
    (Listed.___rshift_D2A b k).wds ≤ b.wds := by
  have hw := hb.1
  have hW := wordsOf_lt b.x hw b.wds
  have hr : k % 32 < 32 := Nat.mod_lt _ (by norm_num)
  unfold Listed.___rshift_D2A
  simp only []
  by_cases h1 : k / 32 < b.wds
  · rw [if_pos h1]
    have hsrc : ∀ w ∈ (wordsOf b.x b.wds).drop (k / 32), w < 2 ^ 32 :=
      fun w hw' => hW w (List.mem_of_mem_drop hw')
    have hlen : ((wordsOf b.x b.wds).drop (k / 32)).length = b.wds - k / 32 := by
      rw [List.length_drop, wordsOf_length]
    have htop : ((wordsOf b.x b.wds).drop (k / 32)).getLastD 0 ≠ 0 := by
      rw [← getW_last, hlen, getW_drop, show k / 32 + (b.wds - k / 32 - 1) = b.wds - 1 by omega,
        getW_wordsOf b.x b.wds (b.wds - 1) (by omega)]
      exact hb.2 (by omega)
    generalize (wordsOf b.x b.wds).drop (k / 32) = src at hsrc hlen htop ⊢
    by_cases h2 : k % 32 = 0
    · rw [if_pos h2]
      refine ⟨mem_append_drop_lt _ _ _ hsrc hw, fun _ => ?_, fun h0 => ?_, ?_⟩
      · show getW (src ++ b.x.drop src.length) (src.length - 1) ≠ 0
        rw [getW_append_left _ _ _ (by omega), getW_last]
        exact htop
      · have : src.length = 0 := h0
        omega
      · show src.length ≤ b.wds
        omega
    · rw [if_neg h2]
      cases src with
      | nil => simp at hlen; omega
      | cons h t =>
        simp only [List.tail_cons, List.headD_cons]
        have hh := hsrc h (List.mem_cons_self _ _)
        have hlo := shrWordsL_length (k % 32) t (sar32 h (k % 32))
        have hbo := shrWordsL_lt (k % 32) t (sar32 h (k % 32)) (sar32_lt _ _)
        simp only [List.length_cons] at hlen
        have hlast : (Listed.shrWords (k % 32) t (sar32 h (k % 32))).getLastD 0 =
            sar32 ((h :: t).getLastD 0) (k % 32) := by
          cases t with
          | nil => rfl
          | cons v vs =>
            rw [shrWordsL_getLastD _ _ _ (List.cons_ne_nil _ _)]
            simp [List.getLastD_cons]
        have htl : (h :: t).getLastD 0 < 2 ^ 32 := by
          rw [← getW_last]
          exact getW_lt _ hsrc _
        have hcase : t ≠ [] → getW (Listed.shrWords (k % 32) t (sar32 h (k % 32)))
            (t.length - 1) ≠ 0 ∨ (Listed.shrWords (k % 32) t (sar32 h (k % 32))).getLastD 0 ≠ 0 := by
          intro htne
          by_cases hz : (Listed.shrWords (k % 32) t (sar32 h (k % 32))).getLastD 0 = 0
          · left
            rw [hlast] at hz
            have e : (h :: t).getLastD 0 = t.getLastD 0 := by
              cases t with
              | nil => exact absurd rfl htne
              | cons v vs => simp [List.getLastD_cons]
            rw [e] at hz htop htl
            exact shrWordsL_top (k % 32) (by omega) t _ (sar32_lt _ _) htne htop htl hz
          · right
            exact hz
        generalize Listed.shrWords (k % 32) t (sar32 h (k % 32)) = out at hlo hbo hlast hcase ⊢
        refine ⟨mem_append_drop_lt _ _ _ hbo hw, fun h1' => ?_, fun h0 => ?_, ?_⟩
        · show getW (out ++ b.x.drop out.length)
            ((if out.getLastD 0 ≠ 0 then out.length else out.length - 1) - 1) ≠ 0
          have h1'' : 1 ≤ (if out.getLastD 0 ≠ 0 then out.length else out.length - 1) := h1'
          by_cases hz : out.getLastD 0 ≠ 0
          · rw [if_pos hz, getW_append_left _ _ _ (by omega), getW_last]
            exact hz
          · rw [if_neg hz] at h1'' ⊢
            have htne : t ≠ [] := by
              intro h0
              rw [h0] at hlo
              simp at hlo
              omega
            rw [getW_append_left _ _ _ (by omega), hlo, Nat.add_sub_cancel]
            rcases hcase htne with h3 | h3
            · exact h3
            · exact absurd h3 hz
        · have h0' : (if out.getLastD 0 ≠ 0 then out.length else out.length - 1) = 0 := h0
          show getW (out ++ b.x.drop out.length) 0 = 0
          have hz : ¬ out.getLastD 0 ≠ 0 := by
            intro hz
            rw [if_pos hz] at h0'
            omega
          rw [if_neg hz] at h0'
          have hl1 : out.length = 1 := by omega
          rw [getW_append_left _ _ _ (by omega)]
          have := getW_last out
          rw [hl1] at this
          rw [this]
          exact not_not.mp hz
        · show (if out.getLastD 0 ≠ 0 then out.length else out.length - 1) ≤ b.wds
          split_ifs <;> omega
  · rw [if_neg h1]
    refine ⟨?_, fun h => ?_, fun _ => rfl, Nat.zero_le _⟩
    · intro w hw'
      simp only [List.mem_cons] at hw'
      rcases hw' with h | h
      · rw [h]; norm_num
      · exact hw w (List.mem_of_mem_tail h)
    · have : (1 : Nat) ≤ 0 := h
      omega

theorem quoremSubL_lt (q : Nat) (bs : List Nat) :
    ∀ ss v22 v15, ∀ w ∈ Listed.quoremSub q bs ss v22 v15, w < 2 ^ 32 := by
  induction bs with
  | nil => intro ss v22 v15 w hw; simp [Listed.quoremSub] at hw
  | cons b bs ih =>
    intro ss v22 v15 w hw
    simp only [Listed.quoremSub, List.mem_cons] at hw
    rcases hw with hw | hw
    · rw [hw]; exact pat32_lt _
    · exact ih _ _ _ w hw

theorem quoremSub2L_lt (bs : List Nat) :
    ∀ ss v37 v31, ∀ w ∈ Listed.quoremSub2 bs ss v37 v31, w < 2 ^ 32 := by
  induction bs with
  | nil => intro ss v37 v31 w hw; simp [Listed.quoremSub2] at hw
  | cons b bs ih =>
    intro ss v37 v31 w hw
    simp only [Listed.quoremSub2, List.mem_cons] at hw
    rcases hw with hw | hw
    · rw [hw]; exact pat32_lt _
    · exact ih _ _ _ w hw

theorem quoremSubL_length (q : Nat) (bs : List Nat) :
    ∀ ss v22 v15, (Listed.quoremSub q bs ss v22 v15).length = bs.length := by
  induction bs with
  | nil => intro ss v22 v15; simp [Listed.quoremSub]
  | cons b bs ih => intro ss v22 v15; simp [Listed.quoremSub, ih]

theorem quoremSub2L_length (bs : List Nat) :
    ∀ ss v37 v31, (Listed.quoremSub2 bs ss v37 v31).length = bs.length := by
  induction bs with
  | nil => intro ss v37 v31; simp [Listed.quoremSub2]
  | cons b bs ih => intro ss v37 v31; simp [Listed.quoremSub2, ih]

/-- A word above the `n` words that a loop has rewritten is the word that was there. -/
theorem getW_append_drop (xs l : List Nat) (n i : Nat) (hlen : xs.length = n) (hi : n ≤ i) :
    getW (xs ++ l.drop n) i = getW l i := by
  obtain ⟨j, rfl⟩ : ∃ j, i = n + j := ⟨i - n, by omega⟩
  unfold getW
  rw [List.getD_eq_getElem?_getD, List.getD_eq_getElem?_getD,
    List.getElem?_append_right (by omega), List.getElem?_drop, hlen]
  congr 2
  omega

/-- The numerator that `___quorem_D2A` as typed in the listing leaves, for a normalized
numerator and a divisor with at least one word: 32-bit words, no more words than
before, and the top word is not 0 when more than one word is counted. -/
theorem quoremL_form (b S : Bigint) (hb : b.Canon) (hS : 1 ≤ S.wds) :
    (∀ w ∈ (Listed.___quorem_D2A b S).2.x, w < 2 ^ 32) ∧
    (1 < (Listed.___quorem_D2A b S).2.wds →
      getW (Listed.___quorem_D2A b S).2.x ((Listed.___quorem_D2A b S).2.wds - 1) ≠ 0) ∧
    (Listed.___quorem_D2A b S).2.wds ≤ b.wds := by
  have hbt : 1 < b.wds → getW b.x (b.wds - 1) ≠ 0 := fun h => hb.2 (by omega)
  unfold Listed.___quorem_D2A
  by_cases hgt : S.wds > b.wds
  · rw [if_pos hgt]
    exact ⟨hb.1, hbt, le_refl _⟩
  · rw [if_neg hgt]
    have hn : S.wds ≤ b.wds := by omega
    simp only []
    -- the first stage
    have hr1 : ∀ r1 : Bigint × Nat,
        r1 = (if (getW S.x (S.wds - 1) + 1) % 2 ^ 32 ≤ getW b.x (S.wds - 1) then
          if getW (Listed.quoremSub (getW b.x (S.wds - 1) / ((getW S.x (S.wds - 1) + 1) % 2 ^ 32))
              (wordsOf b.x S.wds) (wordsOf S.x S.wds) 0 0 ++ b.x.drop S.wds) (S.wds - 1) = 0 then
            ({ b with
                x := Listed.quoremSub
                  (getW b.x (S.wds - 1) / ((getW S.x (S.wds - 1) + 1) % 2 ^ 32))
                  (wordsOf b.x S.wds) (wordsOf S.x S.wds) 0 0 ++ b.x.drop S.wds,
                wds := quoremTrim (S.wds - 1) (Listed.quoremSub
                  (getW b.x (S.wds - 1) / ((getW S.x (S.wds - 1) + 1) % 2 ^ 32))
                  (wordsOf b.x S.wds) (wordsOf S.x S.wds) 0 0 ++ b.x.drop S.wds) },
              quoremTrim (S.wds - 1) (Listed.quoremSub
                  (getW b.x (S.wds - 1) / ((getW S.x (S.wds - 1) + 1) % 2 ^ 32))
                  (wordsOf b.x S.wds) (wordsOf S.x S.wds) 0 0 ++ b.x.drop S.wds))
          else ({ b with
                x := Listed.quoremSub
                  (getW b.x (S.wds - 1) / ((getW S.x (S.wds - 1) + 1) % 2 ^ 32))
                  (wordsOf b.x S.wds) (wordsOf S.x S.wds) 0 0 ++ b.x.drop S.wds }, S.wds - 1)
        else (b, S.wds - 1)) →
        (∀ w ∈ r1.1.x, w < 2 ^ 32) ∧ (1 < r1.1.wds → getW r1.1.x (r1.1.wds - 1) ≠ 0) ∧
        r1.1.wds ≤ b.wds ∧ (r1.1.wds < S.wds ∨ r1.2 = S.wds - 1) := by
      intro r1 hr
      have hx1 := mem_append_drop_lt _ b.x S.wds
        (quoremSubL_lt (getW b.x (S.wds - 1) / ((getW S.x (S.wds - 1) + 1) % 2 ^ 32))
          (wordsOf b.x S.wds) (wordsOf S.x S.wds) 0 0) hb.1
      have hl1 : (Listed.quoremSub (getW b.x (S.wds - 1) / ((getW S.x (S.wds - 1) + 1) % 2 ^ 32))
          (wordsOf b.x S.wds) (wordsOf S.x S.wds) 0 0).length = S.wds := by
        rw [quoremSubL_length, wordsOf_length]
      split_ifs at hr with c1 c2
      · rw [hr]
        have hle := quoremTrim_le (S.wds - 1) (Listed.quoremSub
          (getW b.x (S.wds - 1) / ((getW S.x (S.wds - 1) + 1) % 2 ^ 32))
          (wordsOf b.x S.wds) (wordsOf S.x S.wds) 0 0 ++ b.x.drop S.wds)
        refine ⟨hx1, fun h => quoremTrim_top _ _ h, ?_, Or.inl ?_⟩
        · show quoremTrim _ _ ≤ b.wds
          omega
        · show quoremTrim _ _ < S.wds
          omega
      · rw [hr]
        refine ⟨hx1, fun h => ?_, le_refl _, Or.inr rfl⟩
        show getW _ (b.wds - 1) ≠ 0
        by_cases he : b.wds = S.wds
        · rw [he]
          exact c2
        · rw [getW_append_drop _ b.x S.wds (b.wds - 1) hl1 (by omega)]
          exact hbt h
      · rw [hr]
        exact ⟨hb.1, hbt, le_refl _, Or.inr rfl⟩
    obtain ⟨p1, p2, p3, p4⟩ := hr1 _ rfl
    generalize (if (getW S.x (S.wds - 1) + 1) % 2 ^ 32 ≤ getW b.x (S.wds - 1) then
          if getW (Listed.quoremSub (getW b.x (S.wds - 1) / ((getW S.x (S.wds - 1) + 1) % 2 ^ 32))
              (wordsOf b.x S.wds) (wordsOf S.x S.wds) 0 0 ++ b.x.drop S.wds) (S.wds - 1) = 0 then
            ({ b with
                x := Listed.quoremSub
                  (getW b.x (S.wds - 1) / ((getW S.x (S.wds - 1) + 1) % 2 ^ 32))
                  (wordsOf b.x S.wds) (wordsOf S.x S.wds) 0 0 ++ b.x.drop S.wds,
                wds := quoremTrim (S.wds - 1) (Listed.quoremSub
                  (getW b.x (S.wds - 1) / ((getW S.x (S.wds - 1) + 1) % 2 ^ 32))
                  (wordsOf b.x S.wds) (wordsOf S.x S.wds) 0 0 ++ b.x.drop S.wds) },
              quoremTrim (S.wds - 1) (Listed.quoremSub
                  (getW b.x (S.wds - 1) / ((getW S.x (S.wds - 1) + 1) % 2 ^ 32))
                  (wordsOf b.x S.wds) (wordsOf S.x S.wds) 0 0 ++ b.x.drop S.wds))
          else ({ b with
                x := Listed.quoremSub
                  (getW b.x (S.wds - 1) / ((getW S.x (S.wds - 1) + 1) % 2 ^ 32))
                  (wordsOf b.x S.wds) (wordsOf S.x S.wds) 0 0 ++ b.x.drop S.wds }, S.wds - 1)
        else (b, S.wds - 1)) = r1 at p1 p2 p3 p4 ⊢
    by_cases hc : ___cmp_D2A r1.1 S < 0
    · rw [if_pos hc]
      exact ⟨p1, p2, p3⟩
    · rw [if_neg hc]
      have hws : S.wds ≤ r1.1.wds := by
        rcases cmp_values r1.1 S with ⟨c1, c2⟩ | ⟨c1, _⟩
        · rw [c2] at hc
          omega
        · omega
      have h12 : r1.2 = S.wds - 1 := by
        rcases p4 with h | h
        · omega
        · exact h
      have hx2 := mem_append_drop_lt _ r1.1.x S.wds
        (quoremSub2L_lt (wordsOf r1.1.x S.wds) (wordsOf S.x S.wds) 0 0) p1
      have hl2 : (Listed.quoremSub2 (wordsOf r1.1.x S.wds) (wordsOf S.x S.wds) 0 0).length =
          S.wds := by
        rw [quoremSub2L_length, wordsOf_length]
      split_ifs with c3
      · refine ⟨hx2, fun h => ?_, p3⟩
        show getW _ (r1.1.wds - 1) ≠ 0
        by_cases he : r1.1.wds = S.wds
        · rw [he, ← h12]
          exact c3
        · rw [getW_append_drop _ r1.1.x S.wds (r1.1.wds - 1) hl2 (by omega)]
          exact p2 h
      · have hle := quoremTrim_le r1.2 (Listed.quoremSub2 (wordsOf r1.1.x S.wds)
          (wordsOf S.x S.wds) 0 0 ++ r1.1.x.drop S.wds)
        refine ⟨hx2, fun h => quoremTrim_top _ _ h, ?_⟩
        show quoremTrim _ _ ≤ b.wds
        omega

/-! ## The form and the capacity of the results, with the routines as typed in the listing -/

theorem Trimmed_of_value_ge (r : Bigint) (hw : ∀ w ∈ r.x, w < 2 ^ 32)
    (hv : 1 < r.wds → 2 ^ (32 * (r.wds - 1)) ≤ r.value) : r.Trimmed :=
  ⟨hw, fun h1 => (Pos_of_value_ge r hw (by omega) (hv h1)).2.2⟩

/-- The form is kept by `___multadd_D2A` for a multiplier that is not 0 and any 32-bit addend. -/
theorem multadd_Trimmed (b : Bigint) (hb : b.Norm) (m a : Nat) (hm1 : 1 ≤ m) (hm : m < 2 ^ 32)
    (ha : a < 2 ^ 32) : (___multadd_D2A b m a).Trimmed := by
  obtain ⟨hw, h0, ht⟩ := hb
  by_cases hz : b.wds = 0
  · have hsrc0 : wordsOf b.x (max b.wds 1) = [0] := by
      rw [hz]
      simp [wordsOf, List.range_succ, h0 hz]
    have ha64 : a < 2 ^ 64 := lt_trans ha (by norm_num)
    have hr : mulAddWords m (wordsOf b.x (max b.wds 1)) a = ([a], 0) := by
      rw [hsrc0]
      simp only [mulAddWords, Nat.zero_mul, Nat.zero_add]
      norm_num at ha ha64 ⊢
      omega
    have hres : ___multadd_D2A b m a = { b with x := [a] } := by
      unfold ___multadd_D2A
      simp only [hr, if_true]
    rw [hres]
    refine ⟨?_, fun h => ?_⟩
    · intro w hw'
      simp only [List.mem_singleton] at hw'
      rw [hw']
      exact ha
    · exfalso
      have : b.wds = 0 := hz
      simp only at h
      omega
  · obtain ⟨hv, hwd, hcarry, hc0, hc1⟩ := multadd_gen b hw (by omega) m a hm ha
    have hge : 1 < b.wds → 2 ^ (32 * (b.wds - 1)) ≤ b.value := fun h =>
      value_ge_of_top b (by omega) (ht h)
    have hmul : b.value ≤ b.value * m + a :=
      le_trans (Nat.le_mul_of_pos_right _ (by omega)) (Nat.le_add_right _ _)
    apply Trimmed_of_value_ge _ hwd
    intro h1
    rw [hv]
    by_cases hc : (mulAddWords m (wordsOf b.x b.wds) a).2 = 0
    · rw [hc0 hc] at h1 ⊢
      exact le_trans (hge h1) hmul
    · rw [hc1 hc]
      rw [hcarry] at hc
      simp only [Nat.add_sub_cancel]
      by_contra hlt
      exact hc (Nat.div_eq_of_lt (not_le.mp hlt))

/-- A bignum in the kept form that is not zero has a top word that is not 0; one that is
zero has no counted word or is the single word 0. -/
theorem Trimmed_value (r : Bigint) (hr : r.Trimmed) :
    (r.value ≠ 0 → 1 ≤ r.wds ∧ getW r.x (r.wds - 1) ≠ 0) ∧
    (r.value = 0 → r.wds = 0 ∨ (r.wds = 1 ∧ getW r.x 0 = 0)) := by
  have h1v : r.wds = 1 → r.value = getW r.x 0 := by
    intro h1
    unfold Bigint.value
    rw [h1]
    simp [wordsOf, valW, List.range_succ]
  constructor
  · intro hv
    have h0 : r.wds ≠ 0 := fun h => hv (value_zero_of_wds r h)
    refine ⟨by omega, ?_⟩
    by_cases h1 : r.wds = 1
    · rw [h1]
      rw [h1v h1] at hv
      exact hv
    · exact hr.2 (by omega)
  · intro hv
    by_cases h0 : r.wds = 0
    · exact Or.inl h0
    · right
      have h1 : r.wds = 1 := by
        by_contra hc
        have := value_ge_of_top r (by omega) (hr.2 (by omega))
        have : 0 < 2 ^ (32 * (r.wds - 1)) := by positivity
        omega
      exact ⟨h1, by rw [← h1v h1]; exact hv⟩

/-- Counterexample for C29: `___i2b_D2A 0` and `___diff_D2A` of two equal operands have the value
zero and the word count 1, not 0.  The conditions of the amended statement are needed
as well: `___multadd_D2A` by 0 leaves the two words of its operand counted and 0; `___lshift_D2A`
of a zero without words by 64 bits counts two words, both 0; `___diff_D2A` of the word 3 and a
zero without words whose word 0 holds 3 stores the word 0 and its trimming loop runs
below the words, to the count -2; and with a divisor whose top word is `2^32 - 1` the
divisor of the quotient estimate is 0. -/
theorem zero_counts_one_word :
    (___i2b_D2A 0).value = 0 ∧ (___i2b_D2A 0).wds = 1 ∧
    (Listed.___diff_D2A (___i2b_D2A 7) (___i2b_D2A 7)).value = 0 ∧
    (Listed.___diff_D2A (___i2b_D2A 7) (___i2b_D2A 7)).wds = 1 ∧
    (___multadd_D2A { k := 1, maxwds := 2, sign := 0, wds := 2, x := [1, 1] } 0 0).wds = 2 ∧
    (___multadd_D2A { k := 1, maxwds := 2, sign := 0, wds := 2, x := [1, 1] } 0 0).x = [0, 0] ∧
    (Listed.___lshift_D2A { k := 1, maxwds := 2, sign := 0, wds := 0, x := [0] } 64).wds = 2 ∧
    (Listed.___lshift_D2A { k := 1, maxwds := 2, sign := 0, wds := 0, x := [0] } 64).x = [0, 0, 0] ∧
    (Listed.___diff_D2A { k := 0, maxwds := 1, sign := 0, wds := 1, x := [3] }
      { k := 0, maxwds := 1, sign := 0, wds := 0, x := [3] }).wds = 2 ^ 32 - 2 ∧
    quoremDivisor { k := 0, maxwds := 1, sign := 0, wds := 1, x := [4294967295] } = 0 := by
  refine ⟨by decide, by decide, by decide, by decide, by decide, by decide, by decide, by decide,
    by decide, by decide⟩

/-- C29 as amended, for the routines as typed in the listing.  The inputs `a` and `b` are
normalized and their word 0 reads 0 when the word count is 0.  Then every bignum made
by `___i2b_D2A`, `___mult_D2A`, `___multadd_D2A` (multiplier at least 1; multiplier and addend are
non-negative `int`s), `___lshift_D2A` (operand with at least one word), `___diff_D2A`, `___rshift_D2A` and, as the numerator it leaves, `___quorem_D2A` (divisor
with at least one word and a top word below `2^32 - 1`) has 32-bit words and a most
significant counted word that is not 0 when more than one word is counted.  `___i2b_D2A 0`
and `___diff_D2A` of equal operands are the single word 0 with the word count 1.  A bignum
of this form that is not zero has a top word that is not 0, and one that is zero has
the word count 0 or is the single word 0. -/
theorem trimmed_form_kept (a b : Bigint) (ha : a.Canon) (hb : b.Canon)
    (ha0 : a.wds = 0 → getW a.x 0 = 0) (hb0 : b.wds = 0 → getW b.x 0 = 0)
    (i m c k : Nat) (hm1 : 1 ≤ m) (hm : m < 2 ^ 31) (hc : c < 2 ^ 31) :
    (___i2b_D2A i).Trimmed ∧ (Listed.___mult_D2A a b).Trimmed ∧ (___multadd_D2A a m c).Trimmed ∧
    (1 ≤ a.wds → (Listed.___lshift_D2A a k).Trimmed) ∧ (Listed.___diff_D2A a b).Trimmed ∧
    (Listed.___rshift_D2A a k).Trimmed ∧
    (1 ≤ b.wds → getW b.x (b.wds - 1) < 2 ^ 32 - 1 → (Listed.___quorem_D2A a b).2.Trimmed) ∧
    ((___i2b_D2A 0).wds = 1 ∧ (___i2b_D2A 0).x = [0]) ∧
    (a.value = b.value →
      (Listed.___diff_D2A a b).wds = 1 ∧ (Listed.___diff_D2A a b).x = [0]) ∧
    (∀ r : Bigint, r.Trimmed →
      (r.value ≠ 0 → 1 ≤ r.wds ∧ getW r.x (r.wds - 1) ≠ 0) ∧
      (r.value = 0 → r.wds = 0 ∨ (r.wds = 1 ∧ getW r.x 0 = 0))) := by
  obtain ⟨d0, d1⟩ := diffL_form a b ha hb ha0 hb0
  refine ⟨?_, ?_, multadd_Trimmed a (ha.to_norm ha0) m c hm1 (lt_trans hm (by norm_num))
    (lt_trans hc (by norm_num)), ?_, ?_, ?_, ?_, ⟨rfl, rfl⟩,
    ?_, Trimmed_value⟩
  · refine ⟨?_, fun h => ?_⟩
    · intro w hw
      simp only [___i2b_D2A, List.mem_singleton] at hw
      rw [hw]
      exact Nat.mod_lt _ (by norm_num)
    · exact absurd h (by simp [___i2b_D2A])
  · obtain ⟨m1, m2, _, _⟩ := multL_form a b
    exact ⟨m1, fun h => m2 (by omega)⟩
  · intro h1
    obtain ⟨l1, _, l3⟩ := lshiftL_form a (ha.pos h1) k
    exact ⟨l1, fun _ => l3⟩
  · by_cases h0 : ___cmp_D2A a b = 0
    · obtain ⟨w1, w2, _, _⟩ := d0 h0
      refine ⟨?_, fun h => ?_⟩
      · rw [w2]
        intro w hw
        simp only [List.mem_singleton] at hw
        rw [hw]
        norm_num
      · omega
    · obtain ⟨a1, _, _, _, _, e1, _, _, e2⟩ := d1 h0
      exact ⟨e1, fun _ => e2⟩
  · obtain ⟨r1, r2, _, _⟩ := rshiftL_form a ha k
    exact ⟨r1, fun h => r2 (by omega)⟩
  · intro h1 _
    obtain ⟨q1, q2, _⟩ := quoremL_form a b ha h1
    exact ⟨q1, q2⟩
  · intro hv
    have h0 : ___cmp_D2A a b = 0 := by
      rcases cmp_Canon a b ha hb with c | c | c
      · omega
      · exact c.1
      · omega
    obtain ⟨w1, w2, _, _⟩ := d0 h0
    exact ⟨w1, w2⟩

/-- Witness for C29 as amended: with `a = 5`, `b = 3`, the multiplier 10, the addend 7 and the
shift 37, the product, the shifted and the subtracted bignum are in the kept form. -/
theorem trimmed_form_kept_witness :
    (Listed.___mult_D2A (___i2b_D2A 5) (___i2b_D2A 3)).Trimmed ∧
    (Listed.___lshift_D2A (___i2b_D2A 5) 37).Trimmed ∧
    (Listed.___diff_D2A (___i2b_D2A 5) (___i2b_D2A 3)).Trimmed ∧
    (Listed.___quorem_D2A (___i2b_D2A 5) (___i2b_D2A 3)).2.Trimmed :=
  ⟨(trimmed_form_kept (___i2b_D2A 5) (___i2b_D2A 3) ⟨by decide, by decide⟩ ⟨by decide, by decide⟩
      (by decide) (by decide) 1 10 7 37 (by decide) (by decide) (by decide)).2.1,
   (trimmed_form_kept (___i2b_D2A 5) (___i2b_D2A 3) ⟨by decide, by decide⟩ ⟨by decide, by decide⟩
      (by decide) (by decide) 1 10 7 37 (by decide) (by decide) (by decide)).2.2.2.1 (by decide),
   (trimmed_form_kept (___i2b_D2A 5) (___i2b_D2A 3) ⟨by decide, by decide⟩ ⟨by decide, by decide⟩
      (by decide) (by decide) 1 10 7 37 (by decide) (by decide) (by decide)).2.2.2.2.1,
   (trimmed_form_kept (___i2b_D2A 5) (___i2b_D2A 3) ⟨by decide, by decide⟩ ⟨by decide, by decide⟩
      (by decide) (by decide) 1 10 7 37 (by decide) (by decide) (by decide)).2.2.2.2.2.2.1
      (by decide) (by decide)⟩

/-- Counterexample for C32.  A block of class 0 with capacity 1 and word count 0 satisfies
`word count <= capacity = 2^class`, and `___lshift_D2A` by one bit writes two words (the shifted
word and the carry, indices 0 and 1) into a block of capacity 1.  The operands with the
words `[5, 0]` (two counted) and `[5]` satisfy it as well; `___diff_D2A` stores two words that
are 0 and its trimming loop, which has no test for the start of the words, ends with
the word count -2 (the pattern `2^32 - 2`) in a block of capacity 2. -/
theorem capacity_overrun :
    ({ k := 0, maxwds := 1, sign := 0, wds := 0, x := [] } : Bigint).Fits ∧
    (Listed.___lshift_D2A { k := 0, maxwds := 1, sign := 0, wds := 0, x := [] } 1).maxwds = 1 ∧
    (Listed.___lshift_D2A { k := 0, maxwds := 1, sign := 0, wds := 0, x := [] } 1).x.length = 2 ∧
    ({ k := 1, maxwds := 2, sign := 0, wds := 2, x := [5, 0] } : Bigint).Fits ∧
    ({ k := 0, maxwds := 1, sign := 0, wds := 1, x := [5] } : Bigint).Fits ∧
    (Listed.___diff_D2A { k := 1, maxwds := 2, sign := 0, wds := 2, x := [5, 0] }
      { k := 0, maxwds := 1, sign := 0, wds := 1, x := [5] }).wds = 2 ^ 32 - 2 ∧
    (Listed.___diff_D2A { k := 1, maxwds := 2, sign := 0, wds := 2, x := [5, 0] }
      { k := 0, maxwds := 1, sign := 0, wds := 1, x := [5] }).maxwds = 2 := by
  refine ⟨⟨by decide, by decide⟩, by decide, by decide, ⟨by decide, by decide⟩,
    ⟨by decide, by decide⟩, by decide, by decide⟩

/-- C32 as amended, for the routines as typed in the listing: the operand `d` of `___lshift_D2A` has
at least one word, the operands of `___diff_D2A` are normalized (32-bit words, a top word that
is not 0, and word 0 reads 0 when no word is counted), classes are at most 29 and the
shift count is below `2^31` (the fields are 32-bit integers).  Then with operands that
satisfy `word count <= capacity = 2^class` every bignum returned by `___i2b_D2A`, `___mult_D2A`,
`___multadd_D2A`, `___lshift_D2A` and `___diff_D2A` satisfies it too, and the words that the operation
stores (the list `x` of the result) all lie below the capacity of the block written. -/
theorem capacity_kept (a b d : Bigint) (i m c s : Nat) (ha : a.Fits) (hb : b.Fits)
    (hd : d.Fits) (hka : a.k ≤ 29) (hkb : b.k ≤ 29) (hkd : d.k ≤ 29) (hw : 1 ≤ d.wds)
    (hs : s < 2 ^ 31) :
    ((___i2b_D2A i).Fits ∧ (___i2b_D2A i).x.length ≤ (___i2b_D2A i).maxwds) ∧
    ((Listed.___mult_D2A a b).Fits ∧
      (Listed.___mult_D2A a b).x.length ≤ (Listed.___mult_D2A a b).maxwds) ∧
    ((___multadd_D2A b m c).Fits ∧ (___multadd_D2A b m c).x.length ≤ (___multadd_D2A b m c).maxwds) ∧
    ((Listed.___lshift_D2A d s).Fits ∧
      (Listed.___lshift_D2A d s).x.length ≤ (Listed.___lshift_D2A d s).maxwds) ∧
    (a.Canon → b.Canon → (a.wds = 0 → getW a.x 0 = 0) → (b.wds = 0 → getW b.x 0 = 0) →
      (Listed.___diff_D2A a b).Fits ∧
      (Listed.___diff_D2A a b).x.length ≤ (Listed.___diff_D2A a b).maxwds) := by
  have hpa : a.maxwds ≤ 2 ^ 29 := by
    rw [ha.2]; exact Nat.pow_le_pow_right (by norm_num) hka
  have hpb : b.maxwds ≤ 2 ^ 29 := by
    rw [hb.2]; exact Nat.pow_le_pow_right (by norm_num) hkb
  have h1a : 1 ≤ a.maxwds := by rw [ha.2]; exact Nat.one_le_two_pow
  have h1b : 1 ≤ b.maxwds := by rw [hb.2]; exact Nat.one_le_two_pow
  refine ⟨?_, ?_, ?_, ?_, ?_⟩
  · -- i2b
    refine ⟨⟨?_, ?_⟩, ?_⟩ <;> simp [___i2b_D2A, ___Balloc_D2A]
  · -- mult
    have key : ∀ a1 b1 : Bigint, a1.Fits → a1.k ≤ 29 → b1.wds ≤ a1.wds →
        ∀ xc : List Nat, xc.length = a1.wds + b1.wds →
        (({ ___Balloc_D2A (a1.k + (if a1.wds + b1.wds > a1.maxwds then 1 else 0)) with
            wds := trimTop (a1.wds + b1.wds) xc, x := xc } : Bigint).Fits ∧
          xc.length ≤ (___Balloc_D2A
            (a1.k + (if a1.wds + b1.wds > a1.maxwds then 1 else 0))).maxwds) := by
      intro a1 b1 h1 hk hle xc hxc
      have hm := Balloc_maxwds (a1.k + (if a1.wds + b1.wds > a1.maxwds then 1 else 0))
        (by split_ifs <;> omega)
      have hcap : a1.wds + b1.wds ≤
          2 ^ (a1.k + (if a1.wds + b1.wds > a1.maxwds then 1 else 0)) := by
        have := h1.1
        have e := h1.2
        split_ifs with hc
        · rw [pow_succ, ← e]; omega
        · rw [Nat.add_zero, ← e]; omega
      refine ⟨⟨?_, ?_⟩, ?_⟩
      · show trimTop (a1.wds + b1.wds) xc ≤ (___Balloc_D2A _).maxwds
        rw [hm]
        exact le_trans (trimTop_le _ _) hcap
      · exact hm
      · rw [hm, hxc]; exact hcap
    unfold Listed.___mult_D2A
    simp only []
    by_cases hlt : a.wds < b.wds
    · simp only [if_pos hlt]
      exact key b a hb hkb (by omega) _
        (by rw [mulRowsL_length _ _ _ (Or.inr (by simp [wordsOf_length]))]; simp)
    · simp only [if_neg hlt]
      exact key a b ha hka (by omega) _
        (by rw [mulRowsL_length _ _ _ (Or.inr (by simp [wordsOf_length]))]; simp)
  · -- multadd
    unfold ___multadd_D2A
    simp only []
    have hlen := mulAddWords_length m (wordsOf b.x (max b.wds 1)) c
    rw [wordsOf_length] at hlen
    split_ifs with h0 hfull
    · refine ⟨⟨hb.1, hb.2⟩, ?_⟩
      show (mulAddWords m (wordsOf b.x (max b.wds 1)) c).1.length ≤ b.maxwds
      rw [hlen]
      have := hb.1
      omega
    · have hm := Balloc_maxwds (b.k + 1) (by omega)
      have e : (2 : Nat) ^ (b.k + 1) = 2 * b.maxwds := by rw [pow_succ, hb.2]; ring
      refine ⟨⟨?_, ?_⟩, ?_⟩
      · show b.wds + 1 ≤ (___Balloc_D2A (b.k + 1)).maxwds
        rw [hm, e]
        have := hb.1
        omega
      · exact hm
      · show (wordsOf (mulAddWords m (wordsOf b.x (max b.wds 1)) c).1 b.wds ++
          [(mulAddWords m (wordsOf b.x (max b.wds 1)) c).2]).length ≤ (___Balloc_D2A (b.k + 1)).maxwds
        rw [hm, e, List.length_append, wordsOf_length]
        have := hb.1
        simp only [List.length_singleton]
        omega
    · refine ⟨⟨?_, hb.2⟩, ?_⟩
      · show b.wds + 1 ≤ b.maxwds
        omega
      · show (wordsOf (mulAddWords m (wordsOf b.x (max b.wds 1)) c).1 b.wds ++
          [(mulAddWords m (wordsOf b.x (max b.wds 1)) c).2]).length ≤ b.maxwds
        rw [List.length_append, wordsOf_length]
        simp only [List.length_singleton]
        omega
  · -- lshift
    have hn : s / 32 < 2 ^ 26 := by
      have : s / 32 < 2 ^ 31 / 32 := by
        apply Nat.div_lt_of_lt_mul
        norm_num
        omega
      norm_num at this ⊢
      exact this
    have hdw := hd.1
    have hpd : d.maxwds ≤ 2 ^ 29 := by
      rw [hd.2]; exact Nat.pow_le_pow_right (by norm_num) hkd
    have hn1 : s / 32 + d.wds + 1 ≤ 2 ^ 30 := by
      have : (2 : Nat) ^ 26 + 2 ^ 29 + 1 ≤ 2 ^ 30 := by norm_num
      omega
    have hcls := lshiftClass_spec (s / 32 + d.wds + 1) 32 d.k
      (le_trans hn1 (Nat.pow_le_pow_right (by norm_num) (by omega)))
    rw [← hd.2] at hcls
    obtain ⟨c1, c2, c3⟩ := hcls
    have hK : lshiftClass 32 (s / 32 + d.wds + 1) d.k d.maxwds ≤ 30 := by
      rcases c3 with c3 | c3
      · omega
      · have := pow_lt_class _ _ (lt_of_lt_of_le c3 hn1)
        omega
    have hm := Balloc_maxwds _ (le_trans hK (by norm_num))
    have hmax : max d.wds 1 = d.wds := max_eq_left hw
    unfold Listed.___lshift_D2A
    simp only [hmax]
    split_ifs with h0 hz
    · refine ⟨⟨?_, hm⟩, ?_⟩
      · show s / 32 + d.wds + 1 - 1 ≤ (___Balloc_D2A _).maxwds
        rw [hm]; omega
      · show (List.replicate (s / 32) 0 ++ wordsOf d.x d.wds).length ≤ (___Balloc_D2A _).maxwds
        rw [hm, List.length_append, List.length_replicate, wordsOf_length]
        omega
    · refine ⟨⟨?_, hm⟩, ?_⟩
      · show s / 32 + d.wds + 1 ≤ (___Balloc_D2A _).maxwds
        rw [hm]; omega
      · show (List.replicate (s / 32) 0 ++ Listed.shlWords (s % 32) (wordsOf d.x d.wds) 0).length ≤
          (___Balloc_D2A _).maxwds
        rw [hm, List.length_append, List.length_replicate, shlWordsL_length, wordsOf_length]
        omega
    · refine ⟨⟨?_, hm⟩, ?_⟩
      · show s / 32 + d.wds + 1 - 1 ≤ (___Balloc_D2A _).maxwds
        rw [hm]; omega
      · show (List.replicate (s / 32) 0 ++ Listed.shlWords (s % 32) (wordsOf d.x d.wds) 0).length ≤
          (___Balloc_D2A _).maxwds
        rw [hm, List.length_append, List.length_replicate, shlWordsL_length, wordsOf_length]
        omega
  · -- diff
    intro ca cb ha0 hb0
    obtain ⟨d0, d1⟩ := diffL_form a b ca cb ha0 hb0
    by_cases h0 : ___cmp_D2A a b = 0
    · obtain ⟨w1, w2, w3, w4⟩ := d0 h0
      refine ⟨⟨?_, ?_⟩, ?_⟩
      · rw [w1, w4]
      · rw [w3, w4]; rfl
      · rw [w2, w4]; rfl
    · obtain ⟨a1, e0, e1, e2, e3, _, _, e6, _⟩ := d1 h0
      have hf : a1.Fits ∧ a1.k ≤ 29 := by
        rcases e0 with e | e
        · rw [e]; exact ⟨ha, hka⟩
        · rw [e]; exact ⟨hb, hkb⟩
      have hm := Balloc_maxwds a1.k (by omega)
      have := hf.1.1
      have e := hf.1.2
      refine ⟨⟨?_, ?_⟩, ?_⟩
      · rw [e2, hm, ← e]; omega
      · rw [e2, hm, e1]
      · rw [e2, hm, ← e, e3]; exact this

/-- Witness for C32 as amended: the one-word bignums 7 and 5, multiplier 10, addend 3 and a
shift by 33 bits. -/
theorem capacity_kept_witness :
    (Listed.___mult_D2A (___i2b_D2A 7) (___i2b_D2A 5)).Fits ∧
    (Listed.___lshift_D2A (___i2b_D2A 9) 33).x.length ≤ (Listed.___lshift_D2A (___i2b_D2A 9) 33).maxwds ∧
    (Listed.___diff_D2A (___i2b_D2A 7) (___i2b_D2A 5)).Fits :=
  ⟨(capacity_kept (___i2b_D2A 7) (___i2b_D2A 5) (___i2b_D2A 9) 1 10 3 33 ⟨by decide, by decide⟩
      ⟨by decide, by decide⟩ ⟨by decide, by decide⟩ (by decide) (by decide) (by decide)
      (by decide) (by decide)).2.1.1,
   (capacity_kept (___i2b_D2A 7) (___i2b_D2A 5) (___i2b_D2A 9) 1 10 3 33 ⟨by decide, by decide⟩
      ⟨by decide, by decide⟩ ⟨by decide, by decide⟩ (by decide) (by decide) (by decide)
      (by decide) (by decide)).2.2.2.1.2,
   ((capacity_kept (___i2b_D2A 7) (___i2b_D2A 5) (___i2b_D2A 9) 1 10 3 33 ⟨by decide, by decide⟩
      ⟨by decide, by decide⟩ ⟨by decide, by decide⟩ (by decide) (by decide) (by decide)
      (by decide) (by decide)).2.2.2.2 ⟨by decide, by decide⟩ ⟨by decide, by decide⟩
      (by decide) (by decide)).1⟩

end Thor1
